import Mathlib

/-! Memory_Pool: a shallow embedding of `memory_pool.hpp`.

The development models the block header, the slab pool `MemoryAlloc`, the
template `MemoryAllocator<nSize, nBlocks>` and the manager `MemoryMgr` over an
explicit heap of block headers.

* Pointers are natural numbers; `0` is `nullptr`.
* The heap maps a header address to the header stored there.  Payload bytes are
  not modelled.
* `malloc` is the system allocator: the address it returns is an argument of
  the operation that calls it (every operation calls it at most once), and the
  heap records the region that was handed out.  `free` removes the region and
  is logged.
* `std::mutex` is a flag; locking a mutex that is already held by the (single)
  thread never returns, which is the fault `deadlock`.
* `size_t` arithmetic is taken modulo `2 ^ 64`, `int` values modulo `2 ^ 32`.
-/

namespace MemoryPool

/-! ## Constants -/

/-- The macro `MAX_MEMORY_SIZE`. -/
def MAX_MEMORY_SIZE : Nat := 1024

/-- The macro `BLOCKS_SIZE`. -/
def BLOCKS_SIZE : Nat := 10000

/-- The value of `sizeof(MemoryBlock)` on the 64-bit target: three pointers, two
`int`s, two `bool`s and `char c[2]`, 36 bytes padded to pointer alignment. -/
def sizeofMemoryBlock : Nat := 40

/-- The value of `sizeof(void*)` on the 64-bit target. -/
def ptrSize : Nat := 8

/-- The modulus of `size_t` arithmetic. -/
def SIZE_MOD : Nat := 2 ^ 64

/-- Conversion of an integer to the 32-bit `int` that stores it. -/
def toInt32 (x : Int) : Int := (x + 2 ^ 31) % 2 ^ 32 - 2 ^ 31

/-! ## Data model

Addresses are natural numbers throughout; `0` is `nullptr`. -/

/-- The identity of a `MemoryAlloc` object (the five members of `MemoryMgr`). -/
inductive PoolRef where
  | mem_64
  | mem_128
  | mem_256
  | mem_512
  | mem_1024
deriving DecidableEq, Repr

/-- The header `struct MemoryBlock` (the padding `c[2]` is not modelled). -/
structure MemoryBlock where
  pAlloc : Option PoolRef
  pPrev : Nat
  pNext : Nat
  mId : Int
  mRef : Int
  inPool : Bool
  allocPool : Bool
deriving DecidableEq, Repr

/-- The ways in which a call fails to return. -/
inductive Fault where
  | deadlock
  | assertFailed
  | nullDeref
deriving DecidableEq, Repr

/-- The system heap: header contents, the regions handed out by `malloc` and not
yet freed (base address and byte size), and the log of `free` calls, most
recent first. -/
structure Heap where
  mem : Nat → MemoryBlock
  live : List (Nat × Nat)
  freed : List Nat

/-- Store a header at an address. -/
def Heap.write (h : Heap) (p : Nat) (b : MemoryBlock) : Heap :=
  { h with mem := fun q => if q = p then b else h.mem q }

/-- The call `malloc(size)` returning address `a`. -/
def Heap.malloc (h : Heap) (a : Nat) (size : Nat) : Heap :=
  { h with live := (a, size) :: h.live }

/-- The call `free(p)`. -/
def Heap.free (h : Heap) (p : Nat) : Heap :=
  { h with live := h.live.filter (fun r => r.1 ≠ p), freed := p :: h.freed }

/-- The call `_mutex.lock()` on a mutex whose state is the flag. -/
def lock (held : Bool) : Except Fault Bool :=
  if held then .error .deadlock else .ok true

/-- The class `MemoryAlloc`; `_mutex` is `true` while the mutex is held. -/
structure MemoryAlloc where
  _pSelf : Nat
  _pHead : Nat
  _pHeadUsed : Nat
  _nSize : Nat
  _nBlocks : Nat
  _mutex : Bool
deriving DecidableEq, Repr

/-- The constructor `MemoryAlloc::MemoryAlloc()`. -/
def MemoryAlloc.new : MemoryAlloc :=
  { _pSelf := 0, _pHead := 0, _pHeadUsed := 0, _nSize := 0, _nBlocks := 0, _mutex := false }

/-- The constructor of `MemoryAllocator<nSize, nBlocks>`. -/
def MemoryAllocator.new (nSize nBlocks : Nat) : MemoryAlloc :=
  { MemoryAlloc.new with
    _nSize := ((nSize / ptrSize) * ptrSize + (if nSize % ptrSize ≠ 0 then ptrSize else 0)) % SIZE_MOD
    _nBlocks := nBlocks }

/-- The constructor of `MemoryAllocator<nSize, nBlocks>` on a target whose
`sizeof(void*)` is `w`; `MemoryAllocator.new` is the case `w = ptrSize`. -/
def MemoryAllocator.newOn (w nSize nBlocks : Nat) : MemoryAlloc :=
  { MemoryAlloc.new with
    _nSize := ((nSize / w) * w + (if nSize % w ≠ 0 then w else 0)) % SIZE_MOD
    _nBlocks := nBlocks }

/-! ## `MemoryAlloc` -/

/-- The `for` loop of `MemoryAlloc::init`: `k` iterations remain, `i` is the loop
counter and `pT_1` the block laid out last. -/
def initLoop (this : PoolRef) (realSize : Nat) : Nat → Nat → Nat → Heap → Heap
  | 0, _, _, h => h
  | k + 1, i, pT_1, h =>
    let pT_2 := pT_1 + realSize
    let h := h.write pT_2
      { pAlloc := some this, pPrev := pT_1, pNext := 0, mId := toInt32 i, mRef := 0,
        inPool := true, allocPool := true }
    let h := h.write pT_1 { h.mem pT_1 with pNext := pT_2 }
    initLoop this realSize k (i + 1) pT_2 h

/-- The method `MemoryAlloc::init`; `a` is the address `malloc` returns.  The
early `return` of an initialised pool leaves the mutex held. -/
def MemoryAlloc.init (this : PoolRef) (p : MemoryAlloc) (h : Heap) (a : Nat) :
    Except Fault (MemoryAlloc × Heap) := do
  let held ← lock p._mutex
  let p := { p with _mutex := held }
  if p._pSelf ≠ 0 then
    return (p, h)
  let realSize := (sizeofMemoryBlock + p._nSize) % SIZE_MOD
  let blocksSize := (p._nBlocks * realSize) % SIZE_MOD
  let h := h.malloc a blocksSize
  if a = 0 then
    throw .nullDeref
  let h := h.write a
    { pAlloc := some this, pPrev := 0, pNext := 0, mId := 0, mRef := 0,
      inPool := true, allocPool := true }
  let h := initLoop this realSize (p._nBlocks - 1) 1 a h
  return ({ p with _pSelf := a, _pHead := a, _mutex := false }, h)

/-- The method `MemoryAlloc::allocMemory`; `a` is the address `malloc` returns
when it is called (by `init` or on the overflow path). -/
def MemoryAlloc.allocMemory (this : PoolRef) (p : MemoryAlloc) (h : Heap) (nSize : Nat)
    (a : Nat) : Except Fault (Nat × MemoryAlloc × Heap) := do
  let (p, h) ← if p._pSelf = 0 then MemoryAlloc.init this p h a else pure (p, h)
  let held ← lock p._mutex
  let p := { p with _mutex := held }
  if p._pHead = 0 then
    let h := h.malloc a ((sizeofMemoryBlock + nSize) % SIZE_MOD)
    if a = 0 then
      throw .nullDeref
    let h := h.write a
      { pAlloc := some this, pPrev := 0, pNext := 0, mId := -1, mRef := 1,
        inPool := false, allocPool := true }
    if p._pHeadUsed = 0 then
      return (a + sizeofMemoryBlock, { p with _pHeadUsed := a, _mutex := false }, h)
    else
      let h := h.write a { h.mem a with pNext := p._pHeadUsed }
      let h := h.write p._pHeadUsed { h.mem p._pHeadUsed with pPrev := a }
      return (a + sizeofMemoryBlock, { p with _pHeadUsed := a, _mutex := false }, h)
  else
    let pReturn := p._pHead
    let p := { p with _pHead := (h.mem p._pHead).pNext }
    let h := h.write pReturn { h.mem pReturn with mRef := 1 }
    let h := h.write pReturn { h.mem pReturn with pNext := 0, pPrev := 0 }
    return (pReturn + sizeofMemoryBlock, { p with _mutex := false }, h)

/-- The unsplice-and-free sequence shared by `MemoryAlloc::freeMemory` and
`MemoryMgr::freeMemory`: returns the new list head and heap. -/
def unsplice (pHeadUsed : Nat) (h : Heap) (pBlock : Nat) : Except Fault (Nat × Heap) := do
  let (pHeadUsed, h) ←
    if (h.mem pBlock).pPrev ≠ 0 then
      pure (pHeadUsed,
        h.write (h.mem pBlock).pPrev { h.mem (h.mem pBlock).pPrev with pNext := (h.mem pBlock).pNext })
    else if pHeadUsed = pBlock then
      pure ((h.mem pBlock).pNext, h)
    else
      throw Fault.assertFailed
  let h :=
    if (h.mem pBlock).pNext ≠ 0 then
      h.write (h.mem pBlock).pNext { h.mem (h.mem pBlock).pNext with pPrev := (h.mem pBlock).pPrev }
    else h
  return (pHeadUsed, h.free pBlock)

/-- The method `MemoryAlloc::freeMemory`. -/
def MemoryAlloc.freeMemory (p : MemoryAlloc) (h : Heap) (pMemory : Nat) :
    Except Fault (MemoryAlloc × Heap) := do
  let pBlock := pMemory - sizeofMemoryBlock
  let h := h.write pBlock { h.mem pBlock with mRef := toInt32 ((h.mem pBlock).mRef - 1) }
  if (h.mem pBlock).mRef ≠ 0 then
    return (p, h)
  let held ← lock p._mutex
  let p := { p with _mutex := held }
  if (h.mem pBlock).inPool then
    if p._pHead = 0 then
      let h := h.write pBlock { h.mem pBlock with pPrev := 0, pNext := 0 }
      return ({ p with _pHead := pBlock, _mutex := false }, h)
    else
      let h := h.write pBlock { h.mem pBlock with pPrev := 0, pNext := p._pHead }
      let h := h.write p._pHead { h.mem p._pHead with pPrev := pBlock }
      return ({ p with _pHead := pBlock, _mutex := false }, h)
  else
    let (pHeadUsed, h) ← unsplice p._pHeadUsed h pBlock
    return ({ p with _pHeadUsed := pHeadUsed, _mutex := false }, h)

/-! ## `MemoryMgr` -/

/-- The class `MemoryMgr`; `_allocMap` is the array of `MAX_MEMORY_SIZE + 1`
pool pointers, `none` being a null entry. -/
structure MemoryMgr where
  _mem_64 : MemoryAlloc
  _mem_128 : MemoryAlloc
  _mem_256 : MemoryAlloc
  _mem_512 : MemoryAlloc
  _mem_1024 : MemoryAlloc
  _allocMap : Nat → Option PoolRef
  _pHeadUsed : Nat
  _mutex : Bool

/-- The pool object a `MemoryAlloc*` of the manager points to. -/
def MemoryMgr.pool (m : MemoryMgr) : PoolRef → MemoryAlloc
  | .mem_64 => m._mem_64
  | .mem_128 => m._mem_128
  | .mem_256 => m._mem_256
  | .mem_512 => m._mem_512
  | .mem_1024 => m._mem_1024

/-- Store back the pool object a `MemoryAlloc*` of the manager points to. -/
def MemoryMgr.setPool (m : MemoryMgr) (r : PoolRef) (p : MemoryAlloc) : MemoryMgr :=
  match r with
  | .mem_64 => { m with _mem_64 := p }
  | .mem_128 => { m with _mem_128 := p }
  | .mem_256 => { m with _mem_256 := p }
  | .mem_512 => { m with _mem_512 := p }
  | .mem_1024 => { m with _mem_1024 := p }

/-- The `for` loop of `MemoryMgr::MakeLink`: `k` iterations remain and `i` is the
loop counter. -/
def MakeLinkLoop (pMemAlloc : PoolRef) : Nat → Nat → (Nat → Option PoolRef) → Nat → Option PoolRef
  | 0, _, allocMap => allocMap
  | k + 1, i, allocMap =>
    MakeLinkLoop pMemAlloc k (i + 1) (fun j => if j = i then some pMemAlloc else allocMap j)

/-- The method `MemoryMgr::MakeLink(begin, end, pMemAlloc)`. -/
def MemoryMgr.MakeLink (m : MemoryMgr) (begin end_ : Nat) (pMemAlloc : PoolRef) : MemoryMgr :=
  { m with _allocMap := MakeLinkLoop pMemAlloc (end_ + 1 - begin) begin m._allocMap }

/-- The constructor `MemoryMgr::MemoryMgr()` of the static singleton: the
members are constructed, the remaining storage is zero-initialised, and the
five `MakeLink` calls fill the table. -/
def MemoryMgr.new : MemoryMgr :=
  let m : MemoryMgr :=
    { _mem_64 := MemoryAllocator.new 64 BLOCKS_SIZE
      _mem_128 := MemoryAllocator.new 128 BLOCKS_SIZE
      _mem_256 := MemoryAllocator.new 256 BLOCKS_SIZE
      _mem_512 := MemoryAllocator.new 512 BLOCKS_SIZE
      _mem_1024 := MemoryAllocator.new 1024 BLOCKS_SIZE
      _allocMap := fun _ => none
      _pHeadUsed := 0
      _mutex := false }
  let m := m.MakeLink 0 64 .mem_64
  let m := m.MakeLink 65 128 .mem_128
  let m := m.MakeLink 129 256 .mem_256
  let m := m.MakeLink 257 512 .mem_512
  m.MakeLink 513 1024 .mem_1024

/-- The method `MemoryMgr::allocMemory`; `a` is the address `malloc` returns
when it is called. -/
def MemoryMgr.allocMemory (m : MemoryMgr) (h : Heap) (nSize : Nat) (a : Nat) :
    Except Fault (Nat × MemoryMgr × Heap) := do
  if nSize ≤ MAX_MEMORY_SIZE then
    match m._allocMap nSize with
    | none => throw .nullDeref
    | some r =>
      let (pMem, p, h) ← MemoryAlloc.allocMemory r (m.pool r) h nSize a
      return (pMem, m.setPool r p, h)
  else
    let held ← lock m._mutex
    let m := { m with _mutex := held }
    let h := h.malloc a ((sizeofMemoryBlock + nSize) % SIZE_MOD)
    if a = 0 then
      throw .nullDeref
    let h := h.write a
      { pAlloc := none, pPrev := 0, pNext := 0, mId := -1, mRef := 1,
        inPool := false, allocPool := false }
    if m._pHeadUsed = 0 then
      return (a + sizeofMemoryBlock, { m with _pHeadUsed := a, _mutex := false }, h)
    else
      let h := h.write a { h.mem a with pNext := m._pHeadUsed }
      let h := h.write m._pHeadUsed { h.mem m._pHeadUsed with pPrev := a }
      return (a + sizeofMemoryBlock, { m with _pHeadUsed := a, _mutex := false }, h)

/-- The method `MemoryMgr::freeMemory`.  On the large-object path the early
`return` of a block that is still referenced leaves the manager's mutex held. -/
def MemoryMgr.freeMemory (m : MemoryMgr) (h : Heap) (pMem : Nat) :
    Except Fault (MemoryMgr × Heap) := do
  let pBlock := pMem - sizeofMemoryBlock
  if (h.mem pBlock).inPool || (h.mem pBlock).allocPool then
    match (h.mem pBlock).pAlloc with
    | none => throw .nullDeref
    | some r =>
      let (p, h) ← MemoryAlloc.freeMemory (m.pool r) h pMem
      return (m.setPool r p, h)
  else
    let held ← lock m._mutex
    let m := { m with _mutex := held }
    let h := h.write pBlock { h.mem pBlock with mRef := toInt32 ((h.mem pBlock).mRef - 1) }
    if (h.mem pBlock).mRef ≠ 0 then
      return (m, h)
    let (pHeadUsed, h) ← unsplice m._pHeadUsed h pBlock
    return ({ m with _pHeadUsed := pHeadUsed, _mutex := false }, h)

/-- The method `MemoryMgr::addRef`. -/
def MemoryMgr.addRef (h : Heap) (pMem : Nat) : Heap :=
  let pBlock := pMem - sizeofMemoryBlock
  h.write pBlock { h.mem pBlock with mRef := toInt32 ((h.mem pBlock).mRef + 1) }

/-! ## Specification vocabulary -/

/-- The blocks reached from `p` along `pNext` up to the terminating null. -/
def IsList (mem : Nat → MemoryBlock) : Nat → List Nat → Prop
  | p, [] => p = 0
  | p, x :: xs => p = x ∧ x ≠ 0 ∧ IsList mem (mem x).pNext xs

instance IsList.decidable (mem : Nat → MemoryBlock) : (p : Nat) → (L : List Nat) → Decidable (IsList mem p L)
  | p, [] => inferInstanceAs (Decidable (p = 0))
  | p, x :: xs =>
    have := IsList.decidable mem (mem x).pNext xs
    inferInstanceAs (Decidable (p = x ∧ x ≠ 0 ∧ IsList mem (mem x).pNext xs))

/-- A doubly-linked list: `IsList` whose `pPrev` links name the predecessor,
`prev` being the predecessor of the first block. -/
def IsDList (mem : Nat → MemoryBlock) : Nat → Nat → List Nat → Prop
  | _, p, [] => p = 0
  | prev, p, x :: xs => p = x ∧ x ≠ 0 ∧ (mem x).pPrev = prev ∧ IsDList mem x (mem x).pNext xs

instance IsDList.decidable (mem : Nat → MemoryBlock) :
    (prev p : Nat) → (L : List Nat) → Decidable (IsDList mem prev p L)
  | _, p, [] => inferInstanceAs (Decidable (p = 0))
  | prev, p, x :: xs =>
    have := IsDList.decidable mem x (mem x).pNext xs
    inferInstanceAs (Decidable (p = x ∧ x ≠ 0 ∧ (mem x).pPrev = prev ∧ IsDList mem x (mem x).pNext xs))

/-- The pool the size-class table is meant to hold for a size within the ceiling. -/
def classOf (s : Nat) : PoolRef :=
  if s ≤ 64 then .mem_64 else if s ≤ 128 then .mem_128 else if s ≤ 256 then .mem_256
      else if s ≤ 512 then .mem_512 else .mem_1024

/-- The stride of a pool's arena: `realSize` in `MemoryAlloc::init`. -/
def MemoryAlloc.realSize (p : MemoryAlloc) : Nat := (sizeofMemoryBlock + p._nSize) % SIZE_MOD

/-- A heap whose headers are all zero, with nothing allocated. -/
def Heap.empty : Heap :=
  { mem := fun _ => { pAlloc := none, pPrev := 0, pNext := 0, mId := 0, mRef := 0,
                      inPool := false, allocPool := false }
    live := []
    freed := [] }

/-- The addresses of the `n` slots of an arena at `a` with stride `s`. -/
def slots (a s : Nat) : Nat → List Nat
  | 0 => []
  | n + 1 => a :: slots (a + s) s n

/-- The header `MemoryAlloc::init` leaves in slot `i` of an arena of `n` slots. -/
def slotBlock (this : PoolRef) (a s n i : Nat) : MemoryBlock :=
  { pAlloc := some this
    pPrev := if i = 0 then 0 else a + (i - 1) * s
    pNext := if i + 1 < n then a + (i + 1) * s else 0
    mId := toInt32 i
    mRef := 0
    inPool := true
    allocPool := true }

/-- The heap `MemoryAlloc::init` builds on an uninitialised pool. -/
def initHeap (this : PoolRef) (p : MemoryAlloc) (h : Heap) (a : Nat) : Heap :=
  initLoop this p.realSize (p._nBlocks - 1) 1 a
    ((h.malloc a ((p._nBlocks * p.realSize) % SIZE_MOD)).write a
      { pAlloc := some this, pPrev := 0, pNext := 0, mId := 0, mRef := 0,
        inPool := true, allocPool := true })

/-- A run of consecutive `MemoryAlloc::allocMemory` calls of one size with no
release in between; the list gives, per call, the address `malloc` returns if
the call reaches it.  The result lists, per call, the pointer returned and the
header behind it when the call returns. -/
def allocSeq (this : PoolRef) (nSize : Nat) :
    List Nat → MemoryAlloc → Heap → Except Fault (List (Nat × MemoryBlock) × MemoryAlloc × Heap)
  | [], p, h => .ok ([], p, h)
  | a :: as, p, h => do
    let (pMem, p, h) ← MemoryAlloc.allocMemory this p h nSize a
    let b := h.mem (pMem - sizeofMemoryBlock)
    let (rest, p, h) ← allocSeq this nSize as p h
    return ((pMem, b) :: rest, p, h)

/-- The heap after a block obtained with `malloc(size)` at `a` received the
header `b` and was spliced onto the head of the list whose head was `used`
(the overflow path of `MemoryAlloc::allocMemory` and the large-object path of
`MemoryMgr::allocMemory`). -/
def pushHeap (h : Heap) (a size : Nat) (b : MemoryBlock) (used : Nat) : Heap :=
  if used = 0 then
    (h.malloc a size).write a b
  else
    ((h.malloc a size).write a { b with pNext := used }).write used
      { ((h.malloc a size).write a { b with pNext := used }).mem used with pPrev := a }

/-- The heap after `MemoryAlloc::freeMemory` spliced the block `pBlock`, whose
reference count reached zero, onto the head of the free list whose head was
`head`. -/
def recycleHeap (h : Heap) (pBlock head : Nat) : Heap :=
  if head = 0 then
    h.write pBlock { h.mem pBlock with mRef := 0, pPrev := 0, pNext := 0 }
  else
    (h.write pBlock { h.mem pBlock with mRef := 0, pPrev := 0, pNext := head }).write head
      { (h.write pBlock { h.mem pBlock with mRef := 0, pPrev := 0, pNext := head }).mem head with
        pPrev := pBlock }

/-- The heap after the unsplice-and-free sequence on `pBlock`. -/
def unspliceHeap (h : Heap) (pBlock : Nat) : Heap :=
  let h1 :=
    if (h.mem pBlock).pPrev ≠ 0 then
      h.write (h.mem pBlock).pPrev { h.mem (h.mem pBlock).pPrev with pNext := (h.mem pBlock).pNext }
    else h
  let h2 :=
    if (h1.mem pBlock).pNext ≠ 0 then
      h1.write (h1.mem pBlock).pNext
        { h1.mem (h1.mem pBlock).pNext with pPrev := (h1.mem pBlock).pPrev }
    else h1
  h2.free pBlock

/-- The header at `x` lies inside a region `malloc` handed out and `free` has
not taken back. -/
def Tracked (h : Heap) (x : Nat) : Prop :=
  ∃ r ∈ h.live, r.1 ≤ x ∧ x + sizeofMemoryBlock ≤ r.1 + r.2

/-- The contract of `malloc`: the region of `size` bytes at `a` overlaps no
region that is still allocated. -/
def Fresh (h : Heap) (a size : Nat) : Prop :=
  ∀ r ∈ h.live, a + size ≤ r.1 ∨ r.1 + r.2 ≤ a

/-- The states of manager and heap reachable from a freshly constructed manager
by `allocMemory`, `addRef` and `freeMemory` calls that return, together with the
payload pointers that were handed out and not yet reclaimed.  `addRef` and
`freeMemory` are only applied to such a pointer while its reference count is at
least 1; a pointer is reclaimed by the `freeMemory` that brings the count to
zero.  Requests are of sizes whose block size `sizeof(MemoryBlock) + nSize` fits
`size_t`, and `malloc` honours its contract. -/
inductive Reach : MemoryMgr → Heap → List Nat → Prop
  | init (h : Heap) : Reach MemoryMgr.new h []
  | alloc {m m' : MemoryMgr} {h h' : Heap} {live : List Nat} (nSize a pMem : Nat) :
      Reach m h live → sizeofMemoryBlock + nSize < SIZE_MOD →
      m.allocMemory h nSize a = .ok (pMem, m', h') →
      (∀ size, h'.live = (a, size) :: h.live → Fresh h a size) →
      Reach m' h' (pMem :: live)
  | addRef {m : MemoryMgr} {h : Heap} {live : List Nat} (pMem : Nat) :
      Reach m h live → pMem ∈ live → 1 ≤ (h.mem (pMem - sizeofMemoryBlock)).mRef →
      Reach m (MemoryMgr.addRef h pMem) live
  | free {m m' : MemoryMgr} {h h' : Heap} {live : List Nat} (pMem : Nat) :
      Reach m h live → pMem ∈ live → 1 ≤ (h.mem (pMem - sizeofMemoryBlock)).mRef →
      m.freeMemory h pMem = .ok (m', h') →
      Reach m' h'
        (if (h'.mem (pMem - sizeofMemoryBlock)).mRef = 0 then live.erase pMem else live)

/-- The invariant of the reachable states, over the contents `FL r` of each
pool's free list, `OL r` of each pool's overflow list and `LL` of the manager's
large-object list. -/
structure Inv (m : MemoryMgr) (h : Heap) (live : List Nat) (FL OL : PoolRef → List Nat)
    (LL : List Nat) : Prop where
  allocMap : m._allocMap = MemoryMgr.new._allocMap
  nBlocks : ∀ r, (m.pool r)._nBlocks = BLOCKS_SIZE
  nSize : ∀ r, (m.pool r)._nSize ≤ MAX_MEMORY_SIZE
  mutex : ∀ r, (m.pool r)._mutex = false
  free : ∀ r, IsList h.mem (m.pool r)._pHead (FL r)
  used : ∀ r, IsDList h.mem 0 (m.pool r)._pHeadUsed (OL r)
  large : IsDList h.mem 0 m._pHeadUsed LL
  arena : ∀ r, (m.pool r)._pSelf ≠ 0 →
    ((m.pool r)._pSelf, BLOCKS_SIZE * (m.pool r).realSize) ∈ h.live
  freeSlot : ∀ r x, x ∈ FL r →
    (m.pool r)._pSelf ≠ 0 ∧ x ∈ slots (m.pool r)._pSelf (m.pool r).realSize BLOCKS_SIZE
  slotFlags : ∀ r, (m.pool r)._pSelf ≠ 0 →
    ∀ x ∈ slots (m.pool r)._pSelf (m.pool r).realSize BLOCKS_SIZE,
      (h.mem x).inPool = true ∧ (h.mem x).pAlloc = some r
  usedFlags : ∀ r x, x ∈ OL r →
    (h.mem x).inPool = false ∧ (h.mem x).allocPool = true ∧ (h.mem x).pAlloc = some r ∧
      ∃ sz, sizeofMemoryBlock ≤ sz ∧ (x, sz) ∈ h.live
  largeFlags : ∀ x, x ∈ LL →
    (h.mem x).inPool = false ∧ (h.mem x).allocPool = false ∧
      ∃ sz, sizeofMemoryBlock ≤ sz ∧ (x, sz) ∈ h.live
  liveNodup : live.Nodup
  liveBlock : ∀ p ∈ live, sizeofMemoryBlock ≤ p ∧
    ((∃ r, (m.pool r)._pSelf ≠ 0 ∧
        p - sizeofMemoryBlock ∈ slots (m.pool r)._pSelf (m.pool r).realSize BLOCKS_SIZE ∧
        p - sizeofMemoryBlock ∉ FL r) ∨
      (∃ r, p - sizeofMemoryBlock ∈ OL r) ∨ p - sizeofMemoryBlock ∈ LL)

/-- The number of payload bytes behind a payload pointer: for an arena slot,
what the stride of its pool leaves after the header; for a block obtained from
`malloc` on its own, what its region leaves after the header. -/
def capacity (m : MemoryMgr) (h : Heap) (pMem : Nat) : Option Nat :=
  let pBlock := pMem - sizeofMemoryBlock
  if (h.mem pBlock).inPool then
    (h.mem pBlock).pAlloc.map (fun r => (m.pool r).realSize - sizeofMemoryBlock)
  else
    (h.live.find? (fun reg => decide (reg.1 = pBlock))).map (fun reg => reg.2 - sizeofMemoryBlock)

/-- The number of arena blocks of a pool that are handed out: the slots with
`inPool = true` and `mRef ≥ 1`. -/
def liveArenaBlocks (p : MemoryAlloc) (h : Heap) : Nat :=
  ((slots p._pSelf p.realSize p._nBlocks).filter
    (fun x => (h.mem x).inPool && decide (1 ≤ (h.mem x).mRef))).length

/-- The `while` loop of the destructors `~MemoryAlloc` and `~MemoryMgr`, from the
list head `pHeadUsed`; `fuel` bounds the number of iterations and `none` is a
walk that did not reach null within it. -/
def destroyLoop : Nat → Nat → Heap → Option (Nat × Heap)
  | 0, pHeadUsed, h => if pHeadUsed = 0 then some (pHeadUsed, h) else none
  | fuel + 1, pHeadUsed, h =>
    if pHeadUsed = 0 then some (pHeadUsed, h)
    else destroyLoop fuel (h.mem pHeadUsed).pNext (h.free pHeadUsed)

/-- The destructor `MemoryAlloc::~MemoryAlloc`. -/
def MemoryAlloc.destroy (fuel : Nat) (p : MemoryAlloc) (h : Heap) :
    Option (MemoryAlloc × Heap) := do
  let (pHeadUsed, h) ← destroyLoop fuel p._pHeadUsed h
  let p := { p with _pHeadUsed := pHeadUsed }
  if p._pSelf ≠ 0 then
    return (p, h.free p._pSelf)
  return (p, h)

/-- The destructor `MemoryMgr::~MemoryMgr`: its body, then the destructors of
the five pools, in the reverse of the order in which the members are declared. -/
def MemoryMgr.destroy (fuel : Nat) (m : MemoryMgr) (h : Heap) : Option (MemoryMgr × Heap) := do
  let (pHeadUsed, h) ← destroyLoop fuel m._pHeadUsed h
  let m := { m with _pHeadUsed := pHeadUsed }
  let (p, h) ← m._mem_1024.destroy fuel h
  let m := { m with _mem_1024 := p }
  let (p, h) ← m._mem_512.destroy fuel h
  let m := { m with _mem_512 := p }
  let (p, h) ← m._mem_256.destroy fuel h
  let m := { m with _mem_256 := p }
  let (p, h) ← m._mem_128.destroy fuel h
  let m := { m with _mem_128 := p }
  let (p, h) ← m._mem_64.destroy fuel h
  let m := { m with _mem_64 := p }
  return (m, h)

/-- The blocks `~MemoryAlloc` passes to `free`, in order, when the overflow list
holds the blocks `L`: these, then the arena if it was allocated. -/
def teardownBlocks (p : MemoryAlloc) (L : List Nat) : List Nat :=
  L ++ (if p._pSelf ≠ 0 then [p._pSelf] else [])

/-- The states of manager and heap a single-threaded program reaches when every
allocation goes through the manager: from a freshly constructed manager and a
heap on which nothing is allocated, by `allocMemory`, `addRef` and `freeMemory`
calls that return, `addRef` and `freeMemory` being applied only to pointers that
were handed out and not yet reclaimed.  Requests are of sizes whose block size
`sizeof(MemoryBlock) + nSize` fits `size_t`, `malloc` honours its contract, and
no `addRef` overflows the `int` count. -/
inductive Run : MemoryMgr → Heap → List Nat → Prop
  | init (h : Heap) : h.live = [] → Run MemoryMgr.new h []
  | alloc {m m' : MemoryMgr} {h h' : Heap} {live : List Nat} (nSize a pMem : Nat) :
      Run m h live → sizeofMemoryBlock + nSize < SIZE_MOD →
      m.allocMemory h nSize a = .ok (pMem, m', h') →
      (∀ size, h'.live = (a, size) :: h.live → Fresh h a size) →
      Run m' h' (pMem :: live)
  | addRef {m : MemoryMgr} {h : Heap} {live : List Nat} (pMem : Nat) :
      Run m h live → pMem ∈ live → (h.mem (pMem - sizeofMemoryBlock)).mRef < 2 ^ 31 - 1 →
      Run m (MemoryMgr.addRef h pMem) live
  | free {m m' : MemoryMgr} {h h' : Heap} {live : List Nat} (pMem : Nat) :
      Run m h live → pMem ∈ live →
      m.freeMemory h pMem = .ok (m', h') →
      Run m' h'
        (if (h'.mem (pMem - sizeofMemoryBlock)).mRef = 0 then live.erase pMem else live)

/-- The bookkeeping of the states of a `Run`, on top of `Inv`: blocks on a free
list have count zero, every other arena slot and every block of an overflow
list or of the large-object list is handed out, handed-out blocks have a count
of at least one, and the allocated regions are the arenas and the blocks of the
overflow lists and of the large-object list, each once. -/
structure Ledger (m : MemoryMgr) (h : Heap) (live : List Nat) (FL OL : PoolRef → List Nat)
    (LL : List Nat) : Prop where
  freeRef : ∀ r, ∀ x ∈ FL r, (h.mem x).mRef = 0
  slotLive : ∀ r, (m.pool r)._pSelf ≠ 0 →
    ∀ x ∈ slots (m.pool r)._pSelf (m.pool r).realSize BLOCKS_SIZE,
      x ∉ FL r → x + sizeofMemoryBlock ∈ live
  usedLive : ∀ r, ∀ x ∈ OL r, x + sizeofMemoryBlock ∈ live
  largeLive : ∀ x ∈ LL, x + sizeofMemoryBlock ∈ live
  liveRef : ∀ p ∈ live, 1 ≤ (h.mem (p - sizeofMemoryBlock)).mRef ∧
    (h.mem (p - sizeofMemoryBlock)).mRef < 2 ^ 31
  regions : ∀ reg ∈ h.live, (∃ r, (m.pool r)._pSelf ≠ 0 ∧ reg.1 = (m.pool r)._pSelf) ∨
    (∃ r, reg.1 ∈ OL r) ∨ reg.1 ∈ LL
  regionSize : ∀ reg ∈ h.live, sizeofMemoryBlock ≤ reg.2
  regionsNodup : (h.live.map Prod.fst).Nodup

/-- The states of one pool `MemoryAllocator<nSize, nBlocks>` and of the heap
that a single-threaded program reaches from the freshly constructed pool, by
`MemoryAlloc::allocMemory`, `MemoryMgr::addRef` and `MemoryAlloc::freeMemory`
calls that return, the latter two applied only to pointers the pool handed out
and has not yet reclaimed.  Requests are of sizes whose block size
`sizeof(MemoryBlock) + nSize` fits `size_t`, `malloc` honours its contract, and
no `addRef` raises a count beyond `INT_MAX`. -/
inductive PoolRun (this : PoolRef) (nSize nBlocks : Nat) : MemoryAlloc → Heap → List Nat → Prop
  | init (h : Heap) : PoolRun this nSize nBlocks (MemoryAllocator.new nSize nBlocks) h []
  | alloc {p p' : MemoryAlloc} {h h' : Heap} {live : List Nat} (s a pMem : Nat) :
      PoolRun this nSize nBlocks p h live → sizeofMemoryBlock + s < SIZE_MOD →
      MemoryAlloc.allocMemory this p h s a = .ok (pMem, p', h') →
      (∀ size, h'.live = (a, size) :: h.live → Fresh h a size) →
      PoolRun this nSize nBlocks p' h' (pMem :: live)
  | addRef {p : MemoryAlloc} {h : Heap} {live : List Nat} (pMem : Nat) :
      PoolRun this nSize nBlocks p h live → pMem ∈ live →
      (h.mem (pMem - sizeofMemoryBlock)).mRef < 2 ^ 31 - 1 →
      PoolRun this nSize nBlocks p (MemoryMgr.addRef h pMem) live
  | free {p p' : MemoryAlloc} {h h' : Heap} {live : List Nat} (pMem : Nat) :
      PoolRun this nSize nBlocks p h live → pMem ∈ live →
      MemoryAlloc.freeMemory p h pMem = .ok (p', h') →
      PoolRun this nSize nBlocks p' h'
        (if (h'.mem (pMem - sizeofMemoryBlock)).mRef = 0 then live.erase pMem else live)

/-- The invariant of the states of a `PoolRun` of a pool of `n` blocks of
aligned size `A`, over the contents `FL` of the free list and `OL` of the
overflow list. -/
structure PInv (n A : Nat) (p : MemoryAlloc) (h : Heap) (live FL OL : List Nat) : Prop where
  nBlocks : p._nBlocks = n
  nSize : p._nSize = A
  mutex : p._mutex = false
  free : IsList h.mem p._pHead FL
  used : IsDList h.mem 0 p._pHeadUsed OL
  unused : p._pSelf = 0 → FL = [] ∧ OL = [] ∧ live = []
  arena : p._pSelf ≠ 0 → (p._pSelf, n * (sizeofMemoryBlock + A)) ∈ h.live
  freeSlot : ∀ x ∈ FL, x ∈ slots p._pSelf (sizeofMemoryBlock + A) n ∧ (h.mem x).mRef = 0
  slotFlags : p._pSelf ≠ 0 → ∀ x ∈ slots p._pSelf (sizeofMemoryBlock + A) n,
    (h.mem x).inPool = true
  usedFlags : ∀ x ∈ OL, (h.mem x).inPool = false ∧
    ∃ sz, sizeofMemoryBlock ≤ sz ∧ (x, sz) ∈ h.live
  liveNodup : live.Nodup
  liveBlock : ∀ q ∈ live, sizeofMemoryBlock ≤ q ∧
    1 ≤ (h.mem (q - sizeofMemoryBlock)).mRef ∧ (h.mem (q - sizeofMemoryBlock)).mRef < 2 ^ 31 ∧
    ((q - sizeofMemoryBlock ∈ slots p._pSelf (sizeofMemoryBlock + A) n ∧
        q - sizeofMemoryBlock ∉ FL) ∨ q - sizeofMemoryBlock ∈ OL)
  slotLive : p._pSelf ≠ 0 → ∀ x ∈ slots p._pSelf (sizeofMemoryBlock + A) n,
    x ∉ FL → x + sizeofMemoryBlock ∈ live

/-! # Theorems -/

/-! ## The heap and linked lists -/

@[simp] theorem write_mem_same (h : Heap) (p : Nat) (b : MemoryBlock) :
    (h.write p b).mem p = b := by simp [Heap.write]

theorem write_mem_ne (h : Heap) (p : Nat) (b : MemoryBlock) (q : Nat) (hq : q ≠ p) :
    (h.write p b).mem q = h.mem q := by simp [Heap.write, hq]

theorem write_mem (h : Heap) (p : Nat) (b : MemoryBlock) (q : Nat) :
    (h.write p b).mem q = if q = p then b else h.mem q := rfl

@[simp] theorem write_live (h : Heap) (p : Nat) (b : MemoryBlock) :
    (h.write p b).live = h.live := rfl

@[simp] theorem write_freed (h : Heap) (p : Nat) (b : MemoryBlock) :
    (h.write p b).freed = h.freed := rfl

@[simp] theorem malloc_mem (h : Heap) (a : Nat) (n : Nat) : (h.malloc a n).mem = h.mem := rfl

@[simp] theorem malloc_live (h : Heap) (a : Nat) (n : Nat) :
    (h.malloc a n).live = (a, n) :: h.live := rfl

@[simp] theorem malloc_freed (h : Heap) (a : Nat) (n : Nat) :
    (h.malloc a n).freed = h.freed := rfl

@[simp] theorem free_mem (h : Heap) (p : Nat) : (h.free p).mem = h.mem := rfl

@[simp] theorem free_freed (h : Heap) (p : Nat) : (h.free p).freed = p :: h.freed := rfl

theorem isList_congr {mem mem' : Nat → MemoryBlock} {L : List Nat} :
    ∀ {p : Nat}, (∀ x ∈ L, (mem' x).pNext = (mem x).pNext) → IsList mem p L → IsList mem' p L := by
  induction L with
  | nil => intro p _ h; exact h
  | cons x xs ih =>
    intro p hx h
    obtain ⟨h1, h2, h3⟩ := h
    refine ⟨h1, h2, ?_⟩
    rw [hx x (List.mem_cons_self _ _)]
    exact ih (fun y hy => hx y (List.mem_cons_of_mem _ hy)) h3

theorem isList_unique {mem : Nat → MemoryBlock} {L₁ : List Nat} :
    ∀ {L₂ : List Nat} {p : Nat}, IsList mem p L₁ → IsList mem p L₂ → L₁ = L₂ := by
  induction L₁ with
  | nil =>
    intro L₂ p h1 h2
    cases L₂ with
    | nil => rfl
    | cons y ys =>
      obtain ⟨e, hy, _⟩ := h2
      have : p = 0 := h1
      omega
  | cons x xs ih =>
    intro L₂ p h1 h2
    obtain ⟨e1, hx, t1⟩ := h1
    cases L₂ with
    | nil =>
      have : p = 0 := h2
      omega
    | cons y ys =>
      obtain ⟨e2, _, t2⟩ := h2
      have hxy : x = y := by omega
      subst hxy
      rw [ih t1 t2]

theorem isList_not_mem_zero {mem : Nat → MemoryBlock} {L : List Nat} :
    ∀ {p : Nat}, IsList mem p L → (0 : Nat) ∉ L := by
  induction L with
  | nil => intro p _; simp
  | cons x xs ih =>
    intro p h
    obtain ⟨_, hx, t⟩ := h
    simp only [List.mem_cons, not_or]
    exact ⟨fun e => hx e.symm, ih t⟩

/-- The tail of a list starting at a member is again a list. -/
theorem isList_suffix_of_mem {mem : Nat → MemoryBlock} {L : List Nat} :
    ∀ {p : Nat}, IsList mem p L → ∀ x ∈ L, ∃ S, IsList mem x S ∧ S.length ≤ L.length ∧ x ∈ S := by
  induction L with
  | nil => intro p _ x hx; simp at hx
  | cons y ys ih =>
    intro p h x hx
    obtain ⟨e, hy, t⟩ := h
    rcases List.mem_cons.1 hx with rfl | hx'
    · exact ⟨x :: ys, ⟨rfl, hy, t⟩, le_refl _, List.mem_cons_self _ _⟩
    · obtain ⟨S, hS, hl, hm⟩ := ih t x hx'
      exact ⟨S, hS, by simp; omega, hm⟩

theorem isList_nodup {mem : Nat → MemoryBlock} {L : List Nat} :
    ∀ {p : Nat}, IsList mem p L → L.Nodup := by
  induction L with
  | nil => intro p _; exact List.nodup_nil
  | cons x xs ih =>
    intro p h
    obtain ⟨e, hx, t⟩ := h
    refine List.nodup_cons.2 ⟨?_, ih t⟩
    intro hmem
    obtain ⟨S, hS, hl, _⟩ := isList_suffix_of_mem t x hmem
    have h2 : IsList mem x (x :: xs) := ⟨rfl, hx, t⟩
    have := isList_unique hS h2
    subst this
    simp at hl

theorem isDList_isList {mem : Nat → MemoryBlock} {L : List Nat} :
    ∀ {prev p : Nat}, IsDList mem prev p L → IsList mem p L := by
  induction L with
  | nil => intro _ p h; exact h
  | cons x xs ih =>
    intro prev p h
    obtain ⟨e, hx, _, t⟩ := h
    exact ⟨e, hx, ih t⟩

theorem isDList_congr {mem mem' : Nat → MemoryBlock} {L : List Nat} :
    ∀ {prev p : Nat}, (∀ x ∈ L, (mem' x).pNext = (mem x).pNext ∧ (mem' x).pPrev = (mem x).pPrev) →
      IsDList mem prev p L → IsDList mem' prev p L := by
  induction L with
  | nil => intro _ p _ h; exact h
  | cons x xs ih =>
    intro prev p hx h
    obtain ⟨h1, h2, h3, h4⟩ := h
    have hh := hx x (List.mem_cons_self _ _)
    refine ⟨h1, h2, by rw [hh.2]; exact h3, ?_⟩
    rw [hh.1]
    exact ih (fun y hy => hx y (List.mem_cons_of_mem _ hy)) h4

theorem isDList_head_zero {mem : Nat → MemoryBlock} {prev : Nat} {L : List Nat}
    (h : IsDList mem prev 0 L) : L = [] := by
  cases L with
  | nil => rfl
  | cons x xs =>
    obtain ⟨e, hx, _⟩ := h
    exact absurd e.symm hx

theorem isList_head_zero {mem : Nat → MemoryBlock} {L : List Nat}
    (h : IsList mem 0 L) : L = [] := by
  cases L with
  | nil => rfl
  | cons x xs =>
    obtain ⟨e, hx, _⟩ := h
    exact absurd e.symm hx

theorem isDList_head_ne {mem : Nat → MemoryBlock} {prev p : Nat} {L : List Nat}
    (h : IsDList mem prev p L) (hp : p ≠ 0) : ∃ xs, L = p :: xs := by
  cases L with
  | nil => exact absurd h hp
  | cons x xs =>
    obtain ⟨e, _, _⟩ := h
    exact ⟨xs, by rw [e]⟩

theorem isList_head_ne {mem : Nat → MemoryBlock} {p : Nat} {L : List Nat}
    (h : IsList mem p L) (hp : p ≠ 0) : ∃ xs, L = p :: xs := by
  cases L with
  | nil => exact absurd h hp
  | cons x xs =>
    obtain ⟨e, _, _⟩ := h
    exact ⟨xs, by rw [e]⟩

/-! ## The size-class table -/

theorem MakeLinkLoop_apply (r : PoolRef) (k i : Nat) (f : Nat → Option PoolRef) (j : Nat) :
    MakeLinkLoop r k i f j = if i ≤ j ∧ j < i + k then some r else f j := by
  induction k generalizing i f with
  | zero =>
    have : ¬ (i ≤ j ∧ j < i + 0) := by omega
    simp only [MakeLinkLoop, this, if_false]
  | succ k ih =>
    simp only [MakeLinkLoop, ih]
    by_cases h1 : j = i
    · subst h1; simp
    · simp only [h1, if_false]
      by_cases h2 : i ≤ j ∧ j < i + (k + 1)
      · have : i + 1 ≤ j ∧ j < i + 1 + k := by omega
        simp only [h2, this, and_self, if_true]
      · have : ¬ (i + 1 ≤ j ∧ j < i + 1 + k) := by omega
        simp only [h2, this, if_false]

theorem allocMap_new (s : Nat) (hs : s ≤ 1024) : MemoryMgr.new._allocMap s = some (classOf s) := by
  simp only [MemoryMgr.new, MemoryMgr.MakeLink, MakeLinkLoop_apply, classOf]
  split_ifs <;> first | rfl | omega

theorem setPool_allocMap (m : MemoryMgr) (r : PoolRef) (p : MemoryAlloc) :
    (m.setPool r p)._allocMap = m._allocMap := by
  cases r <;> rfl

/-! ## The layout loop of `init` -/

theorem initLoop_live (this : PoolRef) (s : Nat) : ∀ (k i pT : Nat) (h : Heap),
    (initLoop this s k i pT h).live = h.live ∧ (initLoop this s k i pT h).freed = h.freed := by
  intro k
  induction k with
  | zero => intro i pT h; exact ⟨rfl, rfl⟩
  | succ k ih =>
    intro i pT h
    simp only [initLoop]
    rw [(ih _ _ _).1, (ih _ _ _).2]
    exact ⟨rfl, rfl⟩

theorem initLoop_other (this : PoolRef) (s : Nat) : ∀ (k i pT : Nat) (h : Heap) (x : Nat),
    (∀ j, j ≤ k → x ≠ pT + j * s) → (initLoop this s k i pT h).mem x = h.mem x := by
  intro k
  induction k with
  | zero => intro i pT h x _; rfl
  | succ k ih =>
    intro i pT h x hx
    simp only [initLoop]
    rw [ih]
    · have h0 : x ≠ pT := by simpa using hx 0 (Nat.zero_le _)
      have h1 : x ≠ pT + s := by simpa using hx 1 (by omega)
      rw [write_mem_ne _ _ _ _ h0, write_mem_ne _ _ _ _ h1]
    · intro j hj
      have := hx (j + 1) (by omega)
      rw [Nat.succ_mul] at this
      omega

theorem initLoop_head (this : PoolRef) (s : Nat) (hs : 0 < s) (k i pT : Nat) (h : Heap) :
    (initLoop this s k i pT h).mem pT =
      if k = 0 then h.mem pT else { h.mem pT with pNext := pT + s } := by
  cases k with
  | zero => rfl
  | succ k =>
    simp only [initLoop]
    rw [initLoop_other]
    · simp only [write_mem_same, Nat.succ_ne_zero, if_false]
      rw [write_mem_ne _ _ _ _ (by omega : pT ≠ pT + s)]
    · intro j _
      have : 0 ≤ j * s := Nat.zero_le _
      omega

theorem initLoop_slot (this : PoolRef) (s : Nat) (hs : 0 < s) : ∀ (k i pT : Nat) (h : Heap) (j : Nat),
    1 ≤ j → j ≤ k →
    (initLoop this s k i pT h).mem (pT + j * s) =
      { pAlloc := some this, pPrev := pT + (j - 1) * s,
        pNext := if j < k then pT + (j + 1) * s else 0,
        mId := toInt32 ((i + j - 1 : Nat) : Int), mRef := 0, inPool := true, allocPool := true } := by
  intro k
  induction k with
  | zero => intro i pT h j h1 h2; omega
  | succ k ih =>
    intro i pT h j h1 h2
    simp only [initLoop]
    by_cases hj : j = 1
    · subst hj
      have e : pT + 1 * s = pT + s := by rw [Nat.one_mul]
      rw [e, initLoop_head this s hs]
      by_cases hk : k = 0
      · subst hk
        simp only [if_true]
        rw [write_mem_ne _ _ _ _ (by omega : pT + s ≠ pT), write_mem_same]
        simp
      · simp only [hk, if_false]
        rw [write_mem_ne _ _ _ _ (by omega : pT + s ≠ pT), write_mem_same]
        have : 1 < k + 1 := by omega
        simp [this, Nat.succ_mul, Nat.add_assoc]
    · obtain ⟨j', rfl⟩ : ∃ j', j = j' + 1 := ⟨j - 1, by omega⟩
      have e : pT + (j' + 1) * s = (pT + s) + j' * s := by rw [Nat.succ_mul]; omega
      rw [e, ih (i + 1) (pT + s) _ j' (by omega) (by omega)]
      have e2 : pT + s + (j' - 1) * s = pT + (j' + 1 - 1) * s := by
        obtain ⟨j'', rfl⟩ : ∃ j'', j' = j'' + 1 := ⟨j' - 1, by omega⟩
        simp only [Nat.add_sub_cancel, Nat.succ_mul]; omega
      have e3 : pT + s + (j' + 1) * s = pT + (j' + 1 + 1) * s := by
        simp only [Nat.succ_mul]; omega
      have e4 : i + 1 + j' - 1 = i + (j' + 1) - 1 := by omega
      rw [e2, e3, e4]
      by_cases hlt : j' < k
      · have : j' + 1 < k + 1 := by omega
        simp [hlt, this]
      · have : ¬ (j' + 1 < k + 1) := by omega
        simp [hlt, this]

/-! ## `MemoryAlloc::init` -/

theorem init_fresh (this : PoolRef) (p : MemoryAlloc) (h : Heap) (a : Nat)
    (hs : p._pSelf = 0) (hm : p._mutex = false) (ha : a ≠ 0) :
    MemoryAlloc.init this p h a =
      .ok ({ p with _pSelf := a, _pHead := a, _mutex := false },
        initLoop this p.realSize (p._nBlocks - 1) 1 a
          ((h.malloc a ((p._nBlocks * p.realSize) % SIZE_MOD)).write a
            { pAlloc := some this, pPrev := 0, pNext := 0, mId := 0, mRef := 0,
              inPool := true, allocPool := true })) := by
  simp [MemoryAlloc.init, hs, hm, ha, lock, MemoryAlloc.realSize, bind, Except.bind, pure, Except.pure]

theorem init_fresh_heap (this : PoolRef) (p : MemoryAlloc) (h : Heap) (a : Nat)
    (hs : p._pSelf = 0) (hm : p._mutex = false) (ha : a ≠ 0) :
    MemoryAlloc.init this p h a =
      .ok ({ p with _pSelf := a, _pHead := a, _mutex := false }, initHeap this p h a) :=
  init_fresh this p h a hs hm ha

theorem init_again (this : PoolRef) (p : MemoryAlloc) (h : Heap) (a : Nat)
    (hs : p._pSelf ≠ 0) (hm : p._mutex = false) :
    MemoryAlloc.init this p h a = .ok ({ p with _mutex := true }, h) := by
  simp [MemoryAlloc.init, hs, hm, lock, bind, Except.bind, pure, Except.pure]

theorem toInt32_zero : toInt32 0 = 0 := by decide

theorem toInt32_wrap : toInt32 ((2 ^ 31 : Nat) : Int) = -2 ^ 31 := by decide

theorem toInt32_of_range (x : Int) (h1 : -2 ^ 31 ≤ x) (h2 : x < 2 ^ 31) : toInt32 x = x := by
  unfold toInt32
  omega

theorem toInt32_range (x : Int) : -2 ^ 31 ≤ toInt32 x ∧ toInt32 x < 2 ^ 31 := by
  unfold toInt32
  omega

theorem initHeap_slot (this : PoolRef) (p : MemoryAlloc) (h : Heap) (a : Nat)
    (hs : 0 < p.realSize) (i : Nat) (hi : i < p._nBlocks) :
    (initHeap this p h a).mem (a + i * p.realSize) = slotBlock this a p.realSize p._nBlocks i := by
  unfold initHeap slotBlock
  by_cases h0 : i = 0
  · subst h0
    rw [Nat.zero_mul, Nat.add_zero, initLoop_head this _ hs]
    by_cases hk : p._nBlocks - 1 = 0
    · have : ¬ (0 + 1 < p._nBlocks) := by omega
      simp [hk, this, toInt32_zero]
    · have : 0 + 1 < p._nBlocks := by omega
      simp [hk, this, toInt32_zero]
  · rw [initLoop_slot this _ hs _ _ _ _ i (by omega) (by omega)]
    have e : 1 + i - 1 = i := by omega
    by_cases hlt : i < p._nBlocks - 1
    · have : i + 1 < p._nBlocks := by omega
      simp [h0, hlt, this, e]
    · have : ¬ (i + 1 < p._nBlocks) := by omega
      simp [h0, hlt, this, e]

theorem initHeap_other (this : PoolRef) (p : MemoryAlloc) (h : Heap) (a x : Nat)
    (hx : ∀ j, j ≤ p._nBlocks - 1 → x ≠ a + j * p.realSize) :
    (initHeap this p h a).mem x = h.mem x := by
  unfold initHeap
  rw [initLoop_other this _ _ _ _ _ x hx]
  have := hx 0 (Nat.zero_le _)
  rw [Nat.zero_mul, Nat.add_zero] at this
  rw [write_mem_ne _ _ _ _ this]
  rfl

theorem initHeap_live (this : PoolRef) (p : MemoryAlloc) (h : Heap) (a : Nat) :
    (initHeap this p h a).live = (a, (p._nBlocks * p.realSize) % SIZE_MOD) :: h.live ∧
    (initHeap this p h a).freed = h.freed := by
  unfold initHeap
  rw [(initLoop_live _ _ _ _ _ _).1, (initLoop_live _ _ _ _ _ _).2]
  exact ⟨rfl, rfl⟩

theorem isList_slots (mem : Nat → MemoryBlock) (s : Nat) :
    ∀ (n a : Nat), a ≠ 0 → 1 ≤ n →
      (∀ i, i < n → (mem (a + i * s)).pNext = if i + 1 < n then a + (i + 1) * s else 0) →
      IsList mem a (slots a s n) := by
  intro n
  induction n with
  | zero => intro a _ h; omega
  | succ n ih =>
    intro a ha _ hnext
    refine ⟨rfl, ha, ?_⟩
    have h0 := hnext 0 (by omega)
    rw [Nat.zero_mul, Nat.add_zero, Nat.zero_add, Nat.one_mul] at h0
    rw [h0]
    by_cases hn : n = 0
    · subst hn
      exact rfl
    · rw [if_pos (by omega)]
      apply ih (a + s) (by omega) (by omega)
      intro i hi
      have := hnext (i + 1) (by omega)
      have e1 : a + (i + 1) * s = a + s + i * s := by rw [Nat.succ_mul]; omega
      have e2 : a + (i + 1 + 1) * s = a + s + (i + 1) * s := by
        rw [Nat.succ_mul (i + 1)]; omega
      rw [e1, e2] at this
      rw [this]
      by_cases hlt : i + 1 < n
      · rw [if_pos hlt, if_pos (by omega)]
      · rw [if_neg hlt, if_neg (by omega)]

theorem initHeap_isList (this : PoolRef) (p : MemoryAlloc) (h : Heap) (a : Nat)
    (ha : a ≠ 0) (hs : 0 < p.realSize) (hn : 1 ≤ p._nBlocks) :
    IsList (initHeap this p h a).mem a (slots a p.realSize p._nBlocks) := by
  apply isList_slots _ _ _ a ha hn
  intro i hi
  rw [initHeap_slot this p h a hs i hi]
  rfl

theorem realSize_eq (p : MemoryAlloc) (hn : 1 ≤ p._nBlocks)
    (hsize : p._nBlocks * (sizeofMemoryBlock + p._nSize) < SIZE_MOD) :
    p.realSize = sizeofMemoryBlock + p._nSize := by
  unfold MemoryAlloc.realSize
  apply Nat.mod_eq_of_lt
  calc sizeofMemoryBlock + p._nSize ≤ p._nBlocks * (sizeofMemoryBlock + p._nSize) :=
        Nat.le_mul_of_pos_left _ hn
    _ < SIZE_MOD := hsize

theorem slots_length (s : Nat) : ∀ (n a : Nat), (slots a s n).length = n := by
  intro n
  induction n with
  | zero => intro a; rfl
  | succ n ih => intro a; simp [slots, ih]

theorem slots_getElem? (s : Nat) : ∀ (n a i : Nat), i < n → (slots a s n)[i]? = some (a + i * s) := by
  intro n
  induction n with
  | zero => intro a i hi; omega
  | succ n ih =>
    intro a i hi
    cases i with
    | zero => simp [slots]
    | succ i =>
      simp only [slots, List.getElem?_cons_succ]
      rw [ih (a + s) i (by omega), Nat.succ_mul]
      congr 1
      omega

theorem mem_slots (s : Nat) : ∀ (n a x : Nat), x ∈ slots a s n ↔ ∃ i, i < n ∧ x = a + i * s := by
  intro n
  induction n with
  | zero => intro a x; simp [slots]
  | succ n ih =>
    intro a x
    simp only [slots, List.mem_cons, ih]
    constructor
    · rintro (rfl | ⟨i, hi, rfl⟩)
      · exact ⟨0, by omega, by simp⟩
      · exact ⟨i + 1, by omega, by rw [Nat.succ_mul]; omega⟩
    · rintro ⟨i, hi, rfl⟩
      cases i with
      | zero => left; simp
      | succ i => right; exact ⟨i, by omega, by rw [Nat.succ_mul]; omega⟩

/-! ## Paths through `allocMemory` and `freeMemory` -/

theorem write_write_same (h : Heap) (p : Nat) (b c : MemoryBlock) :
    (h.write p b).write p c = h.write p c := by
  unfold Heap.write
  congr 1
  funext q
  by_cases hq : q = p <;> simp [hq]

theorem alloc_pop (this : PoolRef) (p : MemoryAlloc) (h : Heap) (nSize a : Nat)
    (hs : p._pSelf ≠ 0) (hm : p._mutex = false) (hh : p._pHead ≠ 0) :
    MemoryAlloc.allocMemory this p h nSize a =
      .ok (p._pHead + sizeofMemoryBlock,
        { p with _pHead := (h.mem p._pHead).pNext, _mutex := false },
        h.write p._pHead { h.mem p._pHead with mRef := 1, pNext := 0, pPrev := 0 }) := by
  simp [MemoryAlloc.allocMemory, hs, hm, hh, lock, bind, Except.bind, pure, Except.pure,
    write_write_same]

theorem pushHeap_fields (h : Heap) (a size : Nat) (b : MemoryBlock) (used : Nat) :
    ((pushHeap h a size b used).mem a).pAlloc = b.pAlloc ∧
    ((pushHeap h a size b used).mem a).mId = b.mId ∧
    ((pushHeap h a size b used).mem a).mRef = b.mRef ∧
    ((pushHeap h a size b used).mem a).inPool = b.inPool ∧
    ((pushHeap h a size b used).mem a).allocPool = b.allocPool := by
  unfold pushHeap
  by_cases hu : used = 0
  · simp [hu]
  · by_cases hua : a = used
    · subst hua; simp [hu]
    · simp [hu, write_mem, hua]

theorem pushHeap_new (h : Heap) (a size : Nat) (b : MemoryBlock) (used : Nat) (hua : used ≠ a)
    (hb : b.pNext = 0) :
    (pushHeap h a size b used).mem a = { b with pNext := used } := by
  unfold pushHeap
  by_cases hu : used = 0
  · cases b
    simp only at hb
    simp [hu, hb]
  · simp [hu, write_mem, Ne.symm hua]

theorem pushHeap_used (h : Heap) (a size : Nat) (b : MemoryBlock) (used : Nat) (hua : used ≠ a)
    (hu : used ≠ 0) :
    (pushHeap h a size b used).mem used = { h.mem used with pPrev := a } := by
  unfold pushHeap
  simp [hu, write_mem, hua]

theorem pushHeap_other (h : Heap) (a size : Nat) (b : MemoryBlock) (used x : Nat) (hxa : x ≠ a)
    (hxu : x ≠ used) : (pushHeap h a size b used).mem x = h.mem x := by
  unfold pushHeap
  by_cases hu : used = 0
  · simp [hu, write_mem, hxa]
  · simp [hu, write_mem, hxa, hxu]

theorem pushHeap_pNext (h : Heap) (a size : Nat) (b : MemoryBlock) (used x : Nat) (hxa : x ≠ a) :
    ((pushHeap h a size b used).mem x).pNext = (h.mem x).pNext := by
  unfold pushHeap
  by_cases hu : used = 0
  · simp [hu, write_mem, hxa]
  · by_cases hxu : x = used
    · subst hxu; simp [hu, write_mem, hxa]
    · simp [hu, write_mem, hxa, hxu]

theorem pushHeap_live (h : Heap) (a size : Nat) (b : MemoryBlock) (used : Nat) :
    (pushHeap h a size b used).live = (a, size) :: h.live ∧
    (pushHeap h a size b used).freed = h.freed := by
  unfold pushHeap
  by_cases hu : used = 0 <;> simp [hu]

theorem alloc_overflow (this : PoolRef) (p : MemoryAlloc) (h : Heap) (nSize a : Nat)
    (hs : p._pSelf ≠ 0) (hm : p._mutex = false) (hh : p._pHead = 0) (ha : a ≠ 0) :
    MemoryAlloc.allocMemory this p h nSize a =
      .ok (a + sizeofMemoryBlock, { p with _pHeadUsed := a, _mutex := false },
        pushHeap h a ((sizeofMemoryBlock + nSize) % SIZE_MOD)
          { pAlloc := some this, pPrev := 0, pNext := 0, mId := -1, mRef := 1,
            inPool := false, allocPool := true } p._pHeadUsed) := by
  unfold pushHeap
  by_cases hu : p._pHeadUsed = 0
  · simp [MemoryAlloc.allocMemory, hs, hm, hh, ha, hu, lock, bind, Except.bind, pure, Except.pure]
  · simp [MemoryAlloc.allocMemory, hs, hm, hh, ha, hu, lock, bind, Except.bind, pure, Except.pure,
      write_write_same]

theorem alloc_uninit (this : PoolRef) (p : MemoryAlloc) (h : Heap) (nSize a : Nat)
    (hs : p._pSelf = 0) (hm : p._mutex = false) (ha : a ≠ 0) :
    MemoryAlloc.allocMemory this p h nSize a =
      .ok (a + sizeofMemoryBlock,
        { p with _pSelf := a, _pHead := ((initHeap this p h a).mem a).pNext, _mutex := false },
        (initHeap this p h a).write a
          { (initHeap this p h a).mem a with mRef := 1, pNext := 0, pPrev := 0 }) := by
  have hi := init_fresh this p h a hs hm ha
  simp [MemoryAlloc.allocMemory, hs, hi, ha, lock, bind, Except.bind, pure, Except.pure,
    write_write_same, initHeap]

theorem alloc_deadlock (this : PoolRef) (p : MemoryAlloc) (h : Heap) (nSize a : Nat)
    (hs : p._pSelf ≠ 0) (hm : p._mutex = true) :
    MemoryAlloc.allocMemory this p h nSize a = .error .deadlock := by
  simp [MemoryAlloc.allocMemory, hs, hm, lock, bind, Except.bind, pure, Except.pure]

theorem free_keep (p : MemoryAlloc) (h : Heap) (pMemory : Nat)
    (hr : toInt32 ((h.mem (pMemory - sizeofMemoryBlock)).mRef - 1) ≠ 0) :
    MemoryAlloc.freeMemory p h pMemory =
      .ok (p, h.write (pMemory - sizeofMemoryBlock)
        { h.mem (pMemory - sizeofMemoryBlock) with
          mRef := toInt32 ((h.mem (pMemory - sizeofMemoryBlock)).mRef - 1) }) := by
  simp [MemoryAlloc.freeMemory, hr, bind, Except.bind, pure, Except.pure]

theorem free_deadlock (p : MemoryAlloc) (h : Heap) (pMemory : Nat)
    (hr : toInt32 ((h.mem (pMemory - sizeofMemoryBlock)).mRef - 1) = 0) (hm : p._mutex = true) :
    MemoryAlloc.freeMemory p h pMemory = .error .deadlock := by
  simp [MemoryAlloc.freeMemory, hr, hm, lock, bind, Except.bind, pure, Except.pure]

theorem free_recycle (p : MemoryAlloc) (h : Heap) (pMemory : Nat)
    (hr : toInt32 ((h.mem (pMemory - sizeofMemoryBlock)).mRef - 1) = 0) (hm : p._mutex = false)
    (hin : (h.mem (pMemory - sizeofMemoryBlock)).inPool = true) :
    MemoryAlloc.freeMemory p h pMemory =
      .ok ({ p with _pHead := pMemory - sizeofMemoryBlock, _mutex := false },
        recycleHeap h (pMemory - sizeofMemoryBlock) p._pHead) := by
  unfold recycleHeap
  by_cases hh : p._pHead = 0
  · simp [MemoryAlloc.freeMemory, hr, hm, hin, hh, lock, bind, Except.bind, pure, Except.pure,
      write_write_same]
  · simp [MemoryAlloc.freeMemory, hr, hm, hin, hh, lock, bind, Except.bind, pure, Except.pure,
      write_write_same]

theorem recycleHeap_block (h : Heap) (x head : Nat) (hne : head ≠ x) :
    (recycleHeap h x head).mem x = { h.mem x with mRef := 0, pPrev := 0, pNext := head } := by
  unfold recycleHeap
  by_cases hh : head = 0
  · simp [hh]
  · simp [hh, write_mem, Ne.symm hne]

theorem recycleHeap_other (h : Heap) (x head y : Nat) (hyx : y ≠ x) (hyh : y ≠ head) :
    (recycleHeap h x head).mem y = h.mem y := by
  unfold recycleHeap
  by_cases hh : head = 0
  · simp [hh, write_mem, hyx]
  · simp [hh, write_mem, hyx, hyh]

theorem recycleHeap_head (h : Heap) (x head : Nat) (hne : head ≠ x) (hh : head ≠ 0) :
    (recycleHeap h x head).mem head = { h.mem head with pPrev := x } := by
  unfold recycleHeap
  simp [hh, write_mem, hne]

theorem recycleHeap_stable (h : Heap) (x head y : Nat) (hyx : y ≠ x) :
    ((recycleHeap h x head).mem y).pAlloc = (h.mem y).pAlloc ∧
    ((recycleHeap h x head).mem y).pNext = (h.mem y).pNext ∧
    ((recycleHeap h x head).mem y).mId = (h.mem y).mId ∧
    ((recycleHeap h x head).mem y).mRef = (h.mem y).mRef ∧
    ((recycleHeap h x head).mem y).inPool = (h.mem y).inPool ∧
    ((recycleHeap h x head).mem y).allocPool = (h.mem y).allocPool := by
  unfold recycleHeap
  by_cases hh : head = 0
  · simp [hh, write_mem, hyx]
  · by_cases hyh : y = head
    · subst hyh; simp [hh, write_mem, hyx]
    · simp [hh, write_mem, hyx, hyh]

theorem recycleHeap_fields (h : Heap) (x head : Nat) :
    ((recycleHeap h x head).mem x).pAlloc = (h.mem x).pAlloc ∧
    ((recycleHeap h x head).mem x).mId = (h.mem x).mId ∧
    ((recycleHeap h x head).mem x).mRef = 0 ∧
    ((recycleHeap h x head).mem x).inPool = (h.mem x).inPool ∧
    ((recycleHeap h x head).mem x).allocPool = (h.mem x).allocPool := by
  unfold recycleHeap
  by_cases hh : head = 0
  · simp [hh]
  · by_cases hxh : x = head
    · subst hxh; simp [hh]
    · simp [hh, write_mem, hxh]

theorem recycleHeap_live (h : Heap) (x head : Nat) :
    (recycleHeap h x head).live = h.live ∧ (recycleHeap h x head).freed = h.freed := by
  unfold recycleHeap
  by_cases hh : head = 0 <;> simp [hh]

/-- Splicing a block onto the head of the free list. -/
theorem isList_recycle (h : Heap) (x head : Nat) (F : List Nat) (hF : IsList h.mem head F)
    (hx0 : x ≠ 0) (hxF : x ∉ F) : IsList (recycleHeap h x head).mem x (x :: F) := by
  have hne : head ≠ x := by
    intro e
    subst e
    obtain ⟨xs, rfl⟩ := isList_head_ne hF hx0
    exact hxF (List.mem_cons_self _ _)
  refine ⟨rfl, hx0, ?_⟩
  rw [recycleHeap_block h x head hne]
  apply isList_congr _ hF
  intro y hy
  exact (recycleHeap_stable h x head y (fun e => hxF (e ▸ hy))).2.1

theorem free_unsplice (p : MemoryAlloc) (h : Heap) (pMemory : Nat)
    (hr : toInt32 ((h.mem (pMemory - sizeofMemoryBlock)).mRef - 1) = 0) (hm : p._mutex = false)
    (hin : (h.mem (pMemory - sizeofMemoryBlock)).inPool = false) :
    MemoryAlloc.freeMemory p h pMemory =
      (unsplice p._pHeadUsed
        (h.write (pMemory - sizeofMemoryBlock)
          { h.mem (pMemory - sizeofMemoryBlock) with mRef := 0 }) (pMemory - sizeofMemoryBlock)).map
        (fun r => ({ p with _pHeadUsed := r.1, _mutex := false }, r.2)) := by
  simp [MemoryAlloc.freeMemory, hr, hm, hin, lock, bind, Except.bind, pure, Except.pure]
  cases unsplice p._pHeadUsed _ (pMemory - sizeofMemoryBlock) <;> rfl

/-! ## Inversion of `allocMemory` -/

theorem alloc_held (this : PoolRef) (p : MemoryAlloc) (h : Heap) (nSize a : Nat)
    (hm : p._mutex = true) :
    MemoryAlloc.allocMemory this p h nSize a = .error .deadlock := by
  by_cases hs : p._pSelf = 0
  · simp [MemoryAlloc.allocMemory, MemoryAlloc.init, hs, hm, lock, bind, Except.bind, pure,
      Except.pure]
  · exact alloc_deadlock this p h nSize a hs hm

theorem alloc_null (this : PoolRef) (p : MemoryAlloc) (h : Heap) (nSize : Nat)
    (hm : p._mutex = false) (hh : p._pSelf = 0 ∨ p._pHead = 0) :
    MemoryAlloc.allocMemory this p h nSize 0 = .error .nullDeref := by
  by_cases hs : p._pSelf = 0
  · simp [MemoryAlloc.allocMemory, MemoryAlloc.init, hs, hm, lock, bind, Except.bind, pure,
      Except.pure]
  · have hh' : p._pHead = 0 := hh.resolve_left hs
    simp [MemoryAlloc.allocMemory, hs, hm, hh', lock, bind, Except.bind, pure, Except.pure]

/-- The three ways `MemoryAlloc::allocMemory` returns. -/
theorem alloc_inv (this : PoolRef) (p p' : MemoryAlloc) (h h' : Heap) (nSize a pMem : Nat)
    (e : MemoryAlloc.allocMemory this p h nSize a = .ok (pMem, p', h')) :
    p._mutex = false ∧
    ((p._pSelf = 0 ∧ a ≠ 0 ∧ pMem = a + sizeofMemoryBlock ∧
        p' = { p with _pSelf := a, _pHead := ((initHeap this p h a).mem a).pNext, _mutex := false } ∧
        h' = (initHeap this p h a).write a
          { (initHeap this p h a).mem a with mRef := 1, pNext := 0, pPrev := 0 }) ∨
     (p._pSelf ≠ 0 ∧ p._pHead ≠ 0 ∧ pMem = p._pHead + sizeofMemoryBlock ∧
        p' = { p with _pHead := (h.mem p._pHead).pNext, _mutex := false } ∧
        h' = h.write p._pHead { h.mem p._pHead with mRef := 1, pNext := 0, pPrev := 0 }) ∨
     (p._pSelf ≠ 0 ∧ p._pHead = 0 ∧ a ≠ 0 ∧ pMem = a + sizeofMemoryBlock ∧
        p' = { p with _pHeadUsed := a, _mutex := false } ∧
        h' = pushHeap h a ((sizeofMemoryBlock + nSize) % SIZE_MOD)
          { pAlloc := some this, pPrev := 0, pNext := 0, mId := -1, mRef := 1,
            inPool := false, allocPool := true } p._pHeadUsed)) := by
  have hm : p._mutex = false := by
    cases hmx : p._mutex with
    | false => rfl
    | true => rw [alloc_held this p h nSize a hmx] at e; cases e
  refine ⟨hm, ?_⟩
  by_cases hs : p._pSelf = 0
  · have ha : a ≠ 0 := by
      rintro rfl
      rw [alloc_null this p h nSize hm (Or.inl hs)] at e; cases e
    rw [alloc_uninit this p h nSize a hs hm ha] at e
    injection e with e
    injection e with e1 e2
    injection e2 with e2 e3
    exact Or.inl ⟨hs, ha, e1.symm, e2.symm, e3.symm⟩
  · by_cases hh : p._pHead = 0
    · have ha : a ≠ 0 := by
        rintro rfl
        rw [alloc_null this p h nSize hm (Or.inr hh)] at e; cases e
      rw [alloc_overflow this p h nSize a hs hm hh ha] at e
      injection e with e
      injection e with e1 e2
      injection e2 with e2 e3
      exact Or.inr (Or.inr ⟨hs, hh, ha, e1.symm, e2.symm, e3.symm⟩)
    · rw [alloc_pop this p h nSize a hs hm hh] at e
      injection e with e
      injection e with e1 e2
      injection e2 with e2 e3
      exact Or.inr (Or.inl ⟨hs, hh, e1.symm, e2.symm, e3.symm⟩)

/-- The large-object path of `MemoryMgr::allocMemory`. -/
theorem mgr_alloc_large (m : MemoryMgr) (h : Heap) (nSize a : Nat)
    (hs : MAX_MEMORY_SIZE < nSize) (hm : m._mutex = false) (ha : a ≠ 0) :
    m.allocMemory h nSize a =
      .ok (a + sizeofMemoryBlock, { m with _pHeadUsed := a, _mutex := false },
        pushHeap h a ((sizeofMemoryBlock + nSize) % SIZE_MOD)
          { pAlloc := none, pPrev := 0, pNext := 0, mId := -1, mRef := 1,
            inPool := false, allocPool := false } m._pHeadUsed) := by
  have hs' : ¬ nSize ≤ MAX_MEMORY_SIZE := by omega
  unfold pushHeap
  by_cases hu : m._pHeadUsed = 0
  · simp [MemoryMgr.allocMemory, hs', hm, ha, hu, lock, bind, Except.bind, pure, Except.pure]
  · simp [MemoryMgr.allocMemory, hs', hm, ha, hu, lock, bind, Except.bind, pure, Except.pure,
      write_write_same]

theorem mgr_alloc_large_fail (m : MemoryMgr) (h : Heap) (nSize a : Nat)
    (hs : MAX_MEMORY_SIZE < nSize) (hm : m._mutex = true ∨ a = 0) :
    ∃ f, m.allocMemory h nSize a = .error f := by
  have hs' : ¬ nSize ≤ MAX_MEMORY_SIZE := by omega
  by_cases hmx : m._mutex = true
  · exact ⟨.deadlock, by simp [MemoryMgr.allocMemory, hs', hmx, lock, bind, Except.bind]⟩
  · have ha : a = 0 := hm.resolve_left hmx
    have hmf : m._mutex = false := by simpa using hmx
    exact ⟨.nullDeref, by
      simp [MemoryMgr.allocMemory, hs', hmf, ha, lock, bind, Except.bind, throw, throwThe,
        MonadExceptOf.throw]⟩

theorem mgr_alloc_pool (m : MemoryMgr) (h : Heap) (nSize a : Nat) (r : PoolRef)
    (hs : nSize ≤ MAX_MEMORY_SIZE) (hr : m._allocMap nSize = some r) :
    m.allocMemory h nSize a =
      (MemoryAlloc.allocMemory r (m.pool r) h nSize a).map
        (fun x => (x.1, m.setPool r x.2.1, x.2.2)) := by
  unfold MemoryMgr.allocMemory
  rw [if_pos hs, hr]
  dsimp only
  cases MemoryAlloc.allocMemory r (m.pool r) h nSize a <;> rfl

theorem mgr_alloc_pool_none (m : MemoryMgr) (h : Heap) (nSize a : Nat)
    (hs : nSize ≤ MAX_MEMORY_SIZE) (hr : m._allocMap nSize = none) :
    m.allocMemory h nSize a = .error .nullDeref := by
  unfold MemoryMgr.allocMemory
  rw [if_pos hs, hr]
  rfl

theorem map_ok_inv {α β : Type} (f : α → β) (x : Except Fault α) (y : β)
    (e : x.map f = .ok y) : ∃ z, x = .ok z ∧ f z = y := by
  cases x with
  | error err => cases e
  | ok z =>
    refine ⟨z, rfl, ?_⟩
    injection e

/-- The two ways `MemoryMgr::allocMemory` returns. -/
theorem mgr_alloc_inv (m m' : MemoryMgr) (h h' : Heap) (nSize a pMem : Nat)
    (e : m.allocMemory h nSize a = .ok (pMem, m', h')) :
    (nSize ≤ MAX_MEMORY_SIZE ∧ ∃ r p', m._allocMap nSize = some r ∧ m' = m.setPool r p' ∧
        MemoryAlloc.allocMemory r (m.pool r) h nSize a = .ok (pMem, p', h')) ∨
    (MAX_MEMORY_SIZE < nSize ∧ m._mutex = false ∧ a ≠ 0 ∧ pMem = a + sizeofMemoryBlock ∧
        m' = { m with _pHeadUsed := a, _mutex := false } ∧
        h' = pushHeap h a ((sizeofMemoryBlock + nSize) % SIZE_MOD)
          { pAlloc := none, pPrev := 0, pNext := 0, mId := -1, mRef := 1,
            inPool := false, allocPool := false } m._pHeadUsed) := by
  by_cases hs : nSize ≤ MAX_MEMORY_SIZE
  · left
    refine ⟨hs, ?_⟩
    cases hr : m._allocMap nSize with
    | none => rw [mgr_alloc_pool_none m h nSize a hs hr] at e; cases e
    | some r =>
      rw [mgr_alloc_pool m h nSize a r hs hr] at e
      obtain ⟨⟨q, p', g⟩, hz, hf⟩ := map_ok_inv _ _ _ e
      simp only [Prod.mk.injEq] at hf
      obtain ⟨f1, f2, f3⟩ := hf
      subst f1 f3
      exact ⟨r, p', rfl, f2.symm, hz⟩
  · right
    have hs' : MAX_MEMORY_SIZE < nSize := by omega
    have hm : m._mutex = false := by
      cases hmx : m._mutex with
      | false => rfl
      | true =>
        obtain ⟨f, hf⟩ := mgr_alloc_large_fail m h nSize a hs' (Or.inl hmx)
        rw [hf] at e; cases e
    have ha : a ≠ 0 := by
      intro ha
      obtain ⟨f, hf⟩ := mgr_alloc_large_fail m h nSize a hs' (Or.inr ha)
      rw [hf] at e; cases e
    rw [mgr_alloc_large m h nSize a hs' hm ha] at e
    injection e with e
    injection e with e1 e2
    injection e2 with e2 e3
    exact ⟨hs', hm, ha, e1.symm, e2.symm, e3.symm⟩

/-! ## Splicing onto a list head -/

/-- Splicing a fresh block onto the head of a doubly-linked list. -/
theorem isDList_push (h : Heap) (a size : Nat) (b : MemoryBlock) (used : Nat) (L : List Nat)
    (hL : IsDList h.mem 0 used L) (ha : a ≠ 0) (haL : a ∉ L) (hprev : b.pPrev = 0)
    (hnext : b.pNext = 0) :
    IsDList (pushHeap h a size b used).mem 0 a (a :: L) := by
  by_cases hu : used = 0
  · subst hu
    have := isDList_head_zero hL
    subst this
    have hm : (pushHeap h a size b 0).mem a = b := by simp [pushHeap]
    exact ⟨rfl, ha, by rw [hm]; exact hprev, by rw [hm, hnext]; rfl⟩
  · obtain ⟨xs, rfl⟩ := isDList_head_ne hL hu
    have hua : used ≠ a := fun e => haL (e ▸ List.mem_cons_self _ _)
    have hnd : (used :: xs).Nodup := isList_nodup (isDList_isList hL)
    obtain ⟨_, _, hp, ht⟩ := hL
    refine ⟨rfl, ha, ?_, ?_⟩
    · rw [pushHeap_new h a size b used hua hnext]; exact hprev
    · rw [pushHeap_new h a size b used hua hnext]
      refine ⟨rfl, hu, ?_, ?_⟩
      · rw [pushHeap_used h a size b used hua hu]
      · rw [pushHeap_used h a size b used hua hu]
        apply isDList_congr _ ht
        intro x hx
        have hxa : x ≠ a := fun e => haL (e ▸ List.mem_cons_of_mem _ hx)
        have hxu : x ≠ used := fun e => (List.nodup_cons.1 hnd).1 (e ▸ hx)
        rw [pushHeap_other h a size b used x hxa hxu]
        exact ⟨rfl, rfl⟩

theorem pushHeap_stable (h : Heap) (a size : Nat) (b : MemoryBlock) (used x : Nat) (hxa : x ≠ a) :
    ((pushHeap h a size b used).mem x).pAlloc = (h.mem x).pAlloc ∧
    ((pushHeap h a size b used).mem x).pNext = (h.mem x).pNext ∧
    ((pushHeap h a size b used).mem x).mId = (h.mem x).mId ∧
    ((pushHeap h a size b used).mem x).mRef = (h.mem x).mRef ∧
    ((pushHeap h a size b used).mem x).inPool = (h.mem x).inPool ∧
    ((pushHeap h a size b used).mem x).allocPool = (h.mem x).allocPool := by
  unfold pushHeap
  by_cases hu : used = 0
  · simp [hu, write_mem, hxa]
  · by_cases hxu : x = used
    · subst hxu; simp [hu, write_mem, hxa]
    · simp [hu, write_mem, hxa, hxu]

theorem pool_setPool (m : MemoryMgr) (r r' : PoolRef) (p : MemoryAlloc) :
    (m.setPool r p).pool r' = if r' = r then p else m.pool r' := by
  cases r <;> cases r' <;> rfl

/-! ## Unsplicing from a list -/

theorem unsplice_eq (hd : Nat) (h : Heap) (x : Nat) (hok : (h.mem x).pPrev ≠ 0 ∨ hd = x) :
    unsplice hd h x =
      .ok (if (h.mem x).pPrev ≠ 0 then hd else (h.mem x).pNext, unspliceHeap h x) := by
  by_cases hp : (h.mem x).pPrev = 0
  · have hx : hd = x := hok.resolve_left (by simpa using hp)
    simp [unsplice, unspliceHeap, hp, hx, bind, Except.bind, pure, Except.pure]
  · simp [unsplice, unspliceHeap, hp, bind, Except.bind, pure, Except.pure]

theorem unsplice_assert (hd : Nat) (h : Heap) (x : Nat) (hp : (h.mem x).pPrev = 0) (hx : hd ≠ x) :
    unsplice hd h x = .error .assertFailed := by
  simp [unsplice, hp, hx, bind, Except.bind, throw, throwThe, MonadExceptOf.throw]

theorem unspliceHeap_mem (h : Heap) (x y : Nat) (h1 : (h.mem x).pPrev ≠ x)
    (h3 : (h.mem x).pNext ≠ 0 → (h.mem x).pPrev ≠ (h.mem x).pNext) :
    (unspliceHeap h x).mem y =
      if (h.mem x).pNext ≠ 0 ∧ y = (h.mem x).pNext then { h.mem y with pPrev := (h.mem x).pPrev }
      else if (h.mem x).pPrev ≠ 0 ∧ y = (h.mem x).pPrev then
        { h.mem y with pNext := (h.mem x).pNext }
      else h.mem y := by
  unfold unspliceHeap
  by_cases hp : (h.mem x).pPrev = 0
  · by_cases hn : (h.mem x).pNext = 0
    · simp [hp, hn]
    · by_cases hy : y = (h.mem x).pNext
      · subst hy; simp [hp, hn, write_mem]
      · simp [hp, hn, write_mem, hy]
  · have hx : x ≠ (h.mem x).pPrev := Ne.symm h1
    by_cases hn : (h.mem x).pNext = 0
    · by_cases hy : y = (h.mem x).pPrev
      · subst hy; simp [hp, hn, write_mem, hx]
      · simp [hp, hn, write_mem, hx, hy]
    · have h3' := h3 hn
      by_cases hy : y = (h.mem x).pNext
      · subst hy
        simp [hp, hn, write_mem, hx, Ne.symm h3']
      · by_cases hy' : y = (h.mem x).pPrev
        · subst hy'
          simp [hp, hn, write_mem, hx, Ne.symm h3', hy]
        · simp [hp, hn, write_mem, hx, Ne.symm h3', hy, hy']

theorem unspliceHeap_live (h : Heap) (x : Nat) :
    (unspliceHeap h x).live = h.live.filter (fun r => r.1 ≠ x) ∧
    (unspliceHeap h x).freed = x :: h.freed := by
  unfold unspliceHeap
  by_cases hp : (h.mem x).pPrev = 0 <;> by_cases hn : (h.mem x).pNext = 0 <;>
    simp [hp, hn, Heap.free, write_mem] <;> split_ifs <;> simp [Heap.free]

theorem isDList_prev_link {mem : Nat → MemoryBlock} {L : List Nat} :
    ∀ {q hd : Nat}, IsDList mem q hd L → ∀ x ∈ L,
      (hd = x ∧ (mem x).pPrev = q) ∨
      ((mem x).pPrev ∈ L ∧ (mem (mem x).pPrev).pNext = x) := by
  induction L with
  | nil => intro q hd _ x hx; simp at hx
  | cons y ys ih =>
    intro q hd h x hx
    obtain ⟨e, hy, hp, t⟩ := h
    rcases List.mem_cons.1 hx with rfl | hx'
    · exact Or.inl ⟨e, hp⟩
    · rcases ih t x hx' with ⟨g1, g2⟩ | ⟨g1, g2⟩
      · exact Or.inr ⟨by rw [g2]; exact List.mem_cons_self _ _, by rw [g2]; exact g1⟩
      · exact Or.inr ⟨List.mem_cons_of_mem _ g1, g2⟩

theorem isDList_next_link {mem : Nat → MemoryBlock} {L : List Nat} :
    ∀ {q hd : Nat}, IsDList mem q hd L → ∀ x ∈ L,
      (mem x).pNext = 0 ∨ ((mem x).pNext ∈ L ∧ (mem (mem x).pNext).pPrev = x) := by
  induction L with
  | nil => intro q hd _ x hx; simp at hx
  | cons y ys ih =>
    intro q hd h x hx
    obtain ⟨e, hy, hp, t⟩ := h
    rcases List.mem_cons.1 hx with rfl | hx'
    · cases ys with
      | nil => exact Or.inl t
      | cons z zs =>
        obtain ⟨e', _, hp', _⟩ := t
        exact Or.inr ⟨by rw [e']; exact List.mem_cons_of_mem _ (List.mem_cons_self _ _),
          by rw [e']; exact hp'⟩
    · rcases ih t x hx' with g | ⟨g1, g2⟩
      · exact Or.inl g
      · exact Or.inr ⟨List.mem_cons_of_mem _ g1, g2⟩

theorem isList_next_ne {mem : Nat → MemoryBlock} {L : List Nat} {p : Nat}
    (h : IsList mem p L) (x : Nat) (hx : x ∈ L) : (mem x).pNext ≠ x := by
  obtain ⟨S, hS, _, hxS⟩ := isList_suffix_of_mem h x hx
  have hx0 : x ≠ 0 := fun e => isList_not_mem_zero h (e ▸ hx)
  obtain ⟨S1, rfl⟩ := isList_head_ne hS hx0
  have hnd := isList_nodup hS
  obtain ⟨_, _, t⟩ := hS
  intro e
  rw [e] at t
  obtain ⟨S2, rfl⟩ := isList_head_ne t hx0
  exact (List.nodup_cons.1 hnd).1 (List.mem_cons_self _ _)

theorem isList_no_two_cycle {mem : Nat → MemoryBlock} {L : List Nat} {p : Nat}
    (h : IsList mem p L) (x : Nat) (hx : x ∈ L) (hn : (mem x).pNext ≠ 0) :
    (mem (mem x).pNext).pNext ≠ x := by
  obtain ⟨S, hS, _, hxS⟩ := isList_suffix_of_mem h x hx
  have hx0 : x ≠ 0 := fun e => isList_not_mem_zero h (e ▸ hx)
  obtain ⟨S1, rfl⟩ := isList_head_ne hS hx0
  have hS' := hS
  obtain ⟨_, _, t⟩ := hS
  obtain ⟨S2, rfl⟩ := isList_head_ne t hn
  obtain ⟨_, _, t2⟩ := t
  intro e
  rw [e] at t2
  have := isList_unique t2 hS'
  have hl := congrArg List.length this
  simp only [List.length_cons] at hl
  omega

/-- Unsplicing a member of a doubly-linked list leaves the list without it. -/
theorem isDList_erase (mem mem' : Nat → MemoryBlock) (x : Nat)
    (hmem' : ∀ y, mem' y =
      if (mem x).pNext ≠ 0 ∧ y = (mem x).pNext then { mem y with pPrev := (mem x).pPrev }
      else if (mem x).pPrev ≠ 0 ∧ y = (mem x).pPrev then { mem y with pNext := (mem x).pNext }
      else mem y) :
    ∀ (L : List Nat) (q hd : Nat), IsDList mem q hd L → x ∈ L → q ∉ L →
      IsDList mem' q (if hd = x then (mem x).pNext else hd) (L.erase x) := by
  intro L
  induction L with
  | nil => intro q hd _ hx; simp at hx
  | cons y ys ih =>
    intro q hd h hx hq
    have hnd : (y :: ys).Nodup := isList_nodup (isDList_isList h)
    have hyys : y ∉ ys := (List.nodup_cons.1 hnd).1
    obtain ⟨e, hy, hp, t⟩ := h
    subst e
    by_cases hxy : x = hd
    · subst hxy
      rw [if_pos rfl, List.erase_cons_head]
      cases ys with
      | nil => exact t
      | cons z zs =>
        have hnd' : (z :: zs).Nodup := (List.nodup_cons.1 hnd).2
        obtain ⟨e', hz, hp', t'⟩ := t
        have hmz : mem' z = { mem z with pPrev := (mem x).pPrev } := by
          rw [hmem' z, if_pos ⟨by rw [e']; exact hz, e'.symm⟩]
        refine ⟨e', hz, by rw [hmz]; exact hp, ?_⟩
        rw [hmz]
        apply isDList_congr _ t'
        intro w hw
        have hw1 : w ≠ (mem x).pNext := by
          rw [e']; exact fun e => (List.nodup_cons.1 hnd').1 (e ▸ hw)
        have hw2 : w ≠ (mem x).pPrev := by
          rw [hp]
          exact fun e => hq (e ▸ List.mem_cons_of_mem _ (List.mem_cons_of_mem _ hw))
        rw [hmem' w, if_neg (fun c => hw1 c.2), if_neg (fun c => hw2 c.2)]
        exact ⟨rfl, rfl⟩
    · have hx' : x ∈ ys := by
        rcases List.mem_cons.1 hx with g | g
        · exact absurd g hxy
        · exact g
      have hne : ¬ ((hd == x) = true) := by simpa using Ne.symm hxy
      rw [if_neg (Ne.symm hxy), List.erase_cons_tail hne]
      have hyn : hd ≠ (mem x).pNext := by
        rcases isDList_next_link t x hx' with g | ⟨g, _⟩
        · rw [g]; exact hy
        · exact fun e => hyys (e ▸ g)
      have hprev : (mem' hd).pPrev = q := by
        rw [hmem' hd, if_neg (fun c => hyn c.2)]
        split_ifs <;> exact hp
      have hnext : (mem' hd).pNext = if (mem hd).pNext = x then (mem x).pNext else (mem hd).pNext := by
        rw [hmem' hd, if_neg (fun c => hyn c.2)]
        rcases isDList_prev_link t x hx' with ⟨g1, g2⟩ | ⟨g1, g2⟩
        · rw [if_pos ⟨by rw [g2]; exact hy, g2.symm⟩, if_pos g1]
        · have hpy : hd ≠ (mem x).pPrev := fun e => hyys (e ▸ g1)
          rw [if_neg (fun c => hpy c.2)]
          have : (mem hd).pNext ≠ x := by
            intro e
            rw [e] at t
            have hx0 : x ≠ 0 := fun e0 => isList_not_mem_zero (isDList_isList t) (e0 ▸ hx')
            obtain ⟨zs, rfl⟩ := isDList_head_ne t hx0
            obtain ⟨_, _, hp', _⟩ := t
            exact hpy hp'.symm
          rw [if_neg this]
      refine ⟨rfl, hy, hprev, ?_⟩
      rw [hnext]
      exact ih hd (mem hd).pNext t hx' hyys

/-- The unsplice-and-free sequence on a member of a well-formed list: the
head-consistency assertion holds, the list loses exactly that member, and
headers off the remaining list are untouched. -/
theorem unsplice_member (h : Heap) (hd x : Nat) (L : List Nat)
    (hL : IsDList h.mem 0 hd L) (hx : x ∈ L) :
    unsplice hd h x =
      .ok (if hd = x then (h.mem x).pNext else hd, unspliceHeap h x) ∧
    IsDList (unspliceHeap h x).mem 0 (if hd = x then (h.mem x).pNext else hd) (L.erase x) ∧
    (∀ y, y ∉ L.erase x → (unspliceHeap h x).mem y = h.mem y) ∧
    (∀ y, ((unspliceHeap h x).mem y).pAlloc = (h.mem y).pAlloc ∧
      ((unspliceHeap h x).mem y).mId = (h.mem y).mId ∧
      ((unspliceHeap h x).mem y).mRef = (h.mem y).mRef ∧
      ((unspliceHeap h x).mem y).inPool = (h.mem y).inPool ∧
      ((unspliceHeap h x).mem y).allocPool = (h.mem y).allocPool) := by
  have hlist := isDList_isList hL
  have h0 : (0 : Nat) ∉ L := isList_not_mem_zero hlist
  have hx0 : x ≠ 0 := fun e => h0 (e ▸ hx)
  have hnd : L.Nodup := isList_nodup hlist
  have hN1 := isList_next_ne hlist x hx
  have hR := isDList_prev_link hL x hx
  have hS := isDList_next_link hL x hx
  have A1 : (h.mem x).pPrev ≠ x := by
    rcases hR with ⟨_, g⟩ | ⟨_, g⟩
    · rw [g]; exact Ne.symm hx0
    · intro e; rw [e] at g; exact hN1 g
  have A3 : (h.mem x).pNext ≠ 0 → (h.mem x).pPrev ≠ (h.mem x).pNext := by
    intro hn
    rcases hR with ⟨_, g⟩ | ⟨_, g⟩
    · rw [g]; exact Ne.symm hn
    · intro e; rw [e] at g; exact isList_no_two_cycle hlist x hx hn g
  have hmem := fun y => unspliceHeap_mem h x y A1 A3
  have hhead : (if (h.mem x).pPrev ≠ 0 then hd else (h.mem x).pNext) =
      (if hd = x then (h.mem x).pNext else hd) := by
    rcases hR with ⟨g1, g2⟩ | ⟨g1, g2⟩
    · rw [if_neg (by simpa using g2), if_pos g1]
    · have hp0 : (h.mem x).pPrev ≠ 0 := fun e => h0 (e ▸ g1)
      have hdx : hd ≠ x := by
        intro e
        obtain ⟨xs, rfl⟩ := isDList_head_ne hL (e ▸ hx0)
        obtain ⟨_, _, hp, _⟩ := hL
        rw [e] at hp
        exact hp0 hp
      rw [if_pos hp0, if_neg hdx]
  have hok : (h.mem x).pPrev ≠ 0 ∨ hd = x := by
    rcases hR with ⟨g1, _⟩ | ⟨g1, _⟩
    · exact Or.inr g1
    · exact Or.inl (fun e => h0 (e ▸ g1))
  refine ⟨by rw [unsplice_eq hd h x hok, hhead], ?_, ?_, ?_⟩
  · exact isDList_erase h.mem _ x hmem L 0 hd hL hx h0
  · intro y hy
    have hmemL : ∀ z, z ∈ L → z ≠ x → z ∈ L.erase x := fun z hz hzx =>
      (List.mem_erase_of_ne hzx).2 hz
    rw [hmem y]
    have c1 : ¬ ((h.mem x).pNext ≠ 0 ∧ y = (h.mem x).pNext) := by
      rintro ⟨hn, rfl⟩
      rcases hS with g | ⟨g, _⟩
      · exact hn g
      · exact hy (hmemL _ g hN1)
    have c2 : ¬ ((h.mem x).pPrev ≠ 0 ∧ y = (h.mem x).pPrev) := by
      rintro ⟨hp, rfl⟩
      rcases hR with ⟨_, g⟩ | ⟨g, _⟩
      · exact hp g
      · exact hy (hmemL _ g A1)
    rw [if_neg c1, if_neg c2]
  · intro y
    rw [hmem y]
    split_ifs <;> exact ⟨rfl, rfl, rfl, rfl, rfl⟩

/-- Releasing the last reference of a block on a pool's overflow list. -/
theorem free_overflow_member (p : MemoryAlloc) (h : Heap) (x : Nat) (L : List Nat)
    (hL : IsDList h.mem 0 p._pHeadUsed L) (hx : x ∈ L) (hin : (h.mem x).inPool = false)
    (href : toInt32 ((h.mem x).mRef - 1) = 0) (hm : p._mutex = false) :
    ∃ h', MemoryAlloc.freeMemory p h (x + sizeofMemoryBlock) =
        .ok ({ p with _pHeadUsed := if p._pHeadUsed = x then (h.mem x).pNext else p._pHeadUsed,
                      _mutex := false }, h') ∧
      IsDList h'.mem 0 (if p._pHeadUsed = x then (h.mem x).pNext else p._pHeadUsed) (L.erase x) ∧
      (∀ y, y ∉ L → h'.mem y = h.mem y) ∧
      (∀ y, y ≠ x → (h'.mem y).pAlloc = (h.mem y).pAlloc ∧ (h'.mem y).mId = (h.mem y).mId ∧
        (h'.mem y).mRef = (h.mem y).mRef ∧ (h'.mem y).inPool = (h.mem y).inPool ∧
        (h'.mem y).allocPool = (h.mem y).allocPool) ∧
      h'.live = h.live.filter (fun r => r.1 ≠ x) ∧ h'.freed = x :: h.freed := by
  have hsub : x + sizeofMemoryBlock - sizeofMemoryBlock = x := by omega
  have e := free_unsplice p h (x + sizeofMemoryBlock) (by rw [hsub]; exact href) hm
    (by rw [hsub]; exact hin)
  rw [hsub] at e
  have hL0 : IsDList (h.write x { h.mem x with mRef := 0 }).mem 0 p._pHeadUsed L := by
    apply isDList_congr _ hL
    intro y _
    rw [write_mem]
    split_ifs with hy
    · subst hy; exact ⟨rfl, rfl⟩
    · exact ⟨rfl, rfl⟩
  obtain ⟨u1, u2, u3, u4⟩ := unsplice_member _ p._pHeadUsed x L hL0 hx
  have hnx : ((h.write x { h.mem x with mRef := 0 }).mem x).pNext = (h.mem x).pNext := by
    rw [write_mem_same]
  rw [hnx] at u1 u2
  refine ⟨unspliceHeap (h.write x { h.mem x with mRef := 0 }) x, ?_, u2, ?_, ?_, ?_⟩
  · rw [e, u1]; rfl
  · intro y hy
    have hyx : y ≠ x := fun e => hy (e ▸ hx)
    rw [u3 y (fun c => hy (List.mem_of_mem_erase c)), write_mem_ne _ _ _ _ hyx]
  · intro y hy
    obtain ⟨f1, f2, f3, f4, f5⟩ := u4 y
    rw [f1, f2, f3, f4, f5, write_mem_ne _ _ _ _ hy]
    exact ⟨rfl, rfl, rfl, rfl, rfl⟩
  · exact unspliceHeap_live _ x

/-! ## Paths through `MemoryMgr::freeMemory` -/

theorem mgr_free_pool (m : MemoryMgr) (h : Heap) (pMem : Nat) (r : PoolRef)
    (hf : ((h.mem (pMem - sizeofMemoryBlock)).inPool || (h.mem (pMem - sizeofMemoryBlock)).allocPool)
      = true)
    (hr : (h.mem (pMem - sizeofMemoryBlock)).pAlloc = some r) :
    m.freeMemory h pMem =
      (MemoryAlloc.freeMemory (m.pool r) h pMem).map (fun x => (m.setPool r x.1, x.2)) := by
  unfold MemoryMgr.freeMemory
  simp only [hf, if_true, hr]
  cases MemoryAlloc.freeMemory (m.pool r) h pMem <;> rfl

theorem mgr_free_pool_null (m : MemoryMgr) (h : Heap) (pMem : Nat)
    (hf : ((h.mem (pMem - sizeofMemoryBlock)).inPool || (h.mem (pMem - sizeofMemoryBlock)).allocPool)
      = true)
    (hr : (h.mem (pMem - sizeofMemoryBlock)).pAlloc = none) :
    m.freeMemory h pMem = .error .nullDeref := by
  unfold MemoryMgr.freeMemory
  simp only [hf, if_true, hr]
  rfl

theorem mgr_free_large_held (m : MemoryMgr) (h : Heap) (pMem : Nat)
    (hf : ((h.mem (pMem - sizeofMemoryBlock)).inPool || (h.mem (pMem - sizeofMemoryBlock)).allocPool)
      = false)
    (hm : m._mutex = true) :
    m.freeMemory h pMem = .error .deadlock := by
  simp [MemoryMgr.freeMemory, hf, hm, lock, bind, Except.bind]

/-- The early `return` of the large-object path: the block is still referenced
and the manager's mutex stays held. -/
theorem mgr_free_large_keep (m : MemoryMgr) (h : Heap) (pMem : Nat)
    (hf : ((h.mem (pMem - sizeofMemoryBlock)).inPool || (h.mem (pMem - sizeofMemoryBlock)).allocPool)
      = false)
    (hm : m._mutex = false)
    (hr : toInt32 ((h.mem (pMem - sizeofMemoryBlock)).mRef - 1) ≠ 0) :
    m.freeMemory h pMem =
      .ok ({ m with _mutex := true },
        h.write (pMem - sizeofMemoryBlock)
          { h.mem (pMem - sizeofMemoryBlock) with
            mRef := toInt32 ((h.mem (pMem - sizeofMemoryBlock)).mRef - 1) }) := by
  simp [MemoryMgr.freeMemory, hf, hm, hr, lock, bind, Except.bind, pure, Except.pure]

theorem mgr_free_large_last (m : MemoryMgr) (h : Heap) (pMem : Nat)
    (hf : ((h.mem (pMem - sizeofMemoryBlock)).inPool || (h.mem (pMem - sizeofMemoryBlock)).allocPool)
      = false)
    (hm : m._mutex = false)
    (hr : toInt32 ((h.mem (pMem - sizeofMemoryBlock)).mRef - 1) = 0) :
    m.freeMemory h pMem =
      (unsplice m._pHeadUsed
        (h.write (pMem - sizeofMemoryBlock)
          { h.mem (pMem - sizeofMemoryBlock) with mRef := 0 }) (pMem - sizeofMemoryBlock)).map
        (fun r => ({ m with _pHeadUsed := r.1, _mutex := false }, r.2)) := by
  simp [MemoryMgr.freeMemory, hf, hm, hr, lock, bind, Except.bind, pure, Except.pure]
  cases unsplice m._pHeadUsed _ (pMem - sizeofMemoryBlock) <;> rfl

theorem setPool_fields (m : MemoryMgr) (r : PoolRef) (p : MemoryAlloc) :
    (m.setPool r p)._pHeadUsed = m._pHeadUsed ∧ (m.setPool r p)._mutex = m._mutex := by
  cases r <;> exact ⟨rfl, rfl⟩

theorem pool_setPool_same (m : MemoryMgr) (r : PoolRef) (p : MemoryAlloc) :
    (m.setPool r p).pool r = p := by
  cases r <;> rfl

theorem pool_setPool_ne (m : MemoryMgr) (r r' : PoolRef) (p : MemoryAlloc) (hne : r' ≠ r) :
    (m.setPool r p).pool r' = m.pool r' := by
  cases r <;> cases r' <;> first | rfl | exact absurd rfl hne

/-- The heap after `MemoryAlloc::allocMemory` popped the free-list head. -/
theorem popHeap_stable (h : Heap) (x y : Nat) (hyx : y ≠ x) :
    (h.write x { h.mem x with mRef := 1, pNext := 0, pPrev := 0 }).mem y = h.mem y :=
  write_mem_ne _ _ _ _ hyx

theorem initHeap_flags (this : PoolRef) (p : MemoryAlloc) (h : Heap) (a : Nat)
    (hs : 0 < p.realSize) (x : Nat) (hx : x ∈ slots a p.realSize p._nBlocks) :
    ((initHeap this p h a).mem x).inPool = true ∧ ((initHeap this p h a).mem x).allocPool = true ∧
    ((initHeap this p h a).mem x).pAlloc = some this ∧ ((initHeap this p h a).mem x).mRef = 0 := by
  obtain ⟨i, hi, rfl⟩ := (mem_slots _ _ _ _).1 hx
  rw [initHeap_slot this p h a hs i hi]
  exact ⟨rfl, rfl, rfl, rfl⟩

theorem nBlocks_new (s n : Nat) : (MemoryAllocator.new s n)._nBlocks = n := rfl

theorem blocks_pos (s : Nat) : 1 ≤ (MemoryAllocator.new s BLOCKS_SIZE)._nBlocks := by
  rw [nBlocks_new]; unfold BLOCKS_SIZE; omega

theorem new_pool_mem_128 : MemoryMgr.new.pool PoolRef.mem_128 = MemoryAllocator.new 128 BLOCKS_SIZE :=
  rfl

theorem toInt32_one : toInt32 1 = 1 := by decide

theorem toInt32_two : toInt32 2 = 2 := by decide

/-! ## Runs of allocations -/

theorem allocSeq_cons (this : PoolRef) (nSize a : Nat) (as : List Nat) (p p1 : MemoryAlloc)
    (h h1 : Heap) (pMem : Nat)
    (e : MemoryAlloc.allocMemory this p h nSize a = .ok (pMem, p1, h1)) :
    allocSeq this nSize (a :: as) p h =
      (allocSeq this nSize as p1 h1).map
        (fun r => ((pMem, h1.mem (pMem - sizeofMemoryBlock)) :: r.1, r.2.1, r.2.2)) := by
  simp only [allocSeq, e, bind, Except.bind, pure, Except.pure]
  cases allocSeq this nSize as p1 h1 <;> rfl

theorem slot_ne_of_lt (a s i j : Nat) (hs : 0 < s) (hij : j < i) : a + i * s ≠ a + j * s := by
  have : j * s < i * s := Nat.mul_lt_mul_of_pos_right hij hs
  omega

theorem allocSeq_from (this : PoolRef) (nSize a0 s n : Nat) (hs : 0 < s) (ha0 : a0 ≠ 0) :
    ∀ (as : List Nat) (j : Nat) (p : MemoryAlloc) (h : Heap),
      (∀ a ∈ as, a ≠ 0) → p._pSelf ≠ 0 → p._mutex = false →
      p._pHead = (if j < n then a0 + j * s else 0) →
      (∀ i, j ≤ i → i < n → h.mem (a0 + i * s) = slotBlock this a0 s n i) →
      ∃ res p' h', allocSeq this nSize as p h = .ok (res, p', h') ∧ res.length = as.length ∧
        ∀ i, i < as.length → ∃ pMem b, res[i]? = some (pMem, b) ∧ b.mRef = 1 ∧
          (j + i < n → pMem = a0 + (j + i) * s + sizeofMemoryBlock ∧ b.inPool = true ∧
            b.allocPool = true ∧ b.mId = toInt32 ((j + i : Nat) : Int) ∧ b.pAlloc = some this) ∧
          (n ≤ j + i → ∃ a, as[i]? = some a ∧ pMem = a + sizeofMemoryBlock ∧ b.inPool = false ∧
            b.allocPool = true ∧ b.mId = -1 ∧ b.pAlloc = some this) := by
  intro as
  induction as with
  | nil =>
    intro j p h _ _ _ _ _
    exact ⟨[], p, h, rfl, rfl, fun i hi => absurd hi (Nat.not_lt_zero _)⟩
  | cons a as ih =>
    intro j p h has hself hm hhead hmem
    have ha : a ≠ 0 := has a (List.mem_cons_self _ _)
    have has' : ∀ x ∈ as, x ≠ 0 := fun x hx => has x (List.mem_cons_of_mem _ hx)
    by_cases hj : j < n
    · -- the free list still holds slot `j`
      have hhead' : p._pHead = a0 + j * s := by rw [hhead, if_pos hj]
      have hne : p._pHead ≠ 0 := by omega
      have e := alloc_pop this p h nSize a hself hm hne
      have hb := hmem j (le_refl _) hj
      rw [hhead'] at e
      obtain ⟨res, p', h', hr, hl, hall⟩ := ih (j + 1)
        { p with _pHead := (h.mem (a0 + j * s)).pNext, _mutex := false }
        (h.write (a0 + j * s) { h.mem (a0 + j * s) with mRef := 1, pNext := 0, pPrev := 0 })
        has' hself rfl
        (show (h.mem (a0 + j * s)).pNext = if j + 1 < n then a0 + (j + 1) * s else 0 by
          rw [hb]; rfl)
        (by
          intro i hji hin
          rw [write_mem_ne _ _ _ _ (slot_ne_of_lt a0 s i j hs (by omega))]
          exact hmem i (by omega) hin)
      rw [allocSeq_cons this nSize a as p _ h _ _ e, hr]
      refine ⟨_, p', h', rfl, by simp [hl], ?_⟩
      intro i hi
      cases i with
      | zero =>
        refine ⟨_, _, List.getElem?_cons_zero, ?_, ?_, ?_⟩
        · simp
        · intro _
          simp only [Nat.add_zero, Nat.add_sub_cancel, write_mem_same, hb, slotBlock, true_and,
            and_true]
        · intro hge; omega
      | succ i =>
        obtain ⟨pMem, b, h1, h2, h3, h4⟩ := hall i (by simpa using hi)
        refine ⟨pMem, b, by simpa using h1, h2, ?_, ?_⟩
        · intro hlt
          have := h3 (by omega)
          rw [show j + (i + 1) = j + 1 + i by omega]
          exact this
        · intro hge
          obtain ⟨x, hx, rest⟩ := h4 (by omega)
          exact ⟨x, by simpa using hx, rest⟩
    · -- the arena is exhausted
      have hhead' : p._pHead = 0 := by rw [hhead, if_neg hj]
      have e := alloc_overflow this p h nSize a hself hm hhead' ha
      obtain ⟨res, p', h', hr, hl, hall⟩ := ih (j + 1)
        { p with _pHeadUsed := a, _mutex := false }
        (pushHeap h a ((sizeofMemoryBlock + nSize) % SIZE_MOD)
          { pAlloc := some this, pPrev := 0, pNext := 0, mId := -1, mRef := 1,
            inPool := false, allocPool := true } p._pHeadUsed) has' hself rfl
        (show p._pHead = if j + 1 < n then a0 + (j + 1) * s else 0 by
          rw [hhead', if_neg (by omega)])
        (by intro i hji hin; omega)
      rw [allocSeq_cons this nSize a as p _ h _ _ e, hr]
      refine ⟨_, p', h', rfl, by simp [hl], ?_⟩
      obtain ⟨f1, f2, f3, f4, f5⟩ := pushHeap_fields h a ((sizeofMemoryBlock + nSize) % SIZE_MOD)
          { pAlloc := some this, pPrev := 0, pNext := 0, mId := -1, mRef := 1,
            inPool := false, allocPool := true } p._pHeadUsed
      intro i hi
      cases i with
      | zero =>
        refine ⟨_, _, List.getElem?_cons_zero, ?_, ?_, ?_⟩
        · rw [Nat.add_sub_cancel]; exact f3
        · intro hlt; omega
        · intro _
          refine ⟨a, List.getElem?_cons_zero, rfl, ?_⟩
          rw [Nat.add_sub_cancel]
          exact ⟨f4, f5, f2, f1⟩
      | succ i =>
        obtain ⟨pMem, b, h1, h2, h3, h4⟩ := hall i (by simpa using hi)
        refine ⟨pMem, b, by simpa using h1, h2, ?_, ?_⟩
        · intro hlt; omega
        · intro hge
          obtain ⟨x, hx, rest⟩ := h4 (by omega)
          exact ⟨x, by simpa using hx, rest⟩

/-- A run of allocations on a pool that has never been used: the slot ids are
the call indices as stored in the `int` field `mId`. -/
theorem allocSeq_fresh_ids (this : PoolRef) (p : MemoryAlloc) (h : Heap) (nSize : Nat)
    (as : List Nat) (hself : p._pSelf = 0) (hmutex : p._mutex = false)
    (hn : 1 ≤ p._nBlocks)
    (hsize : p._nBlocks * (sizeofMemoryBlock + p._nSize) < SIZE_MOD)
    (has : ∀ a ∈ as, a ≠ 0) :
    ∃ res p' h', allocSeq this nSize as p h = .ok (res, p', h') ∧ res.length = as.length ∧
      ∀ i, i < as.length → ∃ pMem b, res[i]? = some (pMem, b) ∧ b.mRef = 1 ∧
        (i < p._nBlocks → ∃ a0, as[0]? = some a0 ∧
          pMem = a0 + i * (sizeofMemoryBlock + p._nSize) + sizeofMemoryBlock ∧
          b.inPool = true ∧ b.mId = toInt32 (i : Int)) ∧
        (p._nBlocks ≤ i → ∃ a, as[i]? = some a ∧ pMem = a + sizeofMemoryBlock ∧
          b.inPool = false ∧ b.allocPool = true ∧ b.mId = -1) := by
  have hrs := realSize_eq p hn hsize
  have hpos : 0 < p.realSize := by rw [hrs]; unfold sizeofMemoryBlock; omega
  cases as with
  | nil => exact ⟨[], p, h, rfl, rfl, fun i hi => absurd hi (Nat.not_lt_zero _)⟩
  | cons a0 as =>
    have ha0 : a0 ≠ 0 := has a0 (List.mem_cons_self _ _)
    have has' : ∀ x ∈ as, x ≠ 0 := fun x hx => has x (List.mem_cons_of_mem _ hx)
    have e := alloc_uninit this p h nSize a0 hself hmutex ha0
    have hb := initHeap_slot this p h a0 hpos 0 hn
    rw [Nat.zero_mul, Nat.add_zero] at hb
    obtain ⟨res, p', h', hr, hl, hall⟩ :=
      allocSeq_from this nSize a0 p.realSize p._nBlocks hpos ha0 as 1
        { p with _pSelf := a0, _pHead := ((initHeap this p h a0).mem a0).pNext, _mutex := false }
        ((initHeap this p h a0).write a0
          { (initHeap this p h a0).mem a0 with mRef := 1, pNext := 0, pPrev := 0 })
        has' ha0 rfl
        (show ((initHeap this p h a0).mem a0).pNext = _ by
          rw [hb]; simp [slotBlock])
        (by
          intro i h1 hin
          have hne : a0 + i * p.realSize ≠ a0 := by
            have := slot_ne_of_lt a0 p.realSize i 0 hpos (by omega)
            simpa using this
          rw [write_mem_ne _ _ _ _ hne]
          exact initHeap_slot this p h a0 hpos i hin)
    rw [allocSeq_cons this nSize a0 as p _ h _ _ e, hr]
    refine ⟨_, p', h', rfl, by simp [hl], ?_⟩
    intro i hi
    cases i with
    | zero =>
      refine ⟨_, _, List.getElem?_cons_zero, ?_, ?_, ?_⟩
      · simp
      · intro _
        refine ⟨a0, List.getElem?_cons_zero, by simp, ?_⟩
        simp [hb, slotBlock, toInt32_zero]
      · intro hle; omega
    | succ i =>
      obtain ⟨pMem, b, h1, h2, h3, h4⟩ := hall i (by simpa using hi)
      refine ⟨pMem, b, by simpa using h1, h2, ?_, ?_⟩
      · intro hlt
        obtain ⟨g1, g2, _, g4, _⟩ := h3 (by omega)
        refine ⟨a0, List.getElem?_cons_zero, ?_, g2, ?_⟩
        · rw [g1, hrs, Nat.add_comm 1 i]
        · rw [g4, Nat.add_comm 1 i]
      · intro hge
        obtain ⟨x, hx, g1, g2, g3, g4, _⟩ := h4 (by omega)
        exact ⟨x, by simpa using hx, g1, g2, g3, g4⟩

/-! ## The invariant of the reachable states -/

theorem realSize_bounds (p : MemoryAlloc) (hp : p._nSize ≤ MAX_MEMORY_SIZE) :
    p.realSize = sizeofMemoryBlock + p._nSize ∧ sizeofMemoryBlock ≤ p.realSize ∧
      p.realSize ≤ 1064 := by
  have e : p.realSize = sizeofMemoryBlock + p._nSize := by
    unfold MemoryAlloc.realSize
    apply Nat.mod_eq_of_lt
    unfold sizeofMemoryBlock SIZE_MOD
    unfold MAX_MEMORY_SIZE at hp
    omega
  rw [e]
  unfold sizeofMemoryBlock
  unfold MAX_MEMORY_SIZE at hp
  omega

theorem fresh_tracked_ne (h : Heap) (a size x y : Nat) (hf : Fresh h a size) (ht : Tracked h x)
    (h1 : a ≤ y) (h2 : y < a + size) : y ≠ x := by
  obtain ⟨r, hr, g1, g2⟩ := ht
  rcases hf r hr with g | g
  · omega
  · unfold sizeofMemoryBlock at g2; omega

theorem tracked_mono (h h' : Heap) (x : Nat) (hsub : ∀ r ∈ h.live, r ∈ h'.live)
    (ht : Tracked h x) : Tracked h' x := by
  obtain ⟨r, hr, g⟩ := ht
  exact ⟨r, hsub r hr, g⟩

theorem slot_bounds (s : Nat) (n a x : Nat) (hx : x ∈ slots a s n) (hs : sizeofMemoryBlock ≤ s) :
    a ≤ x ∧ x + sizeofMemoryBlock ≤ a + n * s := by
  obtain ⟨i, hi, rfl⟩ := (mem_slots s n a x).1 hx
  have : (i + 1) * s ≤ n * s := Nat.mul_le_mul_right s hi
  rw [Nat.succ_mul] at this
  omega

theorem slots_head (a s n : Nat) (hn : 1 ≤ n) : a ∈ slots a s n := by
  obtain ⟨k, rfl⟩ : ∃ k, n = k + 1 := ⟨n - 1, by omega⟩
  exact List.mem_cons_self _ _

section
variable {m : MemoryMgr} {h : Heap} {live : List Nat} {FL OL : PoolRef → List Nat} {LL : List Nat}

theorem inv_slot_tracked (hI : Inv m h live FL OL LL) (r : PoolRef) (hs : (m.pool r)._pSelf ≠ 0)
    (x : Nat) (hx : x ∈ slots (m.pool r)._pSelf (m.pool r).realSize BLOCKS_SIZE) : Tracked h x := by
  have hb := slot_bounds _ _ _ _ hx (realSize_bounds _ (hI.nSize r)).2.1
  exact ⟨_, hI.arena r hs, hb.1, hb.2⟩

theorem inv_free_tracked (hI : Inv m h live FL OL LL) (r : PoolRef) (x : Nat) (hx : x ∈ FL r) :
    Tracked h x :=
  inv_slot_tracked hI r (hI.freeSlot r x hx).1 x (hI.freeSlot r x hx).2

theorem inv_used_tracked (hI : Inv m h live FL OL LL) (r : PoolRef) (x : Nat) (hx : x ∈ OL r) :
    Tracked h x := by
  obtain ⟨_, _, _, sz, h1, h2⟩ := hI.usedFlags r x hx
  exact ⟨(x, sz), h2, le_refl _, by simpa using h1⟩

theorem inv_large_tracked (hI : Inv m h live FL OL LL) (x : Nat) (hx : x ∈ LL) : Tracked h x := by
  obtain ⟨_, _, sz, h1, h2⟩ := hI.largeFlags x hx
  exact ⟨(x, sz), h2, le_refl _, by simpa using h1⟩

theorem inv_live_tracked (hI : Inv m h live FL OL LL) (p : Nat) (hp : p ∈ live) :
    Tracked h (p - sizeofMemoryBlock) := by
  rcases (hI.liveBlock p hp).2 with ⟨r, h1, h2, _⟩ | ⟨r, h1⟩ | h1
  · exact inv_slot_tracked hI r h1 _ h2
  · exact inv_used_tracked hI r _ h1
  · exact inv_large_tracked hI _ h1

theorem inv_slot_not_used (hI : Inv m h live FL OL LL) (r r' : PoolRef)
    (hs : (m.pool r)._pSelf ≠ 0) (x : Nat)
    (hx : x ∈ slots (m.pool r)._pSelf (m.pool r).realSize BLOCKS_SIZE) : x ∉ OL r' := by
  intro hx'
  have h1 := (hI.slotFlags r hs x hx).1
  have h2 := (hI.usedFlags r' x hx').1
  rw [h1] at h2
  cases h2

theorem inv_slot_not_large (hI : Inv m h live FL OL LL) (r : PoolRef)
    (hs : (m.pool r)._pSelf ≠ 0) (x : Nat)
    (hx : x ∈ slots (m.pool r)._pSelf (m.pool r).realSize BLOCKS_SIZE) : x ∉ LL := by
  intro hx'
  have h1 := (hI.slotFlags r hs x hx).1
  have h2 := (hI.largeFlags x hx').1
  rw [h1] at h2
  cases h2

theorem inv_slot_own (hI : Inv m h live FL OL LL) (r r' : PoolRef)
    (hs : (m.pool r)._pSelf ≠ 0) (hs' : (m.pool r')._pSelf ≠ 0) (x : Nat)
    (hx : x ∈ slots (m.pool r)._pSelf (m.pool r).realSize BLOCKS_SIZE)
    (hx' : x ∈ slots (m.pool r')._pSelf (m.pool r').realSize BLOCKS_SIZE) : r = r' := by
  have h1 := (hI.slotFlags r hs x hx).2
  have h2 := (hI.slotFlags r' hs' x hx').2
  rw [h1] at h2
  injection h2

theorem inv_used_not_large (hI : Inv m h live FL OL LL) (r : PoolRef) (x : Nat) (hx : x ∈ OL r) :
    x ∉ LL := by
  intro hx'
  have h1 := (hI.usedFlags r x hx).2.1
  have h2 := (hI.largeFlags x hx').2.1
  rw [h1] at h2
  cases h2

theorem inv_used_own (hI : Inv m h live FL OL LL) (r r' : PoolRef) (x : Nat) (hx : x ∈ OL r)
    (hx' : x ∈ OL r') : r = r' := by
  have h1 := (hI.usedFlags r x hx).2.2.1
  have h2 := (hI.usedFlags r' x hx').2.2.1
  rw [h1] at h2
  injection h2

end

theorem inv_init (h : Heap) : Inv MemoryMgr.new h [] (fun _ => []) (fun _ => []) [] where
  allocMap := rfl
  nBlocks := fun r => by cases r <;> rfl
  nSize := fun r => by cases r <;> decide
  mutex := fun r => by cases r <;> rfl
  free := fun r => by cases r <;> rfl
  used := fun r => by cases r <;> rfl
  large := rfl
  arena := fun r hr => by cases r <;> exact absurd rfl hr
  freeSlot := fun r x hx => by simp at hx
  slotFlags := fun r hr => by cases r <;> exact absurd rfl hr
  usedFlags := fun r x hx => by simp at hx
  largeFlags := fun x hx => by simp at hx
  liveNodup := List.nodup_nil
  liveBlock := fun p hp => by simp at hp

/-- A store that changes only the reference count of one header keeps the
invariant. -/
theorem inv_write_mRef {m : MemoryMgr} {h : Heap} {live : List Nat} {FL OL : PoolRef → List Nat}
    {LL : List Nat} (hI : Inv m h live FL OL LL) (b : Nat) (v : Int) :
    Inv m (h.write b { h.mem b with mRef := v }) live FL OL LL := by
  have hmem : ∀ y, ((h.write b { h.mem b with mRef := v }).mem y).pNext = (h.mem y).pNext ∧
      ((h.write b { h.mem b with mRef := v }).mem y).pPrev = (h.mem y).pPrev ∧
      ((h.write b { h.mem b with mRef := v }).mem y).inPool = (h.mem y).inPool ∧
      ((h.write b { h.mem b with mRef := v }).mem y).allocPool = (h.mem y).allocPool ∧
      ((h.write b { h.mem b with mRef := v }).mem y).pAlloc = (h.mem y).pAlloc := by
    intro y
    rw [write_mem]
    split_ifs with hy
    · subst hy; exact ⟨rfl, rfl, rfl, rfl, rfl⟩
    · exact ⟨rfl, rfl, rfl, rfl, rfl⟩
  exact {
    allocMap := hI.allocMap
    nBlocks := hI.nBlocks
    nSize := hI.nSize
    mutex := hI.mutex
    free := fun r => isList_congr (fun x _ => (hmem x).1) (hI.free r)
    used := fun r => isDList_congr (fun x _ => ⟨(hmem x).1, (hmem x).2.1⟩) (hI.used r)
    large := isDList_congr (fun x _ => ⟨(hmem x).1, (hmem x).2.1⟩) hI.large
    arena := hI.arena
    freeSlot := hI.freeSlot
    slotFlags := fun r hr x hx => by
      rw [(hmem x).2.2.1, (hmem x).2.2.2.2]; exact hI.slotFlags r hr x hx
    usedFlags := fun r x hx => by
      rw [(hmem x).2.2.1, (hmem x).2.2.2.1, (hmem x).2.2.2.2]; exact hI.usedFlags r x hx
    largeFlags := fun x hx => by
      rw [(hmem x).2.2.1, (hmem x).2.2.2.1]; exact hI.largeFlags x hx
    liveNodup := hI.liveNodup
    liveBlock := hI.liveBlock }

theorem slots_ne_zero (s : Nat) (n a x : Nat) (hx : x ∈ slots a s n) (ha : a ≠ 0) : x ≠ 0 := by
  obtain ⟨i, _, rfl⟩ := (mem_slots s n a x).1 hx
  omega

theorem sub_ne_of_ne (p q : Nat) (hp : sizeofMemoryBlock ≤ p) (hq : sizeofMemoryBlock ≤ q)
    (hne : p ≠ q) : p - sizeofMemoryBlock ≠ q - sizeofMemoryBlock := by
  omega

/-- Handing out the head of a pool's free list keeps the invariant. -/
theorem inv_pop {m : MemoryMgr} {h : Heap} {live : List Nat} {FL OL : PoolRef → List Nat}
    {LL : List Nat} (hI : Inv m h live FL OL LL) (r : PoolRef)
    (hh : (m.pool r)._pHead ≠ 0) :
    ∃ xs, FL r = (m.pool r)._pHead :: xs ∧ Inv
      (m.setPool r { m.pool r with _pHead := (h.mem (m.pool r)._pHead).pNext, _mutex := false })
      (h.write (m.pool r)._pHead { h.mem (m.pool r)._pHead with mRef := 1, pNext := 0, pPrev := 0 })
      (((m.pool r)._pHead + sizeofMemoryBlock) :: live)
      (fun r' => if r' = r then xs else FL r') OL LL := by
  obtain ⟨xs, hxs⟩ := isList_head_ne (hI.free r) hh
  have hF := hI.free r
  rw [hxs] at hF
  have hnd := isList_nodup hF
  have hxxs : (m.pool r)._pHead ∉ xs := (List.nodup_cons.1 hnd).1
  obtain ⟨_, _, htail⟩ := hF
  have hxF : (m.pool r)._pHead ∈ FL r := by rw [hxs]; exact List.mem_cons_self _ _
  obtain ⟨hs, hslot⟩ := hI.freeSlot r _ hxF
  have hsub : (m.pool r)._pHead + sizeofMemoryBlock - sizeofMemoryBlock = (m.pool r)._pHead := by
    omega
  -- the store touches the popped header only, and none of its flags
  have hne : ∀ y, y ≠ (m.pool r)._pHead →
      (h.write (m.pool r)._pHead
        { h.mem (m.pool r)._pHead with mRef := 1, pNext := 0, pPrev := 0 }).mem y = h.mem y :=
    fun y hy => write_mem_ne _ _ _ _ hy
  have hfl : ∀ y,
      ((h.write (m.pool r)._pHead
        { h.mem (m.pool r)._pHead with mRef := 1, pNext := 0, pPrev := 0 }).mem y).inPool
        = (h.mem y).inPool ∧
      ((h.write (m.pool r)._pHead
        { h.mem (m.pool r)._pHead with mRef := 1, pNext := 0, pPrev := 0 }).mem y).allocPool
        = (h.mem y).allocPool ∧
      ((h.write (m.pool r)._pHead
        { h.mem (m.pool r)._pHead with mRef := 1, pNext := 0, pPrev := 0 }).mem y).pAlloc
        = (h.mem y).pAlloc := by
    intro y
    rw [write_mem]
    split_ifs with hy
    · subst hy; exact ⟨rfl, rfl, rfl⟩
    · exact ⟨rfl, rfl, rfl⟩
  have hpool : ∀ r', (m.setPool r
      { m.pool r with _pHead := (h.mem (m.pool r)._pHead).pNext, _mutex := false }).pool r' =
      if r' = r then
        { m.pool r with _pHead := (h.mem (m.pool r)._pHead).pNext, _mutex := false }
      else m.pool r' := fun r' => pool_setPool m r r' _
  refine ⟨xs, hxs, ?_⟩
  exact {
    allocMap := by rw [setPool_allocMap]; exact hI.allocMap
    nBlocks := fun r' => by
      rw [hpool]; split_ifs with hr
      · subst hr; exact hI.nBlocks _
      · exact hI.nBlocks _
    nSize := fun r' => by
      rw [hpool]; split_ifs with hr
      · subst hr; exact hI.nSize _
      · exact hI.nSize _
    mutex := fun r' => by
      rw [hpool]; split_ifs with hr
      · rfl
      · exact hI.mutex _
    free := fun r' => by
      rw [hpool]
      by_cases hr : r' = r
      · subst hr
        simp only [if_true]
        exact isList_congr (fun y hy => by rw [hne y (fun e => hxxs (e ▸ hy))]) htail
      · simp only [hr, if_false]
        apply isList_congr _ (hI.free r')
        intro y hy
        rw [hne y]
        intro e
        exact hr (inv_slot_own hI r' r (hI.freeSlot r' y hy).1 hs y (hI.freeSlot r' y hy).2
          (e ▸ hslot))
    used := fun r' => by
      have : ((m.setPool r
          { m.pool r with _pHead := (h.mem (m.pool r)._pHead).pNext, _mutex := false }).pool
          r')._pHeadUsed = (m.pool r')._pHeadUsed := by
        rw [hpool]; split_ifs with hr
        · subst hr; rfl
        · rfl
      rw [this]
      apply isDList_congr _ (hI.used r')
      intro y hy
      rw [hne y (fun e => inv_slot_not_used hI r r' hs _ hslot (e ▸ hy))]
      exact ⟨rfl, rfl⟩
    large := by
      rw [(setPool_fields m r _).1]
      apply isDList_congr _ hI.large
      intro y hy
      rw [hne y (fun e => inv_slot_not_large hI r hs _ hslot (e ▸ hy))]
      exact ⟨rfl, rfl⟩
    arena := fun r' => by
      rw [hpool]; split_ifs with hr
      · subst hr; exact hI.arena _
      · exact hI.arena _
    freeSlot := fun r' y hy => by
      rw [hpool]
      by_cases hr : r' = r
      · subst hr
        simp only [if_true] at hy ⊢
        exact hI.freeSlot _ y (by rw [hxs]; exact List.mem_cons_of_mem _ hy)
      · simp only [hr, if_false] at hy ⊢
        exact hI.freeSlot _ y hy
    slotFlags := fun r' => by
      rw [hpool]
      by_cases hr : r' = r
      · subst hr
        simp only [if_true]
        intro hs' y hy
        rw [(hfl y).1, (hfl y).2.2]
        exact hI.slotFlags _ hs y hy
      · simp only [hr, if_false]
        intro hs' y hy
        rw [(hfl y).1, (hfl y).2.2]
        exact hI.slotFlags _ hs' y hy
    usedFlags := fun r' y hy => by
      rw [(hfl y).1, (hfl y).2.1, (hfl y).2.2]
      exact hI.usedFlags r' y hy
    largeFlags := fun y hy => by
      rw [(hfl y).1, (hfl y).2.1]
      exact hI.largeFlags y hy
    liveNodup := by
      refine List.nodup_cons.2 ⟨?_, hI.liveNodup⟩
      intro hp
      have hb := (hI.liveBlock _ hp).2
      rw [hsub] at hb
      rcases hb with ⟨r', h1, h2, h3⟩ | ⟨r', h1⟩ | h1
      · have := inv_slot_own hI r' r h1 hs _ h2 hslot
        subst this
        exact h3 hxF
      · exact inv_slot_not_used hI r r' hs _ hslot h1
      · exact inv_slot_not_large hI r hs _ hslot h1
    liveBlock := fun p hp => by
      rcases List.mem_cons.1 hp with rfl | hp'
      · refine ⟨by omega, Or.inl ⟨r, ?_⟩⟩
        rw [hpool, if_pos rfl, hsub]
        simp only [if_true]
        exact ⟨hs, hslot, hxxs⟩
      · obtain ⟨g1, g2⟩ := hI.liveBlock p hp'
        refine ⟨g1, ?_⟩
        rcases g2 with ⟨r', h1, h2, h3⟩ | g2 | g2
        · refine Or.inl ⟨r', ?_⟩
          rw [hpool]
          by_cases hr : r' = r
          · subst hr
            simp only [if_true]
            exact ⟨h1, h2, fun c => h3 (by rw [hxs]; exact List.mem_cons_of_mem _ c)⟩
          · simp only [hr, if_false]
            exact ⟨h1, h2, h3⟩
        · exact Or.inr (Or.inl g2)
        · exact Or.inr (Or.inr g2) }

theorem initHeap_untouched (this : PoolRef) (p : MemoryAlloc) (h : Heap) (a x : Nat)
    (hn : 1 ≤ p._nBlocks) (hx : x ∉ slots a p.realSize p._nBlocks) :
    (initHeap this p h a).mem x = h.mem x := by
  apply initHeap_other
  intro j hj e
  exact hx ((mem_slots _ _ _ _).2 ⟨j, by omega, e⟩)

/-- Laying out the arena of a pool on its first allocation keeps the invariant. -/
theorem inv_first {m : MemoryMgr} {h : Heap} {live : List Nat} {FL OL : PoolRef → List Nat}
    {LL : List Nat} (hI : Inv m h live FL OL LL) (r : PoolRef) (a : Nat)
    (hs0 : (m.pool r)._pSelf = 0) (ha : a ≠ 0)
    (hfresh : Fresh h a (((m.pool r)._nBlocks * (m.pool r).realSize) % SIZE_MOD)) :
    ∃ xs, slots a (m.pool r).realSize BLOCKS_SIZE = a :: xs ∧ Inv
      (m.setPool r { m.pool r with
        _pSelf := a, _pHead := ((initHeap r (m.pool r) h a).mem a).pNext, _mutex := false })
      ((initHeap r (m.pool r) h a).write a
        { (initHeap r (m.pool r) h a).mem a with mRef := 1, pNext := 0, pPrev := 0 })
      ((a + sizeofMemoryBlock) :: live) (fun r' => if r' = r then xs else FL r') OL LL := by
  obtain ⟨hrs, hs40, hs1064⟩ := realSize_bounds _ (hI.nSize r)
  have hN := hI.nBlocks r
  have hpos : 0 < (m.pool r).realSize := by unfold sizeofMemoryBlock at hs40; omega
  have hn1 : 1 ≤ (m.pool r)._nBlocks := by rw [hN]; unfold BLOCKS_SIZE; omega
  have hsize : ((m.pool r)._nBlocks * (m.pool r).realSize) % SIZE_MOD =
      BLOCKS_SIZE * (m.pool r).realSize := by
    rw [hN]
    apply Nat.mod_eq_of_lt
    unfold BLOCKS_SIZE SIZE_MOD
    omega
  rw [hsize] at hfresh
  have hsub : a + sizeofMemoryBlock - sizeofMemoryBlock = a := by omega
  have hL := initHeap_isList r (m.pool r) h a ha hpos hn1
  have hflags := initHeap_flags r (m.pool r) h a hpos
  have hother := fun x => initHeap_untouched r (m.pool r) h a x hn1
  have hlive := (initHeap_live r (m.pool r) h a).1
  rw [hsize] at hlive
  rw [hN] at hL hflags hother
  generalize initHeap r (m.pool r) h a = H at hL hflags hother hlive
  have hamem : a ∈ slots a (m.pool r).realSize BLOCKS_SIZE :=
    slots_head _ _ _ (by unfold BLOCKS_SIZE; omega)
  obtain ⟨xs, hxs⟩ := isList_head_ne hL ha
  rw [hxs] at hL
  have hnd := isList_nodup hL
  have haxs : a ∉ xs := (List.nodup_cons.1 hnd).1
  obtain ⟨_, _, htail⟩ := hL
  -- headers in storage that was allocated before are not in the new arena
  have hold : ∀ y, Tracked h y → y ∉ slots a (m.pool r).realSize BLOCKS_SIZE := by
    intro y hy hyS
    have hb := slot_bounds _ _ _ _ hyS hs40
    exact fresh_tracked_ne h a _ y y hfresh hy hb.1 (by unfold sizeofMemoryBlock at hb; omega) rfl
  have hkeep : ∀ y, Tracked h y →
      (H.write a { H.mem a with mRef := 1, pNext := 0, pPrev := 0 }).mem y = h.mem y := by
    intro y hy
    have hyS := hold y hy
    have hya : y ≠ a := fun e => hyS (e ▸ hamem)
    rw [write_mem_ne _ _ _ _ hya, hother y hyS]
  have hsubl : ∀ reg ∈ h.live,
      reg ∈ (H.write a { H.mem a with mRef := 1, pNext := 0, pPrev := 0 }).live := by
    intro reg hreg
    rw [write_live, hlive]
    exact List.mem_cons_of_mem _ hreg
  have hnew : ∀ y ∈ slots a (m.pool r).realSize BLOCKS_SIZE,
      ((H.write a { H.mem a with mRef := 1, pNext := 0, pPrev := 0 }).mem y).inPool = true ∧
      ((H.write a { H.mem a with mRef := 1, pNext := 0, pPrev := 0 }).mem y).pAlloc = some r := by
    intro y hy
    obtain ⟨f1, _, f3, _⟩ := hflags y hy
    rw [write_mem]
    split_ifs with hya
    · subst hya; exact ⟨f1, f3⟩
    · exact ⟨f1, f3⟩
  have hpool : ∀ r', (m.setPool r { m.pool r with
        _pSelf := a, _pHead := (H.mem a).pNext, _mutex := false }).pool r' =
      if r' = r then { m.pool r with _pSelf := a, _pHead := (H.mem a).pNext, _mutex := false }
      else m.pool r' := fun r' => pool_setPool m r r' _
  have hFLr : FL r = [] := by
    cases hF : FL r with
    | nil => rfl
    | cons y ys => exact absurd hs0 (hI.freeSlot r y (by rw [hF]; exact List.mem_cons_self _ _)).1
  refine ⟨xs, hxs, ?_⟩
  exact {
    allocMap := by rw [setPool_allocMap]; exact hI.allocMap
    nBlocks := fun r' => by
      rw [hpool]; split_ifs with hr
      · subst hr; exact hI.nBlocks _
      · exact hI.nBlocks _
    nSize := fun r' => by
      rw [hpool]; split_ifs with hr
      · subst hr; exact hI.nSize _
      · exact hI.nSize _
    mutex := fun r' => by
      rw [hpool]; split_ifs with hr
      · rfl
      · exact hI.mutex _
    free := fun r' => by
      rw [hpool]
      by_cases hr : r' = r
      · subst hr
        simp only [if_true]
        exact isList_congr (fun y hy => by
          have hya : y ≠ a := fun e => haxs (e ▸ hy)
          rw [write_mem_ne _ _ _ _ hya]) htail
      · simp only [hr, if_false]
        exact isList_congr (fun y hy => by rw [hkeep y (inv_free_tracked hI r' y hy)]) (hI.free r')
    used := fun r' => by
      have : ((m.setPool r { m.pool r with
          _pSelf := a, _pHead := (H.mem a).pNext, _mutex := false }).pool r')._pHeadUsed =
          (m.pool r')._pHeadUsed := by
        rw [hpool]; split_ifs with hr
        · subst hr; rfl
        · rfl
      rw [this]
      exact isDList_congr (fun y hy => by
        rw [hkeep y (inv_used_tracked hI r' y hy)]; exact ⟨rfl, rfl⟩) (hI.used r')
    large := by
      rw [(setPool_fields m r _).1]
      exact isDList_congr (fun y hy => by
        rw [hkeep y (inv_large_tracked hI y hy)]; exact ⟨rfl, rfl⟩) hI.large
    arena := fun r' => by
      rw [hpool]
      by_cases hr : r' = r
      · subst hr
        simp only [if_true]
        intro _
        rw [write_live, hlive]
        exact List.mem_cons_self _ _
      · simp only [hr, if_false]
        intro hs'
        exact hsubl _ (hI.arena r' hs')
    freeSlot := fun r' y hy => by
      rw [hpool]
      by_cases hr : r' = r
      · subst hr
        simp only [if_true] at hy ⊢
        refine ⟨ha, ?_⟩
        show y ∈ slots a (m.pool r').realSize BLOCKS_SIZE
        rw [hxs]; exact List.mem_cons_of_mem _ hy
      · simp only [hr, if_false] at hy ⊢
        exact hI.freeSlot _ y hy
    slotFlags := fun r' => by
      rw [hpool]
      by_cases hr : r' = r
      · subst hr
        simp only [if_true]
        intro _ y hy
        exact hnew y hy
      · simp only [hr, if_false]
        intro hs' y hy
        rw [hkeep y (inv_slot_tracked hI r' hs' y hy)]
        exact hI.slotFlags _ hs' y hy
    usedFlags := fun r' y hy => by
      rw [hkeep y (inv_used_tracked hI r' y hy)]
      obtain ⟨g1, g2, g3, sz, g4, g5⟩ := hI.usedFlags r' y hy
      exact ⟨g1, g2, g3, sz, g4, hsubl _ g5⟩
    largeFlags := fun y hy => by
      rw [hkeep y (inv_large_tracked hI y hy)]
      obtain ⟨g1, g2, sz, g4, g5⟩ := hI.largeFlags y hy
      exact ⟨g1, g2, sz, g4, hsubl _ g5⟩
    liveNodup := by
      refine List.nodup_cons.2 ⟨?_, hI.liveNodup⟩
      intro hp
      have ht := inv_live_tracked hI _ hp
      rw [hsub] at ht
      exact hold a ht hamem
    liveBlock := fun p hp => by
      rcases List.mem_cons.1 hp with rfl | hp'
      · refine ⟨by omega, Or.inl ⟨r, ?_⟩⟩
        rw [hpool, if_pos rfl, hsub]
        simp only [if_true]
        exact ⟨ha, hamem, haxs⟩
      · obtain ⟨g1, g2⟩ := hI.liveBlock p hp'
        refine ⟨g1, ?_⟩
        rcases g2 with ⟨r', h1, h2, h3⟩ | g2 | g2
        · refine Or.inl ⟨r', ?_⟩
          rw [hpool]
          by_cases hr : r' = r
          · subst hr
            exact absurd hs0 h1
          · simp only [hr, if_false]
            exact ⟨h1, h2, h3⟩
        · exact Or.inr (Or.inl g2)
        · exact Or.inr (Or.inr g2) }

/-- Splicing a block from `malloc` onto a pool's overflow list keeps the
invariant. -/
theorem inv_push_used {m : MemoryMgr} {h : Heap} {live : List Nat} {FL OL : PoolRef → List Nat}
    {LL : List Nat} (hI : Inv m h live FL OL LL) (r : PoolRef) (a size : Nat)
    (ha : a ≠ 0) (hsz : sizeofMemoryBlock ≤ size) (hfresh : Fresh h a size) :
    Inv
      (m.setPool r { m.pool r with _pHeadUsed := a, _mutex := false })
      (pushHeap h a size
        { pAlloc := some r, pPrev := 0, pNext := 0, mId := -1, mRef := 1,
          inPool := false, allocPool := true } (m.pool r)._pHeadUsed)
      ((a + sizeofMemoryBlock) :: live) FL (fun r' => if r' = r then a :: OL r else OL r') LL := by
  have hsub : a + sizeofMemoryBlock - sizeofMemoryBlock = a := by omega
  have hold : ∀ y, Tracked h y → y ≠ a := fun y hy =>
    Ne.symm (fresh_tracked_ne h a size y a hfresh hy (le_refl _)
      (by unfold sizeofMemoryBlock at hsz; omega))
  obtain ⟨f1, _, _, f4, f5⟩ := pushHeap_fields h a size
    { pAlloc := some r, pPrev := 0, pNext := 0, mId := -1, mRef := 1,
      inPool := false, allocPool := true } (m.pool r)._pHeadUsed
  have hst := fun y => pushHeap_stable h a size
    { pAlloc := some r, pPrev := 0, pNext := 0, mId := -1, mRef := 1,
      inPool := false, allocPool := true } (m.pool r)._pHeadUsed y
  have hoth := fun y => pushHeap_other h a size
    { pAlloc := some r, pPrev := 0, pNext := 0, mId := -1, mRef := 1,
      inPool := false, allocPool := true } (m.pool r)._pHeadUsed y
  have hlive := (pushHeap_live h a size
    { pAlloc := some r, pPrev := 0, pNext := 0, mId := -1, mRef := 1,
      inPool := false, allocPool := true } (m.pool r)._pHeadUsed).1
  have hpush := isDList_push h a size
    { pAlloc := some r, pPrev := 0, pNext := 0, mId := -1, mRef := 1,
      inPool := false, allocPool := true } (m.pool r)._pHeadUsed (OL r) (hI.used r) ha
    (fun c => hold a (inv_used_tracked hI r a c) rfl) rfl rfl
  generalize pushHeap h a size
    { pAlloc := some r, pPrev := 0, pNext := 0, mId := -1, mRef := 1,
      inPool := false, allocPool := true } (m.pool r)._pHeadUsed = H
    at f1 f4 f5 hst hoth hlive hpush
  -- the old head of the overflow list is on that list or null
  have hused : ∀ y, y ≠ 0 → y ∉ OL r → y ≠ (m.pool r)._pHeadUsed := by
    intro y hy0 hyO e
    have := hI.used r
    rw [← e] at this
    obtain ⟨xs, hx⟩ := isDList_head_ne this hy0
    exact hyO (by rw [hx]; exact List.mem_cons_self _ _)
  have hsubl : ∀ reg ∈ h.live, reg ∈ H.live := by
    intro reg hreg
    rw [hlive]
    exact List.mem_cons_of_mem _ hreg
  have hpool : ∀ r', (m.setPool r { m.pool r with _pHeadUsed := a, _mutex := false }).pool r' =
      if r' = r then { m.pool r with _pHeadUsed := a, _mutex := false } else m.pool r' :=
    fun r' => pool_setPool m r r' _
  exact {
    allocMap := by rw [setPool_allocMap]; exact hI.allocMap
    nBlocks := fun r' => by
      rw [hpool]; split_ifs with hr
      · subst hr; exact hI.nBlocks _
      · exact hI.nBlocks _
    nSize := fun r' => by
      rw [hpool]; split_ifs with hr
      · subst hr; exact hI.nSize _
      · exact hI.nSize _
    mutex := fun r' => by
      rw [hpool]; split_ifs with hr
      · rfl
      · exact hI.mutex _
    free := fun r' => by
      have : ((m.setPool r { m.pool r with _pHeadUsed := a, _mutex := false }).pool r')._pHead =
          (m.pool r')._pHead := by
        rw [hpool]; split_ifs with hr
        · subst hr; rfl
        · rfl
      rw [this]
      exact isList_congr (fun y hy => (hst y (hold y (inv_free_tracked hI r' y hy))).2.1)
        (hI.free r')
    used := fun r' => by
      rw [hpool]
      by_cases hr : r' = r
      · subst hr
        simp only [if_true]
        exact hpush
      · simp only [hr, if_false]
        apply isDList_congr _ (hI.used r')
        intro y hy
        have hy0 : y ≠ 0 := fun e => isList_not_mem_zero (isDList_isList (hI.used r')) (e ▸ hy)
        rw [hoth y (hold y (inv_used_tracked hI r' y hy))
          (hused y hy0 (fun c => hr (inv_used_own hI r' r y hy c)))]
        exact ⟨rfl, rfl⟩
    large := by
      rw [(setPool_fields m r _).1]
      apply isDList_congr _ hI.large
      intro y hy
      have hy0 : y ≠ 0 := fun e => isList_not_mem_zero (isDList_isList hI.large) (e ▸ hy)
      rw [hoth y (hold y (inv_large_tracked hI y hy))
        (hused y hy0 (fun c => inv_used_not_large hI r y c hy))]
      exact ⟨rfl, rfl⟩
    arena := fun r' => by
      rw [hpool]; split_ifs with hr
      · subst hr; exact fun hs => hsubl _ (hI.arena _ hs)
      · exact fun hs => hsubl _ (hI.arena _ hs)
    freeSlot := fun r' y hy => by
      rw [hpool]; split_ifs with hr
      · subst hr; exact hI.freeSlot _ y hy
      · exact hI.freeSlot _ y hy
    slotFlags := fun r' => by
      have key : (m.pool r')._pSelf ≠ 0 →
          ∀ x ∈ slots (m.pool r')._pSelf (m.pool r').realSize BLOCKS_SIZE,
            (H.mem x).inPool = true ∧ (H.mem x).pAlloc = some r' := by
        intro hs y hy
        have hya := hold y (inv_slot_tracked hI r' hs y hy)
        rw [(hst y hya).2.2.2.2.1, (hst y hya).1]
        exact hI.slotFlags r' hs y hy
      rw [hpool]; split_ifs with hr
      · subst hr; exact key
      · exact key
    usedFlags := fun r' y hy => by
      by_cases hr : r' = r
      · subst hr
        simp only [if_true] at hy
        rcases List.mem_cons.1 hy with rfl | hy'
        · exact ⟨f4, f5, f1, size, hsz, by rw [hlive]; exact List.mem_cons_self _ _⟩
        · have hya := hold y (inv_used_tracked hI r' y hy')
          rw [(hst y hya).2.2.2.2.1, (hst y hya).2.2.2.2.2, (hst y hya).1]
          obtain ⟨g1, g2, g3, sz, g4, g5⟩ := hI.usedFlags r' y hy'
          exact ⟨g1, g2, g3, sz, g4, hsubl _ g5⟩
      · simp only [hr, if_false] at hy
        have hya := hold y (inv_used_tracked hI r' y hy)
        rw [(hst y hya).2.2.2.2.1, (hst y hya).2.2.2.2.2, (hst y hya).1]
        obtain ⟨g1, g2, g3, sz, g4, g5⟩ := hI.usedFlags r' y hy
        exact ⟨g1, g2, g3, sz, g4, hsubl _ g5⟩
    largeFlags := fun y hy => by
      have hya := hold y (inv_large_tracked hI y hy)
      rw [(hst y hya).2.2.2.2.1, (hst y hya).2.2.2.2.2]
      obtain ⟨g1, g2, sz, g4, g5⟩ := hI.largeFlags y hy
      exact ⟨g1, g2, sz, g4, hsubl _ g5⟩
    liveNodup := by
      refine List.nodup_cons.2 ⟨?_, hI.liveNodup⟩
      intro hp
      have ht := inv_live_tracked hI _ hp
      rw [hsub] at ht
      exact hold a ht rfl
    liveBlock := fun p hp => by
      rcases List.mem_cons.1 hp with rfl | hp'
      · refine ⟨by omega, Or.inr (Or.inl ⟨r, ?_⟩)⟩
        rw [hsub]
        simp
      · obtain ⟨g1, g2⟩ := hI.liveBlock p hp'
        refine ⟨g1, ?_⟩
        rcases g2 with ⟨r', h1, h2, h3⟩ | ⟨r', h1⟩ | g2
        · refine Or.inl ⟨r', ?_⟩
          rw [hpool]; split_ifs with hr
          · subst hr; exact ⟨h1, h2, h3⟩
          · exact ⟨h1, h2, h3⟩
        · refine Or.inr (Or.inl ⟨r', ?_⟩)
          by_cases hr : r' = r
          · subst hr
            simp only [if_true]
            exact List.mem_cons_of_mem _ h1
          · simp only [hr, if_false]
            exact h1
        · exact Or.inr (Or.inr g2) }

/-- Splicing a block from `malloc` onto the manager's large-object list keeps
the invariant. -/
theorem inv_push_large {m : MemoryMgr} {h : Heap} {live : List Nat} {FL OL : PoolRef → List Nat}
    {LL : List Nat} (hI : Inv m h live FL OL LL) (a size : Nat)
    (ha : a ≠ 0) (hsz : sizeofMemoryBlock ≤ size) (hfresh : Fresh h a size) :
    Inv { m with _pHeadUsed := a, _mutex := false }
      (pushHeap h a size
        { pAlloc := none, pPrev := 0, pNext := 0, mId := -1, mRef := 1,
          inPool := false, allocPool := false } m._pHeadUsed)
      ((a + sizeofMemoryBlock) :: live) FL OL (a :: LL) := by
  have hsub : a + sizeofMemoryBlock - sizeofMemoryBlock = a := by omega
  have hold : ∀ y, Tracked h y → y ≠ a := fun y hy =>
    Ne.symm (fresh_tracked_ne h a size y a hfresh hy (le_refl _)
      (by unfold sizeofMemoryBlock at hsz; omega))
  obtain ⟨_, _, _, f4, f5⟩ := pushHeap_fields h a size
    { pAlloc := none, pPrev := 0, pNext := 0, mId := -1, mRef := 1,
      inPool := false, allocPool := false } m._pHeadUsed
  have hst := fun y => pushHeap_stable h a size
    { pAlloc := none, pPrev := 0, pNext := 0, mId := -1, mRef := 1,
      inPool := false, allocPool := false } m._pHeadUsed y
  have hoth := fun y => pushHeap_other h a size
    { pAlloc := none, pPrev := 0, pNext := 0, mId := -1, mRef := 1,
      inPool := false, allocPool := false } m._pHeadUsed y
  have hlive := (pushHeap_live h a size
    { pAlloc := none, pPrev := 0, pNext := 0, mId := -1, mRef := 1,
      inPool := false, allocPool := false } m._pHeadUsed).1
  have hpush := isDList_push h a size
    { pAlloc := none, pPrev := 0, pNext := 0, mId := -1, mRef := 1,
      inPool := false, allocPool := false } m._pHeadUsed LL hI.large ha
    (fun c => hold a (inv_large_tracked hI a c) rfl) rfl rfl
  generalize pushHeap h a size
    { pAlloc := none, pPrev := 0, pNext := 0, mId := -1, mRef := 1,
      inPool := false, allocPool := false } m._pHeadUsed = H
    at f4 f5 hst hoth hlive hpush
  have hused : ∀ y, y ≠ 0 → y ∉ LL → y ≠ m._pHeadUsed := by
    intro y hy0 hyO e
    have := hI.large
    rw [← e] at this
    obtain ⟨xs, hx⟩ := isDList_head_ne this hy0
    exact hyO (by rw [hx]; exact List.mem_cons_self _ _)
  have hsubl : ∀ reg ∈ h.live, reg ∈ H.live := by
    intro reg hreg
    rw [hlive]
    exact List.mem_cons_of_mem _ hreg
  have hpool : ∀ r', ({ m with _pHeadUsed := a, _mutex := false } : MemoryMgr).pool r' =
      m.pool r' := fun r' => by cases r' <;> rfl
  exact {
    allocMap := hI.allocMap
    nBlocks := fun r' => by rw [hpool]; exact hI.nBlocks _
    nSize := fun r' => by rw [hpool]; exact hI.nSize _
    mutex := fun r' => by rw [hpool]; exact hI.mutex _
    free := fun r' => by
      rw [hpool]
      exact isList_congr (fun y hy => (hst y (hold y (inv_free_tracked hI r' y hy))).2.1)
        (hI.free r')
    used := fun r' => by
      rw [hpool]
      apply isDList_congr _ (hI.used r')
      intro y hy
      have hy0 : y ≠ 0 := fun e => isList_not_mem_zero (isDList_isList (hI.used r')) (e ▸ hy)
      rw [hoth y (hold y (inv_used_tracked hI r' y hy))
        (hused y hy0 (inv_used_not_large hI r' y hy))]
      exact ⟨rfl, rfl⟩
    large := hpush
    arena := fun r' => by rw [hpool]; exact fun hs => hsubl _ (hI.arena _ hs)
    freeSlot := fun r' y hy => by rw [hpool]; exact hI.freeSlot _ y hy
    slotFlags := fun r' => by
      rw [hpool]
      intro hs y hy
      have hya := hold y (inv_slot_tracked hI r' hs y hy)
      rw [(hst y hya).2.2.2.2.1, (hst y hya).1]
      exact hI.slotFlags r' hs y hy
    usedFlags := fun r' y hy => by
      have hya := hold y (inv_used_tracked hI r' y hy)
      rw [(hst y hya).2.2.2.2.1, (hst y hya).2.2.2.2.2, (hst y hya).1]
      obtain ⟨g1, g2, g3, sz, g4, g5⟩ := hI.usedFlags r' y hy
      exact ⟨g1, g2, g3, sz, g4, hsubl _ g5⟩
    largeFlags := fun y hy => by
      rcases List.mem_cons.1 hy with rfl | hy'
      · exact ⟨f4, f5, size, hsz, by rw [hlive]; exact List.mem_cons_self _ _⟩
      · have hya := hold y (inv_large_tracked hI y hy')
        rw [(hst y hya).2.2.2.2.1, (hst y hya).2.2.2.2.2]
        obtain ⟨g1, g2, sz, g4, g5⟩ := hI.largeFlags y hy'
        exact ⟨g1, g2, sz, g4, hsubl _ g5⟩
    liveNodup := by
      refine List.nodup_cons.2 ⟨?_, hI.liveNodup⟩
      intro hp
      have ht := inv_live_tracked hI _ hp
      rw [hsub] at ht
      exact hold a ht rfl
    liveBlock := fun p hp => by
      rcases List.mem_cons.1 hp with rfl | hp'
      · refine ⟨by omega, Or.inr (Or.inr ?_)⟩
        rw [hsub]
        exact List.mem_cons_self _ _
      · obtain ⟨g1, g2⟩ := hI.liveBlock p hp'
        refine ⟨g1, ?_⟩
        rcases g2 with ⟨r', h1, h2, h3⟩ | ⟨r', h1⟩ | g2
        · refine Or.inl ⟨r', ?_⟩
          rw [hpool]
          exact ⟨h1, h2, h3⟩
        · exact Or.inr (Or.inl ⟨r', h1⟩)
        · exact Or.inr (Or.inr (List.mem_cons_of_mem _ g2)) }

/-- Returning a live arena block to its pool's free list keeps the invariant. -/
theorem inv_recycle {m : MemoryMgr} {h : Heap} {live : List Nat} {FL OL : PoolRef → List Nat}
    {LL : List Nat} (hI : Inv m h live FL OL LL) (r : PoolRef) (p : Nat) (hp : p ∈ live)
    (hs : (m.pool r)._pSelf ≠ 0)
    (hslot : p - sizeofMemoryBlock ∈ slots (m.pool r)._pSelf (m.pool r).realSize BLOCKS_SIZE)
    (hnF : p - sizeofMemoryBlock ∉ FL r) :
    Inv
      (m.setPool r { m.pool r with _pHead := p - sizeofMemoryBlock, _mutex := false })
      (recycleHeap h (p - sizeofMemoryBlock) (m.pool r)._pHead)
      (live.erase p) (fun r' => if r' = r then (p - sizeofMemoryBlock) :: FL r else FL r') OL LL := by
  have hp40 := (hI.liveBlock p hp).1
  have hb0 : p - sizeofMemoryBlock ≠ 0 := slots_ne_zero _ _ _ _ hslot hs
  have hst := fun y => recycleHeap_stable h (p - sizeofMemoryBlock) (m.pool r)._pHead y
  have hoth := fun y => recycleHeap_other h (p - sizeofMemoryBlock) (m.pool r)._pHead y
  obtain ⟨f1, _, _, f4, _⟩ := recycleHeap_fields h (p - sizeofMemoryBlock) (m.pool r)._pHead
  have hlive := (recycleHeap_live h (p - sizeofMemoryBlock) (m.pool r)._pHead).1
  have hrec := isList_recycle h (p - sizeofMemoryBlock) (m.pool r)._pHead (FL r) (hI.free r) hb0 hnF
  generalize recycleHeap h (p - sizeofMemoryBlock) (m.pool r)._pHead = H
    at hst hoth f1 f4 hlive hrec
  -- the old head of the free list is on that list or null
  have hhead : ∀ y, y ≠ 0 → y ∉ FL r → y ≠ (m.pool r)._pHead := by
    intro y hy0 hyO e
    have := hI.free r
    rw [← e] at this
    obtain ⟨xs, hx⟩ := isList_head_ne this hy0
    exact hyO (by rw [hx]; exact List.mem_cons_self _ _)
  have hpool : ∀ r', (m.setPool r
      { m.pool r with _pHead := p - sizeofMemoryBlock, _mutex := false }).pool r' =
      if r' = r then { m.pool r with _pHead := p - sizeofMemoryBlock, _mutex := false }
      else m.pool r' := fun r' => pool_setPool m r r' _
  have hflag : ∀ r', (m.pool r')._pSelf ≠ 0 →
      ∀ x ∈ slots (m.pool r')._pSelf (m.pool r').realSize BLOCKS_SIZE,
        (H.mem x).inPool = true ∧ (H.mem x).pAlloc = some r' := by
    intro r' hs' y hy
    by_cases hyb : y = p - sizeofMemoryBlock
    · subst hyb
      rw [f4, f1]
      exact hI.slotFlags r' hs' _ hy
    · rw [(hst y hyb).2.2.2.2.1, (hst y hyb).1]
      exact hI.slotFlags r' hs' y hy
  exact {
    allocMap := by rw [setPool_allocMap]; exact hI.allocMap
    nBlocks := fun r' => by
      rw [hpool]; split_ifs with hr
      · subst hr; exact hI.nBlocks _
      · exact hI.nBlocks _
    nSize := fun r' => by
      rw [hpool]; split_ifs with hr
      · subst hr; exact hI.nSize _
      · exact hI.nSize _
    mutex := fun r' => by
      rw [hpool]; split_ifs with hr
      · rfl
      · exact hI.mutex _
    free := fun r' => by
      rw [hpool]
      by_cases hr : r' = r
      · subst hr
        simp only [if_true]
        exact hrec
      · simp only [hr, if_false]
        apply isList_congr _ (hI.free r')
        intro y hy
        have hyb : y ≠ p - sizeofMemoryBlock := by
          intro e
          exact hr (inv_slot_own hI r' r (hI.freeSlot r' y hy).1 hs y (hI.freeSlot r' y hy).2
            (e ▸ hslot))
        exact (hst y hyb).2.1
    used := fun r' => by
      have : ((m.setPool r
          { m.pool r with _pHead := p - sizeofMemoryBlock, _mutex := false }).pool r')._pHeadUsed =
          (m.pool r')._pHeadUsed := by
        rw [hpool]; split_ifs with hr
        · subst hr; rfl
        · rfl
      rw [this]
      apply isDList_congr _ (hI.used r')
      intro y hy
      have hy0 : y ≠ 0 := fun e => isList_not_mem_zero (isDList_isList (hI.used r')) (e ▸ hy)
      have hyb : y ≠ p - sizeofMemoryBlock := fun e =>
        inv_slot_not_used hI r r' hs _ hslot (e ▸ hy)
      have hyh : y ≠ (m.pool r)._pHead := hhead y hy0 (fun c =>
        inv_slot_not_used hI r r' (hI.freeSlot r y c).1 y (hI.freeSlot r y c).2 hy)
      rw [hoth y hyb hyh]
      exact ⟨rfl, rfl⟩
    large := by
      rw [(setPool_fields m r _).1]
      apply isDList_congr _ hI.large
      intro y hy
      have hy0 : y ≠ 0 := fun e => isList_not_mem_zero (isDList_isList hI.large) (e ▸ hy)
      have hyb : y ≠ p - sizeofMemoryBlock := fun e =>
        inv_slot_not_large hI r hs _ hslot (e ▸ hy)
      have hyh : y ≠ (m.pool r)._pHead := hhead y hy0 (fun c =>
        inv_slot_not_large hI r (hI.freeSlot r y c).1 y (hI.freeSlot r y c).2 hy)
      rw [hoth y hyb hyh]
      exact ⟨rfl, rfl⟩
    arena := fun r' => by
      rw [hpool, hlive]; split_ifs with hr
      · subst hr; exact hI.arena _
      · exact hI.arena _
    freeSlot := fun r' y hy => by
      rw [hpool]
      by_cases hr : r' = r
      · subst hr
        simp only [if_true] at hy ⊢
        rcases List.mem_cons.1 hy with rfl | hy'
        · exact ⟨hs, hslot⟩
        · exact hI.freeSlot _ y hy'
      · simp only [hr, if_false] at hy ⊢
        exact hI.freeSlot _ y hy
    slotFlags := fun r' => by
      rw [hpool]; split_ifs with hr
      · subst hr; exact hflag _
      · exact hflag _
    usedFlags := fun r' y hy => by
      have hyb : y ≠ p - sizeofMemoryBlock := fun e =>
        inv_slot_not_used hI r r' hs _ hslot (e ▸ hy)
      rw [(hst y hyb).2.2.2.2.1, (hst y hyb).2.2.2.2.2, (hst y hyb).1, hlive]
      exact hI.usedFlags r' y hy
    largeFlags := fun y hy => by
      have hyb : y ≠ p - sizeofMemoryBlock := fun e =>
        inv_slot_not_large hI r hs _ hslot (e ▸ hy)
      rw [(hst y hyb).2.2.2.2.1, (hst y hyb).2.2.2.2.2, hlive]
      exact hI.largeFlags y hy
    liveNodup := hI.liveNodup.erase p
    liveBlock := fun q hq => by
      have hq' : q ≠ p ∧ q ∈ live := (hI.liveNodup.mem_erase_iff).1 hq
      obtain ⟨g1, g2⟩ := hI.liveBlock q hq'.2
      refine ⟨g1, ?_⟩
      rcases g2 with ⟨r', h1, h2, h3⟩ | g2 | g2
      · refine Or.inl ⟨r', ?_⟩
        rw [hpool]
        by_cases hr : r' = r
        · subst hr
          simp only [if_true]
          refine ⟨h1, h2, ?_⟩
          intro c
          rcases List.mem_cons.1 c with c | c
          · exact sub_ne_of_ne q p g1 hp40 hq'.1 c
          · exact h3 c
        · simp only [hr, if_false]
          exact ⟨h1, h2, h3⟩
      · exact Or.inr (Or.inl g2)
      · exact Or.inr (Or.inr g2) }

theorem mem_filter_base (h : Heap) (b : Nat) (reg : Nat × Nat) (hreg : reg ∈ h.live)
    (hne : reg.1 ≠ b) : reg ∈ h.live.filter (fun r => r.1 ≠ b) := by
  rw [List.mem_filter]
  exact ⟨hreg, by simpa using hne⟩

/-- Unsplicing and freeing a live overflow block keeps the invariant. -/
theorem inv_release_used {m : MemoryMgr} {h : Heap} {live : List Nat} {FL OL : PoolRef → List Nat}
    {LL : List Nat} (hI : Inv m h live FL OL LL) (r : PoolRef) (p : Nat) (hp : p ∈ live)
    (hb : p - sizeofMemoryBlock ∈ OL r) (H : Heap) (hd : Nat)
    (hlist : IsDList H.mem 0 hd ((OL r).erase (p - sizeofMemoryBlock)))
    (hframe : ∀ y, y ∉ OL r → H.mem y = h.mem y)
    (hflags : ∀ y, y ≠ p - sizeofMemoryBlock →
      (H.mem y).pAlloc = (h.mem y).pAlloc ∧ (H.mem y).inPool = (h.mem y).inPool ∧
      (H.mem y).allocPool = (h.mem y).allocPool)
    (hlive : H.live = h.live.filter (fun reg => reg.1 ≠ p - sizeofMemoryBlock)) :
    Inv (m.setPool r { m.pool r with _pHeadUsed := hd, _mutex := false }) H
      (live.erase p) FL (fun r' => if r' = r then (OL r).erase (p - sizeofMemoryBlock) else OL r')
      LL := by
  have hp40 := (hI.liveBlock p hp).1
  have hnd : (OL r).Nodup := isList_nodup (isDList_isList (hI.used r))
  have hpool : ∀ r', (m.setPool r { m.pool r with _pHeadUsed := hd, _mutex := false }).pool r' =
      if r' = r then { m.pool r with _pHeadUsed := hd, _mutex := false } else m.pool r' :=
    fun r' => pool_setPool m r r' _
  have hslotb : ∀ r', (m.pool r')._pSelf ≠ 0 →
      ∀ y ∈ slots (m.pool r')._pSelf (m.pool r').realSize BLOCKS_SIZE, y ∉ OL r :=
    fun r' hs' y hy => inv_slot_not_used hI r' r hs' y hy
  exact {
    allocMap := by rw [setPool_allocMap]; exact hI.allocMap
    nBlocks := fun r' => by
      rw [hpool]; split_ifs with hr
      · subst hr; exact hI.nBlocks _
      · exact hI.nBlocks _
    nSize := fun r' => by
      rw [hpool]; split_ifs with hr
      · subst hr; exact hI.nSize _
      · exact hI.nSize _
    mutex := fun r' => by
      rw [hpool]; split_ifs with hr
      · rfl
      · exact hI.mutex _
    free := fun r' => by
      have : ((m.setPool r { m.pool r with _pHeadUsed := hd, _mutex := false }).pool r')._pHead =
          (m.pool r')._pHead := by
        rw [hpool]; split_ifs with hr
        · subst hr; rfl
        · rfl
      rw [this]
      apply isList_congr _ (hI.free r')
      intro y hy
      rw [hframe y (hslotb r' (hI.freeSlot r' y hy).1 y (hI.freeSlot r' y hy).2)]
    used := fun r' => by
      rw [hpool]
      by_cases hr : r' = r
      · subst hr
        simp only [if_true]
        exact hlist
      · simp only [hr, if_false]
        apply isDList_congr _ (hI.used r')
        intro y hy
        rw [hframe y (fun c => hr (inv_used_own hI r' r y hy c))]
        exact ⟨rfl, rfl⟩
    large := by
      rw [(setPool_fields m r _).1]
      apply isDList_congr _ hI.large
      intro y hy
      rw [hframe y (fun c => inv_used_not_large hI r y c hy)]
      exact ⟨rfl, rfl⟩
    arena := fun r' => by
      have key : (m.pool r')._pSelf ≠ 0 →
          ((m.pool r')._pSelf, BLOCKS_SIZE * (m.pool r').realSize) ∈ H.live := by
        intro hs'
        rw [hlive]
        apply mem_filter_base h _ _ (hI.arena r' hs')
        intro e
        exact hslotb r' hs' _ (slots_head _ _ _ (by unfold BLOCKS_SIZE; omega))
          (by rw [show (m.pool r')._pSelf = p - sizeofMemoryBlock from e]; exact hb)
      rw [hpool]; split_ifs with hr
      · subst hr; exact key
      · exact key
    freeSlot := fun r' y hy => by
      rw [hpool]; split_ifs with hr
      · subst hr; exact hI.freeSlot _ y hy
      · exact hI.freeSlot _ y hy
    slotFlags := fun r' => by
      have key : (m.pool r')._pSelf ≠ 0 →
          ∀ x ∈ slots (m.pool r')._pSelf (m.pool r').realSize BLOCKS_SIZE,
            (H.mem x).inPool = true ∧ (H.mem x).pAlloc = some r' := by
        intro hs' y hy
        rw [hframe y (hslotb r' hs' y hy)]
        exact hI.slotFlags r' hs' y hy
      rw [hpool]; split_ifs with hr
      · subst hr; exact key
      · exact key
    usedFlags := fun r' y hy => by
      have hy' : y ∈ OL r' ∧ y ≠ p - sizeofMemoryBlock := by
        by_cases hr : r' = r
        · subst hr
          simp only [if_true] at hy
          have := (hnd.mem_erase_iff).1 hy
          exact ⟨this.2, this.1⟩
        · simp only [hr, if_false] at hy
          exact ⟨hy, fun e => hr (inv_used_own hI r' r y hy (e ▸ hb))⟩
      obtain ⟨g1, g2, g3, sz, g4, g5⟩ := hI.usedFlags r' y hy'.1
      obtain ⟨e1, e2, e3⟩ := hflags y hy'.2
      rw [e1, e2, e3, hlive]
      exact ⟨g1, g2, g3, sz, g4, mem_filter_base h _ _ g5 hy'.2⟩
    largeFlags := fun y hy => by
      have hyb : y ≠ p - sizeofMemoryBlock := fun e =>
        inv_used_not_large hI r y (e ▸ hb) hy
      obtain ⟨g1, g2, sz, g4, g5⟩ := hI.largeFlags y hy
      obtain ⟨_, e2, e3⟩ := hflags y hyb
      rw [e2, e3, hlive]
      exact ⟨g1, g2, sz, g4, mem_filter_base h _ _ g5 hyb⟩
    liveNodup := hI.liveNodup.erase p
    liveBlock := fun q hq => by
      have hq' : q ≠ p ∧ q ∈ live := (hI.liveNodup.mem_erase_iff).1 hq
      obtain ⟨g1, g2⟩ := hI.liveBlock q hq'.2
      refine ⟨g1, ?_⟩
      rcases g2 with ⟨r', h1, h2, h3⟩ | ⟨r', h1⟩ | g2
      · refine Or.inl ⟨r', ?_⟩
        rw [hpool]; split_ifs with hr
        · subst hr; exact ⟨h1, h2, h3⟩
        · exact ⟨h1, h2, h3⟩
      · refine Or.inr (Or.inl ⟨r', ?_⟩)
        by_cases hr : r' = r
        · subst hr
          simp only [if_true]
          exact (hnd.mem_erase_iff).2 ⟨sub_ne_of_ne q p g1 hp40 hq'.1, h1⟩
        · simp only [hr, if_false]
          exact h1
      · exact Or.inr (Or.inr g2) }

/-- Unsplicing and freeing a live large-object block keeps the invariant. -/
theorem inv_release_large {m : MemoryMgr} {h : Heap} {live : List Nat}
    {FL OL : PoolRef → List Nat} {LL : List Nat} (hI : Inv m h live FL OL LL) (p : Nat)
    (hp : p ∈ live) (hb : p - sizeofMemoryBlock ∈ LL) (H : Heap) (hd : Nat)
    (hlist : IsDList H.mem 0 hd (LL.erase (p - sizeofMemoryBlock)))
    (hframe : ∀ y, y ∉ LL → H.mem y = h.mem y)
    (hflags : ∀ y, y ≠ p - sizeofMemoryBlock →
      (H.mem y).pAlloc = (h.mem y).pAlloc ∧ (H.mem y).inPool = (h.mem y).inPool ∧
      (H.mem y).allocPool = (h.mem y).allocPool)
    (hlive : H.live = h.live.filter (fun reg => reg.1 ≠ p - sizeofMemoryBlock)) :
    Inv { m with _pHeadUsed := hd, _mutex := false } H (live.erase p) FL OL
      (LL.erase (p - sizeofMemoryBlock)) := by
  have hp40 := (hI.liveBlock p hp).1
  have hnd : LL.Nodup := isList_nodup (isDList_isList hI.large)
  have hpool : ∀ r', ({ m with _pHeadUsed := hd, _mutex := false } : MemoryMgr).pool r' =
      m.pool r' := fun r' => by cases r' <;> rfl
  exact {
    allocMap := hI.allocMap
    nBlocks := fun r' => by rw [hpool]; exact hI.nBlocks _
    nSize := fun r' => by rw [hpool]; exact hI.nSize _
    mutex := fun r' => by rw [hpool]; exact hI.mutex _
    free := fun r' => by
      rw [hpool]
      apply isList_congr _ (hI.free r')
      intro y hy
      rw [hframe y (inv_slot_not_large hI r' (hI.freeSlot r' y hy).1 y (hI.freeSlot r' y hy).2)]
    used := fun r' => by
      rw [hpool]
      apply isDList_congr _ (hI.used r')
      intro y hy
      rw [hframe y (inv_used_not_large hI r' y hy)]
      exact ⟨rfl, rfl⟩
    large := hlist
    arena := fun r' => by
      rw [hpool]
      intro hs'
      rw [hlive]
      apply mem_filter_base h _ _ (hI.arena r' hs')
      intro e
      exact inv_slot_not_large hI r' hs' _ (slots_head _ _ _ (by unfold BLOCKS_SIZE; omega))
        (by rw [show (m.pool r')._pSelf = p - sizeofMemoryBlock from e]; exact hb)
    freeSlot := fun r' y hy => by rw [hpool]; exact hI.freeSlot _ y hy
    slotFlags := fun r' => by
      rw [hpool]
      intro hs' y hy
      rw [hframe y (inv_slot_not_large hI r' hs' y hy)]
      exact hI.slotFlags r' hs' y hy
    usedFlags := fun r' y hy => by
      have hyb : y ≠ p - sizeofMemoryBlock := fun e =>
        inv_used_not_large hI r' y hy (e ▸ hb)
      obtain ⟨g1, g2, g3, sz, g4, g5⟩ := hI.usedFlags r' y hy
      obtain ⟨e1, e2, e3⟩ := hflags y hyb
      rw [e1, e2, e3, hlive]
      exact ⟨g1, g2, g3, sz, g4, mem_filter_base h _ _ g5 hyb⟩
    largeFlags := fun y hy => by
      have hy' := (hnd.mem_erase_iff).1 hy
      obtain ⟨g1, g2, sz, g4, g5⟩ := hI.largeFlags y hy'.2
      obtain ⟨_, e2, e3⟩ := hflags y hy'.1
      rw [e2, e3, hlive]
      exact ⟨g1, g2, sz, g4, mem_filter_base h _ _ g5 hy'.1⟩
    liveNodup := hI.liveNodup.erase p
    liveBlock := fun q hq => by
      have hq' : q ≠ p ∧ q ∈ live := (hI.liveNodup.mem_erase_iff).1 hq
      obtain ⟨g1, g2⟩ := hI.liveBlock q hq'.2
      refine ⟨g1, ?_⟩
      rcases g2 with ⟨r', h1, h2, h3⟩ | g2 | g2
      · refine Or.inl ⟨r', ?_⟩
        rw [hpool]
        exact ⟨h1, h2, h3⟩
      · exact Or.inr (Or.inl g2)
      · exact Or.inr (Or.inr ((hnd.mem_erase_iff).2 ⟨sub_ne_of_ne q p g1 hp40 hq'.1, g2⟩)) }

/-- The release of the last reference of a member of a well-formed list: the
count is stored as zero, then the block is unspliced and freed. -/
theorem unsplice_release (h : Heap) (hd x : Nat) (L : List Nat)
    (hL : IsDList h.mem 0 hd L) (hx : x ∈ L) :
    unsplice hd (h.write x { h.mem x with mRef := 0 }) x =
      .ok (if hd = x then (h.mem x).pNext else hd,
        unspliceHeap (h.write x { h.mem x with mRef := 0 }) x) ∧
    IsDList (unspliceHeap (h.write x { h.mem x with mRef := 0 }) x).mem 0
      (if hd = x then (h.mem x).pNext else hd) (L.erase x) ∧
    (∀ y, y ∉ L → (unspliceHeap (h.write x { h.mem x with mRef := 0 }) x).mem y = h.mem y) ∧
    (∀ y, y ≠ x →
      ((unspliceHeap (h.write x { h.mem x with mRef := 0 }) x).mem y).pAlloc = (h.mem y).pAlloc ∧
      ((unspliceHeap (h.write x { h.mem x with mRef := 0 }) x).mem y).inPool = (h.mem y).inPool ∧
      ((unspliceHeap (h.write x { h.mem x with mRef := 0 }) x).mem y).allocPool
        = (h.mem y).allocPool) ∧
    ((unspliceHeap (h.write x { h.mem x with mRef := 0 }) x).mem x).mRef = 0 ∧
    (unspliceHeap (h.write x { h.mem x with mRef := 0 }) x).live
      = h.live.filter (fun r => r.1 ≠ x) ∧
    (unspliceHeap (h.write x { h.mem x with mRef := 0 }) x).freed = x :: h.freed := by
  have hL0 : IsDList (h.write x { h.mem x with mRef := 0 }).mem 0 hd L := by
    apply isDList_congr _ hL
    intro y _
    rw [write_mem]
    split_ifs with hy
    · subst hy; exact ⟨rfl, rfl⟩
    · exact ⟨rfl, rfl⟩
  obtain ⟨u1, u2, u3, u4⟩ := unsplice_member _ hd x L hL0 hx
  have hnx : ((h.write x { h.mem x with mRef := 0 }).mem x).pNext = (h.mem x).pNext := by
    rw [write_mem_same]
  rw [hnx] at u1 u2
  refine ⟨u1, u2, ?_, ?_, ?_, unspliceHeap_live _ x⟩
  · intro y hy
    have hyx : y ≠ x := fun e => hy (e ▸ hx)
    rw [u3 y (fun c => hy (List.mem_of_mem_erase c)), write_mem_ne _ _ _ _ hyx]
  · intro y hy
    obtain ⟨f1, _, _, f4, f5⟩ := u4 y
    rw [f1, f4, f5, write_mem_ne _ _ _ _ hy]
    exact ⟨rfl, rfl, rfl⟩
  · rw [(u4 x).2.2.1, write_mem_same]

theorem setPool_pool_self (m : MemoryMgr) (r : PoolRef) : m.setPool r (m.pool r) = m := by
  cases r <;> rfl

theorem inv_mgr_mutex {m : MemoryMgr} {h : Heap} {live : List Nat} {FL OL : PoolRef → List Nat}
    {LL : List Nat} (hI : Inv m h live FL OL LL) (b : Bool) :
    Inv { m with _mutex := b } h live FL OL LL := by
  have hpool : ∀ r', ({ m with _mutex := b } : MemoryMgr).pool r' = m.pool r' :=
    fun r' => by cases r' <;> rfl
  exact {
    allocMap := hI.allocMap
    nBlocks := fun r' => by rw [hpool]; exact hI.nBlocks _
    nSize := fun r' => by rw [hpool]; exact hI.nSize _
    mutex := fun r' => by rw [hpool]; exact hI.mutex _
    free := fun r' => by rw [hpool]; exact hI.free _
    used := fun r' => by rw [hpool]; exact hI.used _
    large := hI.large
    arena := fun r' => by rw [hpool]; exact hI.arena _
    freeSlot := fun r' => by rw [hpool]; exact hI.freeSlot _
    slotFlags := fun r' => by rw [hpool]; exact hI.slotFlags _
    usedFlags := hI.usedFlags
    largeFlags := hI.largeFlags
    liveNodup := hI.liveNodup
    liveBlock := fun p hp => by
      obtain ⟨g1, g2⟩ := hI.liveBlock p hp
      refine ⟨g1, ?_⟩
      rcases g2 with ⟨r', h1, h2, h3⟩ | g2 | g2
      · exact Or.inl ⟨r', by rw [hpool]; exact ⟨h1, h2, h3⟩⟩
      · exact Or.inr (Or.inl g2)
      · exact Or.inr (Or.inr g2) }

/-- Every `MemoryMgr::allocMemory` call that returns keeps the invariant and
adds the returned pointer to the live ones. -/
theorem inv_alloc_step {m m' : MemoryMgr} {h h' : Heap} {live : List Nat}
    {FL OL : PoolRef → List Nat} {LL : List Nat} (hI : Inv m h live FL OL LL)
    (nSize a pMem : Nat) (hfit : sizeofMemoryBlock + nSize < SIZE_MOD)
    (e : m.allocMemory h nSize a = .ok (pMem, m', h'))
    (hfresh : ∀ size, h'.live = (a, size) :: h.live → Fresh h a size) :
    ∃ FL' OL' LL', Inv m' h' (pMem :: live) FL' OL' LL' := by
  have hsz : sizeofMemoryBlock ≤ (sizeofMemoryBlock + nSize) % SIZE_MOD := by
    rw [Nat.mod_eq_of_lt hfit]; omega
  rcases mgr_alloc_inv m m' h h' nSize a pMem e with
    ⟨_, r, p', _, hm', ea⟩ | ⟨_, _, ha, hp, hm', hh'⟩
  · obtain ⟨_, hcase⟩ := alloc_inv r (m.pool r) p' h h' nSize a pMem ea
    rcases hcase with ⟨hs0, ha, hp, hp', hh'⟩ | ⟨_, hhd, hp, hp', hh'⟩ | ⟨_, _, ha, hp, hp', hh'⟩
    · subst hp hp' hh' hm'
      have hf := hfresh _ (by rw [write_live, (initHeap_live r (m.pool r) h a).1])
      obtain ⟨xs, _, hI'⟩ := inv_first hI r a hs0 ha hf
      exact ⟨_, OL, LL, hI'⟩
    · subst hp hp' hh' hm'
      obtain ⟨xs, _, hI'⟩ := inv_pop hI r hhd
      exact ⟨_, OL, LL, hI'⟩
    · subst hp hp' hh' hm'
      have hf := hfresh _ (pushHeap_live _ _ _ _ _).1
      exact ⟨FL, _, LL, inv_push_used hI r a _ ha hsz hf⟩
  · subst hp hm' hh'
    have hf := hfresh _ (pushHeap_live _ _ _ _ _).1
    exact ⟨FL, OL, _, inv_push_large hI a _ ha hsz hf⟩

/-- Every `MemoryMgr::freeMemory` call on a live pointer that returns keeps the
invariant; the pointer leaves the live ones exactly when its count reached
zero. -/
theorem inv_free_step {m m' : MemoryMgr} {h h' : Heap} {live : List Nat}
    {FL OL : PoolRef → List Nat} {LL : List Nat} (hI : Inv m h live FL OL LL)
    (pMem : Nat) (hp : pMem ∈ live) (e : m.freeMemory h pMem = .ok (m', h')) :
    ∃ FL' OL' LL', Inv m' h'
      (if (h'.mem (pMem - sizeofMemoryBlock)).mRef = 0 then live.erase pMem else live)
      FL' OL' LL' := by
  obtain ⟨hp40, hcase⟩ := hI.liveBlock pMem hp
  -- a release that leaves the count above zero only stores the count
  have hkeep : ∀ r, (h.mem (pMem - sizeofMemoryBlock)).pAlloc = some r →
      ((h.mem (pMem - sizeofMemoryBlock)).inPool || (h.mem (pMem - sizeofMemoryBlock)).allocPool)
        = true →
      toInt32 ((h.mem (pMem - sizeofMemoryBlock)).mRef - 1) ≠ 0 →
      ∃ FL' OL' LL', Inv m' h'
        (if (h'.mem (pMem - sizeofMemoryBlock)).mRef = 0 then live.erase pMem else live)
        FL' OL' LL' := by
    intro r hr hf hz
    rw [mgr_free_pool m h pMem r hf hr, free_keep _ _ _ hz] at e
    injection e with e
    injection e with e1 e2
    subst e1 e2
    rw [setPool_pool_self, write_mem_same, if_neg hz]
    exact ⟨FL, OL, LL, inv_write_mRef hI _ _⟩
  rcases hcase with ⟨r, hs, hslot, hnF⟩ | ⟨r, hb⟩ | hb
  · -- an arena block
    obtain ⟨f1, f2⟩ := hI.slotFlags r hs _ hslot
    have hf : ((h.mem (pMem - sizeofMemoryBlock)).inPool ||
        (h.mem (pMem - sizeofMemoryBlock)).allocPool) = true := by rw [f1]; rfl
    by_cases hz : toInt32 ((h.mem (pMem - sizeofMemoryBlock)).mRef - 1) = 0
    · rw [mgr_free_pool m h pMem r hf f2, free_recycle _ _ _ hz (hI.mutex r) f1] at e
      injection e with e
      injection e with e1 e2
      subst e1 e2
      rw [if_pos (recycleHeap_fields _ _ _).2.2.1]
      exact ⟨_, OL, LL, inv_recycle hI r pMem hp hs hslot hnF⟩
    · exact hkeep r f2 hf hz
  · -- an overflow block
    obtain ⟨f1, f2, f3, _⟩ := hI.usedFlags r _ hb
    have hf : ((h.mem (pMem - sizeofMemoryBlock)).inPool ||
        (h.mem (pMem - sizeofMemoryBlock)).allocPool) = true := by rw [f1, f2]; rfl
    by_cases hz : toInt32 ((h.mem (pMem - sizeofMemoryBlock)).mRef - 1) = 0
    · obtain ⟨u1, u2, u3, u4, u5, u6, _⟩ :=
        unsplice_release h (m.pool r)._pHeadUsed (pMem - sizeofMemoryBlock) (OL r) (hI.used r) hb
      rw [mgr_free_pool m h pMem r hf f3, free_unsplice _ _ _ hz (hI.mutex r) f1, u1] at e
      injection e with e
      injection e with e1 e2
      subst e1 e2
      rw [if_pos u5]
      exact ⟨FL, _, LL, inv_release_used hI r pMem hp hb _ _ u2 u3 u4 u6⟩
    · exact hkeep r f3 hf hz
  · -- a large-object block
    obtain ⟨f1, f2, _⟩ := hI.largeFlags _ hb
    have hf : ((h.mem (pMem - sizeofMemoryBlock)).inPool ||
        (h.mem (pMem - sizeofMemoryBlock)).allocPool) = false := by rw [f1, f2]; rfl
    have hm : m._mutex = false := by
      cases hmx : m._mutex with
      | false => rfl
      | true => rw [mgr_free_large_held m h pMem hf hmx] at e; cases e
    by_cases hz : toInt32 ((h.mem (pMem - sizeofMemoryBlock)).mRef - 1) = 0
    · obtain ⟨u1, u2, u3, u4, u5, u6, _⟩ :=
        unsplice_release h m._pHeadUsed (pMem - sizeofMemoryBlock) LL hI.large hb
      rw [mgr_free_large_last m h pMem hf hm hz, u1] at e
      injection e with e
      injection e with e1 e2
      subst e1 e2
      rw [if_pos u5]
      exact ⟨FL, OL, _, inv_release_large hI pMem hp hb _ _ u2 u3 u4 u6⟩
    · rw [mgr_free_large_keep m h pMem hf hm hz] at e
      injection e with e
      injection e with e1 e2
      subst e1 e2
      rw [write_mem_same, if_neg hz]
      exact ⟨FL, OL, LL, inv_mgr_mutex (inv_write_mRef hI _ _) true⟩

/-- The invariant holds in every reachable state. -/
theorem reach_inv {m : MemoryMgr} {h : Heap} {live : List Nat} (hR : Reach m h live) :
    ∃ FL OL LL, Inv m h live FL OL LL := by
  induction hR with
  | init h => exact ⟨_, _, _, inv_init h⟩
  | alloc nSize a pMem _ hfit e hfresh ih =>
    obtain ⟨FL, OL, LL, hI⟩ := ih
    exact inv_alloc_step hI nSize a pMem hfit e hfresh
  | addRef pMem _ _ _ ih =>
    obtain ⟨FL, OL, LL, hI⟩ := ih
    exact ⟨FL, OL, LL, inv_write_mRef hI _ _⟩
  | free pMem _ hp _ e ih =>
    obtain ⟨FL, OL, LL, hI⟩ := ih
    exact inv_free_step hI pMem hp e

/-! # The claims -/

/-! ## Size-class routing -/

/-- C1 (size-class routing): the table of a constructed manager sends every size
`s ≤ 1024` to the pool whose class size is the smallest of 64, 128, 256, 512,
1024 that is at least `s`, and `MemoryMgr::allocMemory s` is the call of
`MemoryAlloc::allocMemory` on exactly that pool. -/
theorem allocMap_routes_smallest_class (s : Nat) (hs : s ≤ MAX_MEMORY_SIZE) :
    ∃ r : PoolRef,
      MemoryMgr.new._allocMap s = some r ∧
      r = (if s ≤ 64 then PoolRef.mem_64 else if s ≤ 128 then PoolRef.mem_128
            else if s ≤ 256 then PoolRef.mem_256 else if s ≤ 512 then PoolRef.mem_512
            else PoolRef.mem_1024) ∧
      (MemoryMgr.new.pool r)._nSize ∈ [64, 128, 256, 512, 1024] ∧
      s ≤ (MemoryMgr.new.pool r)._nSize ∧
      (∀ r' : PoolRef, s ≤ (MemoryMgr.new.pool r')._nSize →
        (MemoryMgr.new.pool r)._nSize ≤ (MemoryMgr.new.pool r')._nSize) ∧
      ∀ (m : MemoryMgr) (h : Heap) (a : Nat), m._allocMap = MemoryMgr.new._allocMap →
        m.allocMemory h s a =
          (MemoryAlloc.allocMemory r (m.pool r) h s a).map
            (fun x => (x.1, m.setPool r x.2.1, x.2.2)) := by
  have hs' : s ≤ 1024 := hs
  refine ⟨classOf s, allocMap_new s hs', rfl, ?_, ?_, ?_, ?_⟩
  · unfold classOf; split_ifs <;> decide
  · unfold classOf; split_ifs <;> simp [MemoryMgr.new, MemoryMgr.pool, MemoryMgr.MakeLink, MemoryAllocator.new, ptrSize, SIZE_MOD, MemoryAlloc.new] <;> omega
  · intro r'
    unfold classOf; split_ifs <;> cases r' <;> simp [MemoryMgr.new, MemoryMgr.pool, MemoryMgr.MakeLink, MemoryAllocator.new, ptrSize, SIZE_MOD, MemoryAlloc.new] <;> omega
  · intro m h a hm
    unfold MemoryMgr.allocMemory
    rw [if_pos hs, hm, allocMap_new s hs']
    dsimp only
    cases MemoryAlloc.allocMemory (classOf s) (m.pool (classOf s)) h s a <;> rfl

/-- Witness of C1 at `s = 100`: the table entry is the 128-byte pool. -/
theorem allocMap_routes_smallest_class_witness :
    100 ≤ MAX_MEMORY_SIZE ∧ MemoryMgr.new._allocMap 100 = some PoolRef.mem_128 ∧
      MemoryMgr.new.allocMemory Heap.empty 100 4096 =
        (MemoryAlloc.allocMemory PoolRef.mem_128 MemoryMgr.new._mem_128 Heap.empty 100 4096).map
          (fun x => (x.1, MemoryMgr.new.setPool PoolRef.mem_128 x.2.1, x.2.2)) := by
  obtain ⟨r, h1, h2, _, _, _, h3⟩ := allocMap_routes_smallest_class 100 (by decide)
  have hr : r = PoolRef.mem_128 := by rw [h2]; decide
  subst hr
  exact ⟨by decide, h1, h3 MemoryMgr.new Heap.empty 4096 rfl⟩

/-! ## Arena layout -/

/-- C9 (amended): for a block count `n` with `1 ≤ n ≤ 2 ^ 31` and an arena size
`n * (sizeof(MemoryBlock) + A)` that fits `size_t`, `MemoryAlloc::init` on an
uninitialised pool returns, and the free list read from its head is the `n`
slots in arena order: slot `i` starts at offset `i * (40 + A)`, lies inside the
arena, and carries `mId = i`, `mRef = 0`, `inPool = allocPool = true`,
`pAlloc = this`, `pPrev` the slot before (null for the first) and `pNext` the
slot after (null for the last). -/
theorem init_arena_layout (this : PoolRef) (p : MemoryAlloc) (h : Heap) (a : Nat)
    (hself : p._pSelf = 0) (hmutex : p._mutex = false) (ha : a ≠ 0)
    (hn : 1 ≤ p._nBlocks) (hid : p._nBlocks ≤ 2 ^ 31)
    (hsize : p._nBlocks * (sizeofMemoryBlock + p._nSize) < SIZE_MOD) :
    ∃ p' h' L, MemoryAlloc.init this p h a = .ok (p', h') ∧
      p'._pSelf = a ∧ p'._mutex = false ∧
      h'.live = (a, p._nBlocks * (sizeofMemoryBlock + p._nSize)) :: h.live ∧
      IsList h'.mem p'._pHead L ∧ L.length = p._nBlocks ∧
      ∀ i, i < p._nBlocks →
        L[i]? = some (a + i * (sizeofMemoryBlock + p._nSize)) ∧
        i * (sizeofMemoryBlock + p._nSize) + (sizeofMemoryBlock + p._nSize)
          ≤ p._nBlocks * (sizeofMemoryBlock + p._nSize) ∧
        h'.mem (a + i * (sizeofMemoryBlock + p._nSize)) =
          { pAlloc := some this
            pPrev := if i = 0 then 0 else a + (i - 1) * (sizeofMemoryBlock + p._nSize)
            pNext := if i + 1 < p._nBlocks then a + (i + 1) * (sizeofMemoryBlock + p._nSize) else 0
            mId := (i : Int)
            mRef := 0
            inPool := true
            allocPool := true } := by
  have hrs := realSize_eq p hn hsize
  have hpos : 0 < p.realSize := by rw [hrs]; unfold sizeofMemoryBlock; omega
  refine ⟨_, initHeap this p h a, slots a p.realSize p._nBlocks, init_fresh this p h a hself hmutex ha,
    rfl, rfl, ?_, initHeap_isList this p h a ha hpos hn, slots_length _ _ _, ?_⟩
  · rw [(initHeap_live this p h a).1, hrs, Nat.mod_eq_of_lt hsize]
  · intro i hi
    refine ⟨?_, ?_, ?_⟩
    · rw [← hrs]; exact slots_getElem? _ _ _ _ hi
    · rw [← Nat.succ_mul]; exact Nat.mul_le_mul_right _ hi
    · rw [← hrs, initHeap_slot this p h a hpos i hi]
      unfold slotBlock
      rw [toInt32_of_range] <;> first | rfl | omega

/-- Witness of the amended C9: a pool of four 104-byte blocks at address 4096. -/
theorem init_arena_layout_witness :
    ∃ p' h' L, MemoryAlloc.init PoolRef.mem_128 (MemoryAllocator.new 100 4) Heap.empty 4096 = .ok (p', h') ∧
      IsList h'.mem p'._pHead L ∧ L = [4096, 4240, 4384, 4528] ∧ (h'.mem 4384).mId = 2 := by
  obtain ⟨p', h', L, h1, _, _, _, h4, h5, h6⟩ :=
    init_arena_layout PoolRef.mem_128 (MemoryAllocator.new 100 4) Heap.empty 4096 rfl rfl (by decide)
      (by decide) (by decide) (by decide)
  refine ⟨p', h', L, h1, h4, ?_, ?_⟩
  · apply List.ext_getElem?
    intro i
    by_cases hi : i < 4
    · have := (h6 i hi).1
      rw [this]
      interval_cases i <;> rfl
    · have hl : L.length = 4 := h5
      rw [List.getElem?_eq_none (by omega), List.getElem?_eq_none (by simp; omega)]
  · have := (h6 2 (by decide)).2.2
    have e : 4096 + 2 * (sizeofMemoryBlock + (MemoryAllocator.new 100 4)._nSize) = 4384 := by decide
    rw [e] at this
    rw [this]
    rfl

/-- C9 fails at both ends of the range of block counts.  With a block count of
zero `MemoryAlloc::init` still lays out the first header, so the free list
holds one block, at offset 0 of an arena of zero bytes.  With `2 ^ 31 + 1`
blocks the slot of index `2 ^ 31` carries `mId = -2 ^ 31`, the index as
converted to `int`. -/
theorem init_layout_fails_outside_range :
    ((∃ p' h', MemoryAlloc.init PoolRef.mem_64 (MemoryAllocator.new 64 0) Heap.empty 4096 = .ok (p', h') ∧
      IsList h'.mem p'._pHead [4096] ∧ h'.live = [(4096, 0)]) ∧
    ¬ ∃ p' h', MemoryAlloc.init PoolRef.mem_64 (MemoryAllocator.new 64 0) Heap.empty 4096 = .ok (p', h') ∧
      IsList h'.mem p'._pHead []) ∧
    ∃ p' h', MemoryAlloc.init PoolRef.mem_64 (MemoryAllocator.new 64 (2 ^ 31 + 1)) Heap.empty 4096
        = .ok (p', h') ∧
      (h'.mem (4096 + 2 ^ 31 * 104)).inPool = true ∧
      (h'.mem (4096 + 2 ^ 31 * 104)).mId = -2 ^ 31 := by
  refine ⟨?_, ?_⟩
  · have e := init_fresh PoolRef.mem_64 (MemoryAllocator.new 64 0) Heap.empty 4096 rfl rfl (by decide)
    refine ⟨⟨_, _, e, by decide, rfl⟩, ?_⟩
    rintro ⟨p', h', h1, h2⟩
    rw [e] at h1
    injection h1 with h1
    injection h1 with hp hh
    subst hp
    have h0 : (4096 : Nat) = 0 := h2
    exact absurd h0 (by decide)
  · have e := init_fresh_heap PoolRef.mem_64 (MemoryAllocator.new 64 (2 ^ 31 + 1)) Heap.empty 4096
      rfl rfl (by decide)
    have hrs : (MemoryAllocator.new 64 (2 ^ 31 + 1)).realSize = 104 := by decide
    have hb := initHeap_slot PoolRef.mem_64 (MemoryAllocator.new 64 (2 ^ 31 + 1)) Heap.empty 4096
      (by rw [hrs]; omega) (2 ^ 31) (by rw [nBlocks_new]; omega)
    rw [hrs] at hb
    refine ⟨_, _, e, ?_, ?_⟩
    · rw [hb]; rfl
    · rw [hb]; exact toInt32_wrap

/-! ## Allocation order on a fresh pool -/

/-- C5 (amended): on a pool that has never been used, with a block count `n`
such that `1 ≤ n ≤ 2 ^ 31` and an arena size that fits `size_t`, a run of `k`
consecutive `allocMemory` calls whose `malloc` calls succeed returns from every
call; call `i` (0-based) yields the arena slot `i` with `inPool = true`,
`mId = i`, `mRef = 1` when `i < n`, and the block `malloc` returned with
`inPool = false`, `allocPool = true`, `mId = -1`, `mRef = 1` when `n ≤ i`. -/
theorem allocSeq_fresh_pool (this : PoolRef) (p : MemoryAlloc) (h : Heap) (nSize : Nat)
    (as : List Nat) (hself : p._pSelf = 0) (hmutex : p._mutex = false)
    (hn : 1 ≤ p._nBlocks) (hid : p._nBlocks ≤ 2 ^ 31)
    (hsize : p._nBlocks * (sizeofMemoryBlock + p._nSize) < SIZE_MOD)
    (has : ∀ a ∈ as, a ≠ 0) :
    ∃ res p' h', allocSeq this nSize as p h = .ok (res, p', h') ∧ res.length = as.length ∧
      ∀ i, i < as.length → ∃ pMem b, res[i]? = some (pMem, b) ∧ b.mRef = 1 ∧
        (i < p._nBlocks → ∃ a0, as[0]? = some a0 ∧
          pMem = a0 + i * (sizeofMemoryBlock + p._nSize) + sizeofMemoryBlock ∧
          b.inPool = true ∧ b.mId = (i : Int)) ∧
        (p._nBlocks ≤ i → ∃ a, as[i]? = some a ∧ pMem = a + sizeofMemoryBlock ∧
          b.inPool = false ∧ b.allocPool = true ∧ b.mId = -1) := by
  obtain ⟨res, p', h', e, hl, hall⟩ := allocSeq_fresh_ids this p h nSize as hself hmutex hn hsize has
  refine ⟨res, p', h', e, hl, ?_⟩
  intro i hi
  obtain ⟨pMem, b, g1, g2, g3, g4⟩ := hall i hi
  refine ⟨pMem, b, g1, g2, ?_, g4⟩
  intro hlt
  obtain ⟨a0, k1, k2, k3, k4⟩ := g3 hlt
  exact ⟨a0, k1, k2, k3, by rw [k4]; exact toInt32_of_range _ (by omega) (by omega)⟩

/-- Witness of the amended C5, the scenario of the specification: ten
allocations of size 100 from a pool of four blocks. -/
theorem allocSeq_fresh_pool_witness :
    ∃ res p' h',
      allocSeq PoolRef.mem_128 100
        [4096, 8192, 8192, 8192, 8192, 12288, 16384, 20480, 24576, 28672]
        (MemoryAllocator.new 128 4) Heap.empty = .ok (res, p', h') ∧
      res.length = 10 ∧
      (∃ b, res[3]? = some (4096 + 3 * 168 + 40, b) ∧ b.inPool = true ∧ b.mId = 3 ∧ b.mRef = 1) ∧
      (∃ b, res[4]? = some (8192 + 40, b) ∧ b.inPool = false ∧ b.mId = -1 ∧ b.mRef = 1) := by
  obtain ⟨res, p', h', h1, h2, h3⟩ :=
    allocSeq_fresh_pool PoolRef.mem_128 (MemoryAllocator.new 128 4) Heap.empty 100
      [4096, 8192, 8192, 8192, 8192, 12288, 16384, 20480, 24576, 28672]
      rfl rfl (by decide) (by decide) (by decide) (by decide)
  refine ⟨res, p', h', h1, h2, ?_, ?_⟩
  · obtain ⟨pMem, b, g1, g2, g3, _⟩ := h3 3 (by decide)
    obtain ⟨a0, e0, e1, e2, e3⟩ := g3 (by decide)
    have : a0 = 4096 := by simpa using e0.symm
    subst this
    exact ⟨b, by rw [g1, e1]; rfl, e2, e3, g2⟩
  · obtain ⟨pMem, b, g1, g2, _, g4⟩ := h3 4 (by decide)
    obtain ⟨a, e0, e1, e2, _, e4⟩ := g4 (by decide)
    have : a = 8192 := by simpa using e0.symm
    subst this
    exact ⟨b, by rw [g1, e1]; rfl, e2, e4, g2⟩

/-- C5 fails at both ends of the range of block counts.  The first allocation
from a fresh pool of zero blocks is served from the arena, with `inPool = true`
and `mId = 0`, although no index is below the block count.  On a pool of
`2 ^ 31 + 1` blocks the allocation of index `2 ^ 31` is the arena slot with
`mId = -2 ^ 31`, the index as converted to `int`. -/
theorem allocSeq_order_fails_outside_range :
    (∃ b p' h',
      allocSeq PoolRef.mem_128 100 [4096] (MemoryAllocator.new 128 0) Heap.empty =
        .ok ([(4136, b)], p', h') ∧
      b.inPool = true ∧ b.mId = 0 ∧ b.mRef = 1) ∧
    ∃ res p' h' pMem b,
      allocSeq PoolRef.mem_128 100 (List.replicate (2 ^ 31 + 1) 4096)
        (MemoryAllocator.new 128 (2 ^ 31 + 1)) Heap.empty = .ok (res, p', h') ∧
      res[2 ^ 31]? = some (pMem, b) ∧ b.inPool = true ∧ b.mId = -2 ^ 31 := by
  refine ⟨?_, ?_⟩
  · have e := alloc_uninit PoolRef.mem_128 (MemoryAllocator.new 128 0) Heap.empty 100 4096 rfl rfl
      (by decide)
    have key := allocSeq_cons PoolRef.mem_128 100 4096 [] _ _ _ _ _ e
    exact ⟨_, _, _, key, by decide⟩
  · obtain ⟨res, p', h', e, _, hall⟩ := allocSeq_fresh_ids PoolRef.mem_128
      (MemoryAllocator.new 128 (2 ^ 31 + 1)) Heap.empty 100 (List.replicate (2 ^ 31 + 1) 4096)
      rfl rfl (by rw [nBlocks_new]; omega)
      (by rw [nBlocks_new]; decide)
      (fun a ha => by rw [List.eq_of_mem_replicate ha]; decide)
    obtain ⟨pMem, b, g1, _, g3, _⟩ := hall (2 ^ 31) (by rw [List.length_replicate]; omega)
    obtain ⟨_, _, _, k3, k4⟩ := g3 (by rw [nBlocks_new]; omega)
    exact ⟨res, p', h', pMem, b, e, g1, k3, by rw [k4]; exact toInt32_wrap⟩

/-! ## Repeated initialisation -/

/-- C8: on a pool whose arena is allocated and whose mutex is free,
`MemoryAlloc::init` returns with the arena pointer, both list heads and the heap
as they were, but with the mutex held: the `allocMemory` that follows never
acquires it. -/
theorem init_again_holds_mutex (this : PoolRef) (p : MemoryAlloc) (h : Heap) (a : Nat)
    (hself : p._pSelf ≠ 0) (hmutex : p._mutex = false) :
    ∃ p', MemoryAlloc.init this p h a = .ok (p', h) ∧
      p'._pSelf = p._pSelf ∧ p'._pHead = p._pHead ∧ p'._pHeadUsed = p._pHeadUsed ∧
      p'._mutex = true ∧
      ∀ nSize a', MemoryAlloc.allocMemory this p' h nSize a' = .error Fault.deadlock :=
  ⟨_, init_again this p h a hself hmutex, rfl, rfl, rfl, rfl,
    fun nSize a' => alloc_deadlock this _ h nSize a' hself rfl⟩

/-- The failing input of C8: a pool of four blocks after one allocation; the
second `init` leaves the mutex held and the next allocation deadlocks. -/
theorem init_again_holds_mutex_witness :
    ∃ pMem p1 h1 p2,
      MemoryAlloc.allocMemory PoolRef.mem_64 (MemoryAllocator.new 64 4) Heap.empty 8 4096 =
        .ok (pMem, p1, h1) ∧
      p1._mutex = false ∧
      MemoryAlloc.init PoolRef.mem_64 p1 h1 8192 = .ok (p2, h1) ∧ p2._mutex = true ∧
      MemoryAlloc.allocMemory PoolRef.mem_64 p2 h1 8 8192 = .error Fault.deadlock := by
  have e := alloc_uninit PoolRef.mem_64 (MemoryAllocator.new 64 4) Heap.empty 8 4096 rfl rfl
    (by decide)
  obtain ⟨p2, g1, _, _, _, g5, g6⟩ := init_again_holds_mutex PoolRef.mem_64 _
    ((initHeap PoolRef.mem_64 (MemoryAllocator.new 64 4) Heap.empty 4096).write 4096
      { (initHeap PoolRef.mem_64 (MemoryAllocator.new 64 4) Heap.empty 4096).mem 4096 with
        mRef := 1, pNext := 0, pPrev := 0 }) 8192
    (show ({ MemoryAllocator.new 64 4 with
      _pSelf := 4096,
      _pHead := ((initHeap PoolRef.mem_64 (MemoryAllocator.new 64 4) Heap.empty 4096).mem 4096).pNext,
      _mutex := false } : MemoryAlloc)._pSelf ≠ 0 by decide) rfl
  exact ⟨_, _, _, p2, e, rfl, g1, g5, g6 8 8192⟩

/-! ## Payload addressing -/

/-- C4 (ceiling boundary): `allocMemory(1024)` is the call on `_mem_1024`; with
the manager's mutex free and `malloc` succeeding, `allocMemory(s)` for
`s > 1024` returns a block whose header has `inPool = false`,
`allocPool = false`, `mRef = 1`, `mId = -1`, `pAlloc = null`, which is the new
head of the manager's large-object list in front of the blocks that were on
it; the five pools, their free lists and their overflow lists are unchanged. -/
theorem ceiling_boundary (m : MemoryMgr) (h : Heap) (a : Nat)
    (htab : m._allocMap = MemoryMgr.new._allocMap) (hmutex : m._mutex = false) (ha : a ≠ 0) :
    m.allocMemory h MAX_MEMORY_SIZE a =
      (MemoryAlloc.allocMemory PoolRef.mem_1024 m._mem_1024 h MAX_MEMORY_SIZE a).map
        (fun x => (x.1, { m with _mem_1024 := x.2.1 }, x.2.2)) ∧
    ∀ s, MAX_MEMORY_SIZE < s →
      ∃ m' h', m.allocMemory h s a = .ok (a + sizeofMemoryBlock, m', h') ∧
        (h'.mem a).inPool = false ∧ (h'.mem a).allocPool = false ∧ (h'.mem a).mRef = 1 ∧
        (h'.mem a).mId = -1 ∧ (h'.mem a).pAlloc = none ∧
        m'._pHeadUsed = a ∧
        (∀ L, IsDList h.mem 0 m._pHeadUsed L → a ∉ L → IsDList h'.mem 0 m'._pHeadUsed (a :: L)) ∧
        (∀ r, m'.pool r = m.pool r) ∧
        (∀ x, x ≠ a → x ≠ m._pHeadUsed → h'.mem x = h.mem x) ∧
        (∀ r L, a ∉ L → IsList h.mem (m.pool r)._pHead L → IsList h'.mem (m'.pool r)._pHead L) ∧
        (∀ r L, a ∉ L → m._pHeadUsed ∉ L → IsDList h.mem 0 (m.pool r)._pHeadUsed L →
          IsDList h'.mem 0 (m'.pool r)._pHeadUsed L) := by
  constructor
  · have hr : m._allocMap MAX_MEMORY_SIZE = some PoolRef.mem_1024 := by
      rw [htab]; exact allocMap_new 1024 (le_refl _)
    rw [mgr_alloc_pool m h MAX_MEMORY_SIZE a PoolRef.mem_1024 (le_refl _) hr]
    rfl
  · intro s hs
    obtain ⟨f1, f2, f3, f4, f5⟩ := pushHeap_fields h a ((sizeofMemoryBlock + s) % SIZE_MOD)
      { pAlloc := none, pPrev := 0, pNext := 0, mId := -1, mRef := 1,
        inPool := false, allocPool := false } m._pHeadUsed
    refine ⟨_, _, mgr_alloc_large m h s a hs hmutex ha, f4, f5, f3, f2, f1, rfl, ?_, ?_, ?_, ?_, ?_⟩
    · intro L hL haL
      exact isDList_push h a _ _ _ L hL ha haL rfl rfl
    · intro r; cases r <;> rfl
    · intro x hxa hxu
      exact pushHeap_other h a _ _ _ x hxa hxu
    · intro r L haL hL
      have e : ({ m with _pHeadUsed := a, _mutex := false } : MemoryMgr).pool r = m.pool r := by
        cases r <;> rfl
      rw [e]
      apply isList_congr _ hL
      intro x hx
      exact pushHeap_pNext h a _ _ _ x (fun e => haL (e ▸ hx))
    · intro r L haL huL hL
      have e : ({ m with _pHeadUsed := a, _mutex := false } : MemoryMgr).pool r = m.pool r := by
        cases r <;> rfl
      rw [e]
      apply isDList_congr _ hL
      intro x hx
      have hxa : x ≠ a := fun e => haL (e ▸ hx)
      have hxu : x ≠ m._pHeadUsed := fun e => huL (e ▸ hx)
      rw [pushHeap_other h a _ _ _ x hxa hxu]
      exact ⟨rfl, rfl⟩

/-- Witness of C4: size 1025 on a freshly constructed manager. -/
theorem ceiling_boundary_witness :
    ∃ m' h', MemoryMgr.new.allocMemory Heap.empty 1025 4096 = .ok (4096 + sizeofMemoryBlock, m', h') ∧
      (h'.mem 4096).inPool = false ∧ (h'.mem 4096).allocPool = false ∧ m'._pHeadUsed = 4096 ∧
      IsDList h'.mem 0 m'._pHeadUsed [4096] ∧ ∀ r, m'.pool r = MemoryMgr.new.pool r := by
  obtain ⟨m', h', g1, g2, g3, _, _, _, g7, g8, g9, _⟩ :=
    (ceiling_boundary MemoryMgr.new Heap.empty 4096 rfl rfl (by decide)).2 1025 (by decide)
  exact ⟨m', h', g1, g2, g3, g7, g8 [] rfl (by simp), g9⟩

/-! ## Overflow blocks -/

/-- C6 (overflow release): on an initialised pool whose free list is empty,
`allocMemory` returns a block with `inPool = false` that becomes the head of
the overflow list; releasing a block of the overflow list whose reference count
is 1 removes exactly that block (the others stay, in order), passes it to
`free`, and leaves the free list as it was. -/
theorem overflow_alloc_and_release :
    (∀ (this : PoolRef) (p : MemoryAlloc) (h : Heap) (nSize a : Nat) (L : List Nat),
      p._pSelf ≠ 0 → p._mutex = false → p._pHead = 0 → a ≠ 0 →
      IsDList h.mem 0 p._pHeadUsed L → a ∉ L →
      ∃ p' h', MemoryAlloc.allocMemory this p h nSize a = .ok (a + sizeofMemoryBlock, p', h') ∧
        (h'.mem a).inPool = false ∧ (h'.mem a).mRef = 1 ∧ p'._pHead = 0 ∧
        IsDList h'.mem 0 p'._pHeadUsed (a :: L)) ∧
    (∀ (p : MemoryAlloc) (h : Heap) (x : Nat) (L F : List Nat),
      p._mutex = false → IsDList h.mem 0 p._pHeadUsed L → IsList h.mem p._pHead F →
      (∀ y ∈ F, y ∉ L) → x ∈ L → (h.mem x).inPool = false → (h.mem x).mRef = 1 →
      ∃ p' h', MemoryAlloc.freeMemory p h (x + sizeofMemoryBlock) = .ok (p', h') ∧
        IsDList h'.mem 0 p'._pHeadUsed (L.erase x) ∧
        L.erase x = L.filter (fun y => y ≠ x) ∧
        h'.freed = x :: h.freed ∧
        p'._pHead = p._pHead ∧ IsList h'.mem p'._pHead F) := by
  constructor
  · intro this p h nSize a L hs hm hh ha hL haL
    obtain ⟨_, _, f3, f4, _⟩ := pushHeap_fields h a ((sizeofMemoryBlock + nSize) % SIZE_MOD)
      { pAlloc := some this, pPrev := 0, pNext := 0, mId := -1, mRef := 1,
        inPool := false, allocPool := true } p._pHeadUsed
    exact ⟨_, _, alloc_overflow this p h nSize a hs hm hh ha, f4, f3, hh,
      isDList_push h a _ _ _ L hL ha haL rfl rfl⟩
  · intro p h x L F hm hL hF hdisj hx hin href
    have href' : toInt32 ((h.mem x).mRef - 1) = 0 := by rw [href]; decide
    obtain ⟨h', e, g1, g2, _, _, g5⟩ := free_overflow_member p h x L hL hx hin href' hm
    refine ⟨_, h', e, g1, ?_, g5, rfl, ?_⟩
    · have hnd : L.Nodup := isList_nodup (isDList_isList hL)
      rw [hnd.erase_eq_filter]
      apply List.filter_congr
      intro y _
      rw [Bool.eq_iff_iff]
      simp
    · apply isList_congr _ hF
      intro y hy
      rw [g2 y (hdisj y hy)]

/-- Witness of C6: a pool of one block, exhausted by the first allocation; the
second allocation comes from `malloc` and its release frees it. -/
theorem overflow_alloc_and_release_witness :
    ∃ p1 h1 p2 h2 p3 h3,
      MemoryAlloc.allocMemory PoolRef.mem_64 (MemoryAllocator.new 64 1) Heap.empty 8 4096 =
        .ok (4096 + sizeofMemoryBlock, p1, h1) ∧ p1._pHead = 0 ∧
      MemoryAlloc.allocMemory PoolRef.mem_64 p1 h1 8 8192 = .ok (8192 + sizeofMemoryBlock, p2, h2) ∧
      (h2.mem 8192).inPool = false ∧ IsDList h2.mem 0 p2._pHeadUsed [8192] ∧
      MemoryAlloc.freeMemory p2 h2 (8192 + sizeofMemoryBlock) = .ok (p3, h3) ∧
      IsDList h3.mem 0 p3._pHeadUsed [] ∧ h3.freed = [8192] ∧ p3._pHead = 0 := by
  have e1 := alloc_uninit PoolRef.mem_64 (MemoryAllocator.new 64 1) Heap.empty 8 4096 rfl rfl
    (by decide)
  obtain ⟨p2, h2, e2, g1, g2, g3, g4⟩ := overflow_alloc_and_release.1 PoolRef.mem_64
    { MemoryAllocator.new 64 1 with
      _pSelf := 4096
      _pHead := ((initHeap PoolRef.mem_64 (MemoryAllocator.new 64 1) Heap.empty 4096).mem 4096).pNext
      _mutex := false }
    ((initHeap PoolRef.mem_64 (MemoryAllocator.new 64 1) Heap.empty 4096).write 4096
      { (initHeap PoolRef.mem_64 (MemoryAllocator.new 64 1) Heap.empty 4096).mem 4096 with
        mRef := 1, pNext := 0, pPrev := 0 })
    8 8192 [] (by decide) rfl (by decide) (by decide) (by decide) (by simp)
  have hp2 : p2._mutex = false ∧ p2._pHead = 0 ∧ h2.freed = [] := by
    have := alloc_inv _ _ _ _ _ _ _ _ e2
    rcases this.2 with ⟨c, _⟩ | ⟨_, c, _⟩ | ⟨_, _, _, _, c, d⟩
    · exact absurd c (by decide)
    · exact absurd rfl c
    · rw [c, d, (pushHeap_live _ _ _ _ _).2, write_freed, (initHeap_live _ _ _ _).2]
      exact ⟨rfl, rfl, rfl⟩
  obtain ⟨p3, h3, e3, k1, _, k3, k4, _⟩ := overflow_alloc_and_release.2 p2 h2 8192 [8192] []
    hp2.1 g4 (by rw [hp2.2.1]; rfl) (by simp) (by simp) g1 g2
  exact ⟨_, _, p2, h2, p3, h3, e1, by decide, e2, g1, g4, e3, by simpa using k1,
    by rw [k3, hp2.2.2], by rw [k4, hp2.2.1]⟩

/-! ## Allocate/release round trip -/

/-- C3 (amended): for every size `s ≤ 1024` and every state in which the owning
pool is initialised, its mutex free and its free list well formed (blocks of
this pool's arena), `freeMemory (allocMemory s)` returns and leaves the free
list with the blocks it had before the `allocMemory` call, in the same order. -/
theorem roundtrip_keeps_free_list (m : MemoryMgr) (h : Heap) (s a : Nat) (r : PoolRef)
    (F : List Nat) (hs : s ≤ MAX_MEMORY_SIZE) (hr : m._allocMap s = some r)
    (hinit : (m.pool r)._pSelf ≠ 0) (hmutex : (m.pool r)._mutex = false) (ha : a ≠ 0)
    (hF : IsList h.mem (m.pool r)._pHead F)
    (hown : ∀ x ∈ F, (h.mem x).inPool = true ∧ (h.mem x).pAlloc = some r) :
    ∃ pMem m1 h1 m2 h2, m.allocMemory h s a = .ok (pMem, m1, h1) ∧
      m1.freeMemory h1 pMem = .ok (m2, h2) ∧
      IsList h2.mem (m2.pool r)._pHead F ∧
      ∀ F', IsList h2.mem (m2.pool r)._pHead F' → F'.length = F.length := by
  have hsub : ∀ x : Nat, x + sizeofMemoryBlock - sizeofMemoryBlock = x := fun x => by omega
  have hzero : toInt32 ((1 : Int) - 1) = 0 := by decide
  suffices hmain : ∃ pMem m1 h1 m2 h2, m.allocMemory h s a = .ok (pMem, m1, h1) ∧
      m1.freeMemory h1 pMem = .ok (m2, h2) ∧ IsList h2.mem (m2.pool r)._pHead F by
    obtain ⟨pMem, m1, h1, m2, h2, e1, e2, e3⟩ := hmain
    exact ⟨pMem, m1, h1, m2, h2, e1, e2, e3, fun F' hF' => by rw [isList_unique hF' e3]⟩
  by_cases hh : (m.pool r)._pHead = 0
  · -- the arena is exhausted: the block comes from `malloc` and goes back to `free`
    rw [hh] at hF
    have hFnil := isList_head_zero hF
    subst hFnil
    have e1 := mgr_alloc_pool m h s a r hs hr
    rw [alloc_overflow r (m.pool r) h s a hinit hmutex hh ha] at e1
    obtain ⟨f1, _, f3, f4, f5⟩ := pushHeap_fields h a ((sizeofMemoryBlock + s) % SIZE_MOD)
      { pAlloc := some r, pPrev := 0, pNext := 0, mId := -1, mRef := 1,
        inPool := false, allocPool := true } (m.pool r)._pHeadUsed
    generalize hh1 : pushHeap h a ((sizeofMemoryBlock + s) % SIZE_MOD)
      { pAlloc := some r, pPrev := 0, pNext := 0, mId := -1, mRef := 1,
        inPool := false, allocPool := true } (m.pool r)._pHeadUsed = h1 at e1 f1 f3 f4 f5
    have e2 := mgr_free_pool (m.setPool r { m.pool r with _pHeadUsed := a, _mutex := false }) h1
      (a + sizeofMemoryBlock) r (by rw [hsub, f4, f5]; rfl) (by rw [hsub, f1])
    rw [pool_setPool_same,
      free_unsplice _ _ _ (by rw [hsub, f3]; exact hzero) rfl (by rw [hsub, f4]), hsub,
      unsplice_eq _ _ _ (Or.inr rfl)] at e2
    refine ⟨_, _, _, _, _, e1, e2, ?_⟩
    show IsList _ ((MemoryMgr.setPool _ r _).pool r)._pHead []
    rw [pool_setPool_same]
    exact hh
  · -- the head of the free list is handed out and spliced back
    obtain ⟨xs, rfl⟩ := isList_head_ne hF hh
    have hnd := isList_nodup hF
    obtain ⟨hin, hpa⟩ := hown _ (List.mem_cons_self _ _)
    have e1 := mgr_alloc_pool m h s a r hs hr
    rw [alloc_pop r (m.pool r) h s a hinit hmutex hh] at e1
    obtain ⟨_, hx0, htail⟩ := hF
    have e2 := mgr_free_pool
      (m.setPool r { m.pool r with _pHead := (h.mem (m.pool r)._pHead).pNext, _mutex := false })
      (h.write (m.pool r)._pHead { h.mem (m.pool r)._pHead with mRef := 1, pNext := 0, pPrev := 0 })
      ((m.pool r)._pHead + sizeofMemoryBlock) r (by rw [hsub, write_mem_same]; simp [hin])
      (by rw [hsub, write_mem_same]; exact hpa)
    rw [pool_setPool_same,
      free_recycle _ _ _ (by rw [hsub, write_mem_same]; exact hzero) rfl
        (by rw [hsub, write_mem_same]; exact hin), hsub] at e2
    refine ⟨_, _, _, _, _, e1, e2, ?_⟩
    show IsList _ ((MemoryMgr.setPool _ r _).pool r)._pHead _
    rw [pool_setPool_same]
    apply isList_recycle _ _ _ xs _ hh (List.nodup_cons.1 hnd).1
    apply isList_congr _ htail
    intro y hy
    have hy' : y ≠ (m.pool r)._pHead := fun e => (List.nodup_cons.1 hnd).1 (e ▸ hy)
    rw [write_mem_ne _ _ _ _ hy']

/-- Witness of the amended C3: the 128-byte pool right after its arena was laid
out at address 4096, all 10000 blocks free. -/
theorem roundtrip_keeps_free_list_witness :
    ∃ pMem m1 h1 m2 h2,
      (MemoryMgr.new.setPool PoolRef.mem_128
        { MemoryAllocator.new 128 BLOCKS_SIZE with _pSelf := 4096, _pHead := 4096 }).allocMemory
        (initHeap PoolRef.mem_128 (MemoryAllocator.new 128 BLOCKS_SIZE) Heap.empty 4096) 100 8192 =
          .ok (pMem, m1, h1) ∧
      m1.freeMemory h1 pMem = .ok (m2, h2) ∧
      IsList h2.mem (m2.pool PoolRef.mem_128)._pHead (slots 4096 168 10000) := by
  have hpos : 0 < (MemoryAllocator.new 128 BLOCKS_SIZE).realSize := by decide
  obtain ⟨pMem, m1, h1, m2, h2, e1, e2, e3, _⟩ :=
    roundtrip_keeps_free_list
      (MemoryMgr.new.setPool PoolRef.mem_128
        { MemoryAllocator.new 128 BLOCKS_SIZE with _pSelf := 4096, _pHead := 4096 })
      (initHeap PoolRef.mem_128 (MemoryAllocator.new 128 BLOCKS_SIZE) Heap.empty 4096) 100 8192
      PoolRef.mem_128 (slots 4096 168 10000) (by decide)
      (by rw [setPool_allocMap]; exact allocMap_new 100 (by decide))
      (by decide) rfl (by decide)
      (initHeap_isList PoolRef.mem_128 (MemoryAllocator.new 128 BLOCKS_SIZE) Heap.empty 4096
        (by decide) hpos (blocks_pos 128))
      (fun x hx => by
        have := initHeap_flags PoolRef.mem_128 (MemoryAllocator.new 128 BLOCKS_SIZE) Heap.empty
          4096 hpos x hx
        exact ⟨this.1, this.2.2.1⟩)
  exact ⟨pMem, m1, h1, m2, h2, e1, e2, e3⟩

/-- C3 fails on a pool that has not been used: before the call its free list is
empty, and after `freeMemory (allocMemory 100)` it holds the 10000 blocks of
the arena the call laid out. -/
theorem roundtrip_first_use_fills_free_list :
    ∃ pMem m1 h1 m2 h2 F,
      MemoryMgr.new.allocMemory Heap.empty 100 4096 = .ok (pMem, m1, h1) ∧
      m1.freeMemory h1 pMem = .ok (m2, h2) ∧
      IsList Heap.empty.mem (MemoryMgr.new.pool PoolRef.mem_128)._pHead [] ∧
      IsList h2.mem (m2.pool PoolRef.mem_128)._pHead F ∧ F.length = 10000 := by
  have hsub : ∀ x : Nat, x + sizeofMemoryBlock - sizeofMemoryBlock = x := fun x => by omega
  have hpos : 0 < (MemoryAllocator.new 128 BLOCKS_SIZE).realSize := by decide
  have hL := initHeap_isList PoolRef.mem_128 (MemoryAllocator.new 128 BLOCKS_SIZE) Heap.empty 4096
    (by decide) hpos (blocks_pos 128)
  have hfl := initHeap_flags PoolRef.mem_128 (MemoryAllocator.new 128 BLOCKS_SIZE) Heap.empty 4096
    hpos
  have hlen : (slots 4096 (MemoryAllocator.new 128 BLOCKS_SIZE).realSize
      (MemoryAllocator.new 128 BLOCKS_SIZE)._nBlocks).length = 10000 := slots_length _ _ _
  generalize hH : initHeap PoolRef.mem_128 (MemoryAllocator.new 128 BLOCKS_SIZE) Heap.empty 4096 = H
    at hL hfl
  generalize slots 4096 (MemoryAllocator.new 128 BLOCKS_SIZE).realSize
      (MemoryAllocator.new 128 BLOCKS_SIZE)._nBlocks = S at hL hfl hlen
  obtain ⟨xs, rfl⟩ := isList_head_ne hL (by decide)
  have hnd := isList_nodup hL
  obtain ⟨f1, _, f3, _⟩ := hfl 4096 (List.mem_cons_self _ _)
  obtain ⟨_, _, htail⟩ := hL
  have e1 := mgr_alloc_pool MemoryMgr.new Heap.empty 100 4096 PoolRef.mem_128 (by decide)
    (allocMap_new 100 (by decide))
  rw [new_pool_mem_128,
    alloc_uninit PoolRef.mem_128 (MemoryAllocator.new 128 BLOCKS_SIZE) Heap.empty 100 4096 rfl rfl
      (by decide), hH] at e1
  have e2 := mgr_free_pool
    (MemoryMgr.new.setPool PoolRef.mem_128
      { MemoryAllocator.new 128 BLOCKS_SIZE with
        _pSelf := 4096, _pHead := (H.mem 4096).pNext, _mutex := false })
    (H.write 4096 { H.mem 4096 with mRef := 1, pNext := 0, pPrev := 0 })
    (4096 + sizeofMemoryBlock) PoolRef.mem_128 (by rw [hsub, write_mem_same]; simp [f1])
    (by rw [hsub, write_mem_same]; exact f3)
  rw [pool_setPool_same,
    free_recycle _ _ _ (by rw [hsub, write_mem_same]; exact toInt32_zero) rfl
      (by rw [hsub, write_mem_same]; exact f1), hsub] at e2
  refine ⟨_, _, _, _, _, 4096 :: xs, e1, e2, rfl, ?_, hlen⟩
  show IsList _ ((MemoryMgr.setPool _ PoolRef.mem_128 _).pool PoolRef.mem_128)._pHead _
  rw [pool_setPool_same]
  apply isList_recycle _ _ _ xs _ (by decide) (List.nodup_cons.1 hnd).1
  apply isList_congr _ htail
  intro y hy
  have hy' : y ≠ 4096 := fun e => (List.nodup_cons.1 hnd).1 (e ▸ hy)
  rw [write_mem_ne _ _ _ _ hy']

/-! ## Reference counting through the manager -/

/-- C2 on the large-object path: after `allocMemory s` with `s > 1024` and
`addRef`, the first `freeMemory` lowers the reference count to 1 and returns
through the early `return` with the manager's mutex still held, so the second
`freeMemory` never acquires the mutex and the block is not reclaimed. -/
theorem large_block_second_free_deadlocks (m : MemoryMgr) (h : Heap) (s a : Nat)
    (hs : MAX_MEMORY_SIZE < s) (hmutex : m._mutex = false) (ha : a ≠ 0) :
    ∃ pMem m1 h1 m2 h2, m.allocMemory h s a = .ok (pMem, m1, h1) ∧
      m1.freeMemory (MemoryMgr.addRef h1 pMem) pMem = .ok (m2, h2) ∧
      (h2.mem (pMem - sizeofMemoryBlock)).mRef = 1 ∧
      m2._pHeadUsed = pMem - sizeofMemoryBlock ∧ h2.freed = h.freed ∧
      m2._mutex = true ∧
      m2.freeMemory h2 pMem = .error Fault.deadlock := by
  have hsub : a + sizeofMemoryBlock - sizeofMemoryBlock = a := by omega
  obtain ⟨f1, f2, f3, f4, f5⟩ := pushHeap_fields h a ((sizeofMemoryBlock + s) % SIZE_MOD)
    { pAlloc := none, pPrev := 0, pNext := 0, mId := -1, mRef := 1,
      inPool := false, allocPool := false } m._pHeadUsed
  have hfr := (pushHeap_live h a ((sizeofMemoryBlock + s) % SIZE_MOD)
    { pAlloc := none, pPrev := 0, pNext := 0, mId := -1, mRef := 1,
      inPool := false, allocPool := false } m._pHeadUsed).2
  have e1 := mgr_alloc_large m h s a hs hmutex ha
  generalize pushHeap h a ((sizeofMemoryBlock + s) % SIZE_MOD)
    { pAlloc := none, pPrev := 0, pNext := 0, mId := -1, mRef := 1,
      inPool := false, allocPool := false } m._pHeadUsed = h1 at e1 f1 f2 f3 f4 f5 hfr
  have hadd : (MemoryMgr.addRef h1 (a + sizeofMemoryBlock)).mem a =
      { h1.mem a with mRef := 2 } := by
    unfold MemoryMgr.addRef
    simp only [hsub, write_mem_same, f3]
    rw [show toInt32 ((1 : Int) + 1) = 2 from toInt32_two]
  have hflags : (((MemoryMgr.addRef h1 (a + sizeofMemoryBlock)).mem
        (a + sizeofMemoryBlock - sizeofMemoryBlock)).inPool ||
      ((MemoryMgr.addRef h1 (a + sizeofMemoryBlock)).mem
        (a + sizeofMemoryBlock - sizeofMemoryBlock)).allocPool) = false := by
    rw [hsub, hadd]; simp [f4, f5]
  have hone : toInt32 (((MemoryMgr.addRef h1 (a + sizeofMemoryBlock)).mem
      (a + sizeofMemoryBlock - sizeofMemoryBlock)).mRef - 1) = 1 := by
    rw [hsub, hadd]; exact toInt32_one
  have e2 := mgr_free_large_keep { m with _pHeadUsed := a, _mutex := false }
    (MemoryMgr.addRef h1 (a + sizeofMemoryBlock)) (a + sizeofMemoryBlock) hflags rfl
    (by rw [hone]; decide)
  rw [hone, hsub] at e2
  refine ⟨_, _, _, _, _, e1, e2, ?_, ?_, ?_, rfl, ?_⟩
  · rw [hsub, write_mem_same]
  · rw [hsub]
  · rw [write_freed]
    unfold MemoryMgr.addRef
    rw [write_freed, hfr]
  · apply mgr_free_large_held _ _ _ _ rfl
    rw [hsub, write_mem_same, hadd]
    simp [f4, f5]

/-- The failing input of C2: `allocMemory(2000)`, `addRef`, and two `freeMemory`
calls on a freshly constructed manager. -/
theorem large_block_second_free_deadlocks_witness :
    ∃ m1 h1 m2 h2,
      MemoryMgr.new.allocMemory Heap.empty 2000 4096 = .ok (4096 + sizeofMemoryBlock, m1, h1) ∧
      m1.freeMemory (MemoryMgr.addRef h1 (4096 + sizeofMemoryBlock)) (4096 + sizeofMemoryBlock) =
        .ok (m2, h2) ∧
      (h2.mem 4096).mRef = 1 ∧ m2._pHeadUsed = 4096 ∧ h2.freed = [] ∧ m2._mutex = true ∧
      m2.freeMemory h2 (4096 + sizeofMemoryBlock) = .error Fault.deadlock := by
  obtain ⟨pMem, m1, h1, m2, h2, e1, e2, g1, g2, g3, g4, g5⟩ :=
    large_block_second_free_deadlocks MemoryMgr.new Heap.empty 2000 4096 (by decide) rfl (by decide)
  have hp : pMem = 4096 + sizeofMemoryBlock := by
    rw [mgr_alloc_large MemoryMgr.new Heap.empty 2000 4096 (by decide) rfl (by decide)] at e1
    injection e1 with e1
    injection e1 with e1 _
    exact e1.symm
  subst hp
  exact ⟨m1, h1, m2, h2, e1, e2, g1, g2, g3, g4, g5⟩

/-! ## Distinct live allocations -/

/-- C7 (distinct live allocations): in every state reachable from a freshly
constructed manager by `allocMemory`, `addRef` and `freeMemory` calls, the
latter two applied to live pointers only, the live pointers are pairwise
distinct and a pointer returned by a further `allocMemory` differs from all of
them; every pool's free list and overflow list and the manager's large-object
list are null-terminated lists; no live block is on a free list; no free list
holds a block twice; and no block is on two of the lists. -/
theorem live_blocks_distinct_lists_exclusive {m : MemoryMgr} {h : Heap} {live : List Nat}
    (hR : Reach m h live) :
    live.Nodup ∧
    (∀ (nSize a pMem : Nat) (m' : MemoryMgr) (h' : Heap),
      sizeofMemoryBlock + nSize < SIZE_MOD →
      m.allocMemory h nSize a = .ok (pMem, m', h') →
      (∀ size, h'.live = (a, size) :: h.live → Fresh h a size) → pMem ∉ live) ∧
    ∃ (FL OL : PoolRef → List Nat) (LL : List Nat),
      (∀ r, IsList h.mem (m.pool r)._pHead (FL r)) ∧
      (∀ r, IsDList h.mem 0 (m.pool r)._pHeadUsed (OL r)) ∧
      IsDList h.mem 0 m._pHeadUsed LL ∧
      (∀ p ∈ live, ∀ r, p - sizeofMemoryBlock ∉ FL r) ∧
      (∀ r, (FL r).Nodup) ∧
      (∀ r r' x, x ∈ FL r → x ∉ OL r') ∧
      (∀ r x, x ∈ FL r → x ∉ LL) ∧
      (∀ r x, x ∈ OL r → x ∉ LL) ∧
      (∀ r r' x, r ≠ r' → x ∈ FL r → x ∉ FL r') ∧
      (∀ r r' x, r ≠ r' → x ∈ OL r → x ∉ OL r') := by
  obtain ⟨FL, OL, LL, hI⟩ := reach_inv hR
  refine ⟨hI.liveNodup, ?_, FL, OL, LL, hI.free, hI.used, hI.large, ?_, ?_, ?_, ?_, ?_, ?_, ?_⟩
  · intro nSize a pMem m' h' hfit e hfresh
    obtain ⟨_, _, _, hI'⟩ := reach_inv (Reach.alloc nSize a pMem hR hfit e hfresh)
    exact (List.nodup_cons.1 hI'.liveNodup).1
  · intro p hp r hpF
    obtain ⟨hs, hslot⟩ := hI.freeSlot r _ hpF
    rcases (hI.liveBlock p hp).2 with ⟨r', h1, h2, h3⟩ | ⟨r', h1⟩ | h1
    · have := inv_slot_own hI r r' hs h1 _ hslot h2
      subst this
      exact h3 hpF
    · exact inv_slot_not_used hI r r' hs _ hslot h1
    · exact inv_slot_not_large hI r hs _ hslot h1
  · exact fun r => isList_nodup (hI.free r)
  · exact fun r r' x hx =>
      inv_slot_not_used hI r r' (hI.freeSlot r x hx).1 x (hI.freeSlot r x hx).2
  · exact fun r x hx => inv_slot_not_large hI r (hI.freeSlot r x hx).1 x (hI.freeSlot r x hx).2
  · exact fun r x hx => inv_used_not_large hI r x hx
  · exact fun r r' x hne hx hx' =>
      hne (inv_slot_own hI r r' (hI.freeSlot r x hx).1 (hI.freeSlot r' x hx').1 x
        (hI.freeSlot r x hx).2 (hI.freeSlot r' x hx').2)
  · exact fun r r' x hne hx hx' => hne (inv_used_own hI r r' x hx hx')

/-- Witness of C7: the state after one `allocMemory(100)` on a freshly
constructed manager is reachable, with one live pointer. -/
theorem live_blocks_distinct_lists_exclusive_witness :
    ∃ m h, Reach m h [4096 + sizeofMemoryBlock] ∧
      [4096 + sizeofMemoryBlock].Nodup ∧
      ∃ FL : PoolRef → List Nat, (∀ r, IsList h.mem (m.pool r)._pHead (FL r)) ∧
        ∀ r, 4096 ∉ FL r := by
  have e := mgr_alloc_pool MemoryMgr.new Heap.empty 100 4096 PoolRef.mem_128 (by decide)
    (allocMap_new 100 (by decide))
  rw [alloc_uninit PoolRef.mem_128 (MemoryMgr.new.pool PoolRef.mem_128) Heap.empty 100 4096 rfl rfl
    (by decide)] at e
  have hR : Reach _ _ [4096 + sizeofMemoryBlock] :=
    Reach.alloc 100 4096 _ (Reach.init Heap.empty) (by decide) e
      (fun size _ r hr => by simp [Heap.empty] at hr)
  obtain ⟨g1, _, FL, _, _, g2, _, _, g3, _⟩ := live_blocks_distinct_lists_exclusive hR
  refine ⟨_, _, hR, g1, FL, g2, ?_⟩
  intro r hr
  exact g3 _ (List.mem_singleton_self _) r (by simpa using hr)

/-! ## Class-size rounding -/

theorem roundUp_spec (w nSize : Nat) (hw : 0 < w) :
    w ∣ (nSize / w) * w + (if nSize % w ≠ 0 then w else 0) ∧
    nSize ≤ (nSize / w) * w + (if nSize % w ≠ 0 then w else 0) ∧
    (nSize / w) * w + (if nSize % w ≠ 0 then w else 0) < nSize + w ∧
    ∀ k, w ∣ k → nSize ≤ k → (nSize / w) * w + (if nSize % w ≠ 0 then w else 0) ≤ k := by
  have hdm := Nat.div_add_mod nSize w
  have hlt := Nat.mod_lt nSize hw
  have hc : nSize / w * w = w * (nSize / w) := Nat.mul_comm _ _
  split_ifs with h0
  · refine ⟨?_, by omega, by omega, ?_⟩
    · exact Dvd.dvd.add (Dvd.intro_left _ rfl) (dvd_refl w)
    · rintro k ⟨j, rfl⟩ hle
      have hj : nSize / w < j := by
        by_contra hn
        have : j ≤ nSize / w := by omega
        have := Nat.mul_le_mul_left w this
        omega
      have := Nat.mul_le_mul_left w (Nat.succ_le_of_lt hj)
      rw [Nat.mul_succ] at this
      omega
  · push_neg at h0
    refine ⟨?_, by omega, by omega, ?_⟩
    · exact Dvd.dvd.add (Dvd.intro_left _ rfl) (dvd_zero w)
    · intro k _ hle
      omega

/-- C17 (class-size rounding), amended: for every pointer size `w > 0` and every
template size `nSize` for which some multiple of `w` that is at least `nSize`
fits `size_t`, the constructor of `MemoryAllocator<nSize, nBlocks>` sets `_nSize`
to the smallest multiple of `w` that is at least `nSize` (so `_nSize ≥ nSize`,
`_nSize - nSize < w`, and `_nSize = nSize` when `w` divides `nSize`) and
`_nBlocks` to `nBlocks`; the constructor of the 64-bit target is the case
`w = 8`. -/
theorem class_size_rounding (w nSize nBlocks k : Nat) (hw : 0 < w) (hk : w ∣ k) (hle : nSize ≤ k)
    (hfit : k < SIZE_MOD) :
    w ∣ (MemoryAllocator.newOn w nSize nBlocks)._nSize ∧
    nSize ≤ (MemoryAllocator.newOn w nSize nBlocks)._nSize ∧
    (∀ j, w ∣ j → nSize ≤ j → (MemoryAllocator.newOn w nSize nBlocks)._nSize ≤ j) ∧
    (MemoryAllocator.newOn w nSize nBlocks)._nSize - nSize < w ∧
    (w ∣ nSize → (MemoryAllocator.newOn w nSize nBlocks)._nSize = nSize) ∧
    (MemoryAllocator.newOn w nSize nBlocks)._nBlocks = nBlocks ∧
    MemoryAllocator.new nSize nBlocks = MemoryAllocator.newOn ptrSize nSize nBlocks := by
  obtain ⟨r1, r2, r3, r4⟩ := roundUp_spec w nSize hw
  have hlt : (nSize / w) * w + (if nSize % w ≠ 0 then w else 0) < SIZE_MOD :=
    lt_of_le_of_lt (r4 k hk hle) hfit
  have e : (MemoryAllocator.newOn w nSize nBlocks)._nSize =
      (nSize / w) * w + (if nSize % w ≠ 0 then w else 0) := Nat.mod_eq_of_lt hlt
  rw [e]
  refine ⟨r1, r2, r4, by omega, ?_, rfl, rfl⟩
  intro hd
  exact le_antisymm (r4 nSize hd (le_refl _)) r2

/-- Witness of C17 at `w = 8`, `nSize = 100`, `nBlocks = 4`: 104 is a multiple
of 8 above 100 that fits. -/
theorem class_size_rounding_witness :
    (0 < 8 ∧ 8 ∣ 104 ∧ 100 ≤ 104 ∧ 104 < SIZE_MOD) ∧
    8 ∣ (MemoryAllocator.newOn 8 100 4)._nSize ∧
    100 ≤ (MemoryAllocator.newOn 8 100 4)._nSize ∧
    (MemoryAllocator.newOn 8 100 4)._nSize ≤ 104 := by
  obtain ⟨h1, h2, h3, _⟩ := class_size_rounding 8 100 4 104 (by decide) (by decide) (by decide)
    (by unfold SIZE_MOD; omega)
  exact ⟨⟨by decide, by decide, by decide, by unfold SIZE_MOD; omega⟩, h1, h2,
    h3 104 (by decide) (by decide)⟩

/-- C17 as stated fails at the top of `size_t`: for `nSize = 2 ^ 64 - 1` the sum
wraps and the constructor of the 64-bit target stores `_nSize = 0`, which is
below `nSize`. -/
theorem class_size_wraps_near_size_max :
    (MemoryAllocator.new (2 ^ 64 - 1) BLOCKS_SIZE)._nSize = 0 ∧
    (MemoryAllocator.newOn 8 (2 ^ 64 - 1) BLOCKS_SIZE)._nSize = 0 ∧
    ¬ (2 ^ 64 - 1 ≤ (MemoryAllocator.new (2 ^ 64 - 1) BLOCKS_SIZE)._nSize) := by
  have e : (MemoryAllocator.new (2 ^ 64 - 1) BLOCKS_SIZE)._nSize = 0 := by
    simp [MemoryAllocator.new, MemoryAlloc.new, ptrSize, SIZE_MOD]
  rw [e]
  exact ⟨rfl, e, by norm_num⟩

/-! ## Lock balance -/

theorem init_unlocks (this : PoolRef) (p p' : MemoryAlloc) (h h' : Heap) (a : Nat)
    (hs : p._pSelf = 0) (e : MemoryAlloc.init this p h a = .ok (p', h')) : p'._mutex = false := by
  cases hm : p._mutex with
  | true => simp [MemoryAlloc.init, hm, lock, bind, Except.bind] at e
  | false =>
    by_cases ha : a = 0
    · simp [MemoryAlloc.init, hs, hm, ha, lock, bind, Except.bind, pure, Except.pure, throw,
        throwThe, MonadExceptOf.throw] at e
    · rw [init_fresh this p h a hs hm ha] at e
      injection e with e
      injection e with e1 e2
      rw [← e1]

theorem alloc_unlocks (this : PoolRef) (p p' : MemoryAlloc) (h h' : Heap) (nSize a pMem : Nat)
    (e : MemoryAlloc.allocMemory this p h nSize a = .ok (pMem, p', h')) :
    p._mutex = false ∧ p'._mutex = false := by
  obtain ⟨hm, hc⟩ := alloc_inv this p p' h h' nSize a pMem e
  refine ⟨hm, ?_⟩
  rcases hc with ⟨_, _, _, hp, _⟩ | ⟨_, _, _, hp, _⟩ | ⟨_, _, _, _, hp, _⟩ <;> rw [hp]

theorem free_unlocks (p p' : MemoryAlloc) (h h' : Heap) (pMemory : Nat) (hm : p._mutex = false)
    (e : MemoryAlloc.freeMemory p h pMemory = .ok (p', h')) : p'._mutex = false := by
  by_cases hz : toInt32 ((h.mem (pMemory - sizeofMemoryBlock)).mRef - 1) = 0
  · cases hin : (h.mem (pMemory - sizeofMemoryBlock)).inPool with
    | true =>
      rw [free_recycle p h pMemory hz hm hin] at e
      injection e with e
      injection e with e1 e2
      rw [← e1]
    | false =>
      rw [free_unsplice p h pMemory hz hm hin] at e
      obtain ⟨z, _, hf⟩ := map_ok_inv _ _ _ e
      injection hf with e1 e2
      rw [← e1]
  · rw [free_keep p h pMemory hz] at e
    injection e with e
    injection e with e1 e2
    rw [← e1]; exact hm

theorem mgr_alloc_unlocks (m m' : MemoryMgr) (h h' : Heap) (nSize a pMem : Nat)
    (hm : m._mutex = false) (hp : ∀ r, (m.pool r)._mutex = false)
    (e : m.allocMemory h nSize a = .ok (pMem, m', h')) :
    m'._mutex = false ∧ ∀ r, (m'.pool r)._mutex = false := by
  rcases mgr_alloc_inv m m' h h' nSize a pMem e with ⟨_, r, p', _, hm', ea⟩ | ⟨_, _, _, _, hm', _⟩
  · have hp' := (alloc_unlocks r (m.pool r) p' h h' nSize a pMem ea).2
    subst hm'
    refine ⟨by rw [(setPool_fields m r p').2]; exact hm, fun r' => ?_⟩
    by_cases hr : r' = r
    · subst hr; rw [pool_setPool_same]; exact hp'
    · rw [pool_setPool_ne m r r' p' hr]; exact hp r'
  · subst hm'
    refine ⟨rfl, fun r' => ?_⟩
    have : ({ m with _pHeadUsed := a, _mutex := false } : MemoryMgr).pool r' = m.pool r' := by
      cases r' <;> rfl
    rw [this]; exact hp r'

theorem mgr_free_mutex (m m' : MemoryMgr) (h h' : Heap) (pMem : Nat)
    (hm : m._mutex = false) (hp : ∀ r, (m.pool r)._mutex = false)
    (e : m.freeMemory h pMem = .ok (m', h')) :
    (∀ r, (m'.pool r)._mutex = false) ∧
    (m'._mutex = true ↔
      (((h.mem (pMem - sizeofMemoryBlock)).inPool || (h.mem (pMem - sizeofMemoryBlock)).allocPool)
          = false ∧
        toInt32 ((h.mem (pMem - sizeofMemoryBlock)).mRef - 1) ≠ 0)) := by
  cases hf : ((h.mem (pMem - sizeofMemoryBlock)).inPool ||
      (h.mem (pMem - sizeofMemoryBlock)).allocPool) with
  | true =>
    cases hr : (h.mem (pMem - sizeofMemoryBlock)).pAlloc with
    | none => rw [mgr_free_pool_null m h pMem hf hr] at e; cases e
    | some r =>
      rw [mgr_free_pool m h pMem r hf hr] at e
      obtain ⟨⟨p', h''⟩, hz, hfz⟩ := map_ok_inv _ _ _ e
      injection hfz with e1 e2
      have hp' := free_unlocks (m.pool r) p' h h'' pMem (hp r) hz
      subst e1
      constructor
      · intro r'
        by_cases hrr : r' = r
        · subst hrr; rw [pool_setPool_same]; exact hp'
        · rw [pool_setPool_ne m r r' p' hrr]; exact hp r'
      · rw [(setPool_fields m r p').2, hm]
        simp
  | false =>
    by_cases hz : toInt32 ((h.mem (pMem - sizeofMemoryBlock)).mRef - 1) = 0
    · rw [mgr_free_large_last m h pMem hf hm hz] at e
      obtain ⟨z, _, hfz⟩ := map_ok_inv _ _ _ e
      injection hfz with e1 e2
      subst e1
      constructor
      · intro r'
        have : ({ m with _pHeadUsed := z.1, _mutex := false } : MemoryMgr).pool r' = m.pool r' := by
          cases r' <;> rfl
        rw [this]; exact hp r'
      · simp [hz]
    · rw [mgr_free_large_keep m h pMem hf hm hz] at e
      injection e with e
      injection e with e1 e2
      subst e1
      constructor
      · intro r'
        have : ({ m with _mutex := true } : MemoryMgr).pool r' = m.pool r' := by
          cases r' <;> rfl
        rw [this]; exact hp r'
      · simp [hz]

/-- C14 (lock balance): `MemoryAlloc::init` on an uninitialised pool,
`MemoryAlloc::allocMemory`, `MemoryAlloc::freeMemory` and
`MemoryMgr::allocMemory` return with every mutex they found free again free, and
so does `MemoryMgr::freeMemory` on all paths but one; the two early `return`s
break the balance: `init` on an initialised pool returns with the pool's mutex
held, and `MemoryMgr::freeMemory` on a large-object block whose count stays
above zero returns with the manager's mutex held. -/
theorem lock_balance_broken_by_early_returns :
    (∀ (this : PoolRef) (p p' : MemoryAlloc) (h h' : Heap) (a : Nat), p._pSelf = 0 →
      MemoryAlloc.init this p h a = .ok (p', h') → p'._mutex = false) ∧
    (∀ (this : PoolRef) (p p' : MemoryAlloc) (h h' : Heap) (nSize a pMem : Nat),
      MemoryAlloc.allocMemory this p h nSize a = .ok (pMem, p', h') →
        p._mutex = false ∧ p'._mutex = false) ∧
    (∀ (p p' : MemoryAlloc) (h h' : Heap) (pMemory : Nat), p._mutex = false →
      MemoryAlloc.freeMemory p h pMemory = .ok (p', h') → p'._mutex = false) ∧
    (∀ (m m' : MemoryMgr) (h h' : Heap) (nSize a pMem : Nat), m._mutex = false →
      (∀ r, (m.pool r)._mutex = false) → m.allocMemory h nSize a = .ok (pMem, m', h') →
        m'._mutex = false ∧ ∀ r, (m'.pool r)._mutex = false) ∧
    (∀ (m m' : MemoryMgr) (h h' : Heap) (pMem : Nat), m._mutex = false →
      (∀ r, (m.pool r)._mutex = false) → m.freeMemory h pMem = .ok (m', h') →
        (∀ r, (m'.pool r)._mutex = false) ∧
        (m'._mutex = true ↔
          (((h.mem (pMem - sizeofMemoryBlock)).inPool ||
              (h.mem (pMem - sizeofMemoryBlock)).allocPool) = false ∧
            toInt32 ((h.mem (pMem - sizeofMemoryBlock)).mRef - 1) ≠ 0))) ∧
    (∀ (this : PoolRef) (p : MemoryAlloc) (h : Heap) (a : Nat), p._pSelf ≠ 0 → p._mutex = false →
      MemoryAlloc.init this p h a = .ok ({ p with _mutex := true }, h)) ∧
    (∀ (m : MemoryMgr) (h : Heap) (pMem : Nat),
      ((h.mem (pMem - sizeofMemoryBlock)).inPool || (h.mem (pMem - sizeofMemoryBlock)).allocPool)
        = false →
      m._mutex = false → toInt32 ((h.mem (pMem - sizeofMemoryBlock)).mRef - 1) ≠ 0 →
      ∃ h', m.freeMemory h pMem = .ok ({ m with _mutex := true }, h')) :=
  ⟨init_unlocks, alloc_unlocks, free_unlocks, mgr_alloc_unlocks, mgr_free_mutex, init_again,
    fun m h pMem hf hm hz => ⟨_, mgr_free_large_keep m h pMem hf hm hz⟩⟩

/-- The failing inputs of C14: a second `init` on a pool of four blocks after
one allocation, and `allocMemory(2000)`, `addRef`, `freeMemory` on a freshly
constructed manager; both return with the mutex held. -/
theorem lock_balance_broken_by_early_returns_witness :
    (∃ pMem p1 h1, MemoryAlloc.allocMemory PoolRef.mem_64 (MemoryAllocator.new 64 4) Heap.empty 8 4096 =
        .ok (pMem, p1, h1) ∧ p1._mutex = false ∧
      MemoryAlloc.init PoolRef.mem_64 p1 h1 8192 = .ok ({ p1 with _mutex := true }, h1)) ∧
    (∃ m1 h1 h2, MemoryMgr.new.allocMemory Heap.empty 2000 4096 =
        .ok (4096 + sizeofMemoryBlock, m1, h1) ∧ m1._mutex = false ∧
      m1.freeMemory (MemoryMgr.addRef h1 (4096 + sizeofMemoryBlock)) (4096 + sizeofMemoryBlock) =
        .ok ({ m1 with _mutex := true }, h2)) := by
  obtain ⟨_, _, _, _, _, g6, g7⟩ := lock_balance_broken_by_early_returns
  constructor
  · exact ⟨_, _, _,
      alloc_uninit PoolRef.mem_64 (MemoryAllocator.new 64 4) Heap.empty 8 4096 rfl rfl (by decide),
      rfl, g6 PoolRef.mem_64 _ _ 8192 (by decide) rfl⟩
  · obtain ⟨h2, e2⟩ := g7 { MemoryMgr.new with _pHeadUsed := 4096, _mutex := false }
      (MemoryMgr.addRef (pushHeap Heap.empty 4096 ((sizeofMemoryBlock + 2000) % SIZE_MOD)
        { pAlloc := none, pPrev := 0, pNext := 0, mId := -1, mRef := 1,
          inPool := false, allocPool := false } MemoryMgr.new._pHeadUsed) (4096 + sizeofMemoryBlock))
      (4096 + sizeofMemoryBlock) (by decide) rfl (by decide)
    exact ⟨_, _, h2, mgr_alloc_large MemoryMgr.new Heap.empty 2000 4096 (by decide) rfl (by decide),
      rfl, e2⟩

/-! ## Repeated release of a recycled block -/

theorem toInt32_neg_one : toInt32 ((0 : Int) - 1) = -1 := by decide

/-- C16 (repeated release of a recycled arena block): for an arena block `x`
that is on the free list with `mRef = 0`, `MemoryAlloc::freeMemory` on its
payload pointer returns with the pool unchanged and a heap that differs only in
`mRef` of `x`, now `-1`: the free list, the overflow list, every other header,
the allocated regions and the `free` log are as before; and any later
`allocMemory` that finds `x` at the head of the free list returns its payload
pointer with `mRef = 1`. -/
theorem repeated_release_of_recycled_block (this : PoolRef) (p : MemoryAlloc) (h : Heap) (x : Nat)
    (FL OL : List Nat) (hin : (h.mem x).inPool = true) (href : (h.mem x).mRef = 0)
    (hF : IsList h.mem p._pHead FL) (hx : x ∈ FL) (hO : IsDList h.mem 0 p._pHeadUsed OL) :
    ∃ h', MemoryAlloc.freeMemory p h (x + sizeofMemoryBlock) = .ok (p, h') ∧
      h'.mem x = { h.mem x with mRef := -1 } ∧
      (∀ y, y ≠ x → h'.mem y = h.mem y) ∧ h'.live = h.live ∧ h'.freed = h.freed ∧
      IsList h'.mem p._pHead FL ∧ IsDList h'.mem 0 p._pHeadUsed OL ∧
      ∀ (p2 : MemoryAlloc) (h2 : Heap) (nSize a : Nat), p2._pSelf ≠ 0 → p2._mutex = false →
        p2._pHead = x →
        ∃ p3 h3, MemoryAlloc.allocMemory this p2 h2 nSize a = .ok (x + sizeofMemoryBlock, p3, h3) ∧
          (h3.mem x).mRef = 1 ∧ (h3.mem x).inPool = (h2.mem x).inPool ∧
          p3._pHead = (h2.mem x).pNext := by
  have hsub : x + sizeofMemoryBlock - sizeofMemoryBlock = x := by omega
  have hx0 : x ≠ 0 := fun e => isList_not_mem_zero hF (e ▸ hx)
  have hz : toInt32 ((h.mem (x + sizeofMemoryBlock - sizeofMemoryBlock)).mRef - 1) ≠ 0 := by
    rw [hsub, href, toInt32_neg_one]; decide
  have e := free_keep p h (x + sizeofMemoryBlock) hz
  rw [hsub, href, toInt32_neg_one] at e
  refine ⟨_, e, write_mem_same _ _ _, fun y hy => write_mem_ne _ _ _ _ hy, rfl, rfl, ?_, ?_, ?_⟩
  · apply isList_congr _ hF
    intro y _
    rw [write_mem]
    split_ifs with hy
    · subst hy; rfl
    · rfl
  · apply isDList_congr _ hO
    intro y _
    rw [write_mem]
    split_ifs with hy
    · subst hy; exact ⟨rfl, rfl⟩
    · exact ⟨rfl, rfl⟩
  · intro p2 h2 nSize a hs hm hh
    have e2 := alloc_pop this p2 h2 nSize a hs hm (by rw [hh]; exact hx0)
    rw [hh] at e2
    exact ⟨_, _, e2, by rw [write_mem_same], by rw [write_mem_same], rfl⟩

/-- Witness of C16: the second block of a freshly laid out pool of four. -/
theorem repeated_release_of_recycled_block_witness :
    ∃ h', MemoryAlloc.freeMemory
        { MemoryAllocator.new 64 4 with _pSelf := 4096, _pHead := 4096 }
        (initHeap PoolRef.mem_64 (MemoryAllocator.new 64 4) Heap.empty 4096)
        (4200 + sizeofMemoryBlock) =
          .ok ({ MemoryAllocator.new 64 4 with _pSelf := 4096, _pHead := 4096 }, h') ∧
      (h'.mem 4200).mRef = -1 ∧ IsList h'.mem 4096 [4096, 4200, 4304, 4408] := by
  obtain ⟨h', e, g1, _, _, _, g2, _⟩ := repeated_release_of_recycled_block PoolRef.mem_64
    { MemoryAllocator.new 64 4 with _pSelf := 4096, _pHead := 4096 }
    (initHeap PoolRef.mem_64 (MemoryAllocator.new 64 4) Heap.empty 4096) 4200
    [4096, 4200, 4304, 4408] [] (by decide) (by decide) (by decide) (by decide) (by decide)
  exact ⟨h', e, by rw [g1], g2⟩

/-! ## The bookkeeping of a run -/

section
variable {m : MemoryMgr} {h : Heap} {live : List Nat} {FL OL : PoolRef → List Nat} {LL : List Nat}

theorem inv_live_not_free (hI : Inv m h live FL OL LL) (p : Nat) (hp : p ∈ live) (r : PoolRef) :
    p - sizeofMemoryBlock ∉ FL r := by
  intro hpF
  obtain ⟨hs, hslot⟩ := hI.freeSlot r _ hpF
  rcases (hI.liveBlock p hp).2 with ⟨r', h1, h2, h3⟩ | ⟨r', h1⟩ | h1
  · have := inv_slot_own hI r r' hs h1 _ hslot h2
    subst this
    exact h3 hpF
  · exact inv_slot_not_used hI r r' hs _ hslot h1
  · exact inv_slot_not_large hI r hs _ hslot h1

theorem inv_free_own (hI : Inv m h live FL OL LL) (r r' : PoolRef) (x : Nat) (hx : x ∈ FL r)
    (hx' : x ∈ FL r') : r = r' :=
  inv_slot_own hI r r' (hI.freeSlot r x hx).1 (hI.freeSlot r' x hx').1 x
    (hI.freeSlot r x hx).2 (hI.freeSlot r' x hx').2

theorem inv_live_sub_ne (hI : Inv m h live FL OL LL) (p q : Nat) (hp : p ∈ live) (hq : q ∈ live)
    (hne : p ≠ q) : p - sizeofMemoryBlock ≠ q - sizeofMemoryBlock :=
  sub_ne_of_ne p q (hI.liveBlock p hp).1 (hI.liveBlock q hq).1 hne

end

theorem ledger_init (h : Heap) (hl : h.live = []) :
    Ledger MemoryMgr.new h [] (fun _ => []) (fun _ => []) [] where
  freeRef := fun _ x hx => by simp at hx
  slotLive := fun r hs => absurd (by cases r <;> rfl) hs
  usedLive := fun _ x hx => by simp at hx
  largeLive := fun x hx => by simp at hx
  liveRef := fun p hp => by simp at hp
  regions := fun reg hreg => by rw [hl] at hreg; simp at hreg
  regionSize := fun reg hreg => by rw [hl] at hreg; simp at hreg
  regionsNodup := by rw [hl]; exact List.nodup_nil

/-- Storing a count of at least one in the header of a live pointer. -/
theorem ledger_write_mRef {m : MemoryMgr} {h : Heap} {live : List Nat}
    {FL OL : PoolRef → List Nat} {LL : List Nat} (hI : Inv m h live FL OL LL)
    (hL : Ledger m h live FL OL LL) (p : Nat) (hp : p ∈ live) (v : Int) (hv1 : 1 ≤ v)
    (hv2 : v < 2 ^ 31) :
    Ledger m (h.write (p - sizeofMemoryBlock) { h.mem (p - sizeofMemoryBlock) with mRef := v })
      live FL OL LL where
  freeRef := fun r x hx => by
    have hne : x ≠ p - sizeofMemoryBlock := fun e => inv_live_not_free hI p hp r (e ▸ hx)
    rw [write_mem_ne _ _ _ _ hne]
    exact hL.freeRef r x hx
  slotLive := hL.slotLive
  usedLive := hL.usedLive
  largeLive := hL.largeLive
  liveRef := fun q hq => by
    by_cases hqp : q = p
    · subst hqp
      rw [write_mem_same]
      exact ⟨hv1, hv2⟩
    · rw [write_mem_ne _ _ _ _ (inv_live_sub_ne hI q p hq hp hqp)]
      exact hL.liveRef q hq
  regions := hL.regions
  regionSize := hL.regionSize
  regionsNodup := hL.regionsNodup

theorem ledger_mgr_mutex {m : MemoryMgr} {h : Heap} {live : List Nat}
    {FL OL : PoolRef → List Nat} {LL : List Nat} (hL : Ledger m h live FL OL LL) (b : Bool) :
    Ledger { m with _mutex := b } h live FL OL LL := by
  have hpool : ∀ r', ({ m with _mutex := b } : MemoryMgr).pool r' = m.pool r' :=
    fun r' => by cases r' <;> rfl
  exact {
    freeRef := hL.freeRef
    slotLive := fun r => by rw [hpool]; exact hL.slotLive r
    usedLive := hL.usedLive
    largeLive := hL.largeLive
    liveRef := hL.liveRef
    regions := fun reg hreg => by
      rcases hL.regions reg hreg with ⟨r, g1, g2⟩ | g | g
      · exact Or.inl ⟨r, by rw [hpool]; exact ⟨g1, g2⟩⟩
      · exact Or.inr (Or.inl g)
      · exact Or.inr (Or.inr g)
    regionSize := hL.regionSize
    regionsNodup := hL.regionsNodup }

/-- Popping the head of a free list. -/
theorem ledger_pop {m : MemoryMgr} {h : Heap} {live : List Nat} {FL OL : PoolRef → List Nat}
    {LL : List Nat} (hI : Inv m h live FL OL LL) (hL : Ledger m h live FL OL LL) (r : PoolRef)
    (xs : List Nat) (hxs : FL r = (m.pool r)._pHead :: xs) :
    Ledger
      (m.setPool r { m.pool r with _pHead := (h.mem (m.pool r)._pHead).pNext, _mutex := false })
      (h.write (m.pool r)._pHead { h.mem (m.pool r)._pHead with mRef := 1, pNext := 0, pPrev := 0 })
      (((m.pool r)._pHead + sizeofMemoryBlock) :: live)
      (fun r' => if r' = r then xs else FL r') OL LL := by
  have hxF : (m.pool r)._pHead ∈ FL r := by rw [hxs]; exact List.mem_cons_self _ _
  have hnd : ((m.pool r)._pHead :: xs).Nodup := by
    have := isList_nodup (hI.free r); rwa [hxs] at this
  have hxxs : (m.pool r)._pHead ∉ xs := (List.nodup_cons.1 hnd).1
  have hsub : (m.pool r)._pHead + sizeofMemoryBlock - sizeofMemoryBlock = (m.pool r)._pHead := by
    omega
  have hps : ∀ r', ((m.setPool r
      { m.pool r with _pHead := (h.mem (m.pool r)._pHead).pNext, _mutex := false }).pool r')._pSelf
        = (m.pool r')._pSelf ∧
      ((m.setPool r
      { m.pool r with _pHead := (h.mem (m.pool r)._pHead).pNext, _mutex := false }).pool r').realSize
        = (m.pool r').realSize := by
    intro r'
    rw [pool_setPool]
    split_ifs with hr
    · subst hr; exact ⟨rfl, rfl⟩
    · exact ⟨rfl, rfl⟩
  exact {
    freeRef := fun r' y hy => by
      by_cases hr : r' = r
      · subst hr
        simp only [if_true] at hy
        have hne : y ≠ (m.pool r')._pHead := fun e => hxxs (e ▸ hy)
        rw [write_mem_ne _ _ _ _ hne]
        exact hL.freeRef r' y (by rw [hxs]; exact List.mem_cons_of_mem _ hy)
      · simp only [if_neg hr] at hy
        have hne : y ≠ (m.pool r)._pHead := fun e => hr (inv_free_own hI r' r y hy (e ▸ hxF))
        rw [write_mem_ne _ _ _ _ hne]
        exact hL.freeRef r' y hy
    slotLive := fun r' hs y hy hnF => by
      rw [(hps r').1] at hs hy
      rw [(hps r').2] at hy
      by_cases hr : r' = r
      · subst hr
        simp only [if_true] at hnF
        by_cases hyx : y = (m.pool r')._pHead
        · rw [hyx]; exact List.mem_cons_self _ _
        · refine List.mem_cons_of_mem _ (hL.slotLive r' hs y hy ?_)
          rw [hxs]
          simp only [List.mem_cons, not_or]
          exact ⟨hyx, hnF⟩
      · simp only [if_neg hr] at hnF
        exact List.mem_cons_of_mem _ (hL.slotLive r' hs y hy hnF)
    usedLive := fun r' y hy => List.mem_cons_of_mem _ (hL.usedLive r' y hy)
    largeLive := fun y hy => List.mem_cons_of_mem _ (hL.largeLive y hy)
    liveRef := fun q hq => by
      rcases List.mem_cons.1 hq with rfl | hq'
      · rw [hsub, write_mem_same]
        exact ⟨le_refl _, by norm_num⟩
      · have hne : q - sizeofMemoryBlock ≠ (m.pool r)._pHead :=
          fun e => inv_live_not_free hI q hq' r (e ▸ hxF)
        rw [write_mem_ne _ _ _ _ hne]
        exact hL.liveRef q hq'
    regions := fun reg hreg => by
      rcases hL.regions reg hreg with ⟨r0, g1, g2⟩ | g | g
      · exact Or.inl ⟨r0, by rw [(hps r0).1]; exact ⟨g1, g2⟩⟩
      · exact Or.inr (Or.inl g)
      · exact Or.inr (Or.inr g)
    regionSize := hL.regionSize
    regionsNodup := hL.regionsNodup }

theorem fresh_base_not_live (h : Heap) (a size : Nat) (hf : Fresh h a size) (hpos : 0 < size)
    (hsz : ∀ reg ∈ h.live, sizeofMemoryBlock ≤ reg.2) : a ∉ h.live.map Prod.fst := by
  intro hmem
  obtain ⟨reg, hreg, e⟩ := List.mem_map.1 hmem
  have h1 := hf reg hreg
  have h2 := hsz reg hreg
  unfold sizeofMemoryBlock at h2
  omega

/-- The first allocation of a pool: the arena is laid out and its first slot
handed out. -/
theorem ledger_first {m : MemoryMgr} {h : Heap} {live : List Nat} {FL OL : PoolRef → List Nat}
    {LL : List Nat} (hI : Inv m h live FL OL LL) (hL : Ledger m h live FL OL LL) (r : PoolRef)
    (a : Nat) (hs0 : (m.pool r)._pSelf = 0) (ha : a ≠ 0)
    (hfresh : Fresh h a (((m.pool r)._nBlocks * (m.pool r).realSize) % SIZE_MOD))
    (xs : List Nat) (hxs : slots a (m.pool r).realSize BLOCKS_SIZE = a :: xs) :
    Ledger
      (m.setPool r { m.pool r with
        _pSelf := a, _pHead := ((initHeap r (m.pool r) h a).mem a).pNext, _mutex := false })
      ((initHeap r (m.pool r) h a).write a
        { (initHeap r (m.pool r) h a).mem a with mRef := 1, pNext := 0, pPrev := 0 })
      ((a + sizeofMemoryBlock) :: live) (fun r' => if r' = r then xs else FL r') OL LL := by
  obtain ⟨hrs, hs40, hs1064⟩ := realSize_bounds _ (hI.nSize r)
  have hN := hI.nBlocks r
  have hpos : 0 < (m.pool r).realSize := by unfold sizeofMemoryBlock at hs40; omega
  have hn1 : 1 ≤ (m.pool r)._nBlocks := by rw [hN]; unfold BLOCKS_SIZE; omega
  have hsize : ((m.pool r)._nBlocks * (m.pool r).realSize) % SIZE_MOD =
      BLOCKS_SIZE * (m.pool r).realSize := by
    rw [hN]
    apply Nat.mod_eq_of_lt
    unfold BLOCKS_SIZE SIZE_MOD
    omega
  rw [hsize] at hfresh
  have hsub : a + sizeofMemoryBlock - sizeofMemoryBlock = a := by omega
  have hLs := initHeap_isList r (m.pool r) h a ha hpos hn1
  have hflags := initHeap_flags r (m.pool r) h a hpos
  have hother := fun x => initHeap_untouched r (m.pool r) h a x hn1
  have hlive := (initHeap_live r (m.pool r) h a).1
  rw [hsize] at hlive
  rw [hN] at hLs hflags hother
  generalize initHeap r (m.pool r) h a = H at hLs hflags hother hlive
  have hamem : a ∈ slots a (m.pool r).realSize BLOCKS_SIZE :=
    slots_head _ _ _ (by unfold BLOCKS_SIZE; omega)
  have hnd := isList_nodup hLs
  rw [hxs] at hnd
  have haxs : a ∉ xs := (List.nodup_cons.1 hnd).1
  have hold : ∀ y, Tracked h y → y ∉ slots a (m.pool r).realSize BLOCKS_SIZE := by
    intro y hy hyS
    have hb := slot_bounds _ _ _ _ hyS hs40
    exact fresh_tracked_ne h a _ y y hfresh hy hb.1 (by unfold sizeofMemoryBlock at hb; omega) rfl
  have hkeep : ∀ y, Tracked h y →
      (H.write a { H.mem a with mRef := 1, pNext := 0, pPrev := 0 }).mem y = h.mem y := by
    intro y hy
    have hyS := hold y hy
    have hya : y ≠ a := fun e => hyS (e ▸ hamem)
    rw [write_mem_ne _ _ _ _ hya, hother y hyS]
  have hpool : ∀ r', (m.setPool r { m.pool r with
        _pSelf := a, _pHead := (H.mem a).pNext, _mutex := false }).pool r' =
      if r' = r then { m.pool r with _pSelf := a, _pHead := (H.mem a).pNext, _mutex := false }
      else m.pool r' := fun r' => pool_setPool m r r' _
  exact {
    freeRef := fun r' y hy => by
      by_cases hr : r' = r
      · subst hr
        simp only [if_true] at hy
        have hyS : y ∈ slots a (m.pool r').realSize BLOCKS_SIZE := by
          rw [hxs]; exact List.mem_cons_of_mem _ hy
        have hne : y ≠ a := fun e => haxs (e ▸ hy)
        rw [write_mem_ne _ _ _ _ hne]
        exact (hflags y hyS).2.2.2
      · simp only [if_neg hr] at hy
        rw [hkeep y (inv_free_tracked hI r' y hy)]
        exact hL.freeRef r' y hy
    slotLive := fun r' hs y hy hnF => by
      rw [hpool] at hs hy
      by_cases hr : r' = r
      · subst hr
        simp only [if_true] at hy hnF
        have hy' : y ∈ slots a (m.pool r').realSize BLOCKS_SIZE := hy
        rw [hxs] at hy'
        rcases List.mem_cons.1 hy' with rfl | hy''
        · exact List.mem_cons_self _ _
        · exact absurd hy'' hnF
      · simp only [if_neg hr] at hs hy hnF
        exact List.mem_cons_of_mem _ (hL.slotLive r' hs y hy hnF)
    usedLive := fun r' y hy => List.mem_cons_of_mem _ (hL.usedLive r' y hy)
    largeLive := fun y hy => List.mem_cons_of_mem _ (hL.largeLive y hy)
    liveRef := fun q hq => by
      rcases List.mem_cons.1 hq with rfl | hq'
      · rw [hsub, write_mem_same]
        exact ⟨le_refl _, by norm_num⟩
      · rw [hkeep _ (inv_live_tracked hI q hq')]
        exact hL.liveRef q hq'
    regions := fun reg hreg => by
      rw [write_live, hlive] at hreg
      rcases List.mem_cons.1 hreg with rfl | hreg'
      · exact Or.inl ⟨r, by rw [hpool, if_pos rfl]; exact ⟨ha, rfl⟩⟩
      · rcases hL.regions reg hreg' with ⟨r0, g1, g2⟩ | g | g
        · have hr0 : r0 ≠ r := fun e => g1 (e ▸ hs0)
          exact Or.inl ⟨r0, by rw [hpool, if_neg hr0]; exact ⟨g1, g2⟩⟩
        · exact Or.inr (Or.inl g)
        · exact Or.inr (Or.inr g)
    regionSize := fun reg hreg => by
      rw [write_live, hlive] at hreg
      rcases List.mem_cons.1 hreg with rfl | hreg'
      · show sizeofMemoryBlock ≤ BLOCKS_SIZE * (m.pool r).realSize
        unfold BLOCKS_SIZE
        omega
      · exact hL.regionSize reg hreg'
    regionsNodup := by
      rw [write_live, hlive, List.map_cons]
      refine List.nodup_cons.2 ⟨?_, hL.regionsNodup⟩
      exact fresh_base_not_live h a _ hfresh (by unfold BLOCKS_SIZE; omega) hL.regionSize }

/-- An overflow block is obtained and spliced onto a pool's overflow list. -/
theorem ledger_push_used {m : MemoryMgr} {h : Heap} {live : List Nat}
    {FL OL : PoolRef → List Nat} {LL : List Nat} (hI : Inv m h live FL OL LL)
    (hL : Ledger m h live FL OL LL) (r : PoolRef) (a size : Nat)
    (hsz : sizeofMemoryBlock ≤ size) (hfresh : Fresh h a size) :
    Ledger
      (m.setPool r { m.pool r with _pHeadUsed := a, _mutex := false })
      (pushHeap h a size
        { pAlloc := some r, pPrev := 0, pNext := 0, mId := -1, mRef := 1,
          inPool := false, allocPool := true } (m.pool r)._pHeadUsed)
      ((a + sizeofMemoryBlock) :: live) FL (fun r' => if r' = r then a :: OL r else OL r') LL := by
  have hsub : a + sizeofMemoryBlock - sizeofMemoryBlock = a := by omega
  have hold : ∀ y, Tracked h y → y ≠ a := fun y hy =>
    Ne.symm (fresh_tracked_ne h a size y a hfresh hy (le_refl _)
      (by unfold sizeofMemoryBlock at hsz; omega))
  obtain ⟨_, _, f3, _, _⟩ := pushHeap_fields h a size
    { pAlloc := some r, pPrev := 0, pNext := 0, mId := -1, mRef := 1,
      inPool := false, allocPool := true } (m.pool r)._pHeadUsed
  have hst := fun y => pushHeap_stable h a size
    { pAlloc := some r, pPrev := 0, pNext := 0, mId := -1, mRef := 1,
      inPool := false, allocPool := true } (m.pool r)._pHeadUsed y
  have hlive := (pushHeap_live h a size
    { pAlloc := some r, pPrev := 0, pNext := 0, mId := -1, mRef := 1,
      inPool := false, allocPool := true } (m.pool r)._pHeadUsed).1
  generalize pushHeap h a size
    { pAlloc := some r, pPrev := 0, pNext := 0, mId := -1, mRef := 1,
      inPool := false, allocPool := true } (m.pool r)._pHeadUsed = H at f3 hst hlive
  have hps : ∀ r', ((m.setPool r { m.pool r with _pHeadUsed := a, _mutex := false }).pool r')._pSelf
        = (m.pool r')._pSelf ∧
      ((m.setPool r { m.pool r with _pHeadUsed := a, _mutex := false }).pool r').realSize
        = (m.pool r').realSize := by
    intro r'
    rw [pool_setPool]
    split_ifs with hr
    · subst hr; exact ⟨rfl, rfl⟩
    · exact ⟨rfl, rfl⟩
  exact {
    freeRef := fun r' y hy => by
      rw [(hst y (hold y (inv_free_tracked hI r' y hy))).2.2.2.1]
      exact hL.freeRef r' y hy
    slotLive := fun r' hs y hy hnF => by
      rw [(hps r').1] at hs hy
      rw [(hps r').2] at hy
      exact List.mem_cons_of_mem _ (hL.slotLive r' hs y hy hnF)
    usedLive := fun r' y hy => by
      by_cases hr : r' = r
      · subst hr
        simp only [if_true] at hy
        rcases List.mem_cons.1 hy with rfl | hy'
        · exact List.mem_cons_self _ _
        · exact List.mem_cons_of_mem _ (hL.usedLive r' y hy')
      · simp only [if_neg hr] at hy
        exact List.mem_cons_of_mem _ (hL.usedLive r' y hy)
    largeLive := fun y hy => List.mem_cons_of_mem _ (hL.largeLive y hy)
    liveRef := fun q hq => by
      rcases List.mem_cons.1 hq with rfl | hq'
      · rw [hsub, f3]
        exact ⟨le_refl _, by norm_num⟩
      · rw [(hst _ (hold _ (inv_live_tracked hI q hq'))).2.2.2.1]
        exact hL.liveRef q hq'
    regions := fun reg hreg => by
      rw [hlive] at hreg
      rcases List.mem_cons.1 hreg with rfl | hreg'
      · exact Or.inr (Or.inl ⟨r, by simp⟩)
      · rcases hL.regions reg hreg' with ⟨r0, g1, g2⟩ | ⟨r0, g⟩ | g
        · exact Or.inl ⟨r0, by rw [(hps r0).1]; exact ⟨g1, g2⟩⟩
        · refine Or.inr (Or.inl ⟨r0, ?_⟩)
          by_cases hr : r0 = r
          · subst hr; simp only [if_true]; exact List.mem_cons_of_mem _ g
          · simp only [if_neg hr]; exact g
        · exact Or.inr (Or.inr g)
    regionSize := fun reg hreg => by
      rw [hlive] at hreg
      rcases List.mem_cons.1 hreg with rfl | hreg'
      · exact hsz
      · exact hL.regionSize reg hreg'
    regionsNodup := by
      rw [hlive, List.map_cons]
      refine List.nodup_cons.2 ⟨?_, hL.regionsNodup⟩
      exact fresh_base_not_live h a _ hfresh (by unfold sizeofMemoryBlock at hsz; omega)
        hL.regionSize }

/-- A large-object block is obtained and spliced onto the manager's list. -/
theorem ledger_push_large {m : MemoryMgr} {h : Heap} {live : List Nat}
    {FL OL : PoolRef → List Nat} {LL : List Nat} (hI : Inv m h live FL OL LL)
    (hL : Ledger m h live FL OL LL) (a size : Nat)
    (hsz : sizeofMemoryBlock ≤ size) (hfresh : Fresh h a size) :
    Ledger { m with _pHeadUsed := a, _mutex := false }
      (pushHeap h a size
        { pAlloc := none, pPrev := 0, pNext := 0, mId := -1, mRef := 1,
          inPool := false, allocPool := false } m._pHeadUsed)
      ((a + sizeofMemoryBlock) :: live) FL OL (a :: LL) := by
  have hsub : a + sizeofMemoryBlock - sizeofMemoryBlock = a := by omega
  have hold : ∀ y, Tracked h y → y ≠ a := fun y hy =>
    Ne.symm (fresh_tracked_ne h a size y a hfresh hy (le_refl _)
      (by unfold sizeofMemoryBlock at hsz; omega))
  obtain ⟨_, _, f3, _, _⟩ := pushHeap_fields h a size
    { pAlloc := none, pPrev := 0, pNext := 0, mId := -1, mRef := 1,
      inPool := false, allocPool := false } m._pHeadUsed
  have hst := fun y => pushHeap_stable h a size
    { pAlloc := none, pPrev := 0, pNext := 0, mId := -1, mRef := 1,
      inPool := false, allocPool := false } m._pHeadUsed y
  have hlive := (pushHeap_live h a size
    { pAlloc := none, pPrev := 0, pNext := 0, mId := -1, mRef := 1,
      inPool := false, allocPool := false } m._pHeadUsed).1
  generalize pushHeap h a size
    { pAlloc := none, pPrev := 0, pNext := 0, mId := -1, mRef := 1,
      inPool := false, allocPool := false } m._pHeadUsed = H at f3 hst hlive
  have hpool : ∀ r', ({ m with _pHeadUsed := a, _mutex := false } : MemoryMgr).pool r' =
      m.pool r' := fun r' => by cases r' <;> rfl
  exact {
    freeRef := fun r' y hy => by
      rw [(hst y (hold y (inv_free_tracked hI r' y hy))).2.2.2.1]
      exact hL.freeRef r' y hy
    slotLive := fun r' hs y hy hnF => by
      rw [hpool] at hs hy
      exact List.mem_cons_of_mem _ (hL.slotLive r' hs y hy hnF)
    usedLive := fun r' y hy => List.mem_cons_of_mem _ (hL.usedLive r' y hy)
    largeLive := fun y hy => by
      rcases List.mem_cons.1 hy with rfl | hy'
      · exact List.mem_cons_self _ _
      · exact List.mem_cons_of_mem _ (hL.largeLive y hy')
    liveRef := fun q hq => by
      rcases List.mem_cons.1 hq with rfl | hq'
      · rw [hsub, f3]
        exact ⟨le_refl _, by norm_num⟩
      · rw [(hst _ (hold _ (inv_live_tracked hI q hq'))).2.2.2.1]
        exact hL.liveRef q hq'
    regions := fun reg hreg => by
      rw [hlive] at hreg
      rcases List.mem_cons.1 hreg with rfl | hreg'
      · exact Or.inr (Or.inr (List.mem_cons_self _ _))
      · rcases hL.regions reg hreg' with ⟨r0, g1, g2⟩ | g | g
        · exact Or.inl ⟨r0, by rw [hpool]; exact ⟨g1, g2⟩⟩
        · exact Or.inr (Or.inl g)
        · exact Or.inr (Or.inr (List.mem_cons_of_mem _ g))
    regionSize := fun reg hreg => by
      rw [hlive] at hreg
      rcases List.mem_cons.1 hreg with rfl | hreg'
      · exact hsz
      · exact hL.regionSize reg hreg'
    regionsNodup := by
      rw [hlive, List.map_cons]
      refine List.nodup_cons.2 ⟨?_, hL.regionsNodup⟩
      exact fresh_base_not_live h a _ hfresh (by unfold sizeofMemoryBlock at hsz; omega)
        hL.regionSize }

theorem add_sizeof_ne (p y : Nat) (hp : sizeofMemoryBlock ≤ p) (hy : y ≠ p - sizeofMemoryBlock) :
    y + sizeofMemoryBlock ≠ p := by
  omega

/-- An arena block whose count reached zero is spliced back onto the free list. -/
theorem ledger_recycle {m : MemoryMgr} {h : Heap} {live : List Nat} {FL OL : PoolRef → List Nat}
    {LL : List Nat} (hI : Inv m h live FL OL LL) (hL : Ledger m h live FL OL LL) (r : PoolRef)
    (p : Nat) (hp : p ∈ live) (hs : (m.pool r)._pSelf ≠ 0)
    (hslot : p - sizeofMemoryBlock ∈ slots (m.pool r)._pSelf (m.pool r).realSize BLOCKS_SIZE)
    (hnF : p - sizeofMemoryBlock ∉ FL r) :
    Ledger
      (m.setPool r { m.pool r with _pHead := p - sizeofMemoryBlock, _mutex := false })
      (recycleHeap h (p - sizeofMemoryBlock) (m.pool r)._pHead)
      (live.erase p) (fun r' => if r' = r then (p - sizeofMemoryBlock) :: FL r else FL r') OL LL := by
  have hp40 := (hI.liveBlock p hp).1
  have hst := fun y => recycleHeap_stable h (p - sizeofMemoryBlock) (m.pool r)._pHead y
  obtain ⟨_, _, f3, _, _⟩ := recycleHeap_fields h (p - sizeofMemoryBlock) (m.pool r)._pHead
  have hlive := (recycleHeap_live h (p - sizeofMemoryBlock) (m.pool r)._pHead).1
  generalize recycleHeap h (p - sizeofMemoryBlock) (m.pool r)._pHead = H at hst f3 hlive
  have hps : ∀ r', ((m.setPool r
      { m.pool r with _pHead := p - sizeofMemoryBlock, _mutex := false }).pool r')._pSelf
        = (m.pool r')._pSelf ∧
      ((m.setPool r
      { m.pool r with _pHead := p - sizeofMemoryBlock, _mutex := false }).pool r').realSize
        = (m.pool r').realSize := by
    intro r'
    rw [pool_setPool]
    split_ifs with hr
    · subst hr; exact ⟨rfl, rfl⟩
    · exact ⟨rfl, rfl⟩
  have hin : ∀ y, y + sizeofMemoryBlock ∈ live → y ≠ p - sizeofMemoryBlock →
      y + sizeofMemoryBlock ∈ live.erase p :=
    fun y hy hne => (List.mem_erase_of_ne (add_sizeof_ne p y hp40 hne)).2 hy
  exact {
    freeRef := fun r' y hy => by
      by_cases hr : r' = r
      · subst hr
        simp only [if_true] at hy
        rcases List.mem_cons.1 hy with rfl | hy'
        · exact f3
        · have hne : y ≠ p - sizeofMemoryBlock := fun e => hnF (e ▸ hy')
          rw [(hst y hne).2.2.2.1]
          exact hL.freeRef r' y hy'
      · simp only [if_neg hr] at hy
        have hne : y ≠ p - sizeofMemoryBlock := fun e => inv_live_not_free hI p hp r' (e ▸ hy)
        rw [(hst y hne).2.2.2.1]
        exact hL.freeRef r' y hy
    slotLive := fun r' hs' y hy hnF' => by
      rw [(hps r').1] at hs' hy
      rw [(hps r').2] at hy
      by_cases hr : r' = r
      · subst hr
        simp only [if_true, List.mem_cons, not_or] at hnF'
        exact hin y (hL.slotLive r' hs' y hy hnF'.2) hnF'.1
      · simp only [if_neg hr] at hnF'
        refine hin y (hL.slotLive r' hs' y hy hnF') ?_
        intro e
        exact hr (inv_slot_own hI r' r hs' hs y hy (e ▸ hslot))
    usedLive := fun r' y hy => by
      refine hin y (hL.usedLive r' y hy) ?_
      intro e
      exact inv_slot_not_used hI r r' hs _ hslot (e ▸ hy)
    largeLive := fun y hy => by
      refine hin y (hL.largeLive y hy) ?_
      intro e
      exact inv_slot_not_large hI r hs _ hslot (e ▸ hy)
    liveRef := fun q hq => by
      obtain ⟨hqp, hq'⟩ := (List.Nodup.mem_erase_iff hI.liveNodup).1 hq
      rw [(hst _ (inv_live_sub_ne hI q p hq' hp hqp)).2.2.2.1]
      exact hL.liveRef q hq'
    regions := fun reg hreg => by
      rw [hlive] at hreg
      rcases hL.regions reg hreg with ⟨r0, g1, g2⟩ | g | g
      · exact Or.inl ⟨r0, by rw [(hps r0).1]; exact ⟨g1, g2⟩⟩
      · exact Or.inr (Or.inl g)
      · exact Or.inr (Or.inr g)
    regionSize := fun reg hreg => by rw [hlive] at hreg; exact hL.regionSize reg hreg
    regionsNodup := by rw [hlive]; exact hL.regionsNodup }

theorem nodup_bases_filter (l : List (Nat × Nat)) (b : Nat) (hnd : (l.map Prod.fst).Nodup) :
    ((l.filter (fun reg => reg.1 ≠ b)).map Prod.fst).Nodup :=
  List.Nodup.sublist (List.Sublist.map _ (List.filter_sublist l)) hnd

/-- An overflow block whose count reached zero is unspliced and freed. -/
theorem ledger_release_used {m : MemoryMgr} {h : Heap} {live : List Nat}
    {FL OL : PoolRef → List Nat} {LL : List Nat} (hI : Inv m h live FL OL LL)
    (hL : Ledger m h live FL OL LL) (r : PoolRef) (p : Nat) (hp : p ∈ live)
    (hb : p - sizeofMemoryBlock ∈ OL r) (H : Heap) (hd : Nat)
    (hframe : ∀ y, y ∉ OL r → H.mem y = h.mem y)
    (href : ∀ y, y ≠ p - sizeofMemoryBlock → (H.mem y).mRef = (h.mem y).mRef)
    (hlive : H.live = h.live.filter (fun reg => reg.1 ≠ p - sizeofMemoryBlock)) :
    Ledger (m.setPool r { m.pool r with _pHeadUsed := hd, _mutex := false }) H
      (live.erase p) FL (fun r' => if r' = r then (OL r).erase (p - sizeofMemoryBlock) else OL r')
      LL := by
  have hp40 := (hI.liveBlock p hp).1
  have hnd : (OL r).Nodup := isList_nodup (isDList_isList (hI.used r))
  have hps : ∀ r', ((m.setPool r { m.pool r with _pHeadUsed := hd, _mutex := false }).pool r')._pSelf
        = (m.pool r')._pSelf ∧
      ((m.setPool r { m.pool r with _pHeadUsed := hd, _mutex := false }).pool r').realSize
        = (m.pool r').realSize := by
    intro r'
    rw [pool_setPool]
    split_ifs with hr
    · subst hr; exact ⟨rfl, rfl⟩
    · exact ⟨rfl, rfl⟩
  have hin : ∀ y, y + sizeofMemoryBlock ∈ live → y ≠ p - sizeofMemoryBlock →
      y + sizeofMemoryBlock ∈ live.erase p :=
    fun y hy hne => (List.mem_erase_of_ne (add_sizeof_ne p y hp40 hne)).2 hy
  have hreg : ∀ reg, reg ∈ H.live → reg ∈ h.live ∧ reg.1 ≠ p - sizeofMemoryBlock := by
    intro reg hr
    rw [hlive] at hr
    have := List.mem_filter.1 hr
    exact ⟨this.1, by simpa using this.2⟩
  exact {
    freeRef := fun r' y hy => by
      have hyO : y ∉ OL r :=
        inv_slot_not_used hI r' r (hI.freeSlot r' y hy).1 y (hI.freeSlot r' y hy).2
      rw [hframe y hyO]
      exact hL.freeRef r' y hy
    slotLive := fun r' hs' y hy hnF' => by
      rw [(hps r').1] at hs' hy
      rw [(hps r').2] at hy
      refine hin y (hL.slotLive r' hs' y hy hnF') ?_
      intro e
      exact inv_slot_not_used hI r' r hs' y hy (e ▸ hb)
    usedLive := fun r' y hy => by
      by_cases hr : r' = r
      · subst hr
        simp only [if_true] at hy
        obtain ⟨hne, hy'⟩ := (List.Nodup.mem_erase_iff hnd).1 hy
        exact hin y (hL.usedLive r' y hy') hne
      · simp only [if_neg hr] at hy
        refine hin y (hL.usedLive r' y hy) ?_
        intro e
        exact hr (inv_used_own hI r' r y hy (e ▸ hb))
    largeLive := fun y hy => by
      refine hin y (hL.largeLive y hy) ?_
      intro e
      exact inv_used_not_large hI r _ hb (e ▸ hy)
    liveRef := fun q hq => by
      obtain ⟨hqp, hq'⟩ := (List.Nodup.mem_erase_iff hI.liveNodup).1 hq
      rw [href _ (inv_live_sub_ne hI q p hq' hp hqp)]
      exact hL.liveRef q hq'
    regions := fun reg hr => by
      obtain ⟨h1, h2⟩ := hreg reg hr
      rcases hL.regions reg h1 with ⟨r0, g1, g2⟩ | ⟨r0, g⟩ | g
      · exact Or.inl ⟨r0, by rw [(hps r0).1]; exact ⟨g1, g2⟩⟩
      · refine Or.inr (Or.inl ⟨r0, ?_⟩)
        by_cases hr0 : r0 = r
        · subst hr0
          simp only [if_true]
          exact (List.Nodup.mem_erase_iff hnd).2 ⟨h2, g⟩
        · simp only [if_neg hr0]; exact g
      · exact Or.inr (Or.inr g)
    regionSize := fun reg hr => hL.regionSize reg (hreg reg hr).1
    regionsNodup := by rw [hlive]; exact nodup_bases_filter _ _ hL.regionsNodup }

/-- A large-object block whose count reached zero is unspliced and freed. -/
theorem ledger_release_large {m : MemoryMgr} {h : Heap} {live : List Nat}
    {FL OL : PoolRef → List Nat} {LL : List Nat} (hI : Inv m h live FL OL LL)
    (hL : Ledger m h live FL OL LL) (p : Nat) (hp : p ∈ live)
    (hb : p - sizeofMemoryBlock ∈ LL) (H : Heap) (hd : Nat)
    (hframe : ∀ y, y ∉ LL → H.mem y = h.mem y)
    (href : ∀ y, y ≠ p - sizeofMemoryBlock → (H.mem y).mRef = (h.mem y).mRef)
    (hlive : H.live = h.live.filter (fun reg => reg.1 ≠ p - sizeofMemoryBlock)) :
    Ledger { m with _pHeadUsed := hd, _mutex := false } H (live.erase p) FL OL
      (LL.erase (p - sizeofMemoryBlock)) := by
  have hp40 := (hI.liveBlock p hp).1
  have hnd : LL.Nodup := isList_nodup (isDList_isList hI.large)
  have hpool : ∀ r', ({ m with _pHeadUsed := hd, _mutex := false } : MemoryMgr).pool r' =
      m.pool r' := fun r' => by cases r' <;> rfl
  have hin : ∀ y, y + sizeofMemoryBlock ∈ live → y ≠ p - sizeofMemoryBlock →
      y + sizeofMemoryBlock ∈ live.erase p :=
    fun y hy hne => (List.mem_erase_of_ne (add_sizeof_ne p y hp40 hne)).2 hy
  have hreg : ∀ reg, reg ∈ H.live → reg ∈ h.live ∧ reg.1 ≠ p - sizeofMemoryBlock := by
    intro reg hr
    rw [hlive] at hr
    have := List.mem_filter.1 hr
    exact ⟨this.1, by simpa using this.2⟩
  exact {
    freeRef := fun r' y hy => by
      have hyO : y ∉ LL :=
        inv_slot_not_large hI r' (hI.freeSlot r' y hy).1 y (hI.freeSlot r' y hy).2
      rw [hframe y hyO]
      exact hL.freeRef r' y hy
    slotLive := fun r' hs' y hy hnF' => by
      rw [hpool] at hs' hy
      refine hin y (hL.slotLive r' hs' y hy hnF') ?_
      intro e
      exact inv_slot_not_large hI r' hs' y hy (e ▸ hb)
    usedLive := fun r' y hy => by
      refine hin y (hL.usedLive r' y hy) ?_
      intro e
      exact inv_used_not_large hI r' y hy (e ▸ hb)
    largeLive := fun y hy => by
      obtain ⟨hne, hy'⟩ := (List.Nodup.mem_erase_iff hnd).1 hy
      exact hin y (hL.largeLive y hy') hne
    liveRef := fun q hq => by
      obtain ⟨hqp, hq'⟩ := (List.Nodup.mem_erase_iff hI.liveNodup).1 hq
      rw [href _ (inv_live_sub_ne hI q p hq' hp hqp)]
      exact hL.liveRef q hq'
    regions := fun reg hr => by
      obtain ⟨h1, h2⟩ := hreg reg hr
      rcases hL.regions reg h1 with ⟨r0, g1, g2⟩ | g | g
      · exact Or.inl ⟨r0, by rw [hpool]; exact ⟨g1, g2⟩⟩
      · exact Or.inr (Or.inl g)
      · exact Or.inr (Or.inr ((List.Nodup.mem_erase_iff hnd).2 ⟨h2, g⟩))
    regionSize := fun reg hr => hL.regionSize reg (hreg reg hr).1
    regionsNodup := by rw [hlive]; exact nodup_bases_filter _ _ hL.regionsNodup }

theorem unsplice_release_mRef (h : Heap) (hd x : Nat) (L : List Nat)
    (hL : IsDList h.mem 0 hd L) (hx : x ∈ L) (y : Nat) (hy : y ≠ x) :
    ((unspliceHeap (h.write x { h.mem x with mRef := 0 }) x).mem y).mRef = (h.mem y).mRef := by
  have hL0 : IsDList (h.write x { h.mem x with mRef := 0 }).mem 0 hd L := by
    apply isDList_congr _ hL
    intro z _
    rw [write_mem]
    split_ifs with hz
    · subst hz; exact ⟨rfl, rfl⟩
    · exact ⟨rfl, rfl⟩
  obtain ⟨_, _, _, u4⟩ := unsplice_member _ hd x L hL0 hx
  rw [(u4 y).2.2.1, write_mem_ne _ _ _ _ hy]

theorem toInt32_pred (v : Int) (h1 : 1 ≤ v) (h2 : v < 2 ^ 31) : toInt32 (v - 1) = v - 1 :=
  toInt32_of_range _ (by omega) (by omega)

theorem toInt32_succ (v : Int) (h1 : 1 ≤ v) (h2 : v < 2 ^ 31 - 1) : toInt32 (v + 1) = v + 1 :=
  toInt32_of_range _ (by omega) (by omega)

/-- Every `MemoryMgr::allocMemory` call that returns keeps invariant and
bookkeeping. -/
theorem books_alloc_step {m m' : MemoryMgr} {h h' : Heap} {live : List Nat}
    {FL OL : PoolRef → List Nat} {LL : List Nat} (hI : Inv m h live FL OL LL)
    (hL : Ledger m h live FL OL LL)
    (nSize a pMem : Nat) (hfit : sizeofMemoryBlock + nSize < SIZE_MOD)
    (e : m.allocMemory h nSize a = .ok (pMem, m', h'))
    (hfresh : ∀ size, h'.live = (a, size) :: h.live → Fresh h a size) :
    ∃ FL' OL' LL', Inv m' h' (pMem :: live) FL' OL' LL' ∧ Ledger m' h' (pMem :: live) FL' OL' LL' := by
  have hsz : sizeofMemoryBlock ≤ (sizeofMemoryBlock + nSize) % SIZE_MOD := by
    rw [Nat.mod_eq_of_lt hfit]; omega
  rcases mgr_alloc_inv m m' h h' nSize a pMem e with
    ⟨_, r, p', _, hm', ea⟩ | ⟨_, _, ha, hp, hm', hh'⟩
  · obtain ⟨_, hcase⟩ := alloc_inv r (m.pool r) p' h h' nSize a pMem ea
    rcases hcase with ⟨hs0, ha, hp, hp', hh'⟩ | ⟨_, hhd, hp, hp', hh'⟩ | ⟨_, _, ha, hp, hp', hh'⟩
    · subst hp hp' hh' hm'
      have hf := hfresh _ (by rw [write_live, (initHeap_live r (m.pool r) h a).1])
      obtain ⟨xs, hxs, hI'⟩ := inv_first hI r a hs0 ha hf
      exact ⟨_, OL, LL, hI', ledger_first hI hL r a hs0 ha hf xs hxs⟩
    · subst hp hp' hh' hm'
      obtain ⟨xs, hxs, hI'⟩ := inv_pop hI r hhd
      exact ⟨_, OL, LL, hI', ledger_pop hI hL r xs hxs⟩
    · subst hp hp' hh' hm'
      have hf := hfresh _ (pushHeap_live _ _ _ _ _).1
      exact ⟨FL, _, LL, inv_push_used hI r a _ ha hsz hf, ledger_push_used hI hL r a _ hsz hf⟩
  · subst hp hm' hh'
    have hf := hfresh _ (pushHeap_live _ _ _ _ _).1
    exact ⟨FL, OL, _, inv_push_large hI a _ ha hsz hf, ledger_push_large hI hL a _ hsz hf⟩

/-- Every `MemoryMgr::freeMemory` call on a live pointer that returns keeps
invariant and bookkeeping; when the count reached zero the pointer leaves the
live ones and its block the overflow or large-object list it was on. -/
theorem books_free_step {m m' : MemoryMgr} {h h' : Heap} {live : List Nat}
    {FL OL : PoolRef → List Nat} {LL : List Nat} (hI : Inv m h live FL OL LL)
    (hL : Ledger m h live FL OL LL)
    (pMem : Nat) (hp : pMem ∈ live) (e : m.freeMemory h pMem = .ok (m', h')) :
    ∃ FL',
      Inv m' h'
        (if (h'.mem (pMem - sizeofMemoryBlock)).mRef = 0 then live.erase pMem else live) FL'
        (fun r => if (h'.mem (pMem - sizeofMemoryBlock)).mRef = 0
          then (OL r).erase (pMem - sizeofMemoryBlock) else OL r)
        (if (h'.mem (pMem - sizeofMemoryBlock)).mRef = 0
          then LL.erase (pMem - sizeofMemoryBlock) else LL) ∧
      Ledger m' h'
        (if (h'.mem (pMem - sizeofMemoryBlock)).mRef = 0 then live.erase pMem else live) FL'
        (fun r => if (h'.mem (pMem - sizeofMemoryBlock)).mRef = 0
          then (OL r).erase (pMem - sizeofMemoryBlock) else OL r)
        (if (h'.mem (pMem - sizeofMemoryBlock)).mRef = 0
          then LL.erase (pMem - sizeofMemoryBlock) else LL) := by
  obtain ⟨hp40, hcase⟩ := hI.liveBlock pMem hp
  obtain ⟨hr1, hr2⟩ := hL.liveRef pMem hp
  have hpred := toInt32_pred _ hr1 hr2
  have hv : toInt32 ((h.mem (pMem - sizeofMemoryBlock)).mRef - 1) ≠ 0 →
      1 ≤ toInt32 ((h.mem (pMem - sizeofMemoryBlock)).mRef - 1) ∧
      toInt32 ((h.mem (pMem - sizeofMemoryBlock)).mRef - 1) < 2 ^ 31 := by
    intro hz
    rw [hpred] at hz ⊢
    omega
  -- a release that leaves the count above zero only stores the count
  have hkeep : ∀ r, (h.mem (pMem - sizeofMemoryBlock)).pAlloc = some r →
      ((h.mem (pMem - sizeofMemoryBlock)).inPool || (h.mem (pMem - sizeofMemoryBlock)).allocPool)
        = true →
      toInt32 ((h.mem (pMem - sizeofMemoryBlock)).mRef - 1) ≠ 0 →
      ∃ FL',
        Inv m' h'
          (if (h'.mem (pMem - sizeofMemoryBlock)).mRef = 0 then live.erase pMem else live) FL'
          (fun r => if (h'.mem (pMem - sizeofMemoryBlock)).mRef = 0
            then (OL r).erase (pMem - sizeofMemoryBlock) else OL r)
          (if (h'.mem (pMem - sizeofMemoryBlock)).mRef = 0
            then LL.erase (pMem - sizeofMemoryBlock) else LL) ∧
        Ledger m' h'
          (if (h'.mem (pMem - sizeofMemoryBlock)).mRef = 0 then live.erase pMem else live) FL'
          (fun r => if (h'.mem (pMem - sizeofMemoryBlock)).mRef = 0
            then (OL r).erase (pMem - sizeofMemoryBlock) else OL r)
          (if (h'.mem (pMem - sizeofMemoryBlock)).mRef = 0
            then LL.erase (pMem - sizeofMemoryBlock) else LL) := by
    intro r hr hf hz
    rw [mgr_free_pool m h pMem r hf hr, free_keep _ _ _ hz] at e
    injection e with e
    injection e with e1 e2
    subst e1 e2
    rw [setPool_pool_self, write_mem_same]
    simp only [if_neg hz]
    exact ⟨FL, inv_write_mRef hI _ _, ledger_write_mRef hI hL pMem hp _ (hv hz).1 (hv hz).2⟩
  rcases hcase with ⟨r, hs, hslot, hnF⟩ | ⟨r, hb⟩ | hb
  · -- an arena block
    obtain ⟨f1, f2⟩ := hI.slotFlags r hs _ hslot
    have hf : ((h.mem (pMem - sizeofMemoryBlock)).inPool ||
        (h.mem (pMem - sizeofMemoryBlock)).allocPool) = true := by rw [f1]; rfl
    by_cases hz : toInt32 ((h.mem (pMem - sizeofMemoryBlock)).mRef - 1) = 0
    · rw [mgr_free_pool m h pMem r hf f2, free_recycle _ _ _ hz (hI.mutex r) f1] at e
      injection e with e
      injection e with e1 e2
      subst e1 e2
      have hO : (fun r' => (OL r').erase (pMem - sizeofMemoryBlock)) = OL :=
        funext fun r' => List.erase_of_not_mem (inv_slot_not_used hI r r' hs _ hslot)
      have hLL : LL.erase (pMem - sizeofMemoryBlock) = LL :=
        List.erase_of_not_mem (inv_slot_not_large hI r hs _ hslot)
      simp only [if_pos (recycleHeap_fields _ _ _).2.2.1]
      rw [hO, hLL]
      exact ⟨_, inv_recycle hI r pMem hp hs hslot hnF, ledger_recycle hI hL r pMem hp hs hslot hnF⟩
    · exact hkeep r f2 hf hz
  · -- an overflow block
    obtain ⟨f1, f2, f3, _⟩ := hI.usedFlags r _ hb
    have hf : ((h.mem (pMem - sizeofMemoryBlock)).inPool ||
        (h.mem (pMem - sizeofMemoryBlock)).allocPool) = true := by rw [f1, f2]; rfl
    by_cases hz : toInt32 ((h.mem (pMem - sizeofMemoryBlock)).mRef - 1) = 0
    · obtain ⟨u1, u2, u3, u4, u5, u6, _⟩ :=
        unsplice_release h (m.pool r)._pHeadUsed (pMem - sizeofMemoryBlock) (OL r) (hI.used r) hb
      have u7 := unsplice_release_mRef h (m.pool r)._pHeadUsed (pMem - sizeofMemoryBlock) (OL r)
        (hI.used r) hb
      rw [mgr_free_pool m h pMem r hf f3, free_unsplice _ _ _ hz (hI.mutex r) f1, u1] at e
      injection e with e
      injection e with e1 e2
      subst e1 e2
      have hO : (fun r' => (OL r').erase (pMem - sizeofMemoryBlock)) =
          (fun r' => if r' = r then (OL r).erase (pMem - sizeofMemoryBlock) else OL r') := by
        funext r'
        by_cases hr : r' = r
        · subst hr; simp
        · rw [if_neg hr]
          exact List.erase_of_not_mem (fun c => hr (inv_used_own hI r' r _ c hb))
      have hLL : LL.erase (pMem - sizeofMemoryBlock) = LL :=
        List.erase_of_not_mem (inv_used_not_large hI r _ hb)
      simp only [if_pos u5]
      rw [hO, hLL]
      exact ⟨FL, inv_release_used hI r pMem hp hb _ _ u2 u3 u4 u6,
        ledger_release_used hI hL r pMem hp hb _ _ u3 u7 u6⟩
    · exact hkeep r f3 hf hz
  · -- a large-object block
    obtain ⟨f1, f2, _⟩ := hI.largeFlags _ hb
    have hf : ((h.mem (pMem - sizeofMemoryBlock)).inPool ||
        (h.mem (pMem - sizeofMemoryBlock)).allocPool) = false := by rw [f1, f2]; rfl
    have hm : m._mutex = false := by
      cases hmx : m._mutex with
      | false => rfl
      | true => rw [mgr_free_large_held m h pMem hf hmx] at e; cases e
    by_cases hz : toInt32 ((h.mem (pMem - sizeofMemoryBlock)).mRef - 1) = 0
    · obtain ⟨u1, u2, u3, u4, u5, u6, _⟩ :=
        unsplice_release h m._pHeadUsed (pMem - sizeofMemoryBlock) LL hI.large hb
      have u7 := unsplice_release_mRef h m._pHeadUsed (pMem - sizeofMemoryBlock) LL hI.large hb
      rw [mgr_free_large_last m h pMem hf hm hz, u1] at e
      injection e with e
      injection e with e1 e2
      subst e1 e2
      have hO : (fun r' => (OL r').erase (pMem - sizeofMemoryBlock)) = OL :=
        funext fun r' => List.erase_of_not_mem (fun c => inv_used_not_large hI r' _ c hb)
      simp only [if_pos u5]
      rw [hO]
      exact ⟨FL, inv_release_large hI pMem hp hb _ _ u2 u3 u4 u6,
        ledger_release_large hI hL pMem hp hb _ _ u3 u7 u6⟩
    · rw [mgr_free_large_keep m h pMem hf hm hz] at e
      injection e with e
      injection e with e1 e2
      subst e1 e2
      rw [write_mem_same]
      simp only [if_neg hz]
      exact ⟨FL, inv_mgr_mutex (inv_write_mRef hI _ _) true,
        ledger_mgr_mutex (ledger_write_mRef hI hL pMem hp _ (hv hz).1 (hv hz).2) true⟩

/-- Invariant and bookkeeping hold in every state of a run. -/
theorem run_books {m : MemoryMgr} {h : Heap} {live : List Nat} (hR : Run m h live) :
    ∃ FL OL LL, Inv m h live FL OL LL ∧ Ledger m h live FL OL LL := by
  induction hR with
  | init h hl => exact ⟨_, _, _, inv_init h, ledger_init h hl⟩
  | alloc nSize a pMem _ hfit e hfresh ih =>
    obtain ⟨FL, OL, LL, hI, hL⟩ := ih
    exact books_alloc_step hI hL nSize a pMem hfit e hfresh
  | addRef pMem _ hp hlt ih =>
    obtain ⟨FL, OL, LL, hI, hL⟩ := ih
    obtain ⟨h1, _⟩ := hL.liveRef pMem hp
    refine ⟨FL, OL, LL, inv_write_mRef hI _ _, ?_⟩
    have := toInt32_succ _ h1 hlt
    exact ledger_write_mRef hI hL pMem hp _ (by rw [this]; omega) (by rw [this]; omega)
  | free pMem _ hp e ih =>
    obtain ⟨FL, OL, LL, hI, hL⟩ := ih
    obtain ⟨FL', hI', hL'⟩ := books_free_step hI hL pMem hp e
    exact ⟨FL', _, _, hI', hL'⟩

/-- A run is a sequence of reachable states. -/
theorem run_reach {m : MemoryMgr} {h : Heap} {live : List Nat} (hR : Run m h live) :
    Reach m h live := by
  induction hR with
  | init h _ => exact Reach.init h
  | alloc nSize a pMem _ hfit e hfresh ih => exact Reach.alloc nSize a pMem ih hfit e hfresh
  | addRef pMem hR' hp _ ih =>
    obtain ⟨_, _, _, _, hL⟩ := run_books hR'
    exact Reach.addRef pMem ih hp (hL.liveRef pMem hp).1
  | free pMem hR' hp e ih =>
    obtain ⟨_, _, _, _, hL⟩ := run_books hR'
    exact Reach.free pMem ih hp (hL.liveRef pMem hp).1 e

/-! ## The head-consistency assertion -/

/-- In a doubly-linked list whose head has no predecessor, the head is the only
block without a predecessor. -/
theorem isDList_prev_zero_iff {mem : Nat → MemoryBlock} {hd : Nat} {L : List Nat}
    (hL : IsDList mem 0 hd L) (x : Nat) (hx : x ∈ L) : (mem x).pPrev = 0 ↔ x = hd := by
  have h0 : (0 : Nat) ∉ L := isList_not_mem_zero (isDList_isList hL)
  constructor
  · intro hp
    rcases isDList_prev_link hL x hx with ⟨g, _⟩ | ⟨g, _⟩
    · exact g.symm
    · rw [hp] at g; exact absurd g h0
  · rintro rfl
    have hx0 : x ≠ 0 := fun e => h0 (e ▸ hx)
    obtain ⟨xs, rfl⟩ := isDList_head_ne hL hx0
    exact hL.2.2.1

/-- A `MemoryMgr::freeMemory` call on a live pointer returns, unless the block
is a large object and the manager's mutex is held. -/
theorem free_live_returns {m : MemoryMgr} {h : Heap} {live : List Nat}
    {FL OL : PoolRef → List Nat} {LL : List Nat} (hI : Inv m h live FL OL LL)
    (pMem : Nat) (hp : pMem ∈ live) :
    (∃ m' h', m.freeMemory h pMem = .ok (m', h')) ∨
    (m.freeMemory h pMem = .error Fault.deadlock ∧ m._mutex = true ∧
      pMem - sizeofMemoryBlock ∈ LL) := by
  obtain ⟨hp40, hcase⟩ := hI.liveBlock pMem hp
  have hkeep : ∀ r, (h.mem (pMem - sizeofMemoryBlock)).pAlloc = some r →
      ((h.mem (pMem - sizeofMemoryBlock)).inPool || (h.mem (pMem - sizeofMemoryBlock)).allocPool)
        = true →
      toInt32 ((h.mem (pMem - sizeofMemoryBlock)).mRef - 1) ≠ 0 →
      ∃ m' h', m.freeMemory h pMem = .ok (m', h') := by
    intro r hr hf hz
    rw [mgr_free_pool m h pMem r hf hr, free_keep _ _ _ hz]
    exact ⟨_, _, rfl⟩
  rcases hcase with ⟨r, hs, hslot, hnF⟩ | ⟨r, hb⟩ | hb
  · obtain ⟨f1, f2⟩ := hI.slotFlags r hs _ hslot
    have hf : ((h.mem (pMem - sizeofMemoryBlock)).inPool ||
        (h.mem (pMem - sizeofMemoryBlock)).allocPool) = true := by rw [f1]; rfl
    by_cases hz : toInt32 ((h.mem (pMem - sizeofMemoryBlock)).mRef - 1) = 0
    · left
      rw [mgr_free_pool m h pMem r hf f2, free_recycle _ _ _ hz (hI.mutex r) f1]
      exact ⟨_, _, rfl⟩
    · exact Or.inl (hkeep r f2 hf hz)
  · obtain ⟨f1, f2, f3, _⟩ := hI.usedFlags r _ hb
    have hf : ((h.mem (pMem - sizeofMemoryBlock)).inPool ||
        (h.mem (pMem - sizeofMemoryBlock)).allocPool) = true := by rw [f1, f2]; rfl
    by_cases hz : toInt32 ((h.mem (pMem - sizeofMemoryBlock)).mRef - 1) = 0
    · left
      obtain ⟨u1, _⟩ :=
        unsplice_release h (m.pool r)._pHeadUsed (pMem - sizeofMemoryBlock) (OL r) (hI.used r) hb
      rw [mgr_free_pool m h pMem r hf f3, free_unsplice _ _ _ hz (hI.mutex r) f1, u1]
      exact ⟨_, _, rfl⟩
    · exact Or.inl (hkeep r f3 hf hz)
  · obtain ⟨f1, f2, _⟩ := hI.largeFlags _ hb
    have hf : ((h.mem (pMem - sizeofMemoryBlock)).inPool ||
        (h.mem (pMem - sizeofMemoryBlock)).allocPool) = false := by rw [f1, f2]; rfl
    cases hmx : m._mutex with
    | true => exact Or.inr ⟨mgr_free_large_held m h pMem hf hmx, rfl, hb⟩
    | false =>
      left
      by_cases hz : toInt32 ((h.mem (pMem - sizeofMemoryBlock)).mRef - 1) = 0
      · obtain ⟨u1, _⟩ :=
          unsplice_release h m._pHeadUsed (pMem - sizeofMemoryBlock) LL hI.large hb
        rw [mgr_free_large_last m h pMem hf hmx hz, u1]
        exact ⟨_, _, rfl⟩
      · rw [mgr_free_large_keep m h pMem hf hmx hz]
        exact ⟨_, _, rfl⟩

/-- C11 (the head-consistency assertion never fails): in every state of a run
every pool's overflow list and the manager's large-object list are well-formed
doubly-linked lists in which a block has `pPrev = null` exactly when it is the
list head; `MemoryMgr::freeMemory` on a live pointer never fails the assertion
`_pHeadUsed == pBlock`; and when it returns, the lists are again well-formed
and hold the blocks they held, without the released block when its count
reached zero. -/
theorem unsplice_assertion_never_fails {m : MemoryMgr} {h : Heap} {live : List Nat}
    (hR : Run m h live) :
    ∃ (OL : PoolRef → List Nat) (LL : List Nat),
      (∀ r, IsDList h.mem 0 (m.pool r)._pHeadUsed (OL r)) ∧
      IsDList h.mem 0 m._pHeadUsed LL ∧
      (∀ r, ∀ x ∈ OL r, ((h.mem x).pPrev = 0 ↔ x = (m.pool r)._pHeadUsed)) ∧
      (∀ x ∈ LL, ((h.mem x).pPrev = 0 ↔ x = m._pHeadUsed)) ∧
      ∀ pMem ∈ live,
        m.freeMemory h pMem ≠ .error Fault.assertFailed ∧
        ∀ (m' : MemoryMgr) (h' : Heap), m.freeMemory h pMem = .ok (m', h') →
          (∀ r, IsDList h'.mem 0 (m'.pool r)._pHeadUsed
            (if (h'.mem (pMem - sizeofMemoryBlock)).mRef = 0
              then (OL r).erase (pMem - sizeofMemoryBlock) else OL r)) ∧
          IsDList h'.mem 0 m'._pHeadUsed
            (if (h'.mem (pMem - sizeofMemoryBlock)).mRef = 0
              then LL.erase (pMem - sizeofMemoryBlock) else LL) := by
  obtain ⟨FL, OL, LL, hI, hL⟩ := run_books hR
  refine ⟨OL, LL, hI.used, hI.large, fun r x hx => isDList_prev_zero_iff (hI.used r) x hx,
    fun x hx => isDList_prev_zero_iff hI.large x hx, ?_⟩
  intro pMem hp
  constructor
  · rcases free_live_returns hI pMem hp with ⟨m', h', e⟩ | ⟨e, _⟩
    · rw [e]; intro c; cases c
    · rw [e]; intro c; cases c
  · intro m' h' e
    obtain ⟨FL', hI', _⟩ := books_free_step hI hL pMem hp e
    exact ⟨hI'.used, hI'.large⟩

/-- Witness of C11: the state after `allocMemory(2000)` on a freshly constructed
manager. -/
theorem unsplice_assertion_never_fails_witness :
    ∃ m h, Run m h [4096 + sizeofMemoryBlock] ∧
      m.freeMemory h (4096 + sizeofMemoryBlock) ≠ .error Fault.assertFailed := by
  have e := mgr_alloc_large MemoryMgr.new Heap.empty 2000 4096 (by decide) rfl (by decide)
  have hR : Run _ _ [4096 + sizeofMemoryBlock] :=
    Run.alloc 2000 4096 _ (Run.init Heap.empty rfl) (by decide) e
      (fun size _ r hr => by simp [Heap.empty] at hr)
  obtain ⟨_, _, _, _, _, _, g⟩ := unsplice_assertion_never_fails hR
  exact ⟨_, _, hR, (g _ (List.mem_singleton_self _)).1⟩

/-! ## Block conservation -/

theorem slots_nodup (s : Nat) (hs : 0 < s) : ∀ (n a : Nat), (slots a s n).Nodup := by
  intro n
  induction n with
  | zero => intro a; exact List.nodup_nil
  | succ n ih =>
    intro a
    show (a :: slots (a + s) s n).Nodup
    refine List.nodup_cons.2 ⟨?_, ih (a + s)⟩
    intro hmem
    obtain ⟨i, _, hi⟩ := (mem_slots s n (a + s) a).1 hmem
    have : 0 ≤ i * s := Nat.zero_le _
    omega

theorem length_add_filter_not_mem (S F : List Nat) (hS : S.Nodup) (hF : F.Nodup)
    (hsub : ∀ x ∈ F, x ∈ S) :
    F.length + (S.filter (fun x => decide (x ∉ F))).length = S.length := by
  have h1 := List.length_eq_length_filter_add (l := S) (fun x => decide (x ∈ F))
  have h2 : (S.filter (fun x => decide (x ∈ F))).Perm F := by
    apply (List.perm_ext_iff_of_nodup (hS.filter _) hF).2
    intro a
    simp only [List.mem_filter, decide_eq_true_eq]
    exact ⟨fun hh => hh.2, fun hh => ⟨hsub a hh, hh⟩⟩
  have h3 : S.filter (fun x => !decide (x ∈ F)) = S.filter (fun x => decide (x ∉ F)) := by
    apply List.filter_congr
    intro x _
    simp
  rw [h3] at h1
  rw [h1, h2.length_eq]

/-- Block conservation in the pools of the manager. -/
theorem mgr_conservation {m : MemoryMgr} {h : Heap} {live : List Nat} (hR : Run m h live)
    (r : PoolRef) (hs : (m.pool r)._pSelf ≠ 0) :
    ∃ FL : List Nat, IsList h.mem (m.pool r)._pHead FL ∧ FL.Nodup ∧
      (∀ x ∈ FL, x ∈ slots (m.pool r)._pSelf (m.pool r).realSize (m.pool r)._nBlocks) ∧
      (∀ x ∈ slots (m.pool r)._pSelf (m.pool r).realSize (m.pool r)._nBlocks,
        ((h.mem x).inPool = true ∧ 1 ≤ (h.mem x).mRef) ↔ x + sizeofMemoryBlock ∈ live) ∧
      FL.length + liveArenaBlocks (m.pool r) h = (m.pool r)._nBlocks ∧
      (liveArenaBlocks (m.pool r) h = 0 →
        FL.Perm (slots (m.pool r)._pSelf (m.pool r).realSize (m.pool r)._nBlocks)) ∧
      (live = [] → liveArenaBlocks (m.pool r) h = 0) := by
  obtain ⟨FL, OL, LL, hI, hL⟩ := run_books hR
  have hN := hI.nBlocks r
  obtain ⟨_, hs40, _⟩ := realSize_bounds _ (hI.nSize r)
  have hpos : 0 < (m.pool r).realSize := by unfold sizeofMemoryBlock at hs40; omega
  have hSnd := slots_nodup (m.pool r).realSize hpos BLOCKS_SIZE (m.pool r)._pSelf
  have hFnd : (FL r).Nodup := isList_nodup (hI.free r)
  have hsub : ∀ x ∈ FL r, x ∈ slots (m.pool r)._pSelf (m.pool r).realSize BLOCKS_SIZE :=
    fun x hx => (hI.freeSlot r x hx).2
  have hsubx : ∀ x, x + sizeofMemoryBlock - sizeofMemoryBlock = x := fun x => by omega
  -- a slot is handed out exactly when it is off the free list
  have hiff : ∀ x ∈ slots (m.pool r)._pSelf (m.pool r).realSize BLOCKS_SIZE,
      (x + sizeofMemoryBlock ∈ live ↔ x ∉ FL r) ∧
      (((h.mem x).inPool = true ∧ 1 ≤ (h.mem x).mRef) ↔ x ∉ FL r) := by
    intro x hx
    have hin := (hI.slotFlags r hs x hx).1
    constructor
    · constructor
      · intro hl hF
        exact inv_live_not_free hI _ hl r (by rw [hsubx]; exact hF)
      · exact hL.slotLive r hs x hx
    · constructor
      · rintro ⟨_, h1⟩ hF
        rw [hL.freeRef r x hF] at h1
        omega
      · intro hF
        have := (hL.liveRef _ (hL.slotLive r hs x hx hF)).1
        rw [hsubx] at this
        exact ⟨hin, this⟩
  have hfilter : (slots (m.pool r)._pSelf (m.pool r).realSize BLOCKS_SIZE).filter
        (fun x => (h.mem x).inPool && decide (1 ≤ (h.mem x).mRef)) =
      (slots (m.pool r)._pSelf (m.pool r).realSize BLOCKS_SIZE).filter
        (fun x => decide (x ∉ FL r)) := by
    apply List.filter_congr
    intro x hx
    have := (hiff x hx).2
    by_cases hF : x ∈ FL r
    · have hn : ¬ ((h.mem x).inPool = true ∧ 1 ≤ (h.mem x).mRef) := fun c => this.1 c hF
      simp only [hF, not_true_eq_false, decide_False]
      cases hb : (h.mem x).inPool with
      | false => rfl
      | true =>
        have : ¬ 1 ≤ (h.mem x).mRef := fun c => hn ⟨hb, c⟩
        simp [this]
    · obtain ⟨g1, g2⟩ := this.2 hF
      simp [hF, g1, g2]
  have hcount : (FL r).length + liveArenaBlocks (m.pool r) h = (m.pool r)._nBlocks := by
    unfold liveArenaBlocks
    rw [hN, hfilter, length_add_filter_not_mem _ _ hSnd hFnd hsub, slots_length]
  rw [hN]
  rw [hN] at hcount
  refine ⟨FL r, hI.free r, hFnd, hsub, ?_, hcount, ?_, ?_⟩
  · intro x hx
    rw [(hiff x hx).1, (hiff x hx).2]
  · intro h0
    apply (List.subperm_of_subset hFnd hsub).perm_of_length_le
    rw [slots_length]
    omega
  · rintro rfl
    unfold liveArenaBlocks
    rw [hN, hfilter, List.length_eq_zero, List.filter_eq_nil_iff]
    intro x hx
    have := ((hiff x hx).1).2
    simp only [decide_eq_true_eq, not_not]
    by_contra c
    exact absurd (this c) (List.not_mem_nil _)

/-! ## Teardown -/

/-- The destructor loop on a null-terminated list frees its blocks in order. -/
theorem destroyLoop_list (L : List Nat) :
    ∀ (fuel hd : Nat) (h : Heap), IsList h.mem hd L → L.length ≤ fuel →
      ∃ h', destroyLoop fuel hd h = some (0, h') ∧ h'.mem = h.mem ∧
        h'.live = h.live.filter (fun reg => decide (reg.1 ∉ L)) ∧
        h'.freed = L.reverse ++ h.freed := by
  induction L with
  | nil =>
    intro fuel hd h hL _
    have hd0 : hd = 0 := hL
    subst hd0
    refine ⟨h, ?_, rfl, ?_, rfl⟩
    · cases fuel <;> simp [destroyLoop]
    · simp
  | cons x xs ih =>
    intro fuel hd h hL hlen
    obtain ⟨e, hx, ht⟩ := hL
    subst e
    cases fuel with
    | zero => simp at hlen
    | succ k =>
      have ht' : IsList (h.free hd).mem (h.mem hd).pNext xs := ht
      obtain ⟨h', e1, e2, e3, e4⟩ := ih k (h.mem hd).pNext (h.free hd) ht'
        (by simp at hlen; omega)
      refine ⟨h', ?_, e2, ?_, ?_⟩
      · simp only [destroyLoop, if_neg hx]
        exact e1
      · rw [e3]
        simp only [Heap.free, List.filter_filter]
        apply List.filter_congr
        intro reg _
        simp only [List.mem_cons, not_or, ne_eq, decide_not, Bool.decide_and]
        rw [Bool.and_comm]
      · rw [e4]
        simp [Heap.free]

/-- The destructor `~MemoryAlloc` frees the blocks of the overflow list and
then the arena. -/
theorem destroy_pool (p : MemoryAlloc) (h : Heap) (L : List Nat) (fuel : Nat)
    (hL : IsList h.mem p._pHeadUsed L) (hlen : L.length ≤ fuel) :
    ∃ h', p.destroy fuel h = some ({ p with _pHeadUsed := 0 }, h') ∧ h'.mem = h.mem ∧
      h'.live = h.live.filter (fun reg => decide (reg.1 ∉ teardownBlocks p L)) ∧
      h'.freed = (teardownBlocks p L).reverse ++ h.freed := by
  unfold teardownBlocks
  obtain ⟨h1, e1, e2, e3, e4⟩ := destroyLoop_list L fuel p._pHeadUsed h hL hlen
  by_cases hs : p._pSelf = 0
  · refine ⟨h1, ?_, e2, ?_, ?_⟩
    · simp [MemoryAlloc.destroy, e1, hs]
    · rw [e3]; simp [hs]
    · rw [e4]; simp [hs]
  · refine ⟨h1.free p._pSelf, ?_, e2, ?_, ?_⟩
    · simp [MemoryAlloc.destroy, e1, hs]
    · simp only [Heap.free, e3, List.filter_filter, if_pos hs, ne_eq, not_false_eq_true]
      apply List.filter_congr
      intro reg _
      simp only [List.mem_append, List.mem_singleton, not_or, decide_not, Bool.decide_and]
      rw [Bool.and_comm]
    · simp [Heap.free, e4, hs]

/-- The destructor `~MemoryMgr` frees the large-object blocks and then tears
down the pools, last declared first. -/
theorem destroy_mgr (m : MemoryMgr) (h : Heap) (OL : PoolRef → List Nat) (LL : List Nat)
    (fuel : Nat) (hO : ∀ r, IsList h.mem (m.pool r)._pHeadUsed (OL r))
    (hLL : IsList h.mem m._pHeadUsed LL) (hlenO : ∀ r, (OL r).length ≤ fuel)
    (hlenL : LL.length ≤ fuel) :
    ∃ m' h', m.destroy fuel h = some (m', h') ∧ h'.mem = h.mem ∧
      h'.live = h.live.filter (fun reg => decide (reg.1 ∉
        LL ++ (teardownBlocks m._mem_1024 (OL .mem_1024) ++
          (teardownBlocks m._mem_512 (OL .mem_512) ++
          (teardownBlocks m._mem_256 (OL .mem_256) ++
          (teardownBlocks m._mem_128 (OL .mem_128) ++
            teardownBlocks m._mem_64 (OL .mem_64))))))) ∧
      h'.freed =
        (LL ++ (teardownBlocks m._mem_1024 (OL .mem_1024) ++
          (teardownBlocks m._mem_512 (OL .mem_512) ++
          (teardownBlocks m._mem_256 (OL .mem_256) ++
          (teardownBlocks m._mem_128 (OL .mem_128) ++
            teardownBlocks m._mem_64 (OL .mem_64)))))).reverse ++ h.freed := by
  obtain ⟨h0, e0, m0, l0, f0⟩ := destroyLoop_list LL fuel m._pHeadUsed h hLL hlenL
  obtain ⟨h1, e1, m1, l1, f1⟩ := destroy_pool m._mem_1024 h0 (OL .mem_1024) fuel
    (by rw [m0]; exact hO .mem_1024) (hlenO _)
  obtain ⟨h2, e2, m2, l2, f2⟩ := destroy_pool m._mem_512 h1 (OL .mem_512) fuel
    (by rw [m1, m0]; exact hO .mem_512) (hlenO _)
  obtain ⟨h3, e3, m3, l3, f3⟩ := destroy_pool m._mem_256 h2 (OL .mem_256) fuel
    (by rw [m2, m1, m0]; exact hO .mem_256) (hlenO _)
  obtain ⟨h4, e4, m4, l4, f4⟩ := destroy_pool m._mem_128 h3 (OL .mem_128) fuel
    (by rw [m3, m2, m1, m0]; exact hO .mem_128) (hlenO _)
  obtain ⟨h5, e5, m5, l5, f5⟩ := destroy_pool m._mem_64 h4 (OL .mem_64) fuel
    (by rw [m4, m3, m2, m1, m0]; exact hO .mem_64) (hlenO _)
  have hd : ∃ m', m.destroy fuel h = some (m', h5) := by
    simp only [MemoryMgr.destroy, bind, Option.bind, e0, e1, e2, e3, e4, e5, pure]
    exact ⟨_, rfl⟩
  obtain ⟨m', hd⟩ := hd
  refine ⟨m', h5, hd, by rw [m5, m4, m3, m2, m1, m0], ?_, ?_⟩
  · rw [l5, l4, l3, l2, l1, l0]
    simp only [List.filter_filter]
    apply List.filter_congr
    intro reg _
    rw [Bool.eq_iff_iff]
    simp only [List.mem_append, not_or, Bool.and_eq_true, decide_eq_true_eq]
    tauto
  · rw [f5, f4, f3, f2, f1, f0]
    simp only [List.reverse_append, List.append_assoc]

theorem mem_teardownBlocks (p : MemoryAlloc) (L : List Nat) (x : Nat) :
    x ∈ teardownBlocks p L ↔ x ∈ L ∨ (p._pSelf ≠ 0 ∧ x = p._pSelf) := by
  unfold teardownBlocks
  by_cases hs : p._pSelf = 0
  · simp [hs]
  · simp [hs]

section
variable {m : MemoryMgr} {h : Heap} {live : List Nat} {FL OL : PoolRef → List Nat} {LL : List Nat}

theorem inv_self_not_used (hI : Inv m h live FL OL LL) (r r' : PoolRef)
    (hs : (m.pool r)._pSelf ≠ 0) : (m.pool r)._pSelf ∉ OL r' :=
  inv_slot_not_used hI r r' hs _ (slots_head _ _ _ (by unfold BLOCKS_SIZE; omega))

theorem inv_self_not_large (hI : Inv m h live FL OL LL) (r : PoolRef)
    (hs : (m.pool r)._pSelf ≠ 0) : (m.pool r)._pSelf ∉ LL :=
  inv_slot_not_large hI r hs _ (slots_head _ _ _ (by unfold BLOCKS_SIZE; omega))

theorem inv_self_own (hI : Inv m h live FL OL LL) (r r' : PoolRef)
    (hs : (m.pool r)._pSelf ≠ 0) (hs' : (m.pool r')._pSelf ≠ 0)
    (e : (m.pool r)._pSelf = (m.pool r')._pSelf) : r = r' :=
  inv_slot_own hI r r' hs hs' _ (slots_head _ _ _ (by unfold BLOCKS_SIZE; omega))
    (e ▸ slots_head _ _ _ (by unfold BLOCKS_SIZE; omega))

theorem teardownBlocks_nodup (hI : Inv m h live FL OL LL) (r : PoolRef) :
    (teardownBlocks (m.pool r) (OL r)).Nodup := by
  unfold teardownBlocks
  have hnd : (OL r).Nodup := isList_nodup (isDList_isList (hI.used r))
  by_cases hs : (m.pool r)._pSelf = 0
  · simpa [hs] using hnd
  · rw [if_pos hs]
    refine List.Nodup.append hnd (List.nodup_singleton _) ?_
    intro x hx hx'
    rw [List.mem_singleton] at hx'
    exact inv_self_not_used hI r r hs (hx' ▸ hx)

theorem teardownBlocks_disjoint (hI : Inv m h live FL OL LL) (r r' : PoolRef) (hne : r ≠ r') :
    List.Disjoint (teardownBlocks (m.pool r) (OL r)) (teardownBlocks (m.pool r') (OL r')) := by
  intro x hx hx'
  rcases (mem_teardownBlocks _ _ _).1 hx with g | ⟨g1, g2⟩ <;>
    rcases (mem_teardownBlocks _ _ _).1 hx' with g' | ⟨g1', g2'⟩
  · exact hne (inv_used_own hI r r' x g g')
  · exact inv_self_not_used hI r' r g1' (g2' ▸ g)
  · exact inv_self_not_used hI r r' g1 (g2 ▸ g')
  · exact hne (inv_self_own hI r r' g1 g1' (g2 ▸ g2'))

theorem teardownBlocks_not_large (hI : Inv m h live FL OL LL) (r : PoolRef) :
    List.Disjoint LL (teardownBlocks (m.pool r) (OL r)) := by
  intro x hx hx'
  rcases (mem_teardownBlocks _ _ _).1 hx' with g | ⟨g1, g2⟩
  · exact inv_used_not_large hI r x g hx
  · exact inv_self_not_large hI r g1 (g2 ▸ hx)

/-- The allocated regions are the arenas and the blocks of the lists. -/
theorem books_regions (hI : Inv m h live FL OL LL) (hL : Ledger m h live FL OL LL) (b : Nat) :
    b ∈ h.live.map Prod.fst ↔
      (b ∈ LL ∨ ∃ r, b ∈ teardownBlocks (m.pool r) (OL r)) := by
  constructor
  · intro hb
    obtain ⟨reg, hreg, rfl⟩ := List.mem_map.1 hb
    rcases hL.regions reg hreg with ⟨r, g1, g2⟩ | ⟨r, g⟩ | g
    · exact Or.inr ⟨r, (mem_teardownBlocks _ _ _).2 (Or.inr ⟨g1, g2⟩)⟩
    · exact Or.inr ⟨r, (mem_teardownBlocks _ _ _).2 (Or.inl g)⟩
    · exact Or.inl g
  · rintro (g | ⟨r, g⟩)
    · obtain ⟨_, _, sz, _, hsz⟩ := hI.largeFlags b g
      exact List.mem_map.2 ⟨(b, sz), hsz, rfl⟩
    · rcases (mem_teardownBlocks _ _ _).1 g with g | ⟨g1, g2⟩
      · obtain ⟨_, _, _, sz, _, hsz⟩ := hI.usedFlags r b g
        exact List.mem_map.2 ⟨(b, sz), hsz, rfl⟩
      · exact List.mem_map.2 ⟨_, hI.arena r g1, g2.symm⟩

end

/-- C13 (teardown frees each outstanding block exactly once): in every state of
a run each pool's overflow list holds exactly the blocks of handed-out pointers
whose header marks an overflow block of that pool, the large-object list
exactly those whose header marks a large object, and the regions obtained from
`malloc` and not yet freed are, each once, the arenas and the blocks of these
lists.  With fuel for as many iterations as there are such regions,
`~MemoryAlloc` returns having freed the blocks of its overflow list and then
its arena, each once and each an allocated region; and `~MemoryMgr` returns
having passed to `free` a permutation of the allocated regions, so that none is
left, none is freed twice, nothing else is freed, and no arena slot is freed
except as the base of its arena. -/
theorem teardown_frees_outstanding_blocks_once {m : MemoryMgr} {h : Heap} {live : List Nat}
    (hR : Run m h live) :
    ∃ (OL : PoolRef → List Nat) (LL : List Nat),
      (∀ r, IsDList h.mem 0 (m.pool r)._pHeadUsed (OL r)) ∧
      IsDList h.mem 0 m._pHeadUsed LL ∧
      (∀ r x, x ∈ OL r ↔ (x + sizeofMemoryBlock ∈ live ∧ (h.mem x).inPool = false ∧
        (h.mem x).allocPool = true ∧ (h.mem x).pAlloc = some r)) ∧
      (∀ x, x ∈ LL ↔ (x + sizeofMemoryBlock ∈ live ∧ (h.mem x).inPool = false ∧
        (h.mem x).allocPool = false)) ∧
      (h.live.map Prod.fst).Nodup ∧
      (∀ b, b ∈ h.live.map Prod.fst ↔
        ((∃ r, (m.pool r)._pSelf ≠ 0 ∧ b = (m.pool r)._pSelf) ∨ (∃ r, b ∈ OL r) ∨ b ∈ LL)) ∧
      (∀ r fuel, h.live.length ≤ fuel →
        ∃ h', (m.pool r).destroy fuel h = some ({ m.pool r with _pHeadUsed := 0 }, h') ∧
          h'.freed = (teardownBlocks (m.pool r) (OL r)).reverse ++ h.freed ∧
          h'.live = h.live.filter
            (fun reg => decide (reg.1 ∉ teardownBlocks (m.pool r) (OL r))) ∧
          (teardownBlocks (m.pool r) (OL r)).Nodup ∧
          ∀ x ∈ teardownBlocks (m.pool r) (OL r), x ∈ h.live.map Prod.fst) ∧
      (∀ fuel, h.live.length ≤ fuel →
        ∃ m' h' F, m.destroy fuel h = some (m', h') ∧ h'.freed = F ++ h.freed ∧
          F.Perm (h.live.map Prod.fst) ∧ h'.live = [] ∧
          ∀ x ∈ F, ∀ r, (m.pool r)._pSelf ≠ 0 →
            x ∈ slots (m.pool r)._pSelf (m.pool r).realSize (m.pool r)._nBlocks →
            x = (m.pool r)._pSelf) := by
  obtain ⟨FL, OL, LL, hI, hL⟩ := run_books hR
  have hsubx : ∀ x, x + sizeofMemoryBlock - sizeofMemoryBlock = x := fun x => by omega
  have hreg := books_regions hI hL
  have hlenL : LL.length ≤ h.live.length := by
    have := (List.subperm_of_subset (isList_nodup (isDList_isList hI.large))
      (fun x hx => (hreg x).2 (Or.inl hx))).length_le
    simpa using this
  have hlenT : ∀ r, (teardownBlocks (m.pool r) (OL r)).length ≤ h.live.length := by
    intro r
    have := (List.subperm_of_subset (teardownBlocks_nodup hI r)
      (fun x hx => (hreg x).2 (Or.inr ⟨r, hx⟩))).length_le
    simpa using this
  have hlenO : ∀ r, (OL r).length ≤ h.live.length := by
    intro r
    refine le_trans ?_ (hlenT r)
    unfold teardownBlocks
    simp
  refine ⟨OL, LL, hI.used, hI.large, ?_, ?_, hL.regionsNodup, ?_, ?_, ?_⟩
  · intro r x
    constructor
    · intro hx
      obtain ⟨f1, f2, f3, _⟩ := hI.usedFlags r x hx
      exact ⟨hL.usedLive r x hx, f1, f2, f3⟩
    · rintro ⟨hl, f1, f2, f3⟩
      rcases (hI.liveBlock _ hl).2 with ⟨r', g1, g2, _⟩ | ⟨r', g⟩ | g
      · rw [hsubx] at g2
        rw [(hI.slotFlags r' g1 x g2).1] at f1
        cases f1
      · rw [hsubx] at g
        have := (hI.usedFlags r' x g).2.2.1
        rw [f3] at this
        injection this with this
        exact this ▸ g
      · rw [hsubx] at g
        rw [(hI.largeFlags x g).2.1] at f2
        cases f2
  · intro x
    constructor
    · intro hx
      obtain ⟨f1, f2, _⟩ := hI.largeFlags x hx
      exact ⟨hL.largeLive x hx, f1, f2⟩
    · rintro ⟨hl, f1, f2⟩
      rcases (hI.liveBlock _ hl).2 with ⟨r', g1, g2, _⟩ | ⟨r', g⟩ | g
      · rw [hsubx] at g2
        rw [(hI.slotFlags r' g1 x g2).1] at f1
        cases f1
      · rw [hsubx] at g
        rw [(hI.usedFlags r' x g).2.1] at f2
        cases f2
      · rw [hsubx] at g
        exact g
  · intro b
    rw [hreg b]
    constructor
    · rintro (g | ⟨r, g⟩)
      · exact Or.inr (Or.inr g)
      · rcases (mem_teardownBlocks _ _ _).1 g with g | g
        · exact Or.inr (Or.inl ⟨r, g⟩)
        · exact Or.inl ⟨r, g⟩
    · rintro (⟨r, g⟩ | ⟨r, g⟩ | g)
      · exact Or.inr ⟨r, (mem_teardownBlocks _ _ _).2 (Or.inr g)⟩
      · exact Or.inr ⟨r, (mem_teardownBlocks _ _ _).2 (Or.inl g)⟩
      · exact Or.inl g
  · intro r fuel hfuel
    obtain ⟨h', e1, _, e3, e4⟩ := destroy_pool (m.pool r) h (OL r) fuel
      (isDList_isList (hI.used r)) (le_trans (hlenO r) hfuel)
    exact ⟨h', e1, e4, e3, teardownBlocks_nodup hI r, fun x hx => (hreg x).2 (Or.inr ⟨r, hx⟩)⟩
  · intro fuel hfuel
    obtain ⟨m', h', e1, _, e3, e4⟩ := destroy_mgr m h OL LL fuel
      (fun r => isDList_isList (hI.used r)) (isDList_isList hI.large)
      (fun r => le_trans (hlenO r) hfuel) (le_trans hlenL hfuel)
    have hmemF : ∀ x, x ∈ LL ++ (teardownBlocks m._mem_1024 (OL .mem_1024) ++
          (teardownBlocks m._mem_512 (OL .mem_512) ++
          (teardownBlocks m._mem_256 (OL .mem_256) ++
          (teardownBlocks m._mem_128 (OL .mem_128) ++
            teardownBlocks m._mem_64 (OL .mem_64))))) ↔
        (x ∈ LL ∨ ∃ r, x ∈ teardownBlocks (m.pool r) (OL r)) := by
      intro x
      simp only [List.mem_append]
      constructor
      · rintro (g | g | g | g | g | g)
        · exact Or.inl g
        · exact Or.inr ⟨.mem_1024, g⟩
        · exact Or.inr ⟨.mem_512, g⟩
        · exact Or.inr ⟨.mem_256, g⟩
        · exact Or.inr ⟨.mem_128, g⟩
        · exact Or.inr ⟨.mem_64, g⟩
      · rintro (g | ⟨r, g⟩)
        · exact Or.inl g
        · cases r
          · exact Or.inr (Or.inr (Or.inr (Or.inr (Or.inr g))))
          · exact Or.inr (Or.inr (Or.inr (Or.inr (Or.inl g))))
          · exact Or.inr (Or.inr (Or.inr (Or.inl g)))
          · exact Or.inr (Or.inr (Or.inl g))
          · exact Or.inr (Or.inl g)
    have hnd : (LL ++ (teardownBlocks m._mem_1024 (OL .mem_1024) ++
          (teardownBlocks m._mem_512 (OL .mem_512) ++
          (teardownBlocks m._mem_256 (OL .mem_256) ++
          (teardownBlocks m._mem_128 (OL .mem_128) ++
            teardownBlocks m._mem_64 (OL .mem_64)))))).Nodup := by
      have d := fun r r' hne => teardownBlocks_disjoint hI r r' hne
      have dl := fun r => teardownBlocks_not_large hI r
      have n := fun r => teardownBlocks_nodup hI r
      refine List.Nodup.append (isList_nodup (isDList_isList hI.large)) ?_ ?_
      · refine List.Nodup.append (n .mem_1024) ?_ ?_
        · refine List.Nodup.append (n .mem_512) ?_ ?_
          · refine List.Nodup.append (n .mem_256) ?_ ?_
            · exact List.Nodup.append (n .mem_128) (n .mem_64) (d _ _ (by decide))
            · simp only [List.disjoint_append_right]
              exact ⟨d _ _ (by decide), d _ _ (by decide)⟩
          · simp only [List.disjoint_append_right]
            exact ⟨d _ _ (by decide), d _ _ (by decide), d _ _ (by decide)⟩
        · simp only [List.disjoint_append_right]
          exact ⟨d _ _ (by decide), d _ _ (by decide), d _ _ (by decide), d _ _ (by decide)⟩
      · simp only [List.disjoint_append_right]
        exact ⟨dl _, dl _, dl _, dl _, dl _⟩
    refine ⟨m', h', _, e1, e4, ?_, ?_, ?_⟩
    · exact (List.reverse_perm _).trans ((List.perm_ext_iff_of_nodup hnd hL.regionsNodup).2
        (fun x => by rw [hmemF x, hreg x]))
    · rw [e3, List.filter_eq_nil_iff]
      intro reg hr
      have : reg.1 ∈ h.live.map Prod.fst := List.mem_map.2 ⟨reg, hr, rfl⟩
      rw [hreg, ← hmemF] at this
      simp only [decide_eq_true_eq, not_not]
      exact this
    · intro x hx r hs hslot
      rw [List.mem_reverse, hmemF] at hx
      rw [hI.nBlocks r] at hslot
      rcases hx with g | ⟨r', g⟩
      · exact absurd g (inv_slot_not_large hI r hs x hslot)
      · rcases (mem_teardownBlocks _ _ _).1 g with g | ⟨g1, g2⟩
        · exact absurd g (inv_slot_not_used hI r r' hs x hslot)
        · have hslot' : x ∈ slots (m.pool r')._pSelf (m.pool r').realSize BLOCKS_SIZE := by
            rw [g2]; exact slots_head _ _ _ (by unfold BLOCKS_SIZE; omega)
          have := inv_slot_own hI r r' hs g1 x hslot hslot'
          rw [g2, this]

/-- Witness of C13: teardown after `allocMemory(2000)` on a freshly constructed
manager leaves nothing allocated. -/
theorem teardown_frees_outstanding_blocks_once_witness :
    ∃ m h, Run m h [4096 + sizeofMemoryBlock] ∧
      ∃ m' h', m.destroy 1 h = some (m', h') ∧ h'.live = [] := by
  have e := mgr_alloc_large MemoryMgr.new Heap.empty 2000 4096 (by decide) rfl (by decide)
  have hR : Run _ _ [4096 + sizeofMemoryBlock] :=
    Run.alloc 2000 4096 _ (Run.init Heap.empty rfl) (by decide) e
      (fun size _ r hr => by simp [Heap.empty] at hr)
  obtain ⟨OL, LL, _, _, _, _, _, _, _, g⟩ := teardown_frees_outstanding_blocks_once hR
  obtain ⟨m', h', F, e1, _, _, e2, _⟩ :=
    g 1 (by rw [(pushHeap_live _ _ _ _ _).1]; simp [Heap.empty])
  exact ⟨_, _, hR, m', h', e1, e2⟩

/-! ## Capacity of the returned block -/

theorem classOf_fits (s : Nat) (hs : s ≤ MAX_MEMORY_SIZE) :
    s ≤ (MemoryMgr.new.pool (classOf s))._nSize := by
  have hs' : s ≤ 1024 := hs
  unfold classOf
  split_ifs <;>
    simp [MemoryMgr.new, MemoryMgr.pool, MemoryMgr.MakeLink, MemoryAllocator.new, ptrSize, SIZE_MOD,
      MemoryAlloc.new] <;> omega

theorem alloc_nSize (this : PoolRef) (p p' : MemoryAlloc) (h h' : Heap) (nSize a pMem : Nat)
    (e : MemoryAlloc.allocMemory this p h nSize a = .ok (pMem, p', h')) :
    p'._nSize = p._nSize := by
  obtain ⟨_, hc⟩ := alloc_inv this p p' h h' nSize a pMem e
  rcases hc with ⟨_, _, _, hp, _⟩ | ⟨_, _, _, hp, _⟩ | ⟨_, _, _, _, hp, _⟩ <;> rw [hp]

theorem free_nSize (p p' : MemoryAlloc) (h h' : Heap) (pMemory : Nat)
    (e : MemoryAlloc.freeMemory p h pMemory = .ok (p', h')) : p'._nSize = p._nSize := by
  by_cases hz : toInt32 ((h.mem (pMemory - sizeofMemoryBlock)).mRef - 1) = 0
  · cases hm : p._mutex with
    | true => rw [free_deadlock p h pMemory hz hm] at e; cases e
    | false =>
      cases hin : (h.mem (pMemory - sizeofMemoryBlock)).inPool with
      | true =>
        rw [free_recycle p h pMemory hz hm hin] at e
        injection e with e
        injection e with e1 e2
        rw [← e1]
      | false =>
        rw [free_unsplice p h pMemory hz hm hin] at e
        obtain ⟨z, _, hf⟩ := map_ok_inv _ _ _ e
        injection hf with e1 e2
        rw [← e1]
  · rw [free_keep p h pMemory hz] at e
    injection e with e
    injection e with e1 e2
    rw [← e1]

theorem mgr_alloc_nSize (m m' : MemoryMgr) (h h' : Heap) (nSize a pMem : Nat)
    (e : m.allocMemory h nSize a = .ok (pMem, m', h')) (r : PoolRef) :
    (m'.pool r)._nSize = (m.pool r)._nSize := by
  rcases mgr_alloc_inv m m' h h' nSize a pMem e with ⟨_, r0, p', _, hm', ea⟩ | ⟨_, _, _, _, hm', _⟩
  · subst hm'
    rw [pool_setPool]
    split_ifs with hr
    · subst hr; exact alloc_nSize _ _ _ _ _ _ _ _ ea
    · rfl
  · subst hm'
    cases r <;> rfl

theorem mgr_free_nSize (m m' : MemoryMgr) (h h' : Heap) (pMem : Nat)
    (e : m.freeMemory h pMem = .ok (m', h')) (r : PoolRef) :
    (m'.pool r)._nSize = (m.pool r)._nSize := by
  cases hf : ((h.mem (pMem - sizeofMemoryBlock)).inPool ||
      (h.mem (pMem - sizeofMemoryBlock)).allocPool) with
  | true =>
    cases hr : (h.mem (pMem - sizeofMemoryBlock)).pAlloc with
    | none => rw [mgr_free_pool_null m h pMem hf hr] at e; cases e
    | some r0 =>
      rw [mgr_free_pool m h pMem r0 hf hr] at e
      obtain ⟨⟨p', h''⟩, hz, hfz⟩ := map_ok_inv _ _ _ e
      injection hfz with e1 e2
      subst e1
      rw [pool_setPool]
      split_ifs with hrr
      · subst hrr; exact free_nSize _ _ _ _ _ hz
      · rfl
  | false =>
    cases hm : m._mutex with
    | true => rw [mgr_free_large_held m h pMem hf hm] at e; cases e
    | false =>
      by_cases hz : toInt32 ((h.mem (pMem - sizeofMemoryBlock)).mRef - 1) = 0
      · rw [mgr_free_large_last m h pMem hf hm hz] at e
        obtain ⟨z, _, hfz⟩ := map_ok_inv _ _ _ e
        injection hfz with e1 e2
        subst e1
        cases r <;> rfl
      · rw [mgr_free_large_keep m h pMem hf hm hz] at e
        injection e with e
        injection e with e1 e2
        subst e1
        cases r <;> rfl

/-- The class sizes of the pools never change. -/
theorem reach_nSize {m : MemoryMgr} {h : Heap} {live : List Nat} (hR : Reach m h live)
    (r : PoolRef) : (m.pool r)._nSize = (MemoryMgr.new.pool r)._nSize := by
  induction hR with
  | init h => rfl
  | alloc nSize a pMem _ _ e _ ih => rw [mgr_alloc_nSize _ _ _ _ _ _ _ e r, ih]
  | addRef pMem _ _ _ ih => exact ih
  | free pMem _ _ _ e ih => rw [mgr_free_nSize _ _ _ _ _ e r, ih]

theorem capacity_slot {m : MemoryMgr} {h : Heap} {live : List Nat} {FL OL : PoolRef → List Nat}
    {LL : List Nat} (hI : Inv m h live FL OL LL) (r : PoolRef) (hs : (m.pool r)._pSelf ≠ 0)
    (pMem : Nat)
    (hx : pMem - sizeofMemoryBlock ∈ slots (m.pool r)._pSelf (m.pool r).realSize BLOCKS_SIZE) :
    capacity m h pMem = some (m.pool r)._nSize ∧
    (h.mem (pMem - sizeofMemoryBlock)).inPool = true ∧
    (h.mem (pMem - sizeofMemoryBlock)).pAlloc = some r ∧
    (m.pool r).realSize = sizeofMemoryBlock + (m.pool r)._nSize ∧
    pMem - sizeofMemoryBlock ∈ slots (m.pool r)._pSelf (m.pool r).realSize (m.pool r)._nBlocks ∧
    ((m.pool r)._pSelf, (m.pool r)._nBlocks * (m.pool r).realSize) ∈ h.live := by
  obtain ⟨f1, f2⟩ := hI.slotFlags r hs _ hx
  obtain ⟨hrs, _, _⟩ := realSize_bounds _ (hI.nSize r)
  refine ⟨?_, f1, f2, hrs, by rw [hI.nBlocks r]; exact hx, by rw [hI.nBlocks r]; exact hI.arena r hs⟩
  unfold capacity
  simp only [f1, if_true, f2, Option.map_some', hrs]
  congr 1
  omega

theorem capacity_malloc (m : MemoryMgr) (h : Heap) (pMem sz : Nat) (rest : List (Nat × Nat))
    (hin : (h.mem (pMem - sizeofMemoryBlock)).inPool = false)
    (hl : h.live = (pMem - sizeofMemoryBlock, sz) :: rest) :
    capacity m h pMem = some (sz - sizeofMemoryBlock) := by
  unfold capacity
  simp [hin, hl]

/-- C15 (returned blocks are large enough), amended: in every reachable state
and for every size `s` whose block size `sizeof(MemoryBlock) + s` fits `size_t`,
the block behind the pointer `MemoryMgr::allocMemory s` returns has a payload
capacity of at least `s`: an arena slot belongs to the pool the table names for
`s ≤ 1024`, lies in that pool's allocated arena and has as capacity the aligned
class size of the pool, which is at least `s`; any other block is the region
`malloc` returned for `sizeof(MemoryBlock) + s` bytes and has capacity exactly
`s`. -/
theorem returned_block_capacity {m : MemoryMgr} {h : Heap} {live : List Nat} (hR : Reach m h live)
    (s a pMem : Nat) (m' : MemoryMgr) (h' : Heap)
    (hfit : sizeofMemoryBlock + s < SIZE_MOD)
    (e : m.allocMemory h s a = .ok (pMem, m', h'))
    (hfresh : ∀ size, h'.live = (a, size) :: h.live → Fresh h a size) :
    ∃ c, capacity m' h' pMem = some c ∧ s ≤ c ∧
      ((h'.mem (pMem - sizeofMemoryBlock)).inPool = true →
        ∃ r, s ≤ MAX_MEMORY_SIZE ∧ m._allocMap s = some r ∧
          (h'.mem (pMem - sizeofMemoryBlock)).pAlloc = some r ∧
          c = (m'.pool r)._nSize ∧ (m'.pool r)._nSize = (MemoryMgr.new.pool r)._nSize ∧
          (m'.pool r).realSize = sizeofMemoryBlock + (m'.pool r)._nSize ∧
          pMem - sizeofMemoryBlock ∈
            slots (m'.pool r)._pSelf (m'.pool r).realSize (m'.pool r)._nBlocks ∧
          ((m'.pool r)._pSelf, (m'.pool r)._nBlocks * (m'.pool r).realSize) ∈ h'.live) ∧
      ((h'.mem (pMem - sizeofMemoryBlock)).inPool = false →
        c = s ∧ h'.live = (pMem - sizeofMemoryBlock, sizeofMemoryBlock + s) :: h.live) := by
  obtain ⟨FL, OL, LL, hI⟩ := reach_inv hR
  have hR' := Reach.alloc s a pMem hR hfit e hfresh
  obtain ⟨FL', OL', LL', hI'⟩ := reach_inv hR'
  have hmod : (sizeofMemoryBlock + s) % SIZE_MOD = sizeofMemoryBlock + s := Nat.mod_eq_of_lt hfit
  have hsuba : a + sizeofMemoryBlock - sizeofMemoryBlock = a := by omega
  -- an arena slot of the pool the table names
  have hslotcase : ∀ r, s ≤ MAX_MEMORY_SIZE → m._allocMap s = some r → (m'.pool r)._pSelf ≠ 0 →
      pMem - sizeofMemoryBlock ∈ slots (m'.pool r)._pSelf (m'.pool r).realSize BLOCKS_SIZE →
      ∃ c, capacity m' h' pMem = some c ∧ s ≤ c ∧
      ((h'.mem (pMem - sizeofMemoryBlock)).inPool = true →
        ∃ r, s ≤ MAX_MEMORY_SIZE ∧ m._allocMap s = some r ∧
          (h'.mem (pMem - sizeofMemoryBlock)).pAlloc = some r ∧
          c = (m'.pool r)._nSize ∧ (m'.pool r)._nSize = (MemoryMgr.new.pool r)._nSize ∧
          (m'.pool r).realSize = sizeofMemoryBlock + (m'.pool r)._nSize ∧
          pMem - sizeofMemoryBlock ∈
            slots (m'.pool r)._pSelf (m'.pool r).realSize (m'.pool r)._nBlocks ∧
          ((m'.pool r)._pSelf, (m'.pool r)._nBlocks * (m'.pool r).realSize) ∈ h'.live) ∧
      ((h'.mem (pMem - sizeofMemoryBlock)).inPool = false →
        c = s ∧ h'.live = (pMem - sizeofMemoryBlock, sizeofMemoryBlock + s) :: h.live) := by
    intro r hs hr hself hslot
    obtain ⟨c1, c2, c3, c4, c5, c6⟩ := capacity_slot hI' r hself pMem hslot
    have hn := reach_nSize hR' r
    have hrc : r = classOf s := by
      have h1 := allocMap_new s hs
      rw [← hI.allocMap, hr] at h1
      injection h1
    refine ⟨_, c1, ?_, fun _ => ⟨r, hs, hr, c3, rfl, hn, c4, c5, c6⟩, fun hc => ?_⟩
    · rw [hn, hrc]; exact classOf_fits s hs
    · rw [c2] at hc; cases hc
  -- a block obtained from `malloc` for this request
  have hmalloc : pMem = a + sizeofMemoryBlock →
      (h'.mem a).inPool = false → h'.live = (a, (sizeofMemoryBlock + s) % SIZE_MOD) :: h.live →
      ∃ c, capacity m' h' pMem = some c ∧ s ≤ c ∧
      ((h'.mem (pMem - sizeofMemoryBlock)).inPool = true →
        ∃ r, s ≤ MAX_MEMORY_SIZE ∧ m._allocMap s = some r ∧
          (h'.mem (pMem - sizeofMemoryBlock)).pAlloc = some r ∧
          c = (m'.pool r)._nSize ∧ (m'.pool r)._nSize = (MemoryMgr.new.pool r)._nSize ∧
          (m'.pool r).realSize = sizeofMemoryBlock + (m'.pool r)._nSize ∧
          pMem - sizeofMemoryBlock ∈
            slots (m'.pool r)._pSelf (m'.pool r).realSize (m'.pool r)._nBlocks ∧
          ((m'.pool r)._pSelf, (m'.pool r)._nBlocks * (m'.pool r).realSize) ∈ h'.live) ∧
      ((h'.mem (pMem - sizeofMemoryBlock)).inPool = false →
        c = s ∧ h'.live = (pMem - sizeofMemoryBlock, sizeofMemoryBlock + s) :: h.live) := by
    intro hp hin hl
    subst hp
    rw [hmod] at hl
    rw [hsuba]
    have hc := capacity_malloc m' h' (a + sizeofMemoryBlock) (sizeofMemoryBlock + s) h.live
      (by rw [hsuba]; exact hin) (by rw [hsuba]; exact hl)
    have hcs : sizeofMemoryBlock + s - sizeofMemoryBlock = s := by omega
    rw [hcs] at hc
    exact ⟨s, hc, le_refl _, fun hc' => (by rw [hin] at hc'; cases hc'), fun _ => ⟨rfl, hl⟩⟩
  rcases mgr_alloc_inv m m' h h' s a pMem e with ⟨hs, r, p', hr, hm', ea⟩ | ⟨_, _, ha, hp, hm', hh'⟩
  · obtain ⟨_, hcase⟩ := alloc_inv r (m.pool r) p' h h' s a pMem ea
    rcases hcase with ⟨hs0, ha, hp, hp', hh'⟩ | ⟨hself, hhd, hp, hp', hh'⟩ | ⟨_, _, ha, hp, hp', hh'⟩
    · apply hslotcase r hs hr
      · rw [hm', pool_setPool_same, hp']; exact ha
      · rw [hm', pool_setPool_same, hp', hp, hsuba]
        exact slots_head _ _ _ (by unfold BLOCKS_SIZE; omega)
    · have hF : (m.pool r)._pHead ∈ FL r := by
        obtain ⟨xs, hxs⟩ := isList_head_ne (hI.free r) hhd
        rw [hxs]; exact List.mem_cons_self _ _
      apply hslotcase r hs hr
      · rw [hm', pool_setPool_same, hp']; exact hself
      · rw [hm', pool_setPool_same, hp', hp, Nat.add_sub_cancel]
        exact (hI.freeSlot r _ hF).2
    · apply hmalloc hp
      · rw [hh']; exact (pushHeap_fields _ _ _ _ _).2.2.2.1
      · rw [hh']; exact (pushHeap_live _ _ _ _ _).1
  · apply hmalloc hp
    · rw [hh']; exact (pushHeap_fields _ _ _ _ _).2.2.2.1
    · rw [hh']; exact (pushHeap_live _ _ _ _ _).1

/-- Witness of C15: `allocMemory(100)` on a freshly constructed manager. -/
theorem returned_block_capacity_witness :
    ∃ m' h' c, MemoryMgr.new.allocMemory Heap.empty 100 4096 =
        .ok (4096 + sizeofMemoryBlock, m', h') ∧
      capacity m' h' (4096 + sizeofMemoryBlock) = some c ∧ 100 ≤ c := by
  have e := mgr_alloc_pool MemoryMgr.new Heap.empty 100 4096 PoolRef.mem_128 (by decide)
    (allocMap_new 100 (by decide))
  rw [alloc_uninit PoolRef.mem_128 (MemoryMgr.new.pool PoolRef.mem_128) Heap.empty 100 4096 rfl rfl
    (by decide)] at e
  obtain ⟨c, g1, g2, _⟩ := returned_block_capacity (Reach.init Heap.empty) 100 4096 _ _ _
    (by decide) e (fun size _ r hr => by simp [Heap.empty] at hr)
  exact ⟨_, _, c, e, g1, g2⟩

/-- C15 as stated fails at the top of `size_t`: for `s = 2 ^ 64 - 1` the block
size wraps to 39, `malloc` hands out 39 bytes, less than the header, and the
returned block has no capacity at all. -/
theorem returned_block_too_small_when_size_wraps :
    ∃ m' h', MemoryMgr.new.allocMemory Heap.empty (2 ^ 64 - 1) 4096 =
        .ok (4096 + sizeofMemoryBlock, m', h') ∧
      h'.live = [(4096, 39)] ∧
      capacity m' h' (4096 + sizeofMemoryBlock) = some 0 ∧
      ¬ (2 ^ 64 - 1 ≤ 0) := by
  have e := mgr_alloc_large MemoryMgr.new Heap.empty (2 ^ 64 - 1) 4096
    (by unfold MAX_MEMORY_SIZE; norm_num) rfl (by decide)
  have hsz : (sizeofMemoryBlock + (2 ^ 64 - 1)) % SIZE_MOD = 39 := by
    unfold sizeofMemoryBlock SIZE_MOD; norm_num
  rw [hsz] at e
  have hl := (pushHeap_live Heap.empty 4096 39
    { pAlloc := none, pPrev := 0, pNext := 0, mId := -1, mRef := 1,
      inPool := false, allocPool := false } MemoryMgr.new._pHeadUsed).1
  have hin := (pushHeap_fields Heap.empty 4096 39
    { pAlloc := none, pPrev := 0, pNext := 0, mId := -1, mRef := 1,
      inPool := false, allocPool := false } MemoryMgr.new._pHeadUsed).2.2.2.1
  refine ⟨_, _, e, hl, ?_, by norm_num⟩
  exact capacity_malloc _ _ (4096 + sizeofMemoryBlock) 39 [] hin hl

/-! ## Block conservation in a single pool -/

theorem pinv_realSize {n A : Nat} {p : MemoryAlloc} {h : Heap} {live FL OL : List Nat}
    (hI : PInv n A p h live FL OL) (hfit : sizeofMemoryBlock + A < SIZE_MOD) :
    p.realSize = sizeofMemoryBlock + A := by
  unfold MemoryAlloc.realSize
  rw [hI.nSize, Nat.mod_eq_of_lt hfit]

theorem pinv_init (nSize nBlocks : Nat) (h : Heap) :
    PInv nBlocks (MemoryAllocator.new nSize nBlocks)._nSize (MemoryAllocator.new nSize nBlocks) h
      [] [] [] where
  nBlocks := rfl
  nSize := rfl
  mutex := rfl
  free := rfl
  used := rfl
  unused := fun _ => ⟨rfl, rfl, rfl⟩
  arena := fun hs => absurd rfl hs
  freeSlot := fun x hx => by simp at hx
  slotFlags := fun hs => absurd rfl hs
  usedFlags := fun x hx => by simp at hx
  liveNodup := List.nodup_nil
  liveBlock := fun q hq => by simp at hq
  slotLive := fun hs => absurd rfl hs

/-- A block on the free list is not on the overflow list. -/
theorem pinv_free_not_used {n A : Nat} {p : MemoryAlloc} {h : Heap} {live FL OL : List Nat}
    (hI : PInv n A p h live FL OL) (x : Nat) (hx : x ∈ FL) : x ∉ OL := by
  intro hO
  have hs : p._pSelf ≠ 0 := fun e => by
    have := (hI.unused e).1
    rw [this] at hx
    simp at hx
  have h1 := hI.slotFlags hs x (hI.freeSlot x hx).1
  rw [(hI.usedFlags x hO).1] at h1
  cases h1

theorem pinv_slot_not_used {n A : Nat} {p : MemoryAlloc} {h : Heap} {live FL OL : List Nat}
    (hI : PInv n A p h live FL OL) (hs : p._pSelf ≠ 0) (x : Nat)
    (hx : x ∈ slots p._pSelf (sizeofMemoryBlock + A) n) : x ∉ OL := by
  intro hO
  have h1 := hI.slotFlags hs x hx
  rw [(hI.usedFlags x hO).1] at h1
  cases h1

theorem pinv_live_not_free {n A : Nat} {p : MemoryAlloc} {h : Heap} {live FL OL : List Nat}
    (hI : PInv n A p h live FL OL) (q : Nat) (hq : q ∈ live) : q - sizeofMemoryBlock ∉ FL := by
  intro hF
  rcases (hI.liveBlock q hq).2.2.2 with ⟨_, g⟩ | g
  · exact g hF
  · exact pinv_free_not_used hI _ hF g

theorem pinv_self_ne {n A : Nat} {p : MemoryAlloc} {h : Heap} {live FL OL : List Nat}
    (hI : PInv n A p h live FL OL) (q : Nat) (hq : q ∈ live) : p._pSelf ≠ 0 := by
  intro e
  have := (hI.unused e).2.2
  rw [this] at hq
  simp at hq

theorem pinv_tracked_slot {n A : Nat} {p : MemoryAlloc} {h : Heap} {live FL OL : List Nat}
    (hI : PInv n A p h live FL OL) (hs : p._pSelf ≠ 0) (x : Nat)
    (hx : x ∈ slots p._pSelf (sizeofMemoryBlock + A) n) : Tracked h x := by
  have hb := slot_bounds _ _ _ _ hx (Nat.le_add_right _ _)
  exact ⟨_, hI.arena hs, hb.1, hb.2⟩

theorem pinv_tracked_used {n A : Nat} {p : MemoryAlloc} {h : Heap} {live FL OL : List Nat}
    (hI : PInv n A p h live FL OL) (x : Nat) (hx : x ∈ OL) : Tracked h x := by
  obtain ⟨_, sz, hsz, hm⟩ := hI.usedFlags x hx
  exact ⟨_, hm, le_refl _, by simpa using hsz⟩

/-- The first allocation of a pool lays out the arena and hands out its first
slot. -/
theorem pinv_first {n A : Nat} (hn : 1 ≤ n) (hfit : n * (sizeofMemoryBlock + A) < SIZE_MOD)
    (this : PoolRef) {p : MemoryAlloc} {h : Heap} {live FL OL : List Nat}
    (hI : PInv n A p h live FL OL) (a : Nat) (hs0 : p._pSelf = 0) (ha : a ≠ 0) :
    ∃ xs, slots a (sizeofMemoryBlock + A) n = a :: xs ∧
      PInv n A
        { p with _pSelf := a, _pHead := ((initHeap this p h a).mem a).pNext, _mutex := false }
        ((initHeap this p h a).write a
          { (initHeap this p h a).mem a with mRef := 1, pNext := 0, pPrev := 0 })
        ((a + sizeofMemoryBlock) :: live) xs OL := by
  have hfitA : sizeofMemoryBlock + A < SIZE_MOD :=
    lt_of_le_of_lt (Nat.le_mul_of_pos_left _ hn) hfit
  have hrs := pinv_realSize hI hfitA
  have hpos : 0 < p.realSize := by rw [hrs]; unfold sizeofMemoryBlock; omega
  have hn1 : 1 ≤ p._nBlocks := by rw [hI.nBlocks]; exact hn
  obtain ⟨hF0, hO0, hl0⟩ := hI.unused hs0
  have hLs := initHeap_isList this p h a ha hpos hn1
  have hflags := initHeap_flags this p h a hpos
  have hlive := (initHeap_live this p h a).1
  rw [hrs, hI.nBlocks] at hLs hflags hlive
  rw [Nat.mod_eq_of_lt hfit] at hlive
  generalize initHeap this p h a = H at hLs hflags hlive
  have hsub : a + sizeofMemoryBlock - sizeofMemoryBlock = a := by omega
  obtain ⟨xs, hxs⟩ := isList_head_ne hLs ha
  have hnd := isList_nodup hLs
  rw [hxs] at hnd hLs
  have haxs : a ∉ xs := (List.nodup_cons.1 hnd).1
  obtain ⟨_, _, htail⟩ := hLs
  have hused0 : p._pHeadUsed = 0 := by
    have := hI.used
    rw [hO0] at this
    exact this
  subst hF0 hO0 hl0
  refine ⟨xs, hxs, ?_⟩
  exact {
    nBlocks := hI.nBlocks
    nSize := hI.nSize
    mutex := rfl
    free := by
      apply isList_congr _ htail
      intro y hy
      have hne : y ≠ a := fun e => haxs (e ▸ hy)
      rw [write_mem_ne _ _ _ _ hne]
    used := hused0
    unused := fun e => absurd e ha
    arena := fun _ => by
      rw [write_live, hlive]
      exact List.mem_cons_self _ _
    freeSlot := fun y hy => by
      have hyS : y ∈ slots a (sizeofMemoryBlock + A) n := by
        rw [hxs]; exact List.mem_cons_of_mem _ hy
      refine ⟨hyS, ?_⟩
      have hne : y ≠ a := fun e => haxs (e ▸ hy)
      rw [write_mem_ne _ _ _ _ hne]
      exact (hflags y hyS).2.2.2
    slotFlags := fun _ y hy => by
      rw [write_mem]
      split_ifs with hya
      · subst hya; exact (hflags y hy).1
      · exact (hflags y hy).1
    usedFlags := fun y hy => by simp at hy
    liveNodup := List.nodup_singleton _
    liveBlock := fun q hq => by
      rw [List.mem_singleton] at hq
      subst hq
      rw [hsub, write_mem_same]
      refine ⟨Nat.le_add_left _ _, le_refl _, by norm_num, Or.inl ⟨?_, haxs⟩⟩
      show a ∈ slots a (sizeofMemoryBlock + A) n
      rw [hxs]; exact List.mem_cons_self _ _
    slotLive := fun _ y hy hnF => by
      have hy' : y ∈ slots a (sizeofMemoryBlock + A) n := hy
      rw [hxs] at hy'
      rcases List.mem_cons.1 hy' with rfl | hy''
      · exact List.mem_cons_self _ _
      · exact absurd hy'' hnF }

/-- The head of the free list is handed out. -/
theorem pinv_pop {n A : Nat} {p : MemoryAlloc} {h : Heap} {live FL OL : List Nat}
    (hI : PInv n A p h live FL OL) (hs : p._pSelf ≠ 0) (hh : p._pHead ≠ 0) :
    ∃ xs, FL = p._pHead :: xs ∧
      PInv n A { p with _pHead := (h.mem p._pHead).pNext, _mutex := false }
        (h.write p._pHead { h.mem p._pHead with mRef := 1, pNext := 0, pPrev := 0 })
        ((p._pHead + sizeofMemoryBlock) :: live) xs OL := by
  obtain ⟨xs, hxs⟩ := isList_head_ne hI.free hh
  have hF := hI.free
  rw [hxs] at hF
  have hnd := isList_nodup hF
  have hxxs : p._pHead ∉ xs := (List.nodup_cons.1 hnd).1
  obtain ⟨_, _, htail⟩ := hF
  have hxF : p._pHead ∈ FL := by rw [hxs]; exact List.mem_cons_self _ _
  have hxO : p._pHead ∉ OL := pinv_free_not_used hI _ hxF
  have hsub : p._pHead + sizeofMemoryBlock - sizeofMemoryBlock = p._pHead := by omega
  have hnl : p._pHead + sizeofMemoryBlock ∉ live := fun hl =>
    pinv_live_not_free hI _ hl (by rw [hsub]; exact hxF)
  refine ⟨xs, hxs, ?_⟩
  exact {
    nBlocks := hI.nBlocks
    nSize := hI.nSize
    mutex := rfl
    free := by
      apply isList_congr _ htail
      intro y hy
      have hne : y ≠ p._pHead := fun e => hxxs (e ▸ hy)
      rw [write_mem_ne _ _ _ _ hne]
    used := by
      apply isDList_congr _ hI.used
      intro y hy
      have hne : y ≠ p._pHead := fun e => hxO (e ▸ hy)
      rw [write_mem_ne _ _ _ _ hne]
      exact ⟨rfl, rfl⟩
    unused := fun e => absurd e hs
    arena := fun _ => hI.arena hs
    freeSlot := fun y hy => by
      have hyF : y ∈ FL := by rw [hxs]; exact List.mem_cons_of_mem _ hy
      have hne : y ≠ p._pHead := fun e => hxxs (e ▸ hy)
      rw [write_mem_ne _ _ _ _ hne]
      exact hI.freeSlot y hyF
    slotFlags := fun _ y hy => by
      rw [write_mem]
      split_ifs with hya
      · subst hya; exact hI.slotFlags hs _ hy
      · exact hI.slotFlags hs y hy
    usedFlags := fun y hy => by
      have hne : y ≠ p._pHead := fun e => hxO (e ▸ hy)
      rw [write_mem_ne _ _ _ _ hne]
      exact hI.usedFlags y hy
    liveNodup := List.nodup_cons.2 ⟨hnl, hI.liveNodup⟩
    liveBlock := fun q hq => by
      rcases List.mem_cons.1 hq with rfl | hq'
      · rw [hsub, write_mem_same]
        exact ⟨Nat.le_add_left _ _, le_refl _, by norm_num,
          Or.inl ⟨(hI.freeSlot _ hxF).1, hxxs⟩⟩
      · obtain ⟨g1, g2, g3, g4⟩ := hI.liveBlock q hq'
        have hne : q - sizeofMemoryBlock ≠ p._pHead :=
          fun e => pinv_live_not_free hI q hq' (e ▸ hxF)
        rw [write_mem_ne _ _ _ _ hne]
        refine ⟨g1, g2, g3, ?_⟩
        rcases g4 with ⟨k1, k2⟩ | k
        · exact Or.inl ⟨k1, fun c => k2 (by rw [hxs]; exact List.mem_cons_of_mem _ c)⟩
        · exact Or.inr k
    slotLive := fun _ y hy hnF => by
      by_cases hyx : y = p._pHead
      · rw [hyx]; exact List.mem_cons_self _ _
      · refine List.mem_cons_of_mem _ (hI.slotLive hs y hy ?_)
        rw [hxs]
        simp only [List.mem_cons, not_or]
        exact ⟨hyx, hnF⟩ }

/-- With the free list empty, an overflow block is obtained and spliced onto
the overflow list. -/
theorem pinv_push {n A : Nat} (this : PoolRef) {p : MemoryAlloc} {h : Heap}
    {live FL OL : List Nat} (hI : PInv n A p h live FL OL) (hs : p._pSelf ≠ 0) (a size : Nat)
    (ha : a ≠ 0) (hsz : sizeofMemoryBlock ≤ size) (hfresh : Fresh h a size) :
    PInv n A { p with _pHeadUsed := a, _mutex := false }
      (pushHeap h a size
        { pAlloc := some this, pPrev := 0, pNext := 0, mId := -1, mRef := 1,
          inPool := false, allocPool := true } p._pHeadUsed)
      ((a + sizeofMemoryBlock) :: live) FL (a :: OL) := by
  have hsub : a + sizeofMemoryBlock - sizeofMemoryBlock = a := by omega
  have hold : ∀ y, Tracked h y → y ≠ a := fun y hy =>
    Ne.symm (fresh_tracked_ne h a size y a hfresh hy (le_refl _)
      (by unfold sizeofMemoryBlock at hsz; omega))
  have haS : a ∉ slots p._pSelf (sizeofMemoryBlock + A) n :=
    fun c => hold a (pinv_tracked_slot hI hs a c) rfl
  have haO : a ∉ OL := fun c => hold a (pinv_tracked_used hI a c) rfl
  have haF : a ∉ FL := fun c => haS (hI.freeSlot a c).1
  have hpush := isDList_push h a size
    { pAlloc := some this, pPrev := 0, pNext := 0, mId := -1, mRef := 1,
      inPool := false, allocPool := true } p._pHeadUsed OL hI.used ha haO rfl rfl
  obtain ⟨_, _, f3, f4, _⟩ := pushHeap_fields h a size
    { pAlloc := some this, pPrev := 0, pNext := 0, mId := -1, mRef := 1,
      inPool := false, allocPool := true } p._pHeadUsed
  have hst := fun y => pushHeap_stable h a size
    { pAlloc := some this, pPrev := 0, pNext := 0, mId := -1, mRef := 1,
      inPool := false, allocPool := true } p._pHeadUsed y
  have hlive := (pushHeap_live h a size
    { pAlloc := some this, pPrev := 0, pNext := 0, mId := -1, mRef := 1,
      inPool := false, allocPool := true } p._pHeadUsed).1
  generalize pushHeap h a size
    { pAlloc := some this, pPrev := 0, pNext := 0, mId := -1, mRef := 1,
      inPool := false, allocPool := true } p._pHeadUsed = H at hpush f3 f4 hst hlive
  have hnl : a + sizeofMemoryBlock ∉ live := by
    intro hl
    rcases (hI.liveBlock _ hl).2.2.2 with ⟨g, _⟩ | g
    · rw [hsub] at g; exact haS g
    · rw [hsub] at g; exact haO g
  exact {
    nBlocks := hI.nBlocks
    nSize := hI.nSize
    mutex := rfl
    free := by
      apply isList_congr _ hI.free
      intro y hy
      have hne : y ≠ a := fun e => haF (e ▸ hy)
      exact (hst y hne).2.1
    used := hpush
    unused := fun e => absurd e hs
    arena := fun _ => by rw [hlive]; exact List.mem_cons_of_mem _ (hI.arena hs)
    freeSlot := fun y hy => by
      have hne : y ≠ a := fun e => haF (e ▸ hy)
      rw [(hst y hne).2.2.2.1]
      exact hI.freeSlot y hy
    slotFlags := fun _ y hy => by
      have hne : y ≠ a := fun e => haS (e ▸ hy)
      rw [(hst y hne).2.2.2.2.1]
      exact hI.slotFlags hs y hy
    usedFlags := fun y hy => by
      rcases List.mem_cons.1 hy with rfl | hy'
      · exact ⟨f4, size, hsz, by rw [hlive]; exact List.mem_cons_self _ _⟩
      · have hne : y ≠ a := fun e => haO (e ▸ hy')
        obtain ⟨g1, sz, g2, g3⟩ := hI.usedFlags y hy'
        rw [(hst y hne).2.2.2.2.1]
        exact ⟨g1, sz, g2, by rw [hlive]; exact List.mem_cons_of_mem _ g3⟩
    liveNodup := List.nodup_cons.2 ⟨hnl, hI.liveNodup⟩
    liveBlock := fun q hq => by
      rcases List.mem_cons.1 hq with rfl | hq'
      · rw [hsub, f3]
        exact ⟨Nat.le_add_left _ _, le_refl _, by norm_num, Or.inr (List.mem_cons_self _ _)⟩
      · obtain ⟨g1, g2, g3, g4⟩ := hI.liveBlock q hq'
        have hne : q - sizeofMemoryBlock ≠ a := by
          rcases g4 with ⟨k, _⟩ | k
          · exact fun e => haS (e ▸ k)
          · exact fun e => haO (e ▸ k)
        rw [(hst _ hne).2.2.2.1]
        refine ⟨g1, g2, g3, ?_⟩
        rcases g4 with k | k
        · exact Or.inl k
        · exact Or.inr (List.mem_cons_of_mem _ k)
    slotLive := fun _ y hy hnF => List.mem_cons_of_mem _ (hI.slotLive hs y hy hnF) }

/-- Every `MemoryAlloc::allocMemory` call that returns keeps the invariant of
the pool. -/
theorem pinv_alloc_step {n A : Nat} (hn : 1 ≤ n) (hfit : n * (sizeofMemoryBlock + A) < SIZE_MOD)
    (this : PoolRef) {p p' : MemoryAlloc} {h h' : Heap} {live FL OL : List Nat}
    (hI : PInv n A p h live FL OL) (s a pMem : Nat) (hs : sizeofMemoryBlock + s < SIZE_MOD)
    (e : MemoryAlloc.allocMemory this p h s a = .ok (pMem, p', h'))
    (hfresh : ∀ size, h'.live = (a, size) :: h.live → Fresh h a size) :
    ∃ FL' OL', PInv n A p' h' (pMem :: live) FL' OL' := by
  have hsz : sizeofMemoryBlock ≤ (sizeofMemoryBlock + s) % SIZE_MOD := by
    rw [Nat.mod_eq_of_lt hs]; omega
  obtain ⟨_, hcase⟩ := alloc_inv this p p' h h' s a pMem e
  rcases hcase with ⟨hs0, ha, hp, hp', hh'⟩ | ⟨hself, hhd, hp, hp', hh'⟩ |
    ⟨hself, _, ha, hp, hp', hh'⟩
  · subst hp hp' hh'
    obtain ⟨xs, _, hI'⟩ := pinv_first hn hfit this hI a hs0 ha
    exact ⟨xs, OL, hI'⟩
  · subst hp hp' hh'
    obtain ⟨xs, _, hI'⟩ := pinv_pop hI hself hhd
    exact ⟨xs, OL, hI'⟩
  · subst hp hp' hh'
    have hf := hfresh _ (pushHeap_live _ _ _ _ _).1
    exact ⟨FL, _, pinv_push this hI hself a _ ha hsz hf⟩

theorem pinv_live_sub_ne {n A : Nat} {p : MemoryAlloc} {h : Heap} {live FL OL : List Nat}
    (hI : PInv n A p h live FL OL) (q q' : Nat) (hq : q ∈ live) (hq' : q' ∈ live)
    (hne : q ≠ q') : q - sizeofMemoryBlock ≠ q' - sizeofMemoryBlock :=
  sub_ne_of_ne q q' (hI.liveBlock q hq).1 (hI.liveBlock q' hq').1 hne

/-- Storing a count between 1 and `INT_MAX` in the header of a live pointer. -/
theorem pinv_write_mRef {n A : Nat} {p : MemoryAlloc} {h : Heap} {live FL OL : List Nat}
    (hI : PInv n A p h live FL OL) (q : Nat) (hq : q ∈ live) (v : Int) (hv1 : 1 ≤ v)
    (hv2 : v < 2 ^ 31) :
    PInv n A p (h.write (q - sizeofMemoryBlock) { h.mem (q - sizeofMemoryBlock) with mRef := v })
      live FL OL := by
  have hfl : ∀ y,
      ((h.write (q - sizeofMemoryBlock) { h.mem (q - sizeofMemoryBlock) with mRef := v }).mem y).pNext
        = (h.mem y).pNext ∧
      ((h.write (q - sizeofMemoryBlock) { h.mem (q - sizeofMemoryBlock) with mRef := v }).mem y).pPrev
        = (h.mem y).pPrev ∧
      ((h.write (q - sizeofMemoryBlock) { h.mem (q - sizeofMemoryBlock) with mRef := v }).mem y).inPool
        = (h.mem y).inPool := by
    intro y
    rw [write_mem]
    split_ifs with hy
    · subst hy; exact ⟨rfl, rfl, rfl⟩
    · exact ⟨rfl, rfl, rfl⟩
  exact {
    nBlocks := hI.nBlocks
    nSize := hI.nSize
    mutex := hI.mutex
    free := isList_congr (fun y _ => (hfl y).1) hI.free
    used := isDList_congr (fun y _ => ⟨(hfl y).1, (hfl y).2.1⟩) hI.used
    unused := hI.unused
    arena := hI.arena
    freeSlot := fun y hy => by
      have hne : y ≠ q - sizeofMemoryBlock := fun e => pinv_live_not_free hI q hq (e ▸ hy)
      rw [write_mem_ne _ _ _ _ hne]
      exact hI.freeSlot y hy
    slotFlags := fun hs y hy => by rw [(hfl y).2.2]; exact hI.slotFlags hs y hy
    usedFlags := fun y hy => by rw [(hfl y).2.2]; exact hI.usedFlags y hy
    liveNodup := hI.liveNodup
    liveBlock := fun q' hq' => by
      obtain ⟨g1, g2, g3, g4⟩ := hI.liveBlock q' hq'
      by_cases hqq : q' = q
      · subst hqq
        rw [write_mem_same]
        exact ⟨g1, hv1, hv2, g4⟩
      · rw [write_mem_ne _ _ _ _ (pinv_live_sub_ne hI q' q hq' hq hqq)]
        exact ⟨g1, g2, g3, g4⟩
    slotLive := hI.slotLive }

/-- An arena block whose count reached zero is spliced back onto the free
list. -/
theorem pinv_recycle {n A : Nat} {p : MemoryAlloc} {h : Heap} {live FL OL : List Nat}
    (hI : PInv n A p h live FL OL) (q : Nat) (hq : q ∈ live)
    (hslot : q - sizeofMemoryBlock ∈ slots p._pSelf (sizeofMemoryBlock + A) n)
    (hnF : q - sizeofMemoryBlock ∉ FL) :
    PInv n A { p with _pHead := q - sizeofMemoryBlock, _mutex := false }
      (recycleHeap h (q - sizeofMemoryBlock) p._pHead) (live.erase q)
      ((q - sizeofMemoryBlock) :: FL) OL := by
  have hs := pinv_self_ne hI q hq
  have hq40 := (hI.liveBlock q hq).1
  have hb0 : q - sizeofMemoryBlock ≠ 0 := slots_ne_zero _ _ _ _ hslot hs
  have hxO : q - sizeofMemoryBlock ∉ OL := pinv_slot_not_used hI hs _ hslot
  -- the old head of the free list is on that list or null
  have hhead : ∀ y, y ≠ 0 → y ∉ FL → y ≠ p._pHead := by
    intro y hy0 hyF e
    have := hI.free
    rw [← e] at this
    obtain ⟨xs, hx⟩ := isList_head_ne this hy0
    exact hyF (by rw [hx]; exact List.mem_cons_self _ _)
  have h0O : (0 : Nat) ∉ OL := isList_not_mem_zero (isDList_isList hI.used)
  have hst := fun y => recycleHeap_stable h (q - sizeofMemoryBlock) p._pHead y
  have hoth := fun y => recycleHeap_other h (q - sizeofMemoryBlock) p._pHead y
  obtain ⟨_, _, f3, f4, _⟩ := recycleHeap_fields h (q - sizeofMemoryBlock) p._pHead
  have hlive := (recycleHeap_live h (q - sizeofMemoryBlock) p._pHead).1
  have hrec := isList_recycle h (q - sizeofMemoryBlock) p._pHead FL hI.free hb0 hnF
  generalize recycleHeap h (q - sizeofMemoryBlock) p._pHead = H at hst hoth f3 f4 hlive hrec
  have hin : ∀ y, y + sizeofMemoryBlock ∈ live → y ≠ q - sizeofMemoryBlock →
      y + sizeofMemoryBlock ∈ live.erase q :=
    fun y hy hne => (List.mem_erase_of_ne (add_sizeof_ne q y hq40 hne)).2 hy
  exact {
    nBlocks := hI.nBlocks
    nSize := hI.nSize
    mutex := rfl
    free := hrec
    used := by
      apply isDList_congr _ hI.used
      intro y hy
      have hy0 : y ≠ 0 := fun e => h0O (e ▸ hy)
      have hyx : y ≠ q - sizeofMemoryBlock := fun e => hxO (e ▸ hy)
      have hyF : y ∉ FL := fun c => pinv_free_not_used hI y c hy
      rw [hoth y hyx (hhead y hy0 hyF)]
      exact ⟨rfl, rfl⟩
    unused := fun e => absurd e hs
    arena := fun _ => by rw [hlive]; exact hI.arena hs
    freeSlot := fun y hy => by
      rcases List.mem_cons.1 hy with rfl | hy'
      · exact ⟨hslot, f3⟩
      · have hne : y ≠ q - sizeofMemoryBlock := fun e => hnF (e ▸ hy')
        rw [(hst y hne).2.2.2.1]
        exact hI.freeSlot y hy'
    slotFlags := fun _ y hy => by
      by_cases hyx : y = q - sizeofMemoryBlock
      · rw [hyx, f4]; exact hI.slotFlags hs _ hslot
      · rw [(hst y hyx).2.2.2.2.1]; exact hI.slotFlags hs y hy
    usedFlags := fun y hy => by
      have hyx : y ≠ q - sizeofMemoryBlock := fun e => hxO (e ▸ hy)
      rw [(hst y hyx).2.2.2.2.1, hlive]
      exact hI.usedFlags y hy
    liveNodup := hI.liveNodup.erase _
    liveBlock := fun q' hq' => by
      obtain ⟨hqq, hq''⟩ := (List.Nodup.mem_erase_iff hI.liveNodup).1 hq'
      obtain ⟨g1, g2, g3, g4⟩ := hI.liveBlock q' hq''
      have hne := pinv_live_sub_ne hI q' q hq'' hq hqq
      rw [(hst _ hne).2.2.2.1]
      refine ⟨g1, g2, g3, ?_⟩
      rcases g4 with ⟨k1, k2⟩ | k
      · refine Or.inl ⟨k1, ?_⟩
        simp only [List.mem_cons, not_or]
        exact ⟨hne, k2⟩
      · exact Or.inr k
    slotLive := fun _ y hy hnF' => by
      simp only [List.mem_cons, not_or] at hnF'
      exact hin y (hI.slotLive hs y hy hnF'.2) hnF'.1 }

/-- An overflow block whose count reached zero is unspliced and freed. -/
theorem pinv_release {n A : Nat} (hn : 1 ≤ n) {p : MemoryAlloc} {h : Heap} {live FL OL : List Nat}
    (hI : PInv n A p h live FL OL) (q : Nat) (hq : q ∈ live)
    (hb : q - sizeofMemoryBlock ∈ OL) (H : Heap) (hd : Nat)
    (hlist : IsDList H.mem 0 hd (OL.erase (q - sizeofMemoryBlock)))
    (hframe : ∀ y, y ∉ OL → H.mem y = h.mem y)
    (hflags : ∀ y, y ≠ q - sizeofMemoryBlock →
      (H.mem y).pAlloc = (h.mem y).pAlloc ∧ (H.mem y).inPool = (h.mem y).inPool ∧
      (H.mem y).allocPool = (h.mem y).allocPool)
    (href : ∀ y, y ≠ q - sizeofMemoryBlock → (H.mem y).mRef = (h.mem y).mRef)
    (hlive : H.live = h.live.filter (fun reg => reg.1 ≠ q - sizeofMemoryBlock)) :
    PInv n A { p with _pHeadUsed := hd, _mutex := false } H (live.erase q) FL
      (OL.erase (q - sizeofMemoryBlock)) := by
  have hs := pinv_self_ne hI q hq
  have hq40 := (hI.liveBlock q hq).1
  have hnd : OL.Nodup := isList_nodup (isDList_isList hI.used)
  have hxS : q - sizeofMemoryBlock ∉ slots p._pSelf (sizeofMemoryBlock + A) n :=
    fun c => pinv_slot_not_used hI hs _ c hb
  have hin : ∀ y, y + sizeofMemoryBlock ∈ live → y ≠ q - sizeofMemoryBlock →
      y + sizeofMemoryBlock ∈ live.erase q :=
    fun y hy hne => (List.mem_erase_of_ne (add_sizeof_ne q y hq40 hne)).2 hy
  have hkeep : ∀ reg, reg ∈ h.live → reg.1 ≠ q - sizeofMemoryBlock → reg ∈ H.live := by
    intro reg hr hne
    rw [hlive]
    exact mem_filter_base h _ reg hr hne
  exact {
    nBlocks := hI.nBlocks
    nSize := hI.nSize
    mutex := rfl
    free := by
      apply isList_congr _ hI.free
      intro y hy
      rw [hframe y (pinv_free_not_used hI y hy)]
    used := hlist
    unused := fun e => absurd e hs
    arena := fun _ => by
      refine hkeep _ (hI.arena hs) ?_
      intro e
      have e' : p._pSelf = q - sizeofMemoryBlock := e
      have hself : p._pSelf ∈ slots p._pSelf (sizeofMemoryBlock + A) n := slots_head _ _ _ hn
      rw [e'] at hself
      rw [e'] at hxS
      exact hxS hself
    freeSlot := fun y hy => by
      rw [hframe y (pinv_free_not_used hI y hy)]
      exact hI.freeSlot y hy
    slotFlags := fun _ y hy => by
      have hne : y ≠ q - sizeofMemoryBlock := fun e => hxS (e ▸ hy)
      rw [(hflags y hne).2.1]
      exact hI.slotFlags hs y hy
    usedFlags := fun y hy => by
      obtain ⟨hne, hy'⟩ := (List.Nodup.mem_erase_iff hnd).1 hy
      obtain ⟨g1, sz, g2, g3⟩ := hI.usedFlags y hy'
      rw [(hflags y hne).2.1]
      exact ⟨g1, sz, g2, hkeep _ g3 hne⟩
    liveNodup := hI.liveNodup.erase _
    liveBlock := fun q' hq' => by
      obtain ⟨hqq, hq''⟩ := (List.Nodup.mem_erase_iff hI.liveNodup).1 hq'
      obtain ⟨g1, g2, g3, g4⟩ := hI.liveBlock q' hq''
      have hne := pinv_live_sub_ne hI q' q hq'' hq hqq
      rw [href _ hne]
      refine ⟨g1, g2, g3, ?_⟩
      rcases g4 with k | k
      · exact Or.inl k
      · exact Or.inr ((List.Nodup.mem_erase_iff hnd).2 ⟨hne, k⟩)
    slotLive := fun _ y hy hnF' => by
      refine hin y (hI.slotLive hs y hy hnF') ?_
      intro e
      exact hxS (e ▸ hy) }

/-- Every `MemoryAlloc::freeMemory` call on a live pointer that returns keeps
the invariant of the pool; the pointer leaves the live ones exactly when its
count reached zero. -/
theorem pinv_free_step {n A : Nat} (hn : 1 ≤ n) {p p' : MemoryAlloc} {h h' : Heap}
    {live FL OL : List Nat} (hI : PInv n A p h live FL OL) (q : Nat) (hq : q ∈ live)
    (e : MemoryAlloc.freeMemory p h q = .ok (p', h')) :
    ∃ FL' OL', PInv n A p' h'
      (if (h'.mem (q - sizeofMemoryBlock)).mRef = 0 then live.erase q else live) FL' OL' := by
  obtain ⟨hq40, hr1, hr2, hcase⟩ := hI.liveBlock q hq
  have hs := pinv_self_ne hI q hq
  have hpred := toInt32_pred _ hr1 hr2
  by_cases hz : toInt32 ((h.mem (q - sizeofMemoryBlock)).mRef - 1) = 0
  · cases hin : (h.mem (q - sizeofMemoryBlock)).inPool with
    | true =>
      rw [free_recycle p h q hz hI.mutex hin] at e
      injection e with e
      injection e with e1 e2
      subst e1 e2
      rw [if_pos (recycleHeap_fields _ _ _).2.2.1]
      rcases hcase with ⟨k1, k2⟩ | k
      · exact ⟨_, OL, pinv_recycle hI q hq k1 k2⟩
      · rw [(hI.usedFlags _ k).1] at hin; cases hin
    | false =>
      rcases hcase with ⟨k1, _⟩ | k
      · rw [hI.slotFlags hs _ k1] at hin; cases hin
      · obtain ⟨u1, u2, u3, u4, u5, u6, _⟩ :=
          unsplice_release h p._pHeadUsed (q - sizeofMemoryBlock) OL hI.used k
        have u7 := unsplice_release_mRef h p._pHeadUsed (q - sizeofMemoryBlock) OL hI.used k
        rw [free_unsplice p h q hz hI.mutex hin, u1] at e
        injection e with e
        injection e with e1 e2
        subst e1 e2
        rw [if_pos u5]
        exact ⟨FL, _, pinv_release hn hI q hq k _ _ u2 u3 u4 u7 u6⟩
  · rw [free_keep p h q hz] at e
    injection e with e
    injection e with e1 e2
    subst e1 e2
    rw [write_mem_same, if_neg hz]
    refine ⟨FL, OL, pinv_write_mRef hI q hq _ ?_ ?_⟩
    · rw [hpred] at hz ⊢; omega
    · rw [hpred]; omega

/-- The invariant holds in every state of a run of a pool. -/
theorem poolRun_inv {this : PoolRef} {nSize nBlocks : Nat} {p : MemoryAlloc} {h : Heap}
    {live : List Nat} (hn : 1 ≤ nBlocks)
    (hfit : nBlocks * (sizeofMemoryBlock + (MemoryAllocator.new nSize nBlocks)._nSize) < SIZE_MOD)
    (hR : PoolRun this nSize nBlocks p h live) :
    ∃ FL OL, PInv nBlocks (MemoryAllocator.new nSize nBlocks)._nSize p h live FL OL := by
  induction hR with
  | init h => exact ⟨_, _, pinv_init nSize nBlocks h⟩
  | alloc s a pMem _ hs e hfresh ih =>
    obtain ⟨FL, OL, hI⟩ := ih
    exact pinv_alloc_step hn hfit this hI s a pMem hs e hfresh
  | addRef pMem _ hp hlt ih =>
    obtain ⟨FL, OL, hI⟩ := ih
    obtain ⟨_, h1, _, _⟩ := hI.liveBlock pMem hp
    have := toInt32_succ _ h1 hlt
    exact ⟨FL, OL, pinv_write_mRef hI pMem hp _ (by rw [this]; omega) (by rw [this]; omega)⟩
  | free pMem _ hp e ih =>
    obtain ⟨FL, OL, hI⟩ := ih
    exact pinv_free_step hn hI pMem hp e

/-- Block conservation in a pool of any block count and size whose arena fits
`size_t`. -/
theorem pool_conservation {this : PoolRef} {nSize nBlocks : Nat} {p : MemoryAlloc}
    {h : Heap} {live : List Nat} (hn : 1 ≤ nBlocks)
    (hfit : nBlocks * (sizeofMemoryBlock + (MemoryAllocator.new nSize nBlocks)._nSize) < SIZE_MOD)
    (hR : PoolRun this nSize nBlocks p h live) (hs : p._pSelf ≠ 0) :
    ∃ FL : List Nat, IsList h.mem p._pHead FL ∧ FL.Nodup ∧
      (∀ x ∈ FL, x ∈ slots p._pSelf p.realSize p._nBlocks) ∧
      (∀ x ∈ slots p._pSelf p.realSize p._nBlocks,
        ((h.mem x).inPool = true ∧ 1 ≤ (h.mem x).mRef) ↔ x + sizeofMemoryBlock ∈ live) ∧
      FL.length + liveArenaBlocks p h = p._nBlocks ∧
      (liveArenaBlocks p h = 0 → FL.Perm (slots p._pSelf p.realSize p._nBlocks)) ∧
      (live = [] → liveArenaBlocks p h = 0) ∧
      p._nBlocks = nBlocks := by
  obtain ⟨FL, OL, hI⟩ := poolRun_inv hn hfit hR
  have hfitA : sizeofMemoryBlock + (MemoryAllocator.new nSize nBlocks)._nSize < SIZE_MOD :=
    lt_of_le_of_lt (Nat.le_mul_of_pos_left _ hn) hfit
  have hrs := pinv_realSize hI hfitA
  have hN := hI.nBlocks
  generalize (MemoryAllocator.new nSize nBlocks)._nSize = A at hI hrs
  have hpos : 0 < sizeofMemoryBlock + A := by unfold sizeofMemoryBlock; omega
  have hSnd := slots_nodup (sizeofMemoryBlock + A) hpos nBlocks p._pSelf
  have hFnd : FL.Nodup := isList_nodup hI.free
  have hsub : ∀ x ∈ FL, x ∈ slots p._pSelf (sizeofMemoryBlock + A) nBlocks :=
    fun x hx => (hI.freeSlot x hx).1
  have hsubx : ∀ x, x + sizeofMemoryBlock - sizeofMemoryBlock = x := fun x => by omega
  have hiff : ∀ x ∈ slots p._pSelf (sizeofMemoryBlock + A) nBlocks,
      (x + sizeofMemoryBlock ∈ live ↔ x ∉ FL) ∧
      (((h.mem x).inPool = true ∧ 1 ≤ (h.mem x).mRef) ↔ x ∉ FL) := by
    intro x hx
    have hin := hI.slotFlags hs x hx
    constructor
    · constructor
      · intro hl hF
        exact pinv_live_not_free hI _ hl (by rw [hsubx]; exact hF)
      · exact hI.slotLive hs x hx
    · constructor
      · rintro ⟨_, h1⟩ hF
        rw [(hI.freeSlot x hF).2] at h1
        omega
      · intro hF
        have := (hI.liveBlock _ (hI.slotLive hs x hx hF)).2.1
        rw [hsubx] at this
        exact ⟨hin, this⟩
  have hfilter : (slots p._pSelf (sizeofMemoryBlock + A) nBlocks).filter
        (fun x => (h.mem x).inPool && decide (1 ≤ (h.mem x).mRef)) =
      (slots p._pSelf (sizeofMemoryBlock + A) nBlocks).filter (fun x => decide (x ∉ FL)) := by
    apply List.filter_congr
    intro x hx
    have := (hiff x hx).2
    by_cases hF : x ∈ FL
    · have hn' : ¬ ((h.mem x).inPool = true ∧ 1 ≤ (h.mem x).mRef) := fun c => this.1 c hF
      simp only [hF, not_true_eq_false, decide_False]
      cases hb : (h.mem x).inPool with
      | false => rfl
      | true =>
        have : ¬ 1 ≤ (h.mem x).mRef := fun c => hn' ⟨hb, c⟩
        simp [this]
    · obtain ⟨g1, g2⟩ := this.2 hF
      simp [hF, g1, g2]
  have hcount : FL.length + liveArenaBlocks p h = nBlocks := by
    unfold liveArenaBlocks
    rw [hrs, hN, hfilter, length_add_filter_not_mem _ _ hSnd hFnd hsub, slots_length]
  rw [hrs, hN]
  refine ⟨FL, hI.free, hFnd, hsub, ?_, hcount, ?_, ?_, rfl⟩
  · intro x hx
    rw [(hiff x hx).1, (hiff x hx).2]
  · intro h0
    apply (List.subperm_of_subset hFnd hsub).perm_of_length_le
    rw [slots_length]
    omega
  · rintro rfl
    unfold liveArenaBlocks
    rw [hrs, hN, hfilter, List.length_eq_zero, List.filter_eq_nil_iff]
    intro x hx
    have := ((hiff x hx).1).2
    simp only [decide_eq_true_eq, not_not]
    by_contra c
    exact absurd (this c) (List.not_mem_nil _)

theorem write_self (h : Heap) (x : Nat) : h.write x (h.mem x) = h := by
  cases h with
  | mk mem live freed =>
    unfold Heap.write
    congr 1
    funext q
    by_cases hq : q = x
    · subst hq; simp
    · simp [hq]

/-- Repeated `addRef` calls below `INT_MAX` add up. -/
theorem addRef_iterate (q : Nat) : ∀ (k : Nat) (h : Heap),
    -2 ^ 31 ≤ (h.mem (q - sizeofMemoryBlock)).mRef →
    (h.mem (q - sizeofMemoryBlock)).mRef + k < 2 ^ 31 →
    (fun g => MemoryMgr.addRef g q)^[k] h =
      h.write (q - sizeofMemoryBlock)
        { h.mem (q - sizeofMemoryBlock) with mRef := (h.mem (q - sizeofMemoryBlock)).mRef + k } := by
  intro k
  induction k with
  | zero =>
    intro h _ _
    simp only [Function.iterate_zero, id_eq, Nat.cast_zero, add_zero]
    exact (write_self h _).symm
  | succ k ih =>
    intro h h1 h2
    have hstep : MemoryMgr.addRef h q =
        h.write (q - sizeofMemoryBlock)
          { h.mem (q - sizeofMemoryBlock) with
            mRef := (h.mem (q - sizeofMemoryBlock)).mRef + 1 } := by
      have hr : toInt32 ((h.mem (q - sizeofMemoryBlock)).mRef + 1) =
          (h.mem (q - sizeofMemoryBlock)).mRef + 1 :=
        toInt32_of_range _ (by omega) (by push_cast at h2; omega)
      unfold MemoryMgr.addRef
      dsimp only
      rw [hr]
    rw [Function.iterate_succ_apply, hstep, ih _ (by rw [write_mem_same]; show _ ≤ _ + 1; omega)
      (by rw [write_mem_same]; show _ + 1 + _ < _; push_cast at h2; omega)]
    rw [write_mem_same, write_write_same]
    have e : (h.mem (q - sizeofMemoryBlock)).mRef + 1 + (k : Int) =
        (h.mem (q - sizeofMemoryBlock)).mRef + ((k + 1 : Nat) : Int) := by
      push_cast
      omega
    dsimp only
    rw [e]

/-- Repeated `addRef` calls on a live pointer stay within the runs of a pool as
long as the count does not pass `INT_MAX`. -/
theorem poolRun_addRef_iterate {this : PoolRef} {nSize nBlocks : Nat} {p : MemoryAlloc}
    {live : List Nat} (q : Nat) (hq : q ∈ live) : ∀ (k : Nat) (h : Heap),
    PoolRun this nSize nBlocks p h live →
    -2 ^ 31 ≤ (h.mem (q - sizeofMemoryBlock)).mRef →
    (h.mem (q - sizeofMemoryBlock)).mRef + k < 2 ^ 31 →
    PoolRun this nSize nBlocks p ((fun g => MemoryMgr.addRef g q)^[k] h) live := by
  intro k
  induction k with
  | zero => intro h hR _ _; exact hR
  | succ k ih =>
    intro h hR h1 h2
    rw [Function.iterate_succ_apply]
    have hr : toInt32 ((h.mem (q - sizeofMemoryBlock)).mRef + 1) =
        (h.mem (q - sizeofMemoryBlock)).mRef + 1 :=
      toInt32_of_range _ (by omega) (by push_cast at h2; omega)
    have hm : ((MemoryMgr.addRef h q).mem (q - sizeofMemoryBlock)).mRef =
        (h.mem (q - sizeofMemoryBlock)).mRef + 1 := by
      unfold MemoryMgr.addRef
      dsimp only
      rw [write_mem_same, hr]
    exact ih _ (PoolRun.addRef q hR hq (by push_cast at h2; omega)) (by rw [hm]; omega)
      (by rw [hm]; push_cast at h2; omega)

/-- C12 (block conservation), amended: take a pool with block count `n ≥ 1`
whose arena size `n * (sizeof(MemoryBlock) + A)` fits `size_t`, alone on a heap
or as one of the pools of the manager.  In every state reached from the
constructed pool by `allocMemory` calls whose block size fits `size_t`, and by
`addRef` and `freeMemory` calls on pointers that were handed out and not yet
fully released, no `addRef` taking a count past `INT_MAX`, once the arena is
allocated: the free list is a duplicate-free list of arena slots, the slots
with `inPool = true` and `mRef ≥ 1` are exactly those whose payload pointer is
handed out, and the length of the free list plus the number of these slots is
the block count; when no arena block is handed out (in particular when
every allocation has been fully released) the free list is a permutation of the
`n` arena slots. -/
theorem block_conservation :
    (∀ (this : PoolRef) (nSize nBlocks : Nat) (p : MemoryAlloc) (h : Heap) (live : List Nat),
      1 ≤ nBlocks →
      nBlocks * (sizeofMemoryBlock + (MemoryAllocator.new nSize nBlocks)._nSize) < SIZE_MOD →
      PoolRun this nSize nBlocks p h live → p._pSelf ≠ 0 →
      ∃ FL : List Nat, IsList h.mem p._pHead FL ∧ FL.Nodup ∧
        (∀ x ∈ FL, x ∈ slots p._pSelf p.realSize p._nBlocks) ∧
        (∀ x ∈ slots p._pSelf p.realSize p._nBlocks,
          ((h.mem x).inPool = true ∧ 1 ≤ (h.mem x).mRef) ↔ x + sizeofMemoryBlock ∈ live) ∧
        FL.length + liveArenaBlocks p h = p._nBlocks ∧
        (liveArenaBlocks p h = 0 → FL.Perm (slots p._pSelf p.realSize p._nBlocks)) ∧
        (live = [] → liveArenaBlocks p h = 0) ∧
        p._nBlocks = nBlocks) ∧
    (∀ (m : MemoryMgr) (h : Heap) (live : List Nat) (r : PoolRef),
      Run m h live → (m.pool r)._pSelf ≠ 0 →
      ∃ FL : List Nat, IsList h.mem (m.pool r)._pHead FL ∧ FL.Nodup ∧
        (∀ x ∈ FL, x ∈ slots (m.pool r)._pSelf (m.pool r).realSize (m.pool r)._nBlocks) ∧
        (∀ x ∈ slots (m.pool r)._pSelf (m.pool r).realSize (m.pool r)._nBlocks,
          ((h.mem x).inPool = true ∧ 1 ≤ (h.mem x).mRef) ↔ x + sizeofMemoryBlock ∈ live) ∧
        FL.length + liveArenaBlocks (m.pool r) h = (m.pool r)._nBlocks ∧
        (liveArenaBlocks (m.pool r) h = 0 →
          FL.Perm (slots (m.pool r)._pSelf (m.pool r).realSize (m.pool r)._nBlocks)) ∧
        (live = [] → liveArenaBlocks (m.pool r) h = 0)) :=
  ⟨fun _ _ _ _ _ _ hn hfit hR hs => pool_conservation hn hfit hR hs,
    fun _ _ _ r hR hs => mgr_conservation hR r hs⟩

/-- Witness of C12: a pool of four 64-byte blocks after one `allocMemory`, and
the 128-byte pool of the manager after `allocMemory(100)` on a freshly
constructed manager. -/
theorem block_conservation_witness :
    (∃ p h, PoolRun PoolRef.mem_64 64 4 p h [4136] ∧ p._pSelf ≠ 0 ∧
      ∃ FL : List Nat, IsList h.mem p._pHead FL ∧ FL.length + liveArenaBlocks p h = 4) ∧
    (∃ m h, Run m h [4096 + sizeofMemoryBlock] ∧ (m.pool PoolRef.mem_128)._pSelf ≠ 0 ∧
      ∃ FL : List Nat, IsList h.mem (m.pool PoolRef.mem_128)._pHead FL ∧
        FL.length + liveArenaBlocks (m.pool PoolRef.mem_128) h =
          (m.pool PoolRef.mem_128)._nBlocks) := by
  constructor
  · have e1 := alloc_uninit PoolRef.mem_64 (MemoryAllocator.new 64 4) Heap.empty 64 4096
      (by decide) (by decide) (by decide)
    have hR : PoolRun PoolRef.mem_64 64 4 _ _ [4136] :=
      PoolRun.alloc 64 4096 4136 (PoolRun.init Heap.empty) (by decide) e1
        (fun size _ r hr => by simp [Heap.empty] at hr)
    obtain ⟨FL, g1, _, _, _, g2, _, _, g3⟩ :=
      block_conservation.1 PoolRef.mem_64 64 4 _ _ _ (by decide) (by decide) hR (by decide)
    exact ⟨_, _, hR, by decide, FL, g1, by rw [g2]; exact g3⟩
  · have e := mgr_alloc_pool MemoryMgr.new Heap.empty 100 4096 PoolRef.mem_128 (by decide)
      (allocMap_new 100 (by decide))
    rw [alloc_uninit PoolRef.mem_128 (MemoryMgr.new.pool PoolRef.mem_128) Heap.empty 100 4096 rfl
      rfl (by decide)] at e
    have hR : Run _ _ [4096 + sizeofMemoryBlock] :=
      Run.alloc 100 4096 _ (Run.init Heap.empty rfl) (by decide) e
        (fun size _ r hr => by simp [Heap.empty] at hr)
    have hs : ((MemoryMgr.new.setPool PoolRef.mem_128
        { MemoryMgr.new.pool PoolRef.mem_128 with
          _pSelf := 4096,
          _pHead := ((initHeap PoolRef.mem_128 (MemoryMgr.new.pool PoolRef.mem_128) Heap.empty
            4096).mem 4096).pNext,
          _mutex := false }).pool PoolRef.mem_128)._pSelf ≠ 0 := by
      rw [pool_setPool_same]; decide
    obtain ⟨FL, g1, _, _, _, g2, _⟩ := block_conservation.2 _ _ _ PoolRef.mem_128 hR hs
    exact ⟨_, _, hR, hs, FL, g1, g2⟩

/-- C12 as stated fails in two ways.  First part: in a pool of four 64-byte
blocks, after one `allocMemory` and `2 ^ 31 - 2` calls of `addRef` on the
pointer it returned, the pointer is live with count `INT_MAX`; one more
`addRef` on it wraps the count to a negative value, and the free list of three
blocks plus no live arena block is not the block count.  Second part: a pool
constructed with block count zero has, after one `allocMemory` and the
`freeMemory` of its pointer, a free list of one block. -/
theorem block_conservation_fails_outside_range :
    (∃ (p : MemoryAlloc) (h : Heap),
      PoolRun PoolRef.mem_64 64 4 p h [4136] ∧ p._pSelf ≠ 0 ∧ p._nBlocks = 4 ∧
      (h.mem (4136 - sizeofMemoryBlock)).inPool = true ∧
      (h.mem (4136 - sizeofMemoryBlock)).mRef = 2 ^ 31 - 1 ∧
      ((MemoryMgr.addRef h 4136).mem (4136 - sizeofMemoryBlock)).mRef = -2 ^ 31 ∧
      IsList (MemoryMgr.addRef h 4136).mem p._pHead [4200, 4304, 4408] ∧
      liveArenaBlocks p (MemoryMgr.addRef h 4136) = 0 ∧
      [4200, 4304, 4408].length + liveArenaBlocks p (MemoryMgr.addRef h 4136) ≠ p._nBlocks) ∧
    (∃ (p1 p2 : MemoryAlloc) (h1 h2 : Heap),
      MemoryAlloc.allocMemory PoolRef.mem_64 (MemoryAllocator.new 64 0) Heap.empty 64 4096 =
        .ok (4136, p1, h1) ∧
      (h1.mem (4136 - sizeofMemoryBlock)).inPool = true ∧
      (h1.mem (4136 - sizeofMemoryBlock)).mRef = 1 ∧
      MemoryAlloc.freeMemory p1 h1 4136 = .ok (p2, h2) ∧ p2._pSelf ≠ 0 ∧ p2._nBlocks = 0 ∧
      IsList h2.mem p2._pHead [4096] ∧ liveArenaBlocks p2 h2 = 0 ∧
      [4096].length + liveArenaBlocks p2 h2 ≠ p2._nBlocks) := by
  have e1 := alloc_uninit PoolRef.mem_64 (MemoryAllocator.new 64 4) Heap.empty 64 4096
    (by decide) (by decide) (by decide)
  have hR1 : PoolRun PoolRef.mem_64 64 4 _ _ [4136] :=
    PoolRun.alloc 64 4096 4136 (PoolRun.init Heap.empty) (by decide) e1
      (fun size _ r hr => by simp [Heap.empty] at hr)
  have hR2 := poolRun_addRef_iterate 4136 (List.mem_singleton.2 rfl) (2 ^ 31 - 2) _ hR1
    (by decide) (by decide)
  rw [addRef_iterate 4136 (2 ^ 31 - 2) _ (by decide) (by decide)] at hR2
  have e2 := alloc_uninit PoolRef.mem_64 (MemoryAllocator.new 64 0) Heap.empty 64 4096
    (by decide) (by decide) (by decide)
  refine ⟨⟨_, _, hR2, by decide, by decide, by decide, by decide, by decide, by decide,
    by decide, by decide⟩, ⟨_, _, _, _, e2, by decide, by decide,
    free_recycle _ _ 4136 (by decide) (by decide) (by decide), by decide, by decide, by decide,
    by decide, by decide⟩⟩

end MemoryPool
